import Mathlib

/-!
LZW codec of `lzwz2.c` (hash dictionary, variable code width).

A shallow embedding of the hash codec `lzwz2.c` and of the pieces of its
sibling programs (`lzwg.c`, `lzwgd.c`, `lzwhd.c`) that the properties below
talk about.

* C `int` values are `Nat`; every value that occurs stays far below `2^31`
  for dictionary sizes 12..28, so no wrap-around is involved.
* C arrays are functions `Nat → Nat`; the contents that `malloc` leaves in
  `prefix` and `character` are arbitrary and are a parameter of the model.
* A loop that may fail to terminate carries a fuel argument and returns
  `none` when the fuel runs out; undefined behaviour (an index outside the
  table, a write past the end of the decoder stack) is `none` as well.
* The loops also return a trace of events (codes written and read, entries
  stored, resets), which is what the properties about the two sides being
  in step are stated on.
-/

namespace LZW

/-! ## Constants and configuration -/

/-- `#define EOF_LZW_CODE 256`. -/
def EOF_LZW_CODE : Nat := 256

/-- `#define LZW_NULL 256`: marks an open hash slot. -/
def LZW_NULL : Nat := 256

/-- `#define START_LZW_CODE 257`. -/
def START_LZW_CODE : Nat := 257

/-- The globals that `main` sets once, before the codec loop runs. -/
structure Config where
  code_max_bits : Nat
  reset_dict : Nat
  hash_TABLE_SIZE : Nat
  hash_SHIFT : Nat
  code_MAX : Nat

/-- The `switch ( code_max_bits )` of `main` in lzwz2.c; `default: break`
leaves the global at its initial value 0. -/
def select_hash_TABLE_SIZE (code_max_bits : Nat) : Nat :=
  match code_max_bits with
  | 12 => 5021
  | 13 => 9859
  | 14 => 18041
  | 15 => 35023
  | 16 => 69001
  | 17 => 134989
  | 18 => 279991
  | 19 => 539881
  | 20 => 1249943
  | 21 => 2157151
  | 22 => 4225303
  | 23 => 8500249
  | 24 => 16795123
  | 25 => 33559021
  | 26 => 67125433
  | 27 => 134253857
  | 28 => 268470641
  | _ => 0

/-- The `#if CODE_MAX_BITS == ...` chain of lzwhd.c; no branch defines the
macro for another value. -/
def HASH_TABLE_SIZE_lzwhd (CODE_MAX_BITS : Nat) : Option Nat :=
  match CODE_MAX_BITS with
  | 12 => some 5021
  | 13 => some 9859
  | 14 => some 18041
  | 15 => some 35023
  | 16 => some 69001
  | _ => none

/-- Lines 251-273 of lzwz2.c: `hash_TABLE_SIZE`, `hash_SHIFT = code_max_bits - 8`
and `code_MAX = 1 << code_max_bits`. -/
def configure (code_max_bits reset_dict : Nat) : Config :=
  { code_max_bits := code_max_bits
    reset_dict := reset_dict
    hash_TABLE_SIZE := select_hash_TABLE_SIZE code_max_bits
    hash_SHIFT := code_max_bits - 8
    code_MAX := 1 <<< code_max_bits }

/-! ## The mutable globals -/

/-- The global variables of lzwz2.c that the codec loops change. The array
`prefix` is the field `prefix_tab`. -/
structure State where
  code : Nat → Nat
  prefix_tab : Nat → Nat
  character : Nat → Nat
  prefix_string_code : Nat
  lzw_code_cnt : Nat
  old_lzw_code : Nat
  new_lzw_code : Nat
  lzwcode : Nat
  bit_count : Nat
  code_max : Nat

/-- The globals as the program starts: the counters are zero-initialised,
`bit_count = 9`, `code_max = 512`, and the arrays hold whatever `malloc`
returned. -/
def initial_state (mem_code mem_prefix mem_character : Nat → Nat) : State :=
  { code := mem_code
    prefix_tab := mem_prefix
    character := mem_character
    prefix_string_code := 0
    lzw_code_cnt := 0
    old_lzw_code := 0
    new_lzw_code := 0
    lzwcode := 0
    bit_count := 9
    code_max := 512 }

/-- Array store `a[i] = v`. -/
def store (a : Nat → Nat) (i v : Nat) : Nat → Nat :=
  fun j => if j = i then v else a j

/-! ## Hash dictionary (compression side) -/

/-- `init_code_table`: every slot below `hash_TABLE_SIZE` becomes `LZW_NULL`. -/
def init_code_table (cfg : Config) (s : State) : State :=
  { s with code := fun i => if i < cfg.hash_TABLE_SIZE then LZW_NULL else s.code i }

/-- The first probe, `(c << hash_SHIFT) ^ prefix_code`. -/
def hash_index (cfg : Config) (prefix_code c : Nat) : Nat :=
  (c <<< cfg.hash_SHIFT) ^^^ prefix_code

/-- The displacement of the second probe: `hash_TABLE_SIZE - hindex`, or 1
when `hindex == 0`. -/
def displacement (cfg : Config) (hindex : Nat) : Nat :=
  if hindex = 0 then 1 else cfg.hash_TABLE_SIZE - hindex

/-- The second probe, `if ( (hindex -= d) < 0 ) hindex += hash_TABLE_SIZE;`. -/
def next_probe (cfg : Config) (hindex d : Nat) : Nat :=
  if hindex < d then hindex + cfg.hash_TABLE_SIZE - d else hindex - d

/-- The `do ... while( 1 )` loop of `insert_stringENC`, one probe per unit
of fuel. -/
def insert_probe (cfg : Config) (s : State) (prefix_code c d : Nat) :
    Nat → Nat → Option State
  | 0, _ => none
  | fuel + 1, hindex =>
    if s.code hindex = LZW_NULL then
      some { s with
        code := store s.code hindex s.lzw_code_cnt
        prefix_tab := store s.prefix_tab hindex prefix_code
        character := store s.character hindex c }
    else insert_probe cfg s prefix_code c d fuel (next_probe cfg hindex d)

/-- `insert_stringENC( prefix_code, c )`. A first index outside the table is
undefined behaviour (`none`). The probe sequence has period dividing
`hash_TABLE_SIZE`, so a loop that stores nothing in `hash_TABLE_SIZE`
probes never stores (`none`). -/
def insert_stringENC (cfg : Config) (s : State) (prefix_code c : Nat) : Option State :=
  let hindex := hash_index cfg prefix_code c
  if cfg.hash_TABLE_SIZE ≤ hindex then none
  else insert_probe cfg s prefix_code c (displacement cfg hindex) cfg.hash_TABLE_SIZE hindex

/-- The `do ... while( 1 )` loop of `search_string`: the result is the return
value together with the globals (`prefix_string_code` is set on a match). -/
def search_probe (cfg : Config) (s : State) (prefix_code c d : Nat) :
    Nat → Nat → Option (Nat × State)
  | 0, _ => none
  | fuel + 1, hindex =>
    if s.code hindex = LZW_NULL then some (0, s)
    else if s.prefix_tab hindex = prefix_code ∧ s.character hindex = c then
      some (1, { s with prefix_string_code := s.code hindex })
    else search_probe cfg s prefix_code c d fuel (next_probe cfg hindex d)

/-- `search_string( prefix_code, c )`. -/
def search_string (cfg : Config) (s : State) (prefix_code c : Nat) : Option (Nat × State) :=
  let hindex := hash_index cfg prefix_code c
  if cfg.hash_TABLE_SIZE ≤ hindex then none
  else search_probe cfg s prefix_code c (displacement cfg hindex) cfg.hash_TABLE_SIZE hindex

/-- `insert_stringDEC( prefix_code, c )`: the decoder stores at index
`lzw_code_cnt`. -/
def insert_stringDEC (s : State) (prefix_code c : Nat) : State :=
  { s with
    prefix_tab := store s.prefix_tab s.lzw_code_cnt prefix_code
    character := store s.character s.lzw_code_cnt c }

/-! ## Compression loop -/

/-- What the compressor does that the other side has to reproduce. -/
inductive EncEvent where
  | output_code (a b : Nat)
  | insert (k prefix_code c : Nat)
  | reset
  deriving DecidableEq, Repr

/-- Lines 369-376: insert the string when there is room, and widen the code
when the counter stands at `code_max`. -/
def enc_insert (cfg : Config) (s : State) (c : Nat) : Option (State × List EncEvent) :=
  if s.lzw_code_cnt < cfg.code_MAX then
    match insert_stringENC cfg s s.prefix_string_code c with
    | none => none
    | some s1 =>
      let ev := [EncEvent.insert s.lzw_code_cnt s.prefix_string_code c]
      if s1.lzw_code_cnt = s1.code_max then
        some ({ s1 with bit_count := s1.bit_count + 1, code_max := s1.code_max <<< 1 }, ev)
      else some (s1, ev)
  else some (s, [])

/-- Lines 381-391: the reset test
`lzw_code_cnt <= (code_MAX+4096) && lzw_code_cnt++ == (code_MAX+4096)`
with its short-circuit, and the no-reset counter. -/
def enc_reset (cfg : Config) (s : State) : State × List EncEvent :=
  if cfg.reset_dict = 1 then
    if s.lzw_code_cnt ≤ cfg.code_MAX + 4096 then
      if s.lzw_code_cnt = cfg.code_MAX + 4096 then
        ({ init_code_table cfg s with
            lzw_code_cnt := START_LZW_CODE, bit_count := 9, code_max := 512 },
         [EncEvent.reset])
      else ({ s with lzw_code_cnt := s.lzw_code_cnt + 1 }, [])
    else (s, [])
  else if cfg.reset_dict = 0 then
    if s.lzw_code_cnt < cfg.code_MAX then ({ s with lzw_code_cnt := s.lzw_code_cnt + 1 }, [])
    else (s, [])
  else (s, [])

/-- The body of `while( (c=gfgetc()) != EOF )` in `compress_LZW` for the
byte `c`. -/
def compress_step (cfg : Config) (s : State) (c : Nat) : Option (State × List EncEvent) :=
  match search_string cfg s s.prefix_string_code c with
  | none => none
  | some (found, s1) =>
    if found ≠ 0 then some (s1, [])
    else
      match enc_insert cfg s1 c with
      | none => none
      | some (s2, ev2) =>
        let r := enc_reset cfg s2
        some ({ r.1 with prefix_string_code := c },
          EncEvent.output_code s1.prefix_string_code s1.bit_count :: (ev2 ++ r.2))

/-- The `while` loop of `compress_LZW` over the bytes still to be read. -/
def compress_loop (cfg : Config) : State → List Nat → Option (State × List EncEvent)
  | s, [] => some (s, [])
  | s, c :: rest =>
    match compress_step cfg s c with
    | none => none
    | some (s1, ev1) =>
      match compress_loop cfg s1 rest with
      | none => none
      | some (s2, ev2) => some (s2, ev1 ++ ev2)

/-- `compress_LZW` on the bytes that `gfgetc` delivers. -/
def compress_LZW (cfg : Config) (s : State) (input : List Nat) :
    Option (State × List EncEvent) :=
  let s0 := { init_code_table cfg s with lzw_code_cnt := START_LZW_CODE }
  let s1 := match input with
    | [] => s0
    | c :: _ => { s0 with prefix_string_code := c }
  match compress_loop cfg s1 input.tail with
  | none => none
  | some (s2, ev) =>
    some (s2, ev ++ [EncEvent.output_code s2.prefix_string_code s2.bit_count,
                     EncEvent.output_code EOF_LZW_CODE s2.bit_count])

/-- The `output_code( a, b )` calls of a trace, in order. -/
def emitted : List EncEvent → List (Nat × Nat)
  | [] => []
  | EncEvent.output_code a b :: evs => (a, b) :: emitted evs
  | _ :: evs => emitted evs

/-! ## Bit channel -/

/-- Modelled from the spec: `put_nbits` of the absent gtbitio3.c.
`put_bits(value, width)` appends the `width` low-order bits of `value`; the
order, least significant bit first, is the one `pset_bit` of gtbitio2.h uses
inside a byte. -/
def put_nbits (k size : Nat) : List Bool :=
  (List.range size).map (fun i => k.testBit i)

/-- Modelled from the spec: `flush_put_buffer` of the absent gtbitio3.c; the
pending bits are zero-padded to a whole byte and written. -/
def flush_put_buffer (bits : List Bool) : List Bool :=
  bits ++ List.replicate ((8 - bits.length % 8) % 8) false

/-- The number that a list of bits spells, least significant bit first. -/
def bits_value : List Bool → Nat
  | [] => 0
  | b :: bs => (if b then 1 else 0) + 2 * bits_value bs

/-- Modelled from the spec: `get_nbits` of the absent gtbitio3.c.
`get_bits(width)` returns the next `width` bits, or the EOF sentinel (256)
once the byte source is exhausted. -/
def get_nbits (size : Nat) (bits : List Bool) : Nat × List Bool :=
  if bits.length < size then (EOF_LZW_CODE, [])
  else (bits_value (bits.take size), bits.drop size)

/-- Modelled from the spec: `pfputc` of the absent gtbitio3.c writes its
argument as one byte. -/
def pfputc (c : Nat) : Nat := c % 256

/-- The bits that the `output_code` calls put on the channel. -/
def put_codes : List (Nat × Nat) → List Bool
  | [] => []
  | (a, b) :: rest => put_nbits a b ++ put_codes rest

/-! ## Decompression loop -/

/-- What the decompressor does, for comparison with the compressor's trace.
`get_code v w n` is a call `get_nbits( bit_count )` that returned `v` at
`bit_count = w` while `lzw_code_cnt = n`. -/
inductive DecEvent where
  | get_code (v w n : Nat)
  | insert (k prefix_code c : Nat)
  | reset
  deriving DecidableEq, Repr

/-- Lines 423-428: walk the prefix chain, pushing the appended bytes. The
first argument counts the free bytes of `stack_buffer`; a push without room
is undefined behaviour (`none`). The result is the literal the walk stops at
and the pushed bytes, last pushed first. -/
def get_string (s : State) : Nat → Nat → List Nat → Option (Nat × List Nat)
  | 0, _, _ => none
  | room + 1, lzwcode, stack =>
    if lzwcode > EOF_LZW_CODE then
      get_string s room (s.prefix_tab lzwcode) (s.character lzwcode :: stack)
    else some (lzwcode, stack)

/-- Lines 409-413 and 463-467: get the first code and output it as a byte. -/
def dec_first (s : State) (bits : List Bool) :
    State × List Bool × List Nat × List DecEvent :=
  let r := get_nbits s.bit_count bits
  ({ s with old_lzw_code := r.1 }, r.2, [pfputc r.1],
   [DecEvent.get_code r.1 s.bit_count s.lzw_code_cnt])

/-- Lines 442-451: add PREV_CODE+K to the table and widen the code. -/
def dec_insert (cfg : Config) (s : State) : State × List DecEvent :=
  if s.lzw_code_cnt < cfg.code_MAX then
    let s1 := insert_stringDEC s s.old_lzw_code (s.lzwcode % 256)
    let ev := [DecEvent.insert s.lzw_code_cnt s.old_lzw_code (s.lzwcode % 256)]
    if s1.bit_count < cfg.code_max_bits then
      if s1.lzw_code_cnt = s1.code_max - 1 then
        ({ s1 with bit_count := s1.bit_count + 1, code_max := s1.code_max <<< 1 }, ev)
      else (s1, ev)
    else (s1, ev)
  else (s, [])

/-- Lines 456-472: the decoder's reset test `++lzw_code_cnt == (code_MAX+4096)`
with the fresh first code, and the no-reset counter. -/
def dec_reset (cfg : Config) (s : State) (bits : List Bool) :
    State × List Bool × List Nat × List DecEvent :=
  if cfg.reset_dict = 1 then
    if s.lzw_code_cnt + 1 = cfg.code_MAX + 4096 then
      let r := dec_first
        { s with lzw_code_cnt := START_LZW_CODE, bit_count := 9, code_max := 512 } bits
      (r.1, r.2.1, r.2.2.1, DecEvent.reset :: r.2.2.2)
    else ({ s with lzw_code_cnt := s.lzw_code_cnt + 1 }, bits, [], [])
  else if cfg.reset_dict = 0 then
    if s.lzw_code_cnt < cfg.code_MAX then
      ({ s with lzw_code_cnt := s.lzw_code_cnt + 1 }, bits, [], [])
    else (s, bits, [], [])
  else (s, bits, [], [])

/-- Lines 419-472: one turn of `while ( 1 )` in `decompress_LZW` after a code
other than EOF has been read into `new_lzw_code`. -/
def dec_body (cfg : Config) (s : State) (bits : List Bool) :
    Option (State × List Bool × List Nat × List DecEvent) :=
  let undefined_code := decide (s.new_lzw_code ≥ s.lzw_code_cnt)
  let start := if undefined_code then s.old_lzw_code else s.new_lzw_code
  match get_string s cfg.code_MAX start [] with
  | none => none
  | some (k, stack) =>
    let out1 := pfputc k :: stack ++ (if undefined_code then [pfputc k] else [])
    let r1 := dec_insert cfg { s with lzwcode := k }
    let s2 := { r1.1 with old_lzw_code := r1.1.new_lzw_code }
    let r2 := dec_reset cfg s2 bits
    some (r2.1, r2.2.1, out1 ++ r2.2.2.1, r1.2 ++ r2.2.2.2)

/-- The `while ( 1 )` loop of `decompress_LZW`, one code per unit of fuel. -/
def decompress_loop (cfg : Config) :
    Nat → State → List Bool → Option (State × List Nat × List DecEvent)
  | 0, _, _ => none
  | fuel + 1, s, bits =>
    let r := get_nbits s.bit_count bits
    let s1 := { s with new_lzw_code := r.1 }
    let ev := DecEvent.get_code r.1 s.bit_count s.lzw_code_cnt
    if r.1 = EOF_LZW_CODE then some (s1, [], [ev])
    else
      match dec_body cfg s1 r.2 with
      | none => none
      | some (s2, bits2, out2, ev2) =>
        match decompress_loop cfg fuel s2 bits2 with
        | none => none
        | some (s3, out3, ev3) => some (s3, out2 ++ out3, ev :: (ev2 ++ ev3))

/-- `decompress_LZW` on the bits of the code stream. Every turn of the loop
that does not end it consumes at least one bit, so `length + 1` turns are
enough. -/
def decompress_LZW (cfg : Config) (s : State) (bits : List Bool) :
    Option (State × List Nat × List DecEvent) :=
  let r := dec_first { s with lzw_code_cnt := START_LZW_CODE } bits
  match decompress_loop cfg (bits.length + 1) r.1 r.2.1 with
  | none => none
  | some (s1, out, ev) => some (s1, r.2.2.1 ++ out, r.2.2.2 ++ ev)

/-! ## `main` -/

/-- The `file_stamp` header of lzwz2.c. -/
structure file_stamp where
  algorithm : List Nat
  code_max_bits : Nat
  reset_dict : Nat
  deriving DecidableEq, Repr

/-- A compressed file: `none` is the file of length zero, otherwise the
stamp followed by the bits of the payload bytes, eight per byte. -/
abbrev CompressedFile := Option (file_stamp × List Bool)

/-- The compression path of `main` in lzwz2.c: the test for an input of
length zero, the file stamp, `compress_LZW`, `flush_put_buffer`. -/
def compress_main (code_max_bits reset_dict : Nat) (mem : State) (input : List Nat) :
    Option CompressedFile :=
  if input = [] then some none
  else
    match compress_LZW (configure code_max_bits reset_dict) mem input with
    | none => none
    | some (_, ev) =>
      some (some ({ algorithm := [76, 90, 87, 0]
                    code_max_bits := code_max_bits
                    reset_dict := reset_dict },
                  flush_put_buffer (put_codes (emitted ev))))

/-- The decompression path of `main` in lzwz2.c: the test for an input of
length zero, the file stamp that sets `code_max_bits` and `reset_dict`,
`decompress_LZW`. The result is the bytes written. -/
def decompress_main (mem : State) (file : CompressedFile) : Option (List Nat) :=
  match file with
  | none => some []
  | some (stamp, bits) =>
    match decompress_LZW (configure stamp.code_max_bits stamp.reset_dict) mem bits with
    | none => none
    | some (_, out, _) => some out

/-! ## The command line -/

/-- What the command-line handlers look at in one `argv[n]`: `-c` or `-C`
followed by nothing (`none`) or by text on which `atoi` returns `v`
(`some v`); `-n` followed by `r` or not; `-d` followed by nothing or not;
`-` followed by another letter; a word that does not start with `-`. -/
inductive Arg where
  | c_opt (value : Option Int)
  | n_opt (r : Bool)
  | d_opt (bare : Bool)
  | other_opt
  | file
  deriving DecidableEq, Repr

/-- The variables of the command-line handler of lzwz2.c; `mode` is -1,
`COMPRESS` = 1 or `DECOMPRESS` = 2. -/
structure Cmdline where
  code_max_bits : Int
  reset_dict : Nat
  mode : Int
  in_argn : Nat
  out_argn : Nat
  fcount : Nat
  deriving DecidableEq, Repr

/-- Lines 193-221 of lzwz2.c: the body of `while ( n < argc )` for
`argv[n]`. `none` is a call of `usage()`, which ends the program. -/
def lzwz2_arg (st : Cmdline) (n : Nat) : Arg → Option Cmdline
  | Arg.c_opt value =>
    let r : Option Cmdline :=
      match value with
      | some v =>
        if v < 12 then none
        else if v > 28 then none
        else some { st with code_max_bits := v }
      | none => some st
    match r with
    | none => none
    | some st1 => if st1.mode = 2 then none else some { st1 with mode := 1 }
  | Arg.n_opt r =>
    if r then
      if st.mode = 2 then none else some { st with reset_dict := 0, mode := 1 }
    else none
  | Arg.d_opt bare =>
    if ¬ bare ∨ st.mode = 1 then none else some { st with mode := 2 }
  | Arg.other_opt => none
  | Arg.file =>
    let st1 : Cmdline :=
      if st.in_argn = 0 then { st with in_argn := n }
      else if st.out_argn = 0 then { st with out_argn := n }
      else st
    if st1.fcount + 1 = 3 then none else some { st1 with fcount := st1.fcount + 1 }

/-- The loop `while ( n < argc )` of lzwz2.c from `argv[n]` on. -/
def lzwz2_args : Cmdline → Nat → List Arg → Option Cmdline
  | st, _, [] => some st
  | st, n, a :: rest =>
    match lzwz2_arg st n a with
    | none => none
    | some st1 => lzwz2_args st1 (n + 1) rest

/-- Lines 188-224 of lzwz2.c, the command-line handler, for the arguments
`argv[1]`, ..., `argv[argc-1]`. -/
def lzwz2_cmdline (args : List Arg) : Option Cmdline :=
  if args.length + 1 < 3 ∨ args.length + 1 > 5 then none
  else
    match lzwz2_args
      { code_max_bits := 16
        reset_dict := 1
        mode := if args.length + 1 = 3 then 1 else -1
        in_argn := 0
        out_argn := 0
        fcount := 0 } 1 args with
    | none => none
    | some st => if st.in_argn = 0 ∨ st.out_argn = 0 then none else some st

/-- What `main` does up to the point where both files are open: the call of
`usage()`, or the two calls of `fopen` with the index of the file name and
the dictionary size that the handler has set. -/
inductive MainAction where
  | usage
  | fopen (argn : Nat) (code_max_bits : Int)
  deriving DecidableEq, Repr

/-- Lines 188-235 of lzwz2.c: the handler, then the two `fopen`. -/
def lzwz2_front (args : List Arg) : List MainAction :=
  match lzwz2_cmdline args with
  | none => [MainAction.usage]
  | some st =>
    [MainAction.fopen st.in_argn st.code_max_bits, MainAction.fopen st.out_argn st.code_max_bits]

/-- Lines 71-91 of lzwg.c, the command-line handler: `arg1` is `some v`
when `argv[1]` is `-` followed by text on which `atoi` returns `v`, and
`none` otherwise. The result is `code_max_bits`, `in_argn`, `out_argn`;
`none` is a call of `usage()`. -/
def lzwg_cmdline (argc : Nat) (arg1 : Option Int) : Option (Int × Nat × Nat) :=
  let r : Option Int :=
    if argc = 4 then
      match arg1 with
      | some v => if v = 0 then none else if v < 12 then some 12 else some v
      | none => none
    else some 16
  match r with
  | none => none
  | some code_max_bits =>
    if argc = 3 then some (code_max_bits, 1, 2)
    else if argc = 4 then some (code_max_bits, 2, 3)
    else none

/-- Lines 71-100 of lzwg.c: the handler, then the two `fopen`. -/
def lzwg_front (argc : Nat) (arg1 : Option Int) : List MainAction :=
  match lzwg_cmdline argc arg1 with
  | none => [MainAction.usage]
  | some r => [MainAction.fopen r.2.1 r.1, MainAction.fopen r.2.2 r.1]

/-! ## The tree codec `lzwg.c` and `lzwgd.c` -/

/-- The globals that the loop of lzwg.c uses. Modelled from the spec: the
tree dictionary of the absent lzwbt.c is the list of the pairs inserted,
each with the code it was given. -/
structure TreeState where
  dict : List ((Nat × Nat) × Nat)
  prefix_string_code : Nat
  lzw_code_cnt : Nat
  bit_count : Nat
  code_max : Nat

/-- Modelled from the spec: `lzw_search( prefix_code, c )` of the absent
lzwbt.c; a match yields the existing code, which becomes
`prefix_string_code`. -/
def lzw_search (s : TreeState) (prefix_code c : Nat) : Nat × TreeState :=
  match s.dict.lookup (prefix_code, c) with
  | some k => (1, { s with prefix_string_code := k })
  | none => (0, s)

/-- Modelled from the spec: `lzw_comp_insert( prefix_code, c )` of the absent
lzwbt.c gives the pair the code `lzw_code_cnt`. -/
def lzw_comp_insert (s : TreeState) (prefix_code c : Nat) : TreeState :=
  { s with dict := s.dict ++ [((prefix_code, c), s.lzw_code_cnt)] }

/-- Modelled from the spec: `init_code_tables` of the absent lzwbt.c
empties the dictionary. -/
def init_code_tables (s : TreeState) : TreeState :=
  { s with dict := [] }

/-- Lines 137-159 of lzwg.c: the insertion with the widening of the code,
and the reset test `lzw_code_cnt++ == (code_MAX+4096)`, after a search
that failed. -/
def lzwg_miss (code_MAX : Nat) (s : TreeState) (c : Nat) : TreeState × List EncEvent :=
  let r1 : TreeState × List EncEvent :=
    if s.lzw_code_cnt < code_MAX then
      let s1 := lzw_comp_insert s s.prefix_string_code c
      let ev := [EncEvent.insert s.lzw_code_cnt s.prefix_string_code c]
      if s1.lzw_code_cnt = s1.code_max then
        ({ s1 with bit_count := s1.bit_count + 1, code_max := s1.code_max <<< 1 }, ev)
      else (s1, ev)
    else (s, [])
  let r2 : TreeState × List EncEvent :=
    if r1.1.lzw_code_cnt = code_MAX + 4096 then
      ({ init_code_tables r1.1 with
          lzw_code_cnt := START_LZW_CODE, bit_count := 9, code_max := 512 },
       [EncEvent.reset])
    else ({ r1.1 with lzw_code_cnt := r1.1.lzw_code_cnt + 1 }, [])
  ({ r2.1 with prefix_string_code := c },
   EncEvent.output_code s.prefix_string_code s.bit_count :: (r1.2 ++ r2.2))

/-- Lines 135-163 of lzwg.c: the body of `while( (c=gfgetc()) != EOF )`. -/
def lzwg_step (code_MAX : Nat) (s : TreeState) (c : Nat) : TreeState × List EncEvent :=
  let r := lzw_search s s.prefix_string_code c
  if r.1 ≠ 0 then (r.2, []) else lzwg_miss code_MAX r.2 c

/-- The `while` loop of lzwg.c over the bytes still to be read. -/
def lzwg_loop (code_MAX : Nat) : TreeState → List Nat → TreeState × List EncEvent
  | s, [] => (s, [])
  | s, c :: rest =>
    let r1 := lzwg_step code_MAX s c
    let r2 := lzwg_loop code_MAX r1.1 rest
    (r2.1, r1.2 ++ r2.2)

/-- The `file_stamp` header of lzwg.c and lzwgd.c. -/
structure tree_stamp where
  algorithm : List Nat
  code_max_bits : Nat
  deriving DecidableEq, Repr

/-- Lines 119-167 of lzwg.c: the test `nfread == 0` for an input of length
zero, the file stamp, the loop, the last code and the end code,
`flush_put_buffer`. The result is the output file, `none` being the file
of length zero. -/
def lzwg_main (code_max_bits : Nat) (input : List Nat) : Option (tree_stamp × List Bool) :=
  match input with
  | [] => none
  | c :: rest =>
    let r := lzwg_loop (1 <<< code_max_bits)
      { dict := []
        prefix_string_code := c
        lzw_code_cnt := START_LZW_CODE
        bit_count := 9
        code_max := 512 } rest
    some ({ algorithm := [76, 90, 87, 0], code_max_bits := code_max_bits },
      flush_put_buffer (put_codes (emitted (r.2 ++
        [EncEvent.output_code r.1.prefix_string_code r.1.bit_count,
         EncEvent.output_code EOF_LZW_CODE r.1.bit_count]))))

/-- Modelled from the spec: `lzw_decomp_insert` of the absent lzwbt.c stores
the pair at index `lzw_code_cnt` of `code_prefix` and `code_char`, as
`insert_stringDEC` does. With it, lines 61-146 of lzwgd.c are the test for
an input of length zero, the file stamp that sets `code_max_bits`, and,
statement for statement, the body of `decompress_LZW` with its branch
`reset_dict == 1`. The result is the bytes written. -/
def lzwgd_main (mem : State) (file : Option (tree_stamp × List Bool)) : Option (List Nat) :=
  match file with
  | none => some []
  | some (stamp, bits) =>
    match decompress_LZW
      { code_max_bits := stamp.code_max_bits
        reset_dict := 1
        hash_TABLE_SIZE := 0
        hash_SHIFT := 0
        code_MAX := 1 <<< stamp.code_max_bits } mem bits with
    | none => none
    | some (_, out, _) => some out

/-! ## The decoder `lzwhd.c` -/

/-- Lines 133-141 of lzwhd.c: add PREV_CODE+K to the table and widen the
code. `CODE_MAX_BITS` is the constant of line 13, `CODE_MAX` is
`1<<CODE_MAX_BITS`, and `insert_stringDEC` of lines 58-62 is the function of
the same name in lzwz2.c. -/
def lzwhd_insert (CODE_MAX_BITS : Nat) (s : State) : State × List DecEvent :=
  if s.lzw_code_cnt < 1 <<< CODE_MAX_BITS then
    let s1 := insert_stringDEC s s.old_lzw_code (s.lzwcode % 256)
    let ev := [DecEvent.insert s.lzw_code_cnt s.old_lzw_code (s.lzwcode % 256)]
    if s1.bit_count < CODE_MAX_BITS then
      if s1.lzw_code_cnt = s1.code_max - 1 then
        ({ s1 with bit_count := s1.bit_count + 1, code_max := s1.code_max <<< 1 }, ev)
      else (s1, ev)
    else (s1, ev)
  else (s, [])

/-- Lines 147-157 of lzwhd.c: the reset test `++lzw_code_cnt == N` against the
field `N` of the file header, with the fresh first code. -/
def lzwhd_reset (N : Nat) (s : State) (bits : List Bool) :
    State × List Bool × List Nat × List DecEvent :=
  if s.lzw_code_cnt + 1 = N then
    let r := dec_first
      { s with lzw_code_cnt := START_LZW_CODE, bit_count := 9, code_max := 512 } bits
    (r.1, r.2.1, r.2.2.1, DecEvent.reset :: r.2.2.2)
  else ({ s with lzw_code_cnt := s.lzw_code_cnt + 1 }, bits, [], [])

/-- Lines 110-157 of lzwhd.c: one turn of `while( 1 )` after a code other
than EOF has been read into `new_lzw_code`; `stack_buffer` has `CODE_MAX`
bytes. -/
def lzwhd_body (CODE_MAX_BITS N : Nat) (s : State) (bits : List Bool) :
    Option (State × List Bool × List Nat × List DecEvent) :=
  let undefined_code := decide (s.new_lzw_code ≥ s.lzw_code_cnt)
  let start := if undefined_code then s.old_lzw_code else s.new_lzw_code
  match get_string s (1 <<< CODE_MAX_BITS) start [] with
  | none => none
  | some (k, stack) =>
    let out1 := pfputc k :: stack ++ (if undefined_code then [pfputc k] else [])
    let r1 := lzwhd_insert CODE_MAX_BITS { s with lzwcode := k }
    let s2 := { r1.1 with old_lzw_code := r1.1.new_lzw_code }
    let r2 := lzwhd_reset N s2 bits
    some (r2.1, r2.2.1, out1 ++ r2.2.2.1, r1.2 ++ r2.2.2.2)

/-- The `while( 1 )` loop of lzwhd.c, one code per unit of fuel. -/
def lzwhd_loop (CODE_MAX_BITS N : Nat) :
    Nat → State → List Bool → Option (State × List Nat × List DecEvent)
  | 0, _, _ => none
  | fuel + 1, s, bits =>
    let r := get_nbits s.bit_count bits
    let s1 := { s with new_lzw_code := r.1 }
    let ev := DecEvent.get_code r.1 s.bit_count s.lzw_code_cnt
    if r.1 = EOF_LZW_CODE then some (s1, [], [ev])
    else
      match lzwhd_body CODE_MAX_BITS N s1 r.2 with
      | none => none
      | some (s2, bits2, out2, ev2) =>
        match lzwhd_loop CODE_MAX_BITS N fuel s2 bits2 with
        | none => none
        | some (s3, out3, ev3) => some (s3, out2 ++ out3, ev :: (ev2 ++ ev3))

/-- Lines 98-158 of lzwhd.c: the decoding of the code stream that follows a
file header with the field `N`. Every turn of the loop that does not end it
consumes at least one bit, so `length + 1` turns are enough. -/
def lzwhd_decode (CODE_MAX_BITS N : Nat) (s : State) (bits : List Bool) :
    Option (State × List Nat × List DecEvent) :=
  let r := dec_first { s with lzw_code_cnt := START_LZW_CODE } bits
  match lzwhd_loop CODE_MAX_BITS N (bits.length + 1) r.1 r.2.1 with
  | none => none
  | some (s3, out3, ev3) => some (s3, r.2.2.1 ++ out3, r.2.2.2 ++ ev3)

/-! ## The bit writer macros of `gtbitio2.h` -/

/-- The put buffer and its counters: `buf` is the block of `pBUFSIZE` bytes
at `pbuf_start`, `pbuf` is the offset `pbuf - pbuf_start`, and `written`
holds the blocks passed to `fwrite`, oldest first. -/
structure PutBuf where
  buf : Nat → Nat
  pbuf : Nat
  p_cnt : Nat
  pbuf_count : Nat
  nbytes_out : Nat
  written : List (List Nat)

/-- Line 29: `#define pset_bit() *pbuf |= (1<<p_cnt)`, a store to an
`unsigned char`. -/
def pset_bit (s : PutBuf) : PutBuf :=
  { s with buf := fun i =>
      if i = s.pbuf then (s.buf s.pbuf ||| (1 <<< s.p_cnt)) % 256 else s.buf i }

/-- Lines 38-51: `advance_buf()`. A full block is written out from
`pbuf_start` and zeroed by `memset`. -/
def advance_buf (pBUFSIZE : Nat) (s : PutBuf) : PutBuf :=
  if s.p_cnt + 1 = 8 then
    if s.pbuf_count + 1 = pBUFSIZE then
      { buf := fun i => if i < pBUFSIZE then 0 else s.buf i
        pbuf := 0
        p_cnt := 0
        pbuf_count := 0
        nbytes_out := s.nbytes_out + pBUFSIZE
        written := s.written ++ [(List.range pBUFSIZE).map s.buf] }
    else { s with p_cnt := 0, pbuf_count := s.pbuf_count + 1, pbuf := s.pbuf + 1 }
  else { s with p_cnt := s.p_cnt + 1 }

/-- Line 32: `#define put_ONE() { pset_bit(); advance_buf(); }`. -/
def put_ONE (pBUFSIZE : Nat) (s : PutBuf) : PutBuf :=
  advance_buf pBUFSIZE (pset_bit s)

/-- Line 35: `#define put_ZERO() advance_buf()`. -/
def put_ZERO (pBUFSIZE : Nat) (s : PutBuf) : PutBuf :=
  advance_buf pBUFSIZE s

/-- A sequence of `put_ONE()` and `put_ZERO()`, one per bit, in order. -/
def put_bits (pBUFSIZE : Nat) (s : PutBuf) (bs : List Bool) : PutBuf :=
  bs.foldl (fun t b => if b then put_ONE pBUFSIZE t else put_ZERO pBUFSIZE t) s

/-! ## Auxiliary notions for the proofs -/

/-- The `i`-th index that the probe loops visit, from the first index `h`. -/
def probe_at (cfg : Config) (d : Nat) : Nat → Nat → Nat
  | 0, h => h
  | i + 1, h => probe_at cfg d i (next_probe cfg h d)

/-- The state after `insert_stringENC` stored at slot `h`. -/
def stored_at (s : State) (h prefix_code c : Nat) : State :=
  { s with
    code := store s.code h s.lzw_code_cnt
    prefix_tab := store s.prefix_tab h prefix_code
    character := store s.character h c }

/-- A configuration as `main` produces it for a size in 12..28 -/
structure Config.Valid (cfg : Config) : Prop where
  bits_ge : 12 ≤ cfg.code_max_bits
  bits_le : cfg.code_max_bits ≤ 28
  shift_eq : cfg.hash_SHIFT = cfg.code_max_bits - 8
  code_MAX_eq : cfg.code_MAX = 2 ^ cfg.code_max_bits
  size_prime : cfg.hash_TABLE_SIZE.Prime
  size_gt : cfg.code_MAX < cfg.hash_TABLE_SIZE

/-- The first index of the probe loops for the pair `(prefix_code, c)`. -/
def probe_path (cfg : Config) (prefix_code c : Nat) (i : Nat) : Nat :=
  probe_at cfg (displacement cfg (hash_index cfg prefix_code c)) i (hash_index cfg prefix_code c)

/-- Number of slots of the hash table that hold a code. -/
def occ_count (cfg : Config) (s : State) : Nat :=
  ((Finset.range cfg.hash_TABLE_SIZE).filter (fun h => s.code h ≠ LZW_NULL)).card

/-- Every stored pair is found by its probe sequence before an open slot. -/
structure TableInv (cfg : Config) (s : State) : Prop where
  reach : ∀ h, h < cfg.hash_TABLE_SIZE → s.code h ≠ LZW_NULL →
    ∃ i, i < cfg.hash_TABLE_SIZE ∧ probe_path cfg (s.prefix_tab h) (s.character h) i = h ∧
      ∀ j, j < i → s.code (probe_path cfg (s.prefix_tab h) (s.character h) j) ≠ LZW_NULL

/-- Trial division: no number in `2 .. f + 1` divides `n`. -/
def no_small_factor (n : Nat) : Nat → Bool
  | 0 => true
  | f + 1 => (n % (f + 2) != 0) && no_small_factor n f

/-- `insert_stringENC` for each pair of the list in turn, `lzw_code_cnt` going up by one
after each call. -/
def insert_all (cfg : Config) : State → List (Nat × Nat) → Option State
  | s, [] => some s
  | s, q :: rest =>
    match insert_stringENC cfg s q.1 q.2 with
    | none => none
    | some s1 => insert_all cfg { s1 with lzw_code_cnt := s1.lzw_code_cnt + 1 } rest

/-- The hash table holds exactly the pairs of `done`, the `i`-th under code `257 + i`. -/
structure Holds (cfg : Config) (s : State) (done : List (Nat × Nat)) : Prop where
  inv : TableInv cfg s
  count : occ_count cfg s = done.length
  slot : ∀ h, h < cfg.hash_TABLE_SIZE → s.code h ≠ LZW_NULL →
    ∃ i, s.code h = START_LZW_CODE + i ∧ done[i]? = some (s.prefix_tab h, s.character h)
  has : ∀ i p c, done[i]? = some (p, c) → ∃ h, h < cfg.hash_TABLE_SIZE ∧
    s.code h = START_LZW_CODE + i ∧ s.prefix_tab h = p ∧ s.character h = c

/-- The string of code `k` in a dictionary given newest entry first. -/
def dstr_rev : List (Nat × Nat) → Nat → List Nat
  | [], k => [k]
  | q :: older, k =>
    if k = START_LZW_CODE + older.length then dstr_rev older q.1 ++ [q.2] else dstr_rev older k

/-- The string of code `k` in the dictionary whose `i`-th entry `(prefix code, byte)`
defines code `257 + i`: a code without entry stands for itself. -/
def dstr (dict : List (Nat × Nat)) (k : Nat) : List Nat := dstr_rev dict.reverse k

/-- Every entry refers to an older code or a byte, never to the end code, and appends
a byte. -/
def DictWF (dict : List (Nat × Nat)) : Prop :=
  ∀ (i : Nat) (p c : Nat), dict[i]? = some (p, c) → p < START_LZW_CODE + i ∧ p ≠ 256 ∧ c < 256

/-- The decoder's arrays hold the dictionary, entry `i` at index `257 + i`. -/
def DecHolds (d : State) (dict : List (Nat × Nat)) : Prop :=
  ∀ (i : Nat) (p c : Nat), dict[i]? = some (p, c) →
    d.prefix_tab (START_LZW_CODE + i) = p ∧ d.character (START_LZW_CODE + i) = c

/-- What holds of the compressor's globals between two bytes: the hash table holds the
dictionary `dict`, the counter and the width agree with its size, and the current prefix
code is a byte or a code of the dictionary. -/
structure EncOK (cfg : Config) (e : State) (dict : List (Nat × Nat)) : Prop where
  holds : Holds cfg e dict
  wf : DictWF dict
  len : START_LZW_CODE + dict.length = min e.lzw_code_cnt cfg.code_MAX
  cnt_le : (cfg.reset_dict = 1 ∧ e.lzw_code_cnt ≤ cfg.code_MAX + 4096) ∨
    (cfg.reset_dict = 0 ∧ e.lzw_code_cnt ≤ cfg.code_MAX)
  cm : e.code_max = 2 ^ e.bit_count
  bits_ge : 9 ≤ e.bit_count
  bits_le : e.bit_count ≤ cfg.code_max_bits
  cnt_cm : min e.lzw_code_cnt cfg.code_MAX ≤ e.code_max
  psc_ne : e.prefix_string_code ≠ 256
  psc_lt : e.prefix_string_code < START_LZW_CODE + dict.length

/-- What a turn of the compression loop does when the pair `(prefix_string_code, c)` is
not in the dictionary, in terms of the counter, the width, the dictionary and the trace:
an insertion (with or without widening), a full dictionary, or a reset. -/
def MissStep (cfg : Config) (e : State) (c : Nat) (e1 : State)
    (dict dict1 : List (Nat × Nat)) (evs : List EncEvent) : Prop :=
  e1.prefix_string_code = c ∧
  ((e.lzw_code_cnt < cfg.code_MAX ∧
      e1.lzw_code_cnt = e.lzw_code_cnt + 1 ∧
      e1.bit_count = (if e.lzw_code_cnt = e.code_max then e.bit_count + 1 else e.bit_count) ∧
      dict1 = dict ++ [(e.prefix_string_code, c)] ∧
      evs = [EncEvent.output_code e.prefix_string_code e.bit_count,
             EncEvent.insert e.lzw_code_cnt e.prefix_string_code c]) ∨
   (cfg.code_MAX ≤ e.lzw_code_cnt ∧ ¬ (cfg.reset_dict = 1 ∧ e.lzw_code_cnt = cfg.code_MAX + 4096) ∧
      e1.lzw_code_cnt = (if cfg.reset_dict = 1 then e.lzw_code_cnt + 1 else e.lzw_code_cnt) ∧
      e1.bit_count = e.bit_count ∧
      dict1 = dict ∧
      evs = [EncEvent.output_code e.prefix_string_code e.bit_count]) ∨
   (cfg.reset_dict = 1 ∧ e.lzw_code_cnt = cfg.code_MAX + 4096 ∧
      e1.lzw_code_cnt = START_LZW_CODE ∧
      e1.bit_count = 9 ∧
      dict1 = [] ∧
      evs = [EncEvent.output_code e.prefix_string_code e.bit_count, EncEvent.reset]))

/-- Put bytes and events in front of what the rest of a run produces. -/
def prepend (out : List Nat) (ev : List DecEvent)
    (r : Option (State × List Nat × List DecEvent)) : Option (State × List Nat × List DecEvent) :=
  r.map (fun x => (x.1, out ++ x.2.1, ev ++ x.2.2))

/-- The decompressor from one of its two reading points: before the first code of an
epoch (`first = true`, lines 409-413 and 463-467) or at the top of `while ( 1 )`. -/
def dec_run (cfg : Config) (fuel : Nat) (first : Bool) (d : State) (bits : List Bool) :
    Option (State × List Nat × List DecEvent) :=
  if first then
    let r := dec_first d bits
    prepend r.2.2.1 r.2.2.2 (decompress_loop cfg fuel r.1 r.2.1)
  else decompress_loop cfg fuel d bits

/-- The decoder's counter after the reset test when no reset takes place. -/
def dec_next_cnt (cfg : Config) (cnt : Nat) : Nat :=
  if cfg.reset_dict = 1 then cnt + 1
  else if cfg.reset_dict = 0 then (if cnt < cfg.code_MAX then cnt + 1 else cnt)
  else cnt

/-- The decoder after lines 442-454 of a turn that read `v` and walked down to `lit`. -/
def dec_mid (cfg : Config) (d : State) (v lit : Nat) : State :=
  { (dec_insert cfg { d with new_lzw_code := v, lzwcode := lit }).1 with old_lzw_code := v }

/-- The decoder goes on after the reset test of lines 456-472. -/
def dec_cont (cfg : Config) (fuel : Nat) (s2 : State) (bits : List Bool) :
    Option (State × List Nat × List DecEvent) :=
  if cfg.reset_dict = 1 ∧ s2.lzw_code_cnt + 1 = cfg.code_MAX + 4096 then
    prepend [] [DecEvent.reset] (dec_run cfg fuel true
      { s2 with lzw_code_cnt := START_LZW_CODE, bit_count := 9, code_max := 512 } bits)
  else
    dec_run cfg fuel false { s2 with lzw_code_cnt := dec_next_cnt cfg s2.lzw_code_cnt } bits

/-- The decoder at the top of its loop is in step with the compressor: its arrays hold
the dictionary `dd`, which is the compressor's dictionary `de` without the entry that the
compressor stored last; that entry is `(old_lzw_code, first byte of the current string)`. -/
structure SyncTop (cfg : Config) (e d : State) (dd de : List (Nat × Nat)) : Prop where
  enc : EncOK cfg e de
  dec : DecHolds d dd
  rel : (d.lzw_code_cnt < cfg.code_MAX ∧ ∃ c1, de = dd ++ [(d.old_lzw_code, c1)] ∧
      (dstr de e.prefix_string_code).head? = some c1) ∨
    (cfg.code_MAX ≤ d.lzw_code_cnt ∧ de = dd)
  dlen : START_LZW_CODE + dd.length = min d.lzw_code_cnt cfg.code_MAX
  cnt : (cfg.reset_dict = 1 ∧ e.lzw_code_cnt = d.lzw_code_cnt + 1) ∨
    (cfg.reset_dict = 0 ∧ e.lzw_code_cnt = min (d.lzw_code_cnt + 1) cfg.code_MAX ∧
      d.lzw_code_cnt ≤ cfg.code_MAX)
  bits : d.bit_count = e.bit_count
  cmax : d.code_max = e.code_max
  old_ne : d.old_lzw_code ≠ 256
  old_lt : d.old_lzw_code < START_LZW_CODE + dd.length

/-- Both sides stand at the start of an epoch: the compressor has read the first byte,
the decoder is about to read the first code. -/
structure SyncFirst (cfg : Config) (e d : State) : Prop where
  enc : EncOK cfg e []
  ecnt : e.lzw_code_cnt = START_LZW_CODE
  ebits : e.bit_count = 9
  epsc : e.prefix_string_code < 256
  dcnt : d.lzw_code_cnt = START_LZW_CODE
  dbits : d.bit_count = 9
  dcm : d.code_max = 512

/-- The two sides are in step, at the start of an epoch or inside one. -/
def Sync (cfg : Config) (first : Bool) (e d : State) (dd de : List (Nat × Nat)) : Prop :=
  if first then SyncFirst cfg e d ∧ dd = [] ∧ de = [] else SyncTop cfg e d dd de

/-- The codes written and the resets of a compressor trace, in order. -/
def enc_skel : List EncEvent → List (Option (Nat × Nat))
  | [] => []
  | EncEvent.output_code a b :: evs => some (a, b) :: enc_skel evs
  | EncEvent.reset :: evs => none :: enc_skel evs
  | EncEvent.insert _ _ _ :: evs => enc_skel evs

/-- The codes read (with the width used) and the resets of a decoder trace, in order. -/
def dec_skel : List DecEvent → List (Option (Nat × Nat))
  | [] => []
  | DecEvent.get_code v w _ :: evs => some (v, w) :: dec_skel evs
  | DecEvent.reset :: evs => none :: dec_skel evs
  | DecEvent.insert _ _ _ :: evs => dec_skel evs

/-- The entries stored and the resets of a compressor trace, in order. -/
def enc_ins : List EncEvent → List (Option (Nat × Nat × Nat))
  | [] => []
  | EncEvent.insert k p c :: evs => some (k, p, c) :: enc_ins evs
  | EncEvent.reset :: evs => none :: enc_ins evs
  | EncEvent.output_code _ _ :: evs => enc_ins evs

/-- The entries stored and the resets of a decoder trace, in order. -/
def dec_ins : List DecEvent → List (Option (Nat × Nat × Nat))
  | [] => []
  | DecEvent.insert k p c :: evs => some (k, p, c) :: dec_ins evs
  | DecEvent.reset :: evs => none :: dec_ins evs
  | DecEvent.get_code _ _ _ :: evs => dec_ins evs

/-- The entry that the compressor has stored and the decoder has not stored yet. -/
def pending (cfg : Config) (first : Bool) (d : State) (de : List (Nat × Nat)) :
    List (Option (Nat × Nat × Nat)) :=
  if first then []
  else if d.lzw_code_cnt < cfg.code_MAX then
    match de.getLast? with
    | some q => [some (d.lzw_code_cnt, q.1, q.2)]
    | none => []
  else []

/-- The decoder simulates a stretch of the compression loop: started in step, the two sides
are in step again after the compressor has consumed `rest` and the decoder has read the
codes written meanwhile; the decoder has then written the compressor's input up to the
string still held back, has read each code at the width it was written with, has reset at
the same codes, and has stored the same entries, one code later. -/
structure Sim (cfg : Config) (first : Bool) (e d : State) (de : List (Nat × Nat))
    (rest : List Nat) (first1 : Bool) (e1 d1 : State) (dd1 de1 : List (Nat × Nat))
    (evs : List EncEvent) : Prop where
  sync : Sync cfg first1 e1 d1 dd1 de1
  run : ∃ k out devs, k ≤ (put_codes (emitted evs)).length ∧
    (∀ fuel tail, dec_run cfg (fuel + k) first d (put_codes (emitted evs) ++ tail)
      = prepend out devs (dec_run cfg fuel first1 d1 tail)) ∧
    dstr de e.prefix_string_code ++ rest = out ++ dstr de1 e1.prefix_string_code ∧
    dec_skel devs = enc_skel evs ∧
    pending cfg first d de ++ enc_ins evs = dec_ins devs ++ pending cfg first1 d1 de1

/-- The compressor's globals when the loop of `compress_LZW` is entered with first byte `c`. -/
def enc_start (cfg : Config) (mem : State) (c : Nat) : State :=
  { { init_code_table cfg mem with lzw_code_cnt := START_LZW_CODE } with prefix_string_code := c }

/-- The decoder's globals when `decompress_LZW` is about to read the first code. -/
def dec_start (mem : State) : State :=
  { mem with lzw_code_cnt := START_LZW_CODE }

/-- The two calls of `output_code` that end `compress_LZW`. -/
def final_codes (e : State) : List EncEvent :=
  [EncEvent.output_code e.prefix_string_code e.bit_count,
   EncEvent.output_code EOF_LZW_CODE e.bit_count]

/-- The pairs of neighbouring bytes of an input. -/
def digrams (l : List Nat) : List (Nat × Nat) := l.zip l.tail

/-- The number of codes written before each reset of a compressor trace, counted from
the previous reset or from the start (`n` codes have been written so far). -/
def codes_before_resets : List EncEvent → Nat → List Nat
  | [], _ => []
  | EncEvent.output_code _ _ :: evs, n => codes_before_resets evs (n + 1)
  | EncEvent.reset :: evs, n => n :: codes_before_resets evs 0
  | EncEvent.insert _ _ _ :: evs, n => codes_before_resets evs n

/-- Byte `i` of the input: block `i / 256` counts upwards in steps of `2 * (i / 256) + 1`. -/
def stride_byte (i : Nat) : Nat := ((i % 256) * (2 * (i / 256) + 1)) % 256

/-- The first `n` bytes of the input. -/
def stride_input (n : Nat) : List Nat := (List.range n).map stride_byte

/-- The position of a pair of neighbours of the input, computed from the pair: the step
is the difference of the two bytes, and the place in the block is the first byte divided by
the step modulo 256. -/
def stride_index (q : Nat × Nat) : Nat :=
  256 * (((q.2 + 256 - q.1) % 256) / 2) + (q.1 * (((q.2 + 256 - q.1) % 256) ^ 63 % 256)) % 256

/-- Whether `stride_index` finds the position of each of the first `n` pairs. -/
def check_index : Nat → Bool
  | 0 => true
  | n + 1 => (stride_index (stride_byte n, stride_byte (n + 1)) == n) && check_index n

/-- All arrays zero, the counters as the declarations of lzwz2.c initialise them. -/
def mem0 : State := initial_state (fun _ => 0) (fun _ => 0) (fun _ => 0)

/-- The string of a code in the decoder's tables as the specification defines it: a code
up to 256 stands for one byte, a code above 256 stands for the string of its prefix
followed by its own byte. The first argument bounds the length of the chain. -/
def code_string (s : State) : Nat → Nat → Option (List Nat)
  | 0, _ => none
  | fuel + 1, code =>
    if code > EOF_LZW_CODE then
      (code_string s fuel (s.prefix_tab code)).map (fun w => w ++ [s.character code])
    else some [pfputc code]

/-- The decoder after it has read the byte 65 as the first code of a stream. -/
def pending_state : State := { mem0 with lzw_code_cnt := 257, old_lzw_code := 65 }

/-- The width of the compressor is above nine bits only once the counter has passed the
previous power of two. -/
def WidthOK (e : State) : Prop :=
  9 < e.bit_count → 2 ^ (e.bit_count - 1) < e.lzw_code_cnt

/-- The entries of a trace are numbered consecutively: `next` is the code that the next
entry must carry, every code lies in `257 .. M - 1`, and a reset (`none`) starts again
at 257. -/
def dense_codes (M : Nat) : Nat → List (Option (Nat × Nat × Nat)) → Prop
  | _, [] => True
  | next, some q :: l =>
    q.1 = next ∧ START_LZW_CODE ≤ q.1 ∧ q.1 < M ∧ dense_codes M (next + 1) l
  | _, none :: l => dense_codes M START_LZW_CODE l

/-- What holds of a stretch of the compression loop that leads from `e` to `e2` with the
trace `evs`. -/
structure RunFacts (cfg : Config) (e e2 : State) (evs : List EncEvent) : Prop where
  codes : ∀ q ∈ emitted evs,
    q.1 ≠ EOF_LZW_CODE ∧ q.1 < 2 ^ q.2 ∧ 9 ≤ q.2 ∧ q.2 ≤ cfg.code_max_bits
  dense : dense_codes cfg.code_MAX e.lzw_code_cnt (enc_ins evs)
  acyclic : ∀ k p c, EncEvent.insert k p c ∈ evs → p < k ∧ p ≠ EOF_LZW_CODE ∧ c < 256
  frozen : cfg.reset_dict = 0 → e.lzw_code_cnt = cfg.code_MAX →
    e2.lzw_code_cnt = cfg.code_MAX ∧ e2.bit_count = e.bit_count ∧
    ∀ ev ∈ evs, ∃ a, ev = EncEvent.output_code a e.bit_count

/-- In a trace of the decoder, after a code read while the counter stands at `M`, every
event is a code read with the same width while the counter stands at `M`. -/
def frozen_after (M : Nat) : List DecEvent → Prop
  | [] => True
  | DecEvent.get_code _ w n :: l =>
    (n = M → ∀ ev ∈ l, ∃ v, ev = DecEvent.get_code v w M) ∧ frozen_after M l
  | DecEvent.insert _ _ _ :: l => frozen_after M l
  | DecEvent.reset :: l => frozen_after M l

/-- The states in which `decompress_LZW`, started on the bits `stream`, stands at the top
of `while ( 1 )`: the state after the first code, and the state after a turn of the loop
from such a state on a code other than the end code. -/
inductive DecReach (cfg : Config) (mem : State) (stream : List Bool) :
    State → List Bool → Prop where
  | first : DecReach cfg mem stream
      (dec_first { mem with lzw_code_cnt := START_LZW_CODE } stream).1
      (dec_first { mem with lzw_code_cnt := START_LZW_CODE } stream).2.1
  | turn {s : State} {bits : List Bool} {r : State × List Bool × List Nat × List DecEvent} :
      DecReach cfg mem stream s bits →
      (get_nbits s.bit_count bits).1 ≠ EOF_LZW_CODE →
      dec_body cfg { s with new_lzw_code := (get_nbits s.bit_count bits).1 }
        (get_nbits s.bit_count bits).2 = some r →
      DecReach cfg mem stream r.1 r.2.1

/-- The byte with index `j` of a bit stream, least significant bit first; the
bits that the stream does not have count as zero. -/
def byte_of (bs : List Bool) (j : Nat) : Nat :=
  bits_value ((bs.drop (8 * j)).take 8)

/-- The block with index `blk` of a bit stream cut into blocks of `B` bytes. -/
def block_of (B : Nat) (bs : List Bool) (blk : Nat) : List Nat :=
  (List.range B).map (fun j => byte_of bs (B * blk + j))

/-- The state of the bit writer after the bits `bs`: `m` blocks written out,
`i` whole bytes and `r` bits in the block being filled. -/
structure PutInv (B : Nat) (s0 s : PutBuf) (bs : List Bool) (m i r : Nat) : Prop where
  len : bs.length = 8 * (B * m + i) + r
  hi : i < B
  hr : r < 8
  p_cnt : s.p_cnt = r
  pbuf_count : s.pbuf_count = i
  pbuf : s.pbuf = i
  nbytes : s.nbytes_out = s0.nbytes_out + B * m
  written : s.written = s0.written ++ (List.range m).map (block_of B bs)
  buf : ∀ j, j < B → s.buf j = byte_of bs (B * m + j)

/-- Modelled from the spec: the put buffer as `init_put_buffer` of the absent
gtbitio2.c leaves it, the block zero-filled, `pbuf` at `pbuf_start`, the counters
zero, nothing written. -/
def put_start : PutBuf :=
  { buf := fun _ => 0, pbuf := 0, p_cnt := 0, pbuf_count := 0, nbytes_out := 0, written := [] }

/-- The dictionary of the tree encoder that holds the pairs of a list, each with its
code, the codes counting up from `n`. -/
def tree_from : Nat → List (Nat × Nat) → List ((Nat × Nat) × Nat)
  | _, [] => []
  | n, q :: l => (q, n) :: tree_from (n + 1) l

/-- The globals of the tree encoder and of the hash encoder agree, and the two
dictionaries hold the same pairs under the same codes. -/
structure TreeRel (e : State) (t : TreeState) (dict : List (Nat × Nat)) : Prop where
  tdict : t.dict = tree_from START_LZW_CODE dict
  nodup : dict.Nodup
  psc : t.prefix_string_code = e.prefix_string_code
  cnt : t.lzw_code_cnt = e.lzw_code_cnt
  bits : t.bit_count = e.bit_count
  cm : t.code_max = e.code_max

theorem next_probe_lt (cfg : Config) {h d : Nat} (hh : h < cfg.hash_TABLE_SIZE)
    (_hd : d ≤ cfg.hash_TABLE_SIZE) : next_probe cfg h d < cfg.hash_TABLE_SIZE := by
  unfold next_probe
  split <;> omega

theorem probe_at_lt (cfg : Config) {d : Nat} (hd : d ≤ cfg.hash_TABLE_SIZE) :
    ∀ (i : Nat) {h : Nat}, h < cfg.hash_TABLE_SIZE → probe_at cfg d i h < cfg.hash_TABLE_SIZE
  | 0, _, hh => hh
  | i + 1, _, hh => probe_at_lt cfg hd i (next_probe_lt cfg hh hd)

theorem probe_at_succ (cfg : Config) (d : Nat) :
    ∀ (i h : Nat), probe_at cfg d (i + 1) h = next_probe cfg (probe_at cfg d i h) d
  | 0, _ => rfl
  | i + 1, h => by
    show probe_at cfg d (i + 1) (next_probe cfg h d) = _
    rw [probe_at_succ cfg d i]
    rfl

theorem next_probe_add (cfg : Config) {h d : Nat} (hd : d ≤ cfg.hash_TABLE_SIZE) :
    (next_probe cfg h d + d) % cfg.hash_TABLE_SIZE = h % cfg.hash_TABLE_SIZE := by
  unfold next_probe
  split
  · have : h + cfg.hash_TABLE_SIZE - d + d = h + cfg.hash_TABLE_SIZE := by omega
    rw [this, Nat.add_mod_right]
  · have : h - d + d = h := by omega
    rw [this]

theorem probe_at_add (cfg : Config) {d : Nat} (hd : d ≤ cfg.hash_TABLE_SIZE) :
    ∀ (i h : Nat), (probe_at cfg d i h + i * d) % cfg.hash_TABLE_SIZE = h % cfg.hash_TABLE_SIZE
  | 0, h => by simp [probe_at]
  | i + 1, h => by
    have ih := probe_at_add cfg hd i (next_probe cfg h d)
    show (probe_at cfg d i (next_probe cfg h d) + (i + 1) * d) % _ = _
    have e : probe_at cfg d i (next_probe cfg h d) + (i + 1) * d
        = (probe_at cfg d i (next_probe cfg h d) + i * d) + d := by ring
    rw [e, Nat.add_mod, ih, ← Nat.add_mod, next_probe_add cfg hd]

theorem probe_at_inj (cfg : Config) {d h : Nat} (hp : cfg.hash_TABLE_SIZE.Prime)
    (hd0 : 0 < d) (hd : d < cfg.hash_TABLE_SIZE) {i j : Nat}
    (hi : i < cfg.hash_TABLE_SIZE) (hj : j < cfg.hash_TABLE_SIZE)
    (e : probe_at cfg d i h = probe_at cfg d j h) : i = j := by
  wlog hij : i ≤ j generalizing i j
  · exact (this hj hi e.symm (by omega)).symm
  have h1 := probe_at_add cfg hd.le i h
  have h2 := probe_at_add cfg hd.le j h
  rw [e] at h1
  have h3 : (probe_at cfg d j h + j * d) ≡ (probe_at cfg d j h + i * d) [MOD cfg.hash_TABLE_SIZE] :=
    h2.trans h1.symm
  have h4 : j * d ≡ i * d [MOD cfg.hash_TABLE_SIZE] := Nat.ModEq.add_left_cancel' _ h3
  have h5 : cfg.hash_TABLE_SIZE ∣ j * d - i * d := (Nat.modEq_iff_dvd' (Nat.mul_le_mul_right d hij)).mp h4.symm
  rw [← Nat.sub_mul] at h5
  rcases (Nat.Prime.dvd_mul hp).mp h5 with h6 | h6
  · by_contra hne
    have : cfg.hash_TABLE_SIZE ≤ j - i := Nat.le_of_dvd (by omega) h6
    omega
  · have : cfg.hash_TABLE_SIZE ≤ d := Nat.le_of_dvd hd0 h6
    omega

theorem probe_at_surj (cfg : Config) {d h : Nat} (hp : cfg.hash_TABLE_SIZE.Prime)
    (hd0 : 0 < d) (hd : d < cfg.hash_TABLE_SIZE) (hh : h < cfg.hash_TABLE_SIZE)
    {e : Nat} (he : e < cfg.hash_TABLE_SIZE) :
    ∃ i, i < cfg.hash_TABLE_SIZE ∧ probe_at cfg d i h = e := by
  let f : Fin cfg.hash_TABLE_SIZE → Fin cfg.hash_TABLE_SIZE :=
    fun i => ⟨probe_at cfg d i.1 h, probe_at_lt cfg hd.le i.1 hh⟩
  have finj : Function.Injective f := by
    intro a b hab
    apply Fin.ext
    exact probe_at_inj cfg hp hd0 hd a.2 b.2 (Fin.mk.inj_iff.mp hab)
  have fsurj : Function.Surjective f := Finite.injective_iff_surjective.mp finj
  obtain ⟨i, hi⟩ := fsurj ⟨e, he⟩
  exact ⟨i.1, i.2, Fin.mk.inj_iff.mp hi⟩

theorem no_small_factor_spec (n : Nat) :
    ∀ f, no_small_factor n f = true → ∀ k, 2 ≤ k → k ≤ f + 1 → ¬ k ∣ n
  | 0, _, k, h2, hk => by omega
  | f + 1, h, k, h2, hk => by
    simp only [no_small_factor, Bool.and_eq_true, bne_iff_ne, ne_eq] at h
    rcases Nat.lt_or_eq_of_le hk with hlt | heq
    · exact no_small_factor_spec n f h.2 k h2 (by omega)
    · subst heq
      intro hd
      exact h.1 (Nat.mod_eq_zero_of_dvd hd)

theorem prime_of_no_small_factor (n f : Nat) (h2 : 2 ≤ n) (hf : n < (f + 2) * (f + 2))
    (h : no_small_factor n f = true) : n.Prime := by
  rw [Nat.prime_def_le_sqrt]
  refine ⟨h2, fun m hm2 hms => no_small_factor_spec n f h m hm2 ?_⟩
  have : m * m ≤ n := Nat.le_sqrt.mp hms
  by_contra hcon
  have h3 : f + 2 ≤ m := by omega
  have : (f + 2) * (f + 2) ≤ m * m := Nat.mul_le_mul h3 h3
  omega

theorem select_trial (N : Nat) (h1 : 12 ≤ N) (h2 : N ≤ 28) :
    ∃ f, 2 ≤ select_hash_TABLE_SIZE N ∧
      select_hash_TABLE_SIZE N < (f + 2) * (f + 2) ∧
      no_small_factor (select_hash_TABLE_SIZE N) f = true ∧
      2 ^ N < select_hash_TABLE_SIZE N := by
  interval_cases N
  · exact ⟨69, by decide!⟩
  · exact ⟨98, by decide!⟩
  · exact ⟨133, by decide!⟩
  · exact ⟨186, by decide!⟩
  · exact ⟨261, by decide!⟩
  · exact ⟨366, by decide!⟩
  · exact ⟨528, by decide!⟩
  · exact ⟨733, by decide!⟩
  · exact ⟨1117, by decide!⟩
  · exact ⟨1467, by decide!⟩
  · exact ⟨2054, by decide!⟩
  · exact ⟨2914, by decide!⟩
  · exact ⟨4097, by decide!⟩
  · exact ⟨5792, by decide!⟩
  · exact ⟨8192, by decide!⟩
  · exact ⟨11585, by decide!⟩
  · exact ⟨16384, by decide!⟩

theorem select_prime (N : Nat) (h1 : 12 ≤ N) (h2 : N ≤ 28) :
    (select_hash_TABLE_SIZE N).Prime ∧ 2 ^ N < select_hash_TABLE_SIZE N := by
  obtain ⟨f, h2', hf, hno, hgt⟩ := select_trial N h1 h2
  exact ⟨prime_of_no_small_factor _ f h2' hf hno, hgt⟩

theorem configure_valid (N r : Nat) (h1 : 12 ≤ N) (h2 : N ≤ 28) : (configure N r).Valid where
  bits_ge := h1
  bits_le := h2
  shift_eq := rfl
  code_MAX_eq := by simp [configure, Nat.one_shiftLeft]
  size_prime := (select_prime N h1 h2).1
  size_gt := by
    have := (select_prime N h1 h2).2
    simpa [configure, Nat.one_shiftLeft] using this

theorem hash_index_lt_code_MAX {cfg : Config} (hv : cfg.Valid) {p c : Nat}
    (hp : p < cfg.code_MAX) (hc : c < 256) : hash_index cfg p c < cfg.code_MAX := by
  unfold hash_index
  rw [hv.code_MAX_eq] at hp ⊢
  apply Nat.xor_lt_two_pow _ hp
  rw [Nat.shiftLeft_eq, hv.shift_eq]
  have h8 := hv.bits_ge
  have : 2 ^ cfg.code_max_bits = 256 * 2 ^ (cfg.code_max_bits - 8) := by
    rw [show (256 : Nat) = 2 ^ 8 by norm_num, ← pow_add]
    congr 1
    omega
  rw [this]
  exact Nat.mul_lt_mul_of_pos_right hc (by positivity)

theorem hash_index_lt {cfg : Config} (hv : cfg.Valid) {p c : Nat}
    (hp : p < cfg.code_MAX) (hc : c < 256) : hash_index cfg p c < cfg.hash_TABLE_SIZE :=
  lt_trans (hash_index_lt_code_MAX hv hp hc) hv.size_gt

theorem displacement_pos {cfg : Config} {h : Nat} (hh : h < cfg.hash_TABLE_SIZE) :
    0 < displacement cfg h := by
  unfold displacement
  split <;> omega

theorem displacement_lt {cfg : Config} (hv : cfg.Valid) {h : Nat} :
    displacement cfg h < cfg.hash_TABLE_SIZE := by
  unfold displacement
  have := hv.size_prime.two_le
  split <;> omega

theorem probe_path_lt {cfg : Config} (hv : cfg.Valid) {p c : Nat}
    (hp : p < cfg.code_MAX) (hc : c < 256) (i : Nat) :
    probe_path cfg p c i < cfg.hash_TABLE_SIZE :=
  probe_at_lt cfg (displacement_lt hv).le i (hash_index_lt hv hp hc)

theorem probe_path_surj {cfg : Config} (hv : cfg.Valid) {p c : Nat}
    (hp : p < cfg.code_MAX) (hc : c < 256) {e : Nat} (he : e < cfg.hash_TABLE_SIZE) :
    ∃ i, i < cfg.hash_TABLE_SIZE ∧ probe_path cfg p c i = e :=
  probe_at_surj cfg hv.size_prime (displacement_pos (hash_index_lt hv hp hc))
    (displacement_lt hv) (hash_index_lt hv hp hc) he

theorem insert_probe_eq (cfg : Config) (s : State) (p c d : Nat) :
    ∀ (fuel h i : Nat), i < fuel → s.code (probe_at cfg d i h) = LZW_NULL →
      (∀ j, j < i → s.code (probe_at cfg d j h) ≠ LZW_NULL) →
      insert_probe cfg s p c d fuel h = some (stored_at s (probe_at cfg d i h) p c)
  | 0, _, _, hi, _, _ => absurd hi (Nat.not_lt_zero _)
  | fuel + 1, h, 0, _, he, _ => by
    simp only [probe_at] at he
    simp [insert_probe, he, stored_at, probe_at]
  | fuel + 1, h, i + 1, hi, he, hne => by
    have h0 : s.code h ≠ LZW_NULL := hne 0 (Nat.succ_pos _)
    simp only [insert_probe, h0, if_false]
    exact insert_probe_eq cfg s p c d fuel (next_probe cfg h d) i (by omega) he
      (fun j hj => hne (j + 1) (by omega))

theorem search_probe_miss (cfg : Config) (s : State) (p c d : Nat) :
    ∀ (fuel h i : Nat), i < fuel → s.code (probe_at cfg d i h) = LZW_NULL →
      (∀ j, j < i → s.code (probe_at cfg d j h) ≠ LZW_NULL ∧
        ¬ (s.prefix_tab (probe_at cfg d j h) = p ∧ s.character (probe_at cfg d j h) = c)) →
      search_probe cfg s p c d fuel h = some (0, s)
  | 0, _, _, hi, _, _ => absurd hi (Nat.not_lt_zero _)
  | fuel + 1, h, 0, _, he, _ => by
    simp only [probe_at] at he
    simp [search_probe, he]
  | fuel + 1, h, i + 1, hi, he, hne => by
    have h0 := hne 0 (Nat.succ_pos _)
    simp only [probe_at] at h0
    simp only [search_probe, h0.1, h0.2, if_false]
    exact search_probe_miss cfg s p c d fuel (next_probe cfg h d) i (by omega) he
      (fun j hj => hne (j + 1) (by omega))

theorem search_probe_hit (cfg : Config) (s : State) (p c d : Nat) :
    ∀ (fuel h i : Nat), i < fuel → s.code (probe_at cfg d i h) ≠ LZW_NULL →
      (s.prefix_tab (probe_at cfg d i h) = p ∧ s.character (probe_at cfg d i h) = c) →
      (∀ j, j < i → s.code (probe_at cfg d j h) ≠ LZW_NULL ∧
        ¬ (s.prefix_tab (probe_at cfg d j h) = p ∧ s.character (probe_at cfg d j h) = c)) →
      search_probe cfg s p c d fuel h
        = some (1, { s with prefix_string_code := s.code (probe_at cfg d i h) })
  | 0, _, _, hi, _, _, _ => absurd hi (Nat.not_lt_zero _)
  | fuel + 1, h, 0, _, he, hm, _ => by
    simp only [probe_at] at he hm
    simp [search_probe, he, hm, probe_at]
  | fuel + 1, h, i + 1, hi, he, hm, hne => by
    have h0 := hne 0 (Nat.succ_pos _)
    simp only [probe_at] at h0
    simp only [search_probe, h0.1, h0.2, if_false]
    exact search_probe_hit cfg s p c d fuel (next_probe cfg h d) i (by omega) he hm
      (fun j hj => hne (j + 1) (by omega))

theorem exists_open_slot {cfg : Config} {s : State}
    (hocc : occ_count cfg s < cfg.hash_TABLE_SIZE) :
    ∃ e, e < cfg.hash_TABLE_SIZE ∧ s.code e = LZW_NULL := by
  by_contra hcon
  push_neg at hcon
  have : (Finset.range cfg.hash_TABLE_SIZE).filter (fun h => s.code h ≠ LZW_NULL)
      = Finset.range cfg.hash_TABLE_SIZE := by
    apply Finset.filter_true_of_mem
    intro h hh
    exact hcon h (Finset.mem_range.mp hh)
  unfold occ_count at hocc
  rw [this, Finset.card_range] at hocc
  exact lt_irrefl _ hocc

/-- The probe loop of `insert_stringENC` stores at the first open slot of the probe path. -/
theorem insert_stringENC_eq {cfg : Config} (hv : cfg.Valid) {s : State} {p c : Nat}
    (hp : p < cfg.code_MAX) (hc : c < 256) (hocc : occ_count cfg s < cfg.hash_TABLE_SIZE) :
    ∃ i, i < cfg.hash_TABLE_SIZE ∧ s.code (probe_path cfg p c i) = LZW_NULL ∧
      (∀ j, j < i → s.code (probe_path cfg p c j) ≠ LZW_NULL) ∧
      insert_stringENC cfg s p c = some (stored_at s (probe_path cfg p c i) p c) := by
  obtain ⟨e, he, hnull⟩ := exists_open_slot hocc
  obtain ⟨i0, hi0, hpi0⟩ := probe_path_surj hv hp hc he
  have hex : ∃ i, i < cfg.hash_TABLE_SIZE ∧ s.code (probe_path cfg p c i) = LZW_NULL :=
    ⟨i0, hi0, by rw [hpi0]; exact hnull⟩
  classical
  let i := Nat.find hex
  have hi : i < cfg.hash_TABLE_SIZE ∧ s.code (probe_path cfg p c i) = LZW_NULL := Nat.find_spec hex
  have hmin : ∀ j, j < i → s.code (probe_path cfg p c j) ≠ LZW_NULL := by
    intro j hj hcon
    exact Nat.find_min hex hj ⟨lt_trans hj hi.1, hcon⟩
  refine ⟨i, hi.1, hi.2, hmin, ?_⟩
  unfold insert_stringENC
  simp only [not_le.mpr (hash_index_lt hv hp hc), if_false]
  exact insert_probe_eq cfg s p c _ _ _ i hi.1 hi.2 hmin

theorem exists_least {P : Nat → Prop} (h : ∃ i, P i) : ∃ i, P i ∧ ∀ j, j < i → ¬ P j := by
  classical
  exact ⟨Nat.find h, Nat.find_spec h, fun j hj => Nat.find_min h hj⟩

theorem search_string_terminates {cfg : Config} (hv : cfg.Valid) {s : State} {p c : Nat}
    (hp : p < cfg.code_MAX) (hc : c < 256) (hocc : occ_count cfg s < cfg.hash_TABLE_SIZE) :
    ∃ r, search_string cfg s p c = some r := by
  obtain ⟨e, he, hnull⟩ := exists_open_slot hocc
  obtain ⟨i0, hi0, hpi0⟩ := probe_path_surj hv hp hc he
  have hex : ∃ i, i < cfg.hash_TABLE_SIZE ∧ (s.code (probe_path cfg p c i) = LZW_NULL ∨
      (s.prefix_tab (probe_path cfg p c i) = p ∧ s.character (probe_path cfg p c i) = c)) :=
    ⟨i0, hi0, Or.inl (by rw [hpi0]; exact hnull)⟩
  obtain ⟨i, hi, hleast⟩ := exists_least hex
  have hmin : ∀ j, j < i → s.code (probe_path cfg p c j) ≠ LZW_NULL ∧
      ¬ (s.prefix_tab (probe_path cfg p c j) = p ∧ s.character (probe_path cfg p c j) = c) := by
    intro j hj
    have := hleast j hj
    push_neg at this
    have h2 := this (lt_trans hj hi.1)
    exact ⟨h2.1, fun hm => h2.2 hm.1 hm.2⟩
  unfold search_string
  simp only [not_le.mpr (hash_index_lt hv hp hc), if_false]
  by_cases hnul : s.code (probe_path cfg p c i) = LZW_NULL
  · exact ⟨_, search_probe_miss cfg s p c _ _ _ i hi.1 hnul hmin⟩
  · have hm := hi.2.resolve_left hnul
    exact ⟨_, search_probe_hit cfg s p c _ _ _ i hi.1 hnul hm hmin⟩

/-- No false negative: a stored pair is found, with the code of a slot that holds it. -/
theorem search_string_hit {cfg : Config} (hv : cfg.Valid) {s : State} (ht : TableInv cfg s)
    {p c : Nat} (hp : p < cfg.code_MAX) (hc : c < 256)
    (hex : ∃ h, h < cfg.hash_TABLE_SIZE ∧ s.code h ≠ LZW_NULL ∧
      s.prefix_tab h = p ∧ s.character h = c) :
    ∃ h, h < cfg.hash_TABLE_SIZE ∧ s.code h ≠ LZW_NULL ∧ s.prefix_tab h = p ∧
      s.character h = c ∧
      search_string cfg s p c = some (1, { s with prefix_string_code := s.code h }) := by
  obtain ⟨h0, hh0, hocc0, hp0, hc0⟩ := hex
  obtain ⟨i0, hi0, hpath, hbefore⟩ := ht.reach h0 hh0 hocc0
  rw [hp0, hc0] at hpath hbefore
  have hex2 : ∃ i, i < cfg.hash_TABLE_SIZE ∧
      (s.prefix_tab (probe_path cfg p c i) = p ∧ s.character (probe_path cfg p c i) = c) :=
    ⟨i0, hi0, by rw [hpath]; exact ⟨hp0, hc0⟩⟩
  obtain ⟨i, hi, hleast⟩ := exists_least hex2
  have hle : i ≤ i0 := by
    by_contra hcon
    exact hleast i0 (not_le.mp hcon) ⟨hi0, by rw [hpath]; exact ⟨hp0, hc0⟩⟩
  have hocc : s.code (probe_path cfg p c i) ≠ LZW_NULL := by
    rcases Nat.lt_or_eq_of_le hle with hlt | heq
    · exact hbefore i hlt
    · rw [heq, hpath]; exact hocc0
  have hmin : ∀ j, j < i → s.code (probe_path cfg p c j) ≠ LZW_NULL ∧
      ¬ (s.prefix_tab (probe_path cfg p c j) = p ∧ s.character (probe_path cfg p c j) = c) := by
    intro j hj
    refine ⟨hbefore j (lt_of_lt_of_le hj hle), fun hm => ?_⟩
    exact hleast j hj ⟨lt_trans hj hi.1, hm⟩
  refine ⟨probe_path cfg p c i, probe_path_lt hv hp hc i, hocc, hi.2.1, hi.2.2, ?_⟩
  unfold search_string
  simp only [not_le.mpr (hash_index_lt hv hp hc), if_false]
  exact search_probe_hit cfg s p c _ _ _ i hi.1 hocc hi.2 hmin

/-- No false positive: a pair that no slot holds is reported absent, and nothing changes. -/
theorem search_string_miss {cfg : Config} (hv : cfg.Valid) {s : State}
    {p c : Nat} (hp : p < cfg.code_MAX) (hc : c < 256)
    (hocc : occ_count cfg s < cfg.hash_TABLE_SIZE)
    (hno : ∀ h, h < cfg.hash_TABLE_SIZE → s.code h ≠ LZW_NULL →
      ¬ (s.prefix_tab h = p ∧ s.character h = c)) :
    search_string cfg s p c = some (0, s) := by
  obtain ⟨e, he, hnull⟩ := exists_open_slot hocc
  obtain ⟨i0, hi0, hpi0⟩ := probe_path_surj hv hp hc he
  have hex : ∃ i, i < cfg.hash_TABLE_SIZE ∧ s.code (probe_path cfg p c i) = LZW_NULL :=
    ⟨i0, hi0, by rw [hpi0]; exact hnull⟩
  obtain ⟨i, hi, hleast⟩ := exists_least hex
  have hmin : ∀ j, j < i → s.code (probe_path cfg p c j) ≠ LZW_NULL ∧
      ¬ (s.prefix_tab (probe_path cfg p c j) = p ∧ s.character (probe_path cfg p c j) = c) := by
    intro j hj
    have h1 : s.code (probe_path cfg p c j) ≠ LZW_NULL :=
      fun hcon => hleast j hj ⟨lt_trans hj hi.1, hcon⟩
    exact ⟨h1, hno _ (probe_path_lt hv hp hc j) h1⟩
  unfold search_string
  simp only [not_le.mpr (hash_index_lt hv hp hc), if_false]
  exact search_probe_miss cfg s p c _ _ _ i hi.1 hi.2 hmin

theorem stored_at_code (s : State) (h p c : Nat) :
    (stored_at s h p c).code = store s.code h s.lzw_code_cnt := rfl

theorem store_same (a : Nat → Nat) (i v : Nat) : store a i v i = v := by simp [store]

theorem store_other (a : Nat → Nat) {i j : Nat} (v : Nat) (h : j ≠ i) : store a i v j = a j := by
  simp [store, h]

/-- Storing a pair at the first open slot of its probe path keeps the table searchable. -/
theorem TableInv_stored_at {cfg : Config} {s : State} (ht : TableInv cfg s) {p c i : Nat}
    (hi : i < cfg.hash_TABLE_SIZE)
    (hmin : ∀ j, j < i → s.code (probe_path cfg p c j) ≠ LZW_NULL)
    (hcnt : s.lzw_code_cnt ≠ LZW_NULL) :
    TableInv cfg (stored_at s (probe_path cfg p c i) p c) := by
  have hmono : ∀ x, s.code x ≠ LZW_NULL →
      (stored_at s (probe_path cfg p c i) p c).code x ≠ LZW_NULL := by
    intro x hx
    show store s.code _ _ x ≠ _
    by_cases hxe : x = probe_path cfg p c i
    · rw [hxe, store_same]; exact hcnt
    · rw [store_other _ _ hxe]; exact hx
  constructor
  intro h hh hocc
  by_cases hxe : h = probe_path cfg p c i
  · subst hxe
    refine ⟨i, hi, ?_, ?_⟩
    · simp [stored_at, store_same]
    · intro j hj
      simp only [stored_at, store_same]
      exact hmono _ (hmin j hj)
  · have hocc' : s.code h ≠ LZW_NULL := by
      have : (stored_at s (probe_path cfg p c i) p c).code h = s.code h := store_other _ _ hxe
      rw [← this]; exact hocc
    obtain ⟨i1, hi1, hpath, hbefore⟩ := ht.reach h hh hocc'
    have e1 : (stored_at s (probe_path cfg p c i) p c).prefix_tab h = s.prefix_tab h :=
      store_other _ _ hxe
    have e2 : (stored_at s (probe_path cfg p c i) p c).character h = s.character h :=
      store_other _ _ hxe
    rw [e1, e2]
    exact ⟨i1, hi1, hpath, fun j hj => hmono _ (hbefore j hj)⟩

theorem occ_count_stored_at {cfg : Config} {s : State} {h p c : Nat}
    (hh : h < cfg.hash_TABLE_SIZE) (hopen : s.code h = LZW_NULL)
    (hcnt : s.lzw_code_cnt ≠ LZW_NULL) :
    occ_count cfg (stored_at s h p c) = occ_count cfg s + 1 := by
  unfold occ_count
  have : (Finset.range cfg.hash_TABLE_SIZE).filter
      (fun x => (stored_at s h p c).code x ≠ LZW_NULL)
      = insert h ((Finset.range cfg.hash_TABLE_SIZE).filter (fun x => s.code x ≠ LZW_NULL)) := by
    ext x
    simp only [Finset.mem_filter, Finset.mem_range, Finset.mem_insert, stored_at_code]
    by_cases hxe : x = h
    · subst hxe
      simp [store_same, hcnt, hh]
    · simp [store_other _ _ hxe, hxe]
  rw [this, Finset.card_insert_of_not_mem]
  simp [hopen]

theorem TableInv_init (cfg : Config) (s : State) : TableInv cfg (init_code_table cfg s) := by
  constructor
  intro h hh hocc
  exfalso
  apply hocc
  simp [init_code_table, hh]

theorem occ_count_init (cfg : Config) (s : State) : occ_count cfg (init_code_table cfg s) = 0 := by
  unfold occ_count
  rw [Finset.card_eq_zero, Finset.filter_eq_empty_iff]
  intro h hh
  simp [init_code_table, Finset.mem_range.mp hh]

theorem Holds_init (cfg : Config) (mem : State) : Holds cfg (init_code_table cfg mem) [] where
  inv := TableInv_init cfg mem
  count := occ_count_init cfg mem
  slot := fun h hh hocc => by
    exfalso; apply hocc; simp [init_code_table, hh]
  has := fun i p c hi => by simp at hi

/-- `Holds` looks at the three arrays only. -/
theorem Holds_congr {cfg : Config} {s t : State} {done : List (Nat × Nat)}
    (H : Holds cfg s done) (h1 : t.code = s.code) (h2 : t.prefix_tab = s.prefix_tab)
    (h3 : t.character = s.character) : Holds cfg t done where
  inv := ⟨fun h hh ho => by
    rw [h1] at ho
    rw [h1, h2, h3]
    exact H.inv.reach h hh ho⟩
  count := by
    rw [← H.count]; unfold occ_count; rw [h1]
  slot := fun h hh ho => by
    rw [h1] at ho
    rw [h1, h2, h3]
    exact H.slot h hh ho
  has := fun i p c hi => by
    rw [h1, h2, h3]
    exact H.has i p c hi

theorem Holds_insert {cfg : Config} (hv : cfg.Valid) {s : State} {done : List (Nat × Nat)}
    (H : Holds cfg s done) {p c : Nat} (hp : p < cfg.code_MAX) (hc : c < 256)
    (hcnt : s.lzw_code_cnt = START_LZW_CODE + done.length)
    (hlen : done.length < cfg.code_MAX - 257) :
    ∃ h, h < cfg.hash_TABLE_SIZE ∧ s.code h = LZW_NULL ∧
      insert_stringENC cfg s p c = some (stored_at s h p c) ∧
      Holds cfg (stored_at s h p c) (done ++ [(p, c)]) := by
  have hocc : occ_count cfg s < cfg.hash_TABLE_SIZE := by
    rw [H.count]; have := hv.size_gt; omega
  obtain ⟨i, hi, hopen, hmin, heq⟩ := insert_stringENC_eq hv hp hc hocc
  have hne : s.lzw_code_cnt ≠ LZW_NULL := by
    rw [hcnt]; simp only [START_LZW_CODE, LZW_NULL]; omega
  have hslot := probe_path_lt hv hp hc i
  refine ⟨_, hslot, hopen, heq, ?_⟩
  constructor
  · exact TableInv_stored_at H.inv hi hmin hne
  · have := occ_count_stored_at (p := p) (c := c) hslot hopen hne
    simp only [List.length_append, List.length_singleton, ← H.count]
    exact this
  · intro h hh ho
    by_cases hxe : h = probe_path cfg p c i
    · subst hxe
      refine ⟨done.length, ?_, ?_⟩
      · simp [stored_at, store_same, hcnt]
      · simp [stored_at, store_same]
    · have e0 : (stored_at s (probe_path cfg p c i) p c).code h = s.code h := store_other _ _ hxe
      have e1 : (stored_at s (probe_path cfg p c i) p c).prefix_tab h = s.prefix_tab h :=
        store_other _ _ hxe
      have e2 : (stored_at s (probe_path cfg p c i) p c).character h = s.character h :=
        store_other _ _ hxe
      rw [e0, e1, e2]
      have ho' : s.code h ≠ LZW_NULL := by rw [← e0]; exact ho
      obtain ⟨k, hk1, hk2⟩ := H.slot h hh ho'
      refine ⟨k, hk1, ?_⟩
      have hk : k < done.length := by
        by_contra hcon
        rw [List.getElem?_eq_none (not_lt.mp hcon)] at hk2
        exact Option.noConfusion hk2
      rw [List.getElem?_append_left hk]
      exact hk2
  · intro k p' c' hk
    by_cases hkd : k < done.length
    · rw [List.getElem?_append_left hkd] at hk
      obtain ⟨h, hh, h1, h2, h3⟩ := H.has k p' c' hk
      have hxe : h ≠ probe_path cfg p c i := by
        intro hcon
        rw [hcon, hopen] at h1
        simp only [LZW_NULL, START_LZW_CODE] at h1
        omega
      refine ⟨h, hh, ?_, ?_, ?_⟩
      · rw [show (stored_at s (probe_path cfg p c i) p c).code h = s.code h from
          store_other _ _ hxe]
        exact h1
      · rw [show (stored_at s (probe_path cfg p c i) p c).prefix_tab h = s.prefix_tab h from
          store_other _ _ hxe]
        exact h2
      · rw [show (stored_at s (probe_path cfg p c i) p c).character h = s.character h from
          store_other _ _ hxe]
        exact h3
    · have hk' : k = done.length := by
        by_contra hcon
        have : done.length + 1 ≤ k := by omega
        rw [List.getElem?_eq_none (by simp; omega)] at hk
        exact Option.noConfusion hk
      subst hk'
      rw [List.getElem?_append_right (le_refl _)] at hk
      simp at hk
      refine ⟨probe_path cfg p c i, hslot, ?_, ?_, ?_⟩
      · simp [stored_at, store_same, hcnt]
      · simp [stored_at, store_same, hk.1]
      · simp [stored_at, store_same, hk.2]

theorem insert_all_holds {cfg : Config} (hv : cfg.Valid) :
    ∀ (rest done : List (Nat × Nat)) (s : State), Holds cfg s done →
      s.lzw_code_cnt = START_LZW_CODE + done.length →
      (done ++ rest).length ≤ cfg.code_MAX - 257 →
      (∀ q ∈ rest, q.1 < cfg.code_MAX ∧ q.2 < 256) →
      ∃ s1, insert_all cfg s rest = some s1 ∧ Holds cfg s1 (done ++ rest)
  | [], done, s, H, _, _, _ => ⟨s, rfl, by simpa using H⟩
  | q :: rest, done, s, H, hcnt, hlen, hb => by
    have hq := hb q (List.mem_cons_self _ _)
    have hlen1 : done.length < cfg.code_MAX - 257 := by
      simp only [List.length_append, List.length_cons] at hlen; omega
    obtain ⟨h, _, _, h1, H1⟩ := Holds_insert hv H hq.1 hq.2 hcnt hlen1
    have hlen2 : ((done ++ [(q.1, q.2)]) ++ rest).length ≤ cfg.code_MAX - 257 := by
      simp only [List.length_append, List.length_cons, List.length_singleton,
        List.length_nil] at hlen ⊢
      omega
    have H1' : Holds cfg { stored_at s h q.1 q.2 with
        lzw_code_cnt := (stored_at s h q.1 q.2).lzw_code_cnt + 1 } (done ++ [(q.1, q.2)]) :=
      Holds_congr H1 rfl rfl rfl
    obtain ⟨s2, h2, H2⟩ := insert_all_holds hv rest (done ++ [(q.1, q.2)]) _ H1'
      (by simp [stored_at, hcnt, Nat.add_assoc]) hlen2
      (fun x hx => hb x (List.mem_cons_of_mem _ hx))
    refine ⟨s2, ?_, ?_⟩
    · simp only [insert_all, h1]
      exact h2
    · simpa using H2

theorem Holds_search {cfg : Config} (hv : cfg.Valid) {s : State} {pairs : List (Nat × Nat)}
    (H : Holds cfg s pairs) (hlen : pairs.length ≤ cfg.code_MAX - 257)
    {p c : Nat} (hp : p < cfg.code_MAX) (hc : c < 256) :
    (∀ i : Nat, pairs[i]? = some (p, c) → ∃ j : Nat, pairs[j]? = some (p, c) ∧
        search_string cfg s p c = some (1, { s with prefix_string_code := START_LZW_CODE + j })) ∧
    ((p, c) ∉ pairs → search_string cfg s p c = some (0, s)) := by
  have hocc : occ_count cfg s < cfg.hash_TABLE_SIZE := by
    rw [H.count]; have := hv.size_gt; omega
  constructor
  · intro i hget
    obtain ⟨h, hh, h1, h2, h3⟩ := H.has i p c hget
    have hocc1 : s.code h ≠ LZW_NULL := by rw [h1]; simp only [LZW_NULL, START_LZW_CODE]; omega
    obtain ⟨h', hh', ho', hp', hc', hs⟩ := search_string_hit hv H.inv hp hc
      ⟨h, hh, hocc1, h2, h3⟩
    obtain ⟨k, hk1, hk2⟩ := H.slot h' hh' ho'
    rw [hp', hc'] at hk2
    exact ⟨k, hk2, by rw [hs, hk1]⟩
  · intro hnot
    apply search_string_miss hv hp hc hocc
    intro h hh ho hm
    obtain ⟨k, _, hk2⟩ := H.slot h hh ho
    rw [hm.1, hm.2] at hk2
    exact hnot (List.getElem?_mem hk2)

theorem nodup_index_unique {pairs : List (Nat × Nat)} (hnd : pairs.Nodup) {i j : Nat}
    {q : Nat × Nat} (hi : pairs[i]? = some q) (hj : pairs[j]? = some q) : i = j := by
  obtain ⟨hi1, hi2⟩ := List.getElem?_eq_some.mp hi
  obtain ⟨hj1, hj2⟩ := List.getElem?_eq_some.mp hj
  exact (List.Nodup.getElem_inj_iff hnd).mp (hi2.trans hj2.symm)

/-- C4: hash lookup correctness. In a table built from `init_code_table` by at most
`CODE_MAX - 257` calls of `insert_stringENC` on pairwise distinct pairs (prefix code below
`CODE_MAX`, byte) under the codes 257, 258, ..., all the calls store, and `search_string`
returns 1 and sets `prefix_string_code` to `257 + i` for the `i`-th pair, and returns 0
and leaves every global as it was for a pair that was never inserted. -/
theorem search_string_correct (N r : Nat) (mem : State) (pairs : List (Nat × Nat))
    (hN : 12 ≤ N ∧ N ≤ 28) (hnd : pairs.Nodup) (hlen : pairs.length ≤ 2 ^ N - 257)
    (hb : ∀ q ∈ pairs, q.1 < 2 ^ N ∧ q.2 < 256) :
    ∃ s, insert_all (configure N r)
        { init_code_table (configure N r) mem with lzw_code_cnt := START_LZW_CODE } pairs
          = some s ∧
      ∀ p c, p < 2 ^ N → c < 256 →
        (∀ i : Nat, pairs[i]? = some (p, c) →
          search_string (configure N r) s p c
            = some (1, { s with prefix_string_code := 257 + i })) ∧
        ((p, c) ∉ pairs → search_string (configure N r) s p c = some (0, s)) := by
  have hv := configure_valid N r hN.1 hN.2
  have hcm : (configure N r).code_MAX = 2 ^ N := hv.code_MAX_eq
  obtain ⟨s, hs, H⟩ := insert_all_holds hv pairs []
    { init_code_table (configure N r) mem with lzw_code_cnt := START_LZW_CODE }
    (Holds_congr (Holds_init (configure N r) mem) rfl rfl rfl) rfl
    (by rw [hcm]; simpa using hlen) (by rw [hcm]; exact hb)
  refine ⟨s, hs, fun p c hp hc => ?_⟩
  rw [List.nil_append] at H
  have hsearch := Holds_search hv H (by rw [hcm]; exact hlen) (by rw [hcm]; exact hp) hc
  refine ⟨fun i hi => ?_, hsearch.2⟩
  obtain ⟨j, hj, hs⟩ := hsearch.1 i hi
  rw [hs, nodup_index_unique hnd hi hj]
  rfl

/-- C4 witness: one pair inserted for a dictionary of 12 bits. -/
theorem search_string_correct_witness :
    ∃ s, insert_all (configure 12 1)
        { init_code_table (configure 12 1) (initial_state (fun _ => 0) (fun _ => 0) (fun _ => 0))
            with lzw_code_cnt := START_LZW_CODE } [(65, 66)]
          = some s ∧
      ∀ p c, p < 2 ^ 12 → c < 256 →
        (∀ i : Nat, [(65, 66)][i]? = some (p, c) →
          search_string (configure 12 1) s p c
            = some (1, { s with prefix_string_code := 257 + i })) ∧
        ((p, c) ∉ [(65, 66)] → search_string (configure 12 1) s p c = some (0, s)) :=
  search_string_correct 12 1 (initial_state (fun _ => 0) (fun _ => 0) (fun _ => 0)) [(65, 66)]
    (by decide) (by decide) (by decide) (by decide)

/-- C5: hash probe termination. For a dictionary size in 12..28, a table that holds at most
`CODE_MAX - 257` codes, a prefix code below `CODE_MAX` and a byte, the probe loop of
`insert_stringENC` ends by storing into a slot that held the sentinel 256, and the probe
loop of `search_string` ends with a result. -/
theorem probe_loops_terminate (N r : Nat) (s : State) (p c : Nat)
    (hN : 12 ≤ N ∧ N ≤ 28) (hocc : occ_count (configure N r) s ≤ 2 ^ N - 257)
    (hp : p < 2 ^ N) (hc : c < 256) :
    (∃ h, h < (configure N r).hash_TABLE_SIZE ∧ s.code h = LZW_NULL ∧
      insert_stringENC (configure N r) s p c = some { s with
        code := store s.code h s.lzw_code_cnt
        prefix_tab := store s.prefix_tab h p
        character := store s.character h c }) ∧
    (∃ res, search_string (configure N r) s p c = some res) := by
  have hv := configure_valid N r hN.1 hN.2
  have hcm : (configure N r).code_MAX = 2 ^ N := hv.code_MAX_eq
  have hlt : occ_count (configure N r) s < (configure N r).hash_TABLE_SIZE := by
    have := hv.size_gt; rw [hcm] at this; omega
  constructor
  · obtain ⟨i, _, hopen, _, heq⟩ := insert_stringENC_eq hv (by rw [hcm]; exact hp) hc hlt
    exact ⟨_, probe_path_lt hv (by rw [hcm]; exact hp) hc i, hopen, heq⟩
  · exact search_string_terminates hv (by rw [hcm]; exact hp) hc hlt

/-- C5 witness: the empty table of a 12-bit dictionary. -/
theorem probe_loops_terminate_witness :
    (∃ h, h < (configure 12 1).hash_TABLE_SIZE ∧
      (init_code_table (configure 12 1) (initial_state (fun _ => 0) (fun _ => 0) (fun _ => 0))).code h
        = LZW_NULL ∧
      insert_stringENC (configure 12 1)
        (init_code_table (configure 12 1) (initial_state (fun _ => 0) (fun _ => 0) (fun _ => 0)))
        65 66 = some
          { init_code_table (configure 12 1)
              (initial_state (fun _ => 0) (fun _ => 0) (fun _ => 0)) with
            code := store (init_code_table (configure 12 1)
              (initial_state (fun _ => 0) (fun _ => 0) (fun _ => 0))).code h
              (init_code_table (configure 12 1)
                (initial_state (fun _ => 0) (fun _ => 0) (fun _ => 0))).lzw_code_cnt
            prefix_tab := store (init_code_table (configure 12 1)
              (initial_state (fun _ => 0) (fun _ => 0) (fun _ => 0))).prefix_tab h 65
            character := store (init_code_table (configure 12 1)
              (initial_state (fun _ => 0) (fun _ => 0) (fun _ => 0))).character h 66 }) ∧
    (∃ res, search_string (configure 12 1)
      (init_code_table (configure 12 1) (initial_state (fun _ => 0) (fun _ => 0) (fun _ => 0)))
      65 66 = some res) :=
  probe_loops_terminate 12 1
    (init_code_table (configure 12 1) (initial_state (fun _ => 0) (fun _ => 0) (fun _ => 0)))
    65 66 (by decide)
    (by rw [occ_count_init]; exact Nat.zero_le _) (by decide) (by decide)

/-- C6: for every dictionary size in 12..28 the `hash_TABLE_SIZE` that the switch of
lzwz2.c selects is a prime number strictly greater than `2^code_max_bits`, and so is the
compile-time `HASH_TABLE_SIZE` of lzwhd.c for the sizes 12..16. -/
theorem hash_TABLE_SIZE_prime_gt (N : Nat) (hN : 12 ≤ N ∧ N ≤ 28) :
    (select_hash_TABLE_SIZE N).Prime ∧ 2 ^ N < select_hash_TABLE_SIZE N ∧
    (N ≤ 16 → ∃ T, HASH_TABLE_SIZE_lzwhd N = some T ∧ T.Prime ∧ 2 ^ N < T) := by
  refine ⟨(select_prime N hN.1 hN.2).1, (select_prime N hN.1 hN.2).2, fun h16 => ?_⟩
  have h := select_prime N hN.1 hN.2
  obtain ⟨h1, h2⟩ := hN
  interval_cases N <;> exact ⟨_, rfl, h⟩

/-- C6 witness: the default size 16 with its table of 69001 slots. -/
theorem hash_TABLE_SIZE_prime_gt_witness :
    (select_hash_TABLE_SIZE 16).Prime ∧ 2 ^ 16 < select_hash_TABLE_SIZE 16 ∧
    (16 ≤ 16 → ∃ T, HASH_TABLE_SIZE_lzwhd 16 = some T ∧ T.Prime ∧ 2 ^ 16 < T) :=
  hash_TABLE_SIZE_prime_gt 16 (by decide)

/-! ### The bit channel -/

theorem put_nbits_length (k size : Nat) : (put_nbits k size).length = size := by
  simp [put_nbits]

theorem put_nbits_succ (k size : Nat) :
    put_nbits k (size + 1) = k.testBit 0 :: put_nbits (k / 2) size := by
  unfold put_nbits
  rw [List.range_succ_eq_map, List.map_cons, List.map_map]
  congr 1
  apply List.map_congr_left
  intro i _
  simp [Nat.testBit_succ]

theorem bits_value_put_nbits : ∀ (size k : Nat), bits_value (put_nbits k size) = k % 2 ^ size
  | 0, k => by simp [put_nbits, bits_value, Nat.mod_one]
  | size + 1, k => by
    rw [put_nbits_succ, bits_value, bits_value_put_nbits size (k / 2)]
    have h0 : (if k.testBit 0 = true then 1 else 0) = k % 2 := by
      rw [Nat.testBit_zero]
      rcases Nat.mod_two_eq_zero_or_one k with h | h <;> simp [h]
    rw [h0, pow_succ, mul_comm (2 ^ size) 2, Nat.mod_mul]

theorem bits_value_append_zeros : ∀ (bs : List Bool) (j : Nat),
    bits_value (bs ++ List.replicate j false) = bits_value bs
  | [], 0 => rfl
  | [], j + 1 => by
    have := bits_value_append_zeros [] j
    simp only [List.nil_append] at this
    simp [List.replicate_succ, bits_value, this]
  | b :: bs, j => by
    show (if b then 1 else 0) + 2 * bits_value (bs ++ List.replicate j false) = _
    rw [bits_value_append_zeros bs j]
    rfl

/-- A code that fits its width is read back as written. -/
theorem get_nbits_put_nbits {k size : Nat} (hk : k < 2 ^ size) (tail : List Bool) :
    get_nbits size (put_nbits k size ++ tail) = (k, tail) := by
  unfold get_nbits
  have hlen : ¬ (put_nbits k size ++ tail).length < size := by
    simp [put_nbits_length]
  rw [if_neg hlen]
  have h1 : (put_nbits k size ++ tail).take size = put_nbits k size := by
    rw [List.take_append_of_le_length (by simp [put_nbits_length])]
    exact List.take_of_length_le (by simp [put_nbits_length])
  have h2 : (put_nbits k size ++ tail).drop size = tail := by
    rw [List.drop_append_of_le_length (by simp [put_nbits_length])]
    rw [List.drop_of_length_le (by simp [put_nbits_length])]
    rfl
  rw [h1, h2, bits_value_put_nbits, Nat.mod_eq_of_lt hk]

/-- The end code written at width `size` and read at width `size + 1` from the
zero-padded end of the stream is still the end code. -/
theorem get_nbits_EOF_wider {size : Nat} (h : 256 < 2 ^ size) (j : Nat) :
    (get_nbits (size + 1) (put_nbits EOF_LZW_CODE size ++ List.replicate j false)).1
      = EOF_LZW_CODE := by
  unfold get_nbits
  split
  · rfl
  · rename_i hlen
    simp only [List.length_append, put_nbits_length, List.length_replicate, not_lt] at hlen
    have hj : 1 ≤ j := by omega
    have h1 : (put_nbits EOF_LZW_CODE size ++ List.replicate j false).take (size + 1)
        = put_nbits EOF_LZW_CODE size ++ List.replicate 1 false := by
      rw [List.take_append_eq_append_take, put_nbits_length]
      rw [List.take_of_length_le (by simp [put_nbits_length])]
      congr 1
      rw [show size + 1 - size = 1 by omega]
      obtain ⟨j', rfl⟩ : ∃ j', j = j' + 1 := ⟨j - 1, by omega⟩
      simp [List.replicate_succ]
    show bits_value _ = _
    rw [h1, bits_value_append_zeros, bits_value_put_nbits]
    exact Nat.mod_eq_of_lt h

theorem put_codes_append (xs ys : List (Nat × Nat)) :
    put_codes (xs ++ ys) = put_codes xs ++ put_codes ys := by
  induction xs with
  | nil => rfl
  | cons x xs ih =>
    obtain ⟨a, b⟩ := x
    simp [put_codes, ih]

theorem emitted_append (xs ys : List EncEvent) : emitted (xs ++ ys) = emitted xs ++ emitted ys := by
  induction xs with
  | nil => rfl
  | cons x xs ih =>
    cases x <;> simp [emitted, ih]

/-! ### Strings of codes -/

theorem dstr_nil (k : Nat) : dstr [] k = [k] := rfl

theorem dstr_snoc (dict : List (Nat × Nat)) (q : Nat × Nat) (k : Nat) :
    dstr (dict ++ [q]) k
      = if k = START_LZW_CODE + dict.length then dstr dict q.1 ++ [q.2] else dstr dict k := by
  simp [dstr, dstr_rev]

theorem dstr_rev_ne_nil : ∀ (dict : List (Nat × Nat)) (k : Nat), dstr_rev dict k ≠ []
  | [], k => by simp [dstr_rev]
  | q :: older, k => by
    unfold dstr_rev
    split
    · simp
    · exact dstr_rev_ne_nil older k

theorem dstr_ne_nil (dict : List (Nat × Nat)) (k : Nat) : dstr dict k ≠ [] :=
  dstr_rev_ne_nil _ _

theorem dstr_of_lt (dict : List (Nat × Nat)) {k : Nat} (hk : k < START_LZW_CODE) :
    dstr dict k = [k] := by
  induction dict using List.reverseRecOn with
  | nil => rfl
  | append_singleton dict q ih =>
    rw [dstr_snoc, if_neg (by omega), ih]

theorem dstr_entry {dict : List (Nat × Nat)} {i p c : Nat} (h : dict[i]? = some (p, c)) :
    dstr dict (START_LZW_CODE + i) = dstr (dict.take i) p ++ [c] := by
  induction dict using List.reverseRecOn with
  | nil => simp at h
  | append_singleton dict q ih =>
    rw [dstr_snoc]
    by_cases hi : i < dict.length
    · rw [List.getElem?_append_left hi] at h
      rw [if_neg (by omega), ih h, List.take_append_of_le_length hi.le]
    · have hi' : i = dict.length := by
        by_contra hcon
        rw [List.getElem?_eq_none (by simp; omega)] at h
        exact Option.noConfusion h
      subst hi'
      rw [List.getElem?_append_right (le_refl _)] at h
      simp at h
      subst h
      simp

theorem DictWF_take {dict : List (Nat × Nat)} (h : DictWF dict) (n : Nat) :
    DictWF (dict.take n) := by
  intro i p c hi
  apply h i p c
  rw [List.getElem?_take] at hi
  split at hi
  · exact hi
  · exact Option.noConfusion hi

/-- The string of a code depends on the older entries only. -/
theorem dstr_take {dict : List (Nat × Nat)} (hwf : DictWF dict) :
    ∀ (n k : Nat), k < START_LZW_CODE + n → dstr (dict.take n) k = dstr dict k := by
  induction dict using List.reverseRecOn with
  | nil => intro n k _; simp
  | append_singleton dict q ih =>
    intro n k hk
    have hwf' : DictWF dict := by
      have := DictWF_take hwf dict.length
      simpa using this
    by_cases hn : n ≤ dict.length
    · rw [List.take_append_of_le_length hn, ih hwf' n k hk, dstr_snoc]
      rw [if_neg (by omega)]
    · rw [List.take_of_length_le (by simp; omega)]

theorem dstr_length_le {dict : List (Nat × Nat)} (hwf : DictWF dict) :
    ∀ (k : Nat), (dstr dict k).length ≤ k + 1 := by
  intro k
  induction k using Nat.strong_induction_on with
  | _ k ih =>
    by_cases hk : k < START_LZW_CODE
    · rw [dstr_of_lt dict hk]; simp
    · by_cases hk2 : k - START_LZW_CODE < dict.length
      · obtain ⟨q, hq⟩ : ∃ q, dict[k - START_LZW_CODE]? = some q :=
          ⟨_, List.getElem?_eq_getElem hk2⟩
        obtain ⟨p, c⟩ := q
        have hw := hwf _ p c hq
        have hkk : START_LZW_CODE + (k - START_LZW_CODE) = k := by omega
        have := dstr_entry hq
        rw [hkk] at this
        rw [this, dstr_take hwf _ p hw.1, List.length_append]
        have := ih p (by omega)
        simp only [List.length_singleton]
        omega
      · have : dstr dict k = [k] := by
          clear ih hwf
          induction dict using List.reverseRecOn with
          | nil => rfl
          | append_singleton dict q ih =>
            simp only [List.length_append, List.length_singleton] at hk2
            rw [dstr_snoc, if_neg (by omega), ih (by omega)]
        rw [this]; simp

theorem get_string_irrel (s t : State) (h1 : t.prefix_tab = s.prefix_tab)
    (h2 : t.character = s.character) :
    ∀ (room k : Nat) (acc : List Nat), get_string t room k acc = get_string s room k acc
  | 0, _, _ => rfl
  | room + 1, k, acc => by
    simp only [get_string, h1, h2]
    split
    · exact get_string_irrel s t h1 h2 room _ _
    · rfl

/-- The chain walk of the decoder computes the string of a defined code. -/
theorem get_string_dstr {d : State} {dict : List (Nat × Nat)} (hwf : DictWF dict)
    (hd : DecHolds d dict) :
    ∀ (k room : Nat) (acc : List Nat), k ≠ 256 → k < START_LZW_CODE + dict.length →
      (dstr dict k).length ≤ room →
      ∃ lit rest, dstr dict k = lit :: rest ∧ lit < 256 ∧
        get_string d room k acc = some (lit, rest ++ acc) := by
  intro k
  induction k using Nat.strong_induction_on with
  | _ k ih =>
    intro room acc hk256 hk hroom
    by_cases hlit : k < START_LZW_CODE
    · have hk' : k < 256 := by simp only [START_LZW_CODE] at hlit; omega
      rw [dstr_of_lt dict hlit] at hroom ⊢
      obtain ⟨room', rfl⟩ : ∃ r, room = r + 1 := ⟨room - 1, by simp at hroom; omega⟩
      refine ⟨k, [], rfl, hk', ?_⟩
      simp only [get_string, EOF_LZW_CODE]
      rw [if_neg (by omega)]
      rfl
    · have hk2 : k - START_LZW_CODE < dict.length := by omega
      obtain ⟨q, hq⟩ : ∃ q, dict[k - START_LZW_CODE]? = some q :=
        ⟨_, List.getElem?_eq_getElem hk2⟩
      obtain ⟨p, c⟩ := q
      have hw := hwf _ p c hq
      have hdh := hd _ p c hq
      have hkk : START_LZW_CODE + (k - START_LZW_CODE) = k := by omega
      rw [hkk] at hdh
      have hstr := dstr_entry hq
      rw [hkk, dstr_take hwf _ p hw.1] at hstr
      rw [hstr, List.length_append, List.length_singleton] at hroom
      obtain ⟨room', rfl⟩ : ∃ r, room = r + 1 := ⟨room - 1, by omega⟩
      obtain ⟨lit, rest, h1, h2, h3⟩ := ih p (by omega) room' (c :: acc) hw.2.1 (by omega)
        (by omega)
      refine ⟨lit, rest ++ [c], by rw [hstr, h1]; rfl, h2, ?_⟩
      simp only [get_string, EOF_LZW_CODE]
      rw [if_pos (by simp only [START_LZW_CODE] at hlit; omega), hdh.1, hdh.2, h3]
      simp

theorem EncOK.psc_lt_code_MAX {cfg : Config} {e : State} {dict : List (Nat × Nat)}
    (h : EncOK cfg e dict) : e.prefix_string_code < cfg.code_MAX := by
  have := h.psc_lt; have := h.len; omega

theorem EncOK.psc_lt_pow {cfg : Config} {e : State} {dict : List (Nat × Nat)}
    (h : EncOK cfg e dict) : e.prefix_string_code < 2 ^ e.bit_count := by
  have := h.psc_lt; have := h.len; have := h.cnt_cm; rw [h.cm] at this; omega

/-- A byte that extends the current string to a string of the dictionary: the loop
only moves on to the longer string's code. -/
theorem compress_step_hit {cfg : Config} (hv : cfg.Valid) {e : State}
    {dict : List (Nat × Nat)} (H : EncOK cfg e dict) {c : Nat} (hc : c < 256)
    (hin : (e.prefix_string_code, c) ∈ dict) :
    ∃ j : Nat, dict[j]? = some (e.prefix_string_code, c) ∧
      compress_step cfg e c
        = some ({ e with prefix_string_code := START_LZW_CODE + j }, []) ∧
      EncOK cfg { e with prefix_string_code := START_LZW_CODE + j } dict := by
  obtain ⟨i, hi⟩ := List.mem_iff_getElem?.mp hin
  have hlen : dict.length ≤ cfg.code_MAX - 257 := by
    have := H.len; simp only [START_LZW_CODE] at this; omega
  obtain ⟨j, hj, hs⟩ := (Holds_search hv H.holds hlen H.psc_lt_code_MAX hc).1 i hi
  refine ⟨j, hj, ?_, ?_⟩
  · simp [compress_step, hs]
  · have hjlt : j < dict.length := (List.getElem?_eq_some.mp hj).1
    exact { holds := Holds_congr H.holds rfl rfl rfl
            wf := H.wf
            len := H.len
            cnt_le := H.cnt_le
            cm := H.cm
            bits_ge := H.bits_ge
            bits_le := H.bits_le
            cnt_cm := H.cnt_cm
            psc_ne := by show START_LZW_CODE + j ≠ 256; simp only [START_LZW_CODE]; omega
            psc_lt := by show START_LZW_CODE + j < _; omega }

theorem DictWF_snoc {dict : List (Nat × Nat)} (h : DictWF dict) {p c : Nat}
    (hp : p < START_LZW_CODE + dict.length) (hp2 : p ≠ 256) (hc : c < 256) :
    DictWF (dict ++ [(p, c)]) := by
  intro i p' c' hi
  by_cases hlt : i < dict.length
  · rw [List.getElem?_append_left hlt] at hi
    exact h i p' c' hi
  · have hi' : i = dict.length := by
      by_contra hcon
      rw [List.getElem?_eq_none (by simp; omega)] at hi
      exact Option.noConfusion hi
    subst hi'
    rw [List.getElem?_append_right (le_refl _)] at hi
    simp at hi
    rw [← hi.1, ← hi.2]
    exact ⟨hp, hp2, hc⟩

theorem DictWF_nil : DictWF [] := by
  intro i p c hi
  simp at hi

theorem code_MAX_ge {cfg : Config} (hv : cfg.Valid) : 4096 ≤ cfg.code_MAX := by
  rw [hv.code_MAX_eq]
  calc 4096 = 2 ^ 12 := by norm_num
    _ ≤ 2 ^ cfg.code_max_bits := Nat.pow_le_pow_right (by norm_num) hv.bits_ge

theorem pow_lt_code_MAX {cfg : Config} (hv : cfg.Valid) {w : Nat}
    (h : 2 ^ w < cfg.code_MAX) : w < cfg.code_max_bits := by
  rw [hv.code_MAX_eq] at h
  exact (Nat.pow_lt_pow_iff_right (by norm_num)).mp h

theorem pow_ge_512 {w : Nat} (h : 9 ≤ w) : 512 ≤ 2 ^ w :=
  calc 512 = 2 ^ 9 := by norm_num
    _ ≤ 2 ^ w := Nat.pow_le_pow_right (by norm_num) h

/-- The fresh globals of an epoch: empty table, counter 257, width 9. -/
theorem EncOK_fresh {cfg : Config} (hv : cfg.Valid) (hr : cfg.reset_dict = 1 ∨ cfg.reset_dict = 0)
    (s : State) {c : Nat} (hc : c < 256) :
    EncOK cfg { init_code_table cfg s with
      lzw_code_cnt := START_LZW_CODE, bit_count := 9, code_max := 512,
      prefix_string_code := c } [] := by
  have hM := code_MAX_ge hv
  exact {
    holds := Holds_congr (Holds_init cfg s) rfl rfl rfl
    wf := DictWF_nil
    len := by
      show START_LZW_CODE + 0 = min START_LZW_CODE cfg.code_MAX
      simp only [START_LZW_CODE]; omega
    cnt_le := by
      show (cfg.reset_dict = 1 ∧ START_LZW_CODE ≤ _) ∨ (cfg.reset_dict = 0 ∧ START_LZW_CODE ≤ _)
      simp only [START_LZW_CODE]
      rcases hr with h | h
      · left; exact ⟨h, by omega⟩
      · right; exact ⟨h, by omega⟩
    cm := by show (512 : Nat) = 2 ^ 9; norm_num
    bits_ge := le_refl _
    bits_le := le_trans (by norm_num) hv.bits_ge
    cnt_cm := by
      show min START_LZW_CODE cfg.code_MAX ≤ 512
      simp only [START_LZW_CODE]; omega
    psc_ne := by show c ≠ 256; omega
    psc_lt := by show c < START_LZW_CODE + 0; simp only [START_LZW_CODE]; omega }

/-- A byte that does not extend the current string to a string of the dictionary: the
loop writes the current code and stores the new pair when there is room. -/
theorem compress_step_miss {cfg : Config} (hv : cfg.Valid) {e : State}
    {dict : List (Nat × Nat)} (H : EncOK cfg e dict) {c : Nat} (hc : c < 256)
    (hnin : (e.prefix_string_code, c) ∉ dict) :
    ∃ e1 dict1 evs, compress_step cfg e c = some (e1, evs) ∧ EncOK cfg e1 dict1 ∧
      MissStep cfg e c e1 dict dict1 evs := by
  have hM := code_MAX_ge hv
  have hlen : dict.length ≤ cfg.code_MAX - 257 := by
    have := H.len; simp only [START_LZW_CODE] at this; omega
  have hs := (Holds_search hv H.holds hlen H.psc_lt_code_MAX hc).2 hnin
  have hlen' := H.len
  have hcm := H.cm
  have hcntcm := H.cnt_cm
  have hpsc := H.psc_lt
  have h512 := pow_ge_512 H.bits_ge
  simp only [START_LZW_CODE] at hlen' hpsc
  by_cases hins : e.lzw_code_cnt < cfg.code_MAX
  · -- there is room: insert
    obtain ⟨h, hh, hopen, hieq, Hins⟩ := Holds_insert hv H.holds H.psc_lt_code_MAX hc
      (by simp only [START_LZW_CODE]; omega) (by omega)
    have hnoreset : ¬ e.lzw_code_cnt = cfg.code_MAX + 4096 := by omega
    have hwf := DictWF_snoc H.wf H.psc_lt H.psc_ne hc
    by_cases hgrow : e.lzw_code_cnt = e.code_max
    · -- the width grows
      have hwlt : e.bit_count < cfg.code_max_bits := by
        apply pow_lt_code_MAX hv; rw [← hcm, ← hgrow]; exact hins
      refine ⟨{ stored_at e h e.prefix_string_code c with
          bit_count := e.bit_count + 1, code_max := e.code_max <<< 1,
          lzw_code_cnt := e.lzw_code_cnt + 1, prefix_string_code := c },
        dict ++ [(e.prefix_string_code, c)],
        [EncEvent.output_code e.prefix_string_code e.bit_count,
          EncEvent.insert e.lzw_code_cnt e.prefix_string_code c], ?_, ?_, ?_⟩
      · rcases H.cnt_le with ⟨hr, _⟩ | ⟨hr, _⟩ <;>
          simp [compress_step, hs, enc_insert, hins, hieq, stored_at, hgrow, enc_reset, hr,
            hnoreset, (show e.code_max ≤ cfg.code_MAX + 4096 by omega),
            (show e.code_max < cfg.code_MAX by omega),
            (show ¬ e.code_max = cfg.code_MAX + 4096 by omega)]
      · exact {
          holds := Holds_congr Hins rfl rfl rfl
          wf := hwf
          len := by
            show START_LZW_CODE + (dict ++ [(e.prefix_string_code, c)]).length
              = min (e.lzw_code_cnt + 1) cfg.code_MAX
            simp only [START_LZW_CODE, List.length_append, List.length_singleton]; omega
          cnt_le := by
            show (cfg.reset_dict = 1 ∧ e.lzw_code_cnt + 1 ≤ _) ∨
              (cfg.reset_dict = 0 ∧ e.lzw_code_cnt + 1 ≤ _)
            rcases H.cnt_le with ⟨hr, _⟩ | ⟨hr, _⟩
            · left; exact ⟨hr, by omega⟩
            · right; exact ⟨hr, by omega⟩
          cm := by
            show e.code_max <<< 1 = 2 ^ (e.bit_count + 1)
            rw [Nat.shiftLeft_eq, hcm]; ring
          bits_ge := by show 9 ≤ e.bit_count + 1; have := H.bits_ge; omega
          bits_le := hwlt
          cnt_cm := by
            show min (e.lzw_code_cnt + 1) cfg.code_MAX ≤ e.code_max <<< 1
            rw [Nat.shiftLeft_eq]; omega
          psc_ne := by show c ≠ 256; omega
          psc_lt := by
            show c < START_LZW_CODE + _
            simp only [START_LZW_CODE]; omega }
      · exact ⟨rfl, Or.inl ⟨hins, rfl, by simp [hgrow], rfl, rfl⟩⟩
    · -- the width stays
      refine ⟨{ stored_at e h e.prefix_string_code c with
          lzw_code_cnt := e.lzw_code_cnt + 1, prefix_string_code := c },
        dict ++ [(e.prefix_string_code, c)],
        [EncEvent.output_code e.prefix_string_code e.bit_count,
          EncEvent.insert e.lzw_code_cnt e.prefix_string_code c], ?_, ?_, ?_⟩
      · rcases H.cnt_le with ⟨hr, _⟩ | ⟨hr, _⟩ <;>
          simp [compress_step, hs, enc_insert, hins, hieq, stored_at, hgrow, enc_reset, hr,
            hnoreset, (show e.lzw_code_cnt ≤ cfg.code_MAX + 4096 by omega)]
      · exact {
          holds := Holds_congr Hins rfl rfl rfl
          wf := hwf
          len := by
            show START_LZW_CODE + (dict ++ [(e.prefix_string_code, c)]).length
              = min (e.lzw_code_cnt + 1) cfg.code_MAX
            simp only [START_LZW_CODE, List.length_append, List.length_singleton]; omega
          cnt_le := by
            show (cfg.reset_dict = 1 ∧ e.lzw_code_cnt + 1 ≤ _) ∨
              (cfg.reset_dict = 0 ∧ e.lzw_code_cnt + 1 ≤ _)
            rcases H.cnt_le with ⟨hr, _⟩ | ⟨hr, _⟩
            · left; exact ⟨hr, by omega⟩
            · right; exact ⟨hr, by omega⟩
          cm := hcm
          bits_ge := H.bits_ge
          bits_le := H.bits_le
          cnt_cm := by
            show min (e.lzw_code_cnt + 1) cfg.code_MAX ≤ e.code_max
            omega
          psc_ne := by show c ≠ 256; omega
          psc_lt := by
            show c < START_LZW_CODE + _
            simp only [START_LZW_CODE]; omega }
      · exact ⟨rfl, Or.inl ⟨hins, rfl, by rw [if_neg hgrow]; rfl, rfl, rfl⟩⟩
  · -- the dictionary is full
    have hfull : cfg.code_MAX ≤ e.lzw_code_cnt := not_lt.mp hins
    rcases H.cnt_le with ⟨hr, hle⟩ | ⟨hr, hle⟩
    · by_cases hreset : e.lzw_code_cnt = cfg.code_MAX + 4096
      · refine ⟨{ init_code_table cfg e with
            lzw_code_cnt := START_LZW_CODE, bit_count := 9, code_max := 512,
            prefix_string_code := c }, [],
          [EncEvent.output_code e.prefix_string_code e.bit_count, EncEvent.reset],
          ?_, EncOK_fresh hv (Or.inl hr) e hc, ?_⟩
        · simp [compress_step, hs, enc_insert, hins, enc_reset, hr, hreset]
        · exact ⟨rfl, Or.inr (Or.inr ⟨hr, hreset, rfl, rfl, rfl, rfl⟩)⟩
      · refine ⟨{ e with lzw_code_cnt := e.lzw_code_cnt + 1, prefix_string_code := c },
          dict, [EncEvent.output_code e.prefix_string_code e.bit_count], ?_, ?_, ?_⟩
        · simp [compress_step, hs, enc_insert, hins, enc_reset, hr, hreset, hle]
        · exact {
            holds := Holds_congr H.holds rfl rfl rfl
            wf := H.wf
            len := by
              show START_LZW_CODE + dict.length = min (e.lzw_code_cnt + 1) cfg.code_MAX
              simp only [START_LZW_CODE]; omega
            cnt_le := by
              left
              exact ⟨hr, by show e.lzw_code_cnt + 1 ≤ _; omega⟩
            cm := hcm
            bits_ge := H.bits_ge
            bits_le := H.bits_le
            cnt_cm := by
              show min (e.lzw_code_cnt + 1) cfg.code_MAX ≤ e.code_max
              omega
            psc_ne := by show c ≠ 256; omega
            psc_lt := by
              show c < START_LZW_CODE + _
              simp only [START_LZW_CODE]; omega }
        · exact ⟨rfl, Or.inr (Or.inl ⟨hfull, fun hcon => hreset hcon.2, by simp [hr], rfl, rfl,
            rfl⟩)⟩
    · refine ⟨{ e with prefix_string_code := c }, dict,
        [EncEvent.output_code e.prefix_string_code e.bit_count], ?_, ?_, ?_⟩
      · simp [compress_step, hs, enc_insert, hins, enc_reset, hr]
      · exact {
          holds := Holds_congr H.holds rfl rfl rfl
          wf := H.wf
          len := H.len
          cnt_le := Or.inr ⟨hr, hle⟩
          cm := hcm
          bits_ge := H.bits_ge
          bits_le := H.bits_le
          cnt_cm := H.cnt_cm
          psc_ne := by show c ≠ 256; omega
          psc_lt := by
            show c < START_LZW_CODE + _
            simp only [START_LZW_CODE]; omega }
      · exact ⟨rfl, Or.inr (Or.inl ⟨hfull, fun hcon => by rw [hr] at hcon; exact absurd hcon.1 (by decide),
          by simp [hr], rfl, rfl, rfl⟩)⟩

theorem prepend_prepend (o1 o2 : List Nat) (e1 e2 : List DecEvent)
    (r : Option (State × List Nat × List DecEvent)) :
    prepend o1 e1 (prepend o2 e2 r) = prepend (o1 ++ o2) (e1 ++ e2) r := by
  cases r <;> simp [prepend, List.append_assoc]

theorem prepend_nil (r : Option (State × List Nat × List DecEvent)) : prepend [] [] r = r := by
  cases r <;> simp [prepend]

theorem decompress_LZW_eq (cfg : Config) (s : State) (bits : List Bool) :
    decompress_LZW cfg s bits
      = dec_run cfg (bits.length + 1) true { s with lzw_code_cnt := START_LZW_CODE } bits := by
  unfold decompress_LZW dec_run prepend
  simp only [if_true]
  cases decompress_loop cfg (bits.length + 1)
    (dec_first { s with lzw_code_cnt := START_LZW_CODE } bits).1
    (dec_first { s with lzw_code_cnt := START_LZW_CODE } bits).2.1 <;> rfl

theorem dec_run_first (cfg : Config) (fuel : Nat) (d : State) (bits : List Bool) :
    dec_run cfg fuel true d bits
      = prepend [pfputc (get_nbits d.bit_count bits).1]
          [DecEvent.get_code (get_nbits d.bit_count bits).1 d.bit_count d.lzw_code_cnt]
          (dec_run cfg fuel false { d with old_lzw_code := (get_nbits d.bit_count bits).1 }
            (get_nbits d.bit_count bits).2) := rfl

theorem dec_insert_new (cfg : Config) (s : State) :
    (dec_insert cfg s).1.new_lzw_code = s.new_lzw_code := by
  unfold dec_insert insert_stringDEC
  split
  · simp only []
    split
    · split <;> rfl
    · rfl
  · rfl

theorem dec_reset_cont (cfg : Config) (fuel : Nat) (s2 : State) (bits : List Bool) :
    prepend (dec_reset cfg s2 bits).2.2.1 (dec_reset cfg s2 bits).2.2.2
        (decompress_loop cfg fuel (dec_reset cfg s2 bits).1 (dec_reset cfg s2 bits).2.1)
      = dec_cont cfg fuel s2 bits := by
  unfold dec_reset dec_cont dec_next_cnt
  by_cases hr : cfg.reset_dict = 1
  · by_cases hc : s2.lzw_code_cnt + 1 = cfg.code_MAX + 4096
    · simp only [if_pos hr, if_pos hc, if_pos (And.intro hr hc)]
      rw [dec_run_first, prepend_prepend]
      rfl
    · simp only [if_pos hr, if_neg hc, if_neg (fun h : _ ∧ _ => hc h.2)]
      rw [prepend_nil]
      rfl
  · simp only [if_neg hr, if_neg (fun h : cfg.reset_dict = 1 ∧ _ => hr h.1)]
    by_cases h0 : cfg.reset_dict = 0
    · simp only [if_pos h0]
      by_cases hlt : s2.lzw_code_cnt < cfg.code_MAX
      · simp only [if_pos hlt]
        rw [prepend_nil]
        rfl
      · simp only [if_neg hlt]
        rw [prepend_nil]
        rfl
    · simp only [if_neg h0]
      rw [prepend_nil]
      rfl

/-- One turn of the decoder's loop on a code other than the end code, cut into what the
turn itself writes and the continuation of the run. -/
theorem decompress_loop_step (cfg : Config) (fuel : Nat) (d : State) (bits : List Bool)
    (hne : (get_nbits d.bit_count bits).1 ≠ EOF_LZW_CODE) {lit : Nat} {stack : List Nat}
    (hg : get_string d cfg.code_MAX
      (if (get_nbits d.bit_count bits).1 ≥ d.lzw_code_cnt then d.old_lzw_code
        else (get_nbits d.bit_count bits).1) [] = some (lit, stack)) :
    decompress_loop cfg (fuel + 1) d bits
      = prepend
          (pfputc lit :: stack ++
            (if (get_nbits d.bit_count bits).1 ≥ d.lzw_code_cnt then [pfputc lit] else []))
          (DecEvent.get_code (get_nbits d.bit_count bits).1 d.bit_count d.lzw_code_cnt ::
            (dec_insert cfg
              { d with new_lzw_code := (get_nbits d.bit_count bits).1, lzwcode := lit }).2)
          (dec_cont cfg fuel (dec_mid cfg d (get_nbits d.bit_count bits).1 lit)
            (get_nbits d.bit_count bits).2) := by
  have hg' : get_string { d with new_lzw_code := (get_nbits d.bit_count bits).1 } cfg.code_MAX
      (if (get_nbits d.bit_count bits).1 ≥ d.lzw_code_cnt then d.old_lzw_code
        else (get_nbits d.bit_count bits).1) [] = some (lit, stack) := by
    rw [get_string_irrel d { d with new_lzw_code := (get_nbits d.bit_count bits).1 } rfl rfl]
    exact hg
  rw [← dec_reset_cont]
  have hmid : dec_mid cfg d (get_nbits d.bit_count bits).1 lit
      = { (dec_insert cfg
            { d with new_lzw_code := (get_nbits d.bit_count bits).1, lzwcode := lit }).1 with
          old_lzw_code := (dec_insert cfg
            { d with new_lzw_code := (get_nbits d.bit_count bits).1, lzwcode := lit }).1.new_lzw_code } := by
    unfold dec_mid
    rw [dec_insert_new]
  rw [hmid]
  simp only [decompress_loop, if_neg hne, dec_body, decide_eq_true_eq, hg']
  generalize (dec_reset cfg _ _) = r2
  cases decompress_loop cfg fuel r2.1 r2.2.1 <;> simp [prepend, List.append_assoc]

theorem decompress_loop_eof (cfg : Config) (fuel : Nat) (d : State) (bits : List Bool)
    (h : (get_nbits d.bit_count bits).1 = EOF_LZW_CODE) :
    decompress_loop cfg (fuel + 1) d bits
      = some ({ d with new_lzw_code := EOF_LZW_CODE }, [],
          [DecEvent.get_code EOF_LZW_CODE d.bit_count d.lzw_code_cnt]) := by
  simp only [decompress_loop, h, if_true]

theorem SyncTop.wf_dd {cfg : Config} {e d : State} {dd de : List (Nat × Nat)}
    (h : SyncTop cfg e d dd de) : DictWF dd := by
  rcases h.rel with ⟨_, c1, hde, _⟩ | ⟨_, hde⟩
  · have := DictWF_take h.enc.wf dd.length
    rw [hde] at this
    simpa using this
  · rw [← hde]; exact h.enc.wf

theorem head?_append_of_ne_nil {l : List Nat} (hl : l ≠ []) (m : List Nat) :
    (l ++ m).head? = l.head? := by
  cases l with
  | nil => exact absurd rfl hl
  | cons a l => rfl

/-- The decoder's chain walk for the code that the compressor writes next yields the
compressor's current string, also when that code is the one still pending. -/
theorem dec_string_step {cfg : Config} {e d : State} {dd de : List (Nat × Nat)}
    (h : SyncTop cfg e d dd de) :
    ∃ lit stack,
      get_string d cfg.code_MAX
        (if e.prefix_string_code ≥ d.lzw_code_cnt then d.old_lzw_code
          else e.prefix_string_code) [] = some (lit, stack) ∧
      pfputc lit :: stack ++ (if e.prefix_string_code ≥ d.lzw_code_cnt then [pfputc lit] else [])
        = dstr de e.prefix_string_code ∧
      lit < 256 ∧
      (d.lzw_code_cnt < cfg.code_MAX → de = dd ++ [(d.old_lzw_code, lit)]) := by
  have hwf := h.wf_dd
  have hdlen := h.dlen
  have hpsc := h.enc.psc_lt
  have hpne := h.enc.psc_ne
  have hold := h.old_lt
  simp only [START_LZW_CODE] at hdlen hpsc hold
  rcases h.rel with ⟨hlt, c1, hde, hhead⟩ | ⟨hge, hde⟩
  · have hdl : de.length = dd.length + 1 := by rw [hde]; simp
    by_cases hp : e.prefix_string_code ≥ d.lzw_code_cnt
    · -- the pending code
      have hpeq : e.prefix_string_code = START_LZW_CODE + dd.length := by
        simp only [START_LZW_CODE]; omega
      obtain ⟨lit, rest, h1, h2, h3⟩ := get_string_dstr hwf h.dec d.old_lzw_code cfg.code_MAX []
        h.old_ne h.old_lt (le_trans (dstr_length_le hwf _) (by omega))
      have hstr : dstr de e.prefix_string_code = dstr dd d.old_lzw_code ++ [c1] := by
        rw [hde, dstr_snoc, if_pos hpeq]
      have hc1 : lit = c1 := by
        rw [hstr, head?_append_of_ne_nil (dstr_ne_nil _ _), h1] at hhead
        simpa using hhead
      refine ⟨lit, rest, ?_, ?_, h2, fun _ => by rw [hde, hc1]⟩
      · rw [if_pos hp, h3, List.append_nil]
      · rw [if_pos hp, hstr, h1, ← hc1]
        simp [pfputc, Nat.mod_eq_of_lt h2]
    · have hplt : e.prefix_string_code < START_LZW_CODE + dd.length := by
        simp only [START_LZW_CODE]; omega
      obtain ⟨lit, rest, h1, h2, h3⟩ := get_string_dstr hwf h.dec e.prefix_string_code
        cfg.code_MAX [] hpne hplt (le_trans (dstr_length_le hwf _) (by omega))
      have hstr : dstr de e.prefix_string_code = dstr dd e.prefix_string_code := by
        rw [hde, dstr_snoc, if_neg (by omega)]
      have hc1 : lit = c1 := by
        rw [hstr, h1] at hhead
        simpa using hhead
      refine ⟨lit, rest, ?_, ?_, h2, fun _ => by rw [hde, hc1]⟩
      · rw [if_neg hp, h3, List.append_nil]
      · rw [if_neg hp, hstr, h1]
        simp [pfputc, Nat.mod_eq_of_lt h2]
  · subst hde
    have hp : ¬ e.prefix_string_code ≥ d.lzw_code_cnt := by omega
    have hplt : e.prefix_string_code < START_LZW_CODE + de.length := by
      simp only [START_LZW_CODE]; omega
    obtain ⟨lit, rest, h1, h2, h3⟩ := get_string_dstr hwf h.dec e.prefix_string_code
      cfg.code_MAX [] hpne hplt (le_trans (dstr_length_le hwf _) (by omega))
    refine ⟨lit, rest, ?_, ?_, h2, fun hcon => absurd hcon (not_lt.mpr hge)⟩
    · rw [if_neg hp, h3, List.append_nil]
    · rw [if_neg hp, h1]
      simp [pfputc, Nat.mod_eq_of_lt h2]

/-! ### The decoder's bookkeeping after a code -/

theorem dec_mid_cnt (cfg : Config) (d : State) (v lit : Nat) :
    (dec_mid cfg d v lit).lzw_code_cnt = d.lzw_code_cnt := by
  unfold dec_mid dec_insert insert_stringDEC
  simp only []
  split
  · split
    · split <;> rfl
    · rfl
  · rfl

theorem dec_mid_old (cfg : Config) (d : State) (v lit : Nat) :
    (dec_mid cfg d v lit).old_lzw_code = v := rfl

theorem dec_mid_bit_count (cfg : Config) (d : State) (v lit : Nat) :
    (dec_mid cfg d v lit).bit_count
      = if d.lzw_code_cnt < cfg.code_MAX ∧ d.bit_count < cfg.code_max_bits ∧
          d.lzw_code_cnt = d.code_max - 1 then d.bit_count + 1 else d.bit_count := by
  unfold dec_mid dec_insert insert_stringDEC
  simp only []
  by_cases h1 : d.lzw_code_cnt < cfg.code_MAX
  · by_cases h2 : d.bit_count < cfg.code_max_bits
    · by_cases h3 : d.lzw_code_cnt = d.code_max - 1
      · rw [if_pos h1, if_pos h2, if_pos h3, if_pos ⟨h1, h2, h3⟩]
      · rw [if_pos h1, if_pos h2, if_neg h3, if_neg (fun h => h3 h.2.2)]
    · rw [if_pos h1, if_neg h2, if_neg (fun h => h2 h.2.1)]
  · rw [if_neg h1, if_neg (fun h => h1 h.1)]

theorem dec_mid_code_max (cfg : Config) (d : State) (v lit : Nat) :
    (dec_mid cfg d v lit).code_max
      = if d.lzw_code_cnt < cfg.code_MAX ∧ d.bit_count < cfg.code_max_bits ∧
          d.lzw_code_cnt = d.code_max - 1 then d.code_max <<< 1 else d.code_max := by
  unfold dec_mid dec_insert insert_stringDEC
  simp only []
  by_cases h1 : d.lzw_code_cnt < cfg.code_MAX
  · by_cases h2 : d.bit_count < cfg.code_max_bits
    · by_cases h3 : d.lzw_code_cnt = d.code_max - 1
      · rw [if_pos h1, if_pos h2, if_pos h3, if_pos ⟨h1, h2, h3⟩]
      · rw [if_pos h1, if_pos h2, if_neg h3, if_neg (fun h => h3 h.2.2)]
    · rw [if_pos h1, if_neg h2, if_neg (fun h => h2 h.2.1)]
  · rw [if_neg h1, if_neg (fun h => h1 h.1)]

theorem dec_mid_prefix_tab (cfg : Config) (d : State) (v lit : Nat) :
    (dec_mid cfg d v lit).prefix_tab
      = if d.lzw_code_cnt < cfg.code_MAX then
          store d.prefix_tab d.lzw_code_cnt d.old_lzw_code else d.prefix_tab := by
  unfold dec_mid dec_insert insert_stringDEC
  simp only []
  split
  · split
    · split <;> rfl
    · rfl
  · rfl

theorem dec_mid_character (cfg : Config) (d : State) (v lit : Nat) :
    (dec_mid cfg d v lit).character
      = if d.lzw_code_cnt < cfg.code_MAX then
          store d.character d.lzw_code_cnt (lit % 256) else d.character := by
  unfold dec_mid dec_insert insert_stringDEC
  simp only []
  split
  · split
    · split <;> rfl
    · rfl
  · rfl

theorem dec_insert_events (cfg : Config) (d : State) (v lit : Nat) :
    (dec_insert cfg { d with new_lzw_code := v, lzwcode := lit }).2
      = if d.lzw_code_cnt < cfg.code_MAX then
          [DecEvent.insert d.lzw_code_cnt d.old_lzw_code (lit % 256)] else [] := by
  unfold dec_insert insert_stringDEC
  simp only []
  split
  · split
    · split <;> rfl
    · rfl
  · rfl

theorem DecHolds_snoc {d d1 : State} {dd : List (Nat × Nat)} (h : DecHolds d dd) {p c : Nat}
    (h1 : d1.prefix_tab = store d.prefix_tab (START_LZW_CODE + dd.length) p)
    (h2 : d1.character = store d.character (START_LZW_CODE + dd.length) c) :
    DecHolds d1 (dd ++ [(p, c)]) := by
  intro i p' c' hi
  rw [h1, h2]
  by_cases hlt : i < dd.length
  · rw [List.getElem?_append_left hlt] at hi
    rw [store_other _ _ (by omega), store_other _ _ (by omega)]
    exact h i p' c' hi
  · have hi' : i = dd.length := by
      by_contra hcon
      rw [List.getElem?_eq_none (by simp; omega)] at hi
      exact Option.noConfusion hi
    subst hi'
    rw [List.getElem?_append_right (le_refl _)] at hi
    simp at hi
    rw [store_same, store_same]
    exact hi

theorem DecHolds_congr {d d1 : State} {dd : List (Nat × Nat)} (h : DecHolds d dd)
    (h1 : d1.prefix_tab = d.prefix_tab) (h2 : d1.character = d.character) : DecHolds d1 dd := by
  intro i p c hi
  rw [h1, h2]
  exact h i p c hi

theorem DecHolds_nil (d : State) : DecHolds d [] := by
  intro i p c hi
  simp at hi

/-- The decoder's arrays after the turn that decoded the compressor's current code hold
the compressor's dictionary. -/
theorem DecHolds_mid {cfg : Config} {e d : State} {dd de : List (Nat × Nat)}
    (h : SyncTop cfg e d dd de) {lit : Nat} (hlit : lit < 256)
    (hde : d.lzw_code_cnt < cfg.code_MAX → de = dd ++ [(d.old_lzw_code, lit)]) (v : Nat) :
    DecHolds (dec_mid cfg d v lit) de := by
  by_cases hlt : d.lzw_code_cnt < cfg.code_MAX
  · rw [hde hlt]
    have hdl := h.dlen
    have hcnt : d.lzw_code_cnt = START_LZW_CODE + dd.length := by omega
    apply DecHolds_snoc h.dec
    · rw [dec_mid_prefix_tab, if_pos hlt, hcnt]
    · rw [dec_mid_character, if_pos hlt, hcnt, Nat.mod_eq_of_lt hlit]
  · rcases h.rel with ⟨hlt', _⟩ | ⟨_, hde'⟩
    · exact absurd hlt' hlt
    · rw [hde']
      apply DecHolds_congr h.dec
      · rw [dec_mid_prefix_tab, if_neg hlt]
      · rw [dec_mid_character, if_neg hlt]

theorem enc_skel_append (xs ys : List EncEvent) :
    enc_skel (xs ++ ys) = enc_skel xs ++ enc_skel ys := by
  induction xs with
  | nil => rfl
  | cons x xs ih => cases x <;> simp [enc_skel, ih]

theorem dec_skel_append (xs ys : List DecEvent) :
    dec_skel (xs ++ ys) = dec_skel xs ++ dec_skel ys := by
  induction xs with
  | nil => rfl
  | cons x xs ih => cases x <;> simp [dec_skel, ih]

theorem enc_ins_append (xs ys : List EncEvent) :
    enc_ins (xs ++ ys) = enc_ins xs ++ enc_ins ys := by
  induction xs with
  | nil => rfl
  | cons x xs ih => cases x <;> simp [enc_ins, ih]

theorem dec_ins_append (xs ys : List DecEvent) :
    dec_ins (xs ++ ys) = dec_ins xs ++ dec_ins ys := by
  induction xs with
  | nil => rfl
  | cons x xs ih => cases x <;> simp [dec_ins, ih]

theorem pending_top_lt {cfg : Config} {d : State} {dd : List (Nat × Nat)} {p c : Nat}
    (h : d.lzw_code_cnt < cfg.code_MAX) :
    pending cfg false d (dd ++ [(p, c)]) = [some (d.lzw_code_cnt, p, c)] := by
  simp [pending, h]

theorem pending_top_ge {cfg : Config} {d : State} {de : List (Nat × Nat)}
    (h : cfg.code_MAX ≤ d.lzw_code_cnt) : pending cfg false d de = [] := by
  simp [pending, not_lt.mpr h]

theorem pow_eq_code_MAX {cfg : Config} (hv : cfg.Valid) {w : Nat}
    (h1 : cfg.code_MAX ≤ 2 ^ w) (h2 : w ≤ cfg.code_max_bits) : w = cfg.code_max_bits := by
  rw [hv.code_MAX_eq] at h1
  have := (Nat.pow_le_pow_iff_right (by norm_num : 1 < 2)).mp h1
  omega

/-- The decoder's widening test agrees with the compressor's. -/
theorem dec_grow_iff {cfg : Config} (hv : cfg.Valid) {e d : State} {dd de : List (Nat × Nat)}
    (h : SyncTop cfg e d dd de) :
    (d.lzw_code_cnt < cfg.code_MAX ∧ d.bit_count < cfg.code_max_bits ∧
      d.lzw_code_cnt = d.code_max - 1) ↔
    (e.lzw_code_cnt < cfg.code_MAX ∧ e.lzw_code_cnt = e.code_max) := by
  have hcm := h.enc.cm
  have h512 := pow_ge_512 h.enc.bits_ge
  have hb := h.bits
  have hc := h.cmax
  have hcc := h.enc.cnt_cm
  have hble := h.enc.bits_le
  constructor
  · rintro ⟨h1, h2, h3⟩
    have hlt : 2 ^ e.bit_count < cfg.code_MAX := by
      rw [hv.code_MAX_eq]
      exact Nat.pow_lt_pow_right (by norm_num) (by omega)
    rcases h.cnt with ⟨_, hcnt⟩ | ⟨_, hcnt, _⟩ <;> omega
  · rintro ⟨h1, h2⟩
    have hlt : e.bit_count < cfg.code_max_bits := by
      apply pow_lt_code_MAX hv; rw [← hcm, ← h2]; exact h1
    rcases h.cnt with ⟨_, hcnt⟩ | ⟨_, hcnt, _⟩ <;> omega

theorem loop_step_of_get (cfg : Config) (fuel : Nat) (d : State) (bits tail : List Bool)
    {v : Nat} (hget : get_nbits d.bit_count bits = (v, tail)) (hne : v ≠ EOF_LZW_CODE)
    {lit : Nat} {stack : List Nat}
    (hg : get_string d cfg.code_MAX
      (if v ≥ d.lzw_code_cnt then d.old_lzw_code else v) [] = some (lit, stack)) :
    decompress_loop cfg (fuel + 1) d bits
      = prepend
          (pfputc lit :: stack ++ (if v ≥ d.lzw_code_cnt then [pfputc lit] else []))
          (DecEvent.get_code v d.bit_count d.lzw_code_cnt ::
            (if d.lzw_code_cnt < cfg.code_MAX then
              [DecEvent.insert d.lzw_code_cnt d.old_lzw_code (lit % 256)] else []))
          (dec_cont cfg fuel (dec_mid cfg d v lit) tail) := by
  have h1 : (get_nbits d.bit_count bits).1 = v := by rw [hget]
  have h2 : (get_nbits d.bit_count bits).2 = tail := by rw [hget]
  have := @decompress_loop_step cfg fuel d bits (by rw [h1]; exact hne) lit stack
    (by rw [h1]; exact hg)
  rw [h1, h2, dec_insert_events] at this
  exact this

theorem dec_cont_reset {cfg : Config} (fuel : Nat) (s2 : State) (bits : List Bool)
    (h : cfg.reset_dict = 1 ∧ s2.lzw_code_cnt + 1 = cfg.code_MAX + 4096) :
    dec_cont cfg fuel s2 bits = prepend [] [DecEvent.reset] (dec_run cfg fuel true
      { s2 with lzw_code_cnt := START_LZW_CODE, bit_count := 9, code_max := 512 } bits) := by
  unfold dec_cont
  rw [if_pos h]

theorem dec_cont_next {cfg : Config} (fuel : Nat) (s2 : State) (bits : List Bool)
    (h : ¬ (cfg.reset_dict = 1 ∧ s2.lzw_code_cnt + 1 = cfg.code_MAX + 4096)) :
    dec_cont cfg fuel s2 bits = dec_run cfg fuel false
      { s2 with lzw_code_cnt := dec_next_cnt cfg s2.lzw_code_cnt } bits := by
  unfold dec_cont
  rw [if_neg h]

theorem shl_one_pow (w : Nat) : (2 ^ w) <<< 1 = 2 ^ (w + 1) := by
  rw [Nat.shiftLeft_eq]; ring

/-- The decoder's turn for the code that the compressor writes next. -/
theorem top_loop_eq {cfg : Config} {e d : State} {dd de : List (Nat × Nat)}
    (h : SyncTop cfg e d dd de) :
    ∃ lit, lit < 256 ∧ (d.lzw_code_cnt < cfg.code_MAX → de = dd ++ [(d.old_lzw_code, lit)]) ∧
      ∀ fuel tail, decompress_loop cfg (fuel + 1) d
        (put_nbits e.prefix_string_code e.bit_count ++ tail)
        = prepend (dstr de e.prefix_string_code)
            (DecEvent.get_code e.prefix_string_code e.bit_count d.lzw_code_cnt ::
              (if d.lzw_code_cnt < cfg.code_MAX then
                [DecEvent.insert d.lzw_code_cnt d.old_lzw_code lit] else []))
            (dec_cont cfg fuel (dec_mid cfg d e.prefix_string_code lit) tail) := by
  obtain ⟨lit, stack, hg, hout, hlit, hde⟩ := dec_string_step h
  refine ⟨lit, hlit, hde, fun fuel tail => ?_⟩
  have hget : get_nbits d.bit_count (put_nbits e.prefix_string_code e.bit_count ++ tail)
      = (e.prefix_string_code, tail) := by
    rw [h.bits]
    exact get_nbits_put_nbits h.enc.psc_lt_pow tail
  rw [loop_step_of_get cfg fuel d _ tail hget h.enc.psc_ne hg, hout, Nat.mod_eq_of_lt hlit,
    h.bits]

/-- In step again after a turn in which the compressor stored a pair. -/
theorem sync_next_insert {cfg : Config} (hv : cfg.Valid) {e d : State}
    {dd de : List (Nat × Nat)} (h : SyncTop cfg e d dd de) {e1 m : State}
    {de1 : List (Nat × Nat)} {c : Nat} (hc : c < 256) (hok1 : EncOK cfg e1 de1)
    (hm : DecHolds m de) (hmcnt : m.lzw_code_cnt = d.lzw_code_cnt)
    (hmold : m.old_lzw_code = e.prefix_string_code)
    (hmbits : m.bit_count = if d.lzw_code_cnt < cfg.code_MAX ∧
      d.bit_count < cfg.code_max_bits ∧ d.lzw_code_cnt = d.code_max - 1
      then d.bit_count + 1 else d.bit_count)
    (hmcm : m.code_max = if d.lzw_code_cnt < cfg.code_MAX ∧
      d.bit_count < cfg.code_max_bits ∧ d.lzw_code_cnt = d.code_max - 1
      then d.code_max <<< 1 else d.code_max)
    (hpsc1 : e1.prefix_string_code = c)
    (hA : e.lzw_code_cnt < cfg.code_MAX) (hcnt1 : e1.lzw_code_cnt = e.lzw_code_cnt + 1)
    (hbits1 : e1.bit_count
      = if e.lzw_code_cnt = e.code_max then e.bit_count + 1 else e.bit_count)
    (hde1 : de1 = de ++ [(e.prefix_string_code, c)]) :
    dec_next_cnt cfg m.lzw_code_cnt = e.lzw_code_cnt ∧
    SyncTop cfg e1 { m with lzw_code_cnt := dec_next_cnt cfg m.lzw_code_cnt } de de1 := by
  have hM := code_MAX_ge hv
  have hcm := h.enc.cm
  have hlen := h.enc.len
  have hgrow := dec_grow_iff hv h
  have hecnt : e.lzw_code_cnt = d.lzw_code_cnt + 1 := by
    rcases h.cnt with ⟨_, hc1⟩ | ⟨_, hc1, _⟩ <;> omega
  have hdlt : d.lzw_code_cnt < cfg.code_MAX := by omega
  have hnext : dec_next_cnt cfg m.lzw_code_cnt = e.lzw_code_cnt := by
    unfold dec_next_cnt
    rw [hmcnt]
    rcases h.cnt with ⟨hr, _⟩ | ⟨hr, _, _⟩
    · rw [if_pos hr]; omega
    · rw [if_neg (by omega), if_pos hr, if_pos hdlt]; omega
  refine ⟨hnext, ?_⟩
  rw [hnext]
  exact {
    enc := hok1
    dec := DecHolds_congr hm rfl rfl
    rel := by
      left
      refine ⟨hA, c, ?_, ?_⟩
      · rw [hde1]; show _ = de ++ [(m.old_lzw_code, c)]; rw [hmold]
      · rw [hpsc1, dstr_of_lt de1 (by simp only [START_LZW_CODE]; omega)]; rfl
    dlen := hlen
    cnt := by
      show (_ ∧ _ = e.lzw_code_cnt + 1) ∨ (_ ∧ _ = min (e.lzw_code_cnt + 1) _ ∧ e.lzw_code_cnt ≤ _)
      rcases h.cnt with ⟨hr, _⟩ | ⟨hr, _, _⟩
      · left; exact ⟨hr, hcnt1⟩
      · right; exact ⟨hr, by omega, by omega⟩
    bits := by
      show m.bit_count = _
      rw [hmbits, hbits1]
      by_cases hg2 : e.lzw_code_cnt = e.code_max
      · rw [if_pos (hgrow.mpr ⟨hA, hg2⟩), if_pos hg2, h.bits]
      · rw [if_neg (fun hcon => hg2 (hgrow.mp hcon).2), if_neg hg2, h.bits]
    cmax := by
      show m.code_max = _
      rw [hmcm, hok1.cm, hbits1]
      by_cases hg2 : e.lzw_code_cnt = e.code_max
      · rw [if_pos (hgrow.mpr ⟨hA, hg2⟩), if_pos hg2, h.cmax, hcm, shl_one_pow]
      · rw [if_neg (fun hcon => hg2 (hgrow.mp hcon).2), if_neg hg2, h.cmax, hcm]
    old_ne := by show m.old_lzw_code ≠ 256; rw [hmold]; exact h.enc.psc_ne
    old_lt := by show m.old_lzw_code < _; rw [hmold]; exact h.enc.psc_lt }

/-- In step again after a turn in which the dictionary was full and no reset was due. -/
theorem sync_next_full {cfg : Config} (hv : cfg.Valid) {e d : State}
    {dd de : List (Nat × Nat)} (h : SyncTop cfg e d dd de) {e1 m : State}
    {de1 : List (Nat × Nat)} (hok1 : EncOK cfg e1 de1)
    (hm : DecHolds m de) (hmcnt : m.lzw_code_cnt = d.lzw_code_cnt)
    (hmold : m.old_lzw_code = e.prefix_string_code)
    (hmbits : m.bit_count = if d.lzw_code_cnt < cfg.code_MAX ∧
      d.bit_count < cfg.code_max_bits ∧ d.lzw_code_cnt = d.code_max - 1
      then d.bit_count + 1 else d.bit_count)
    (hmcm : m.code_max = if d.lzw_code_cnt < cfg.code_MAX ∧
      d.bit_count < cfg.code_max_bits ∧ d.lzw_code_cnt = d.code_max - 1
      then d.code_max <<< 1 else d.code_max)
    (hB : cfg.code_MAX ≤ e.lzw_code_cnt)
    (hnr : ¬ (cfg.reset_dict = 1 ∧ e.lzw_code_cnt = cfg.code_MAX + 4096))
    (hcnt1 : e1.lzw_code_cnt
      = if cfg.reset_dict = 1 then e.lzw_code_cnt + 1 else e.lzw_code_cnt)
    (hbits1 : e1.bit_count = e.bit_count) (hde1 : de1 = de) :
    cfg.code_MAX ≤ dec_next_cnt cfg m.lzw_code_cnt ∧
    ¬ (cfg.reset_dict = 1 ∧ m.lzw_code_cnt + 1 = cfg.code_MAX + 4096) ∧
    SyncTop cfg e1 { m with lzw_code_cnt := dec_next_cnt cfg m.lzw_code_cnt } de de1 := by
  have hM := code_MAX_ge hv
  have hcm := h.enc.cm
  have hlen := h.enc.len
  have hcntle := h.enc.cnt_le
  have hgrow := dec_grow_iff hv h
  have hnogrow : ¬ (d.lzw_code_cnt < cfg.code_MAX ∧ d.bit_count < cfg.code_max_bits ∧
      d.lzw_code_cnt = d.code_max - 1) := fun hcon => absurd (hgrow.mp hcon).1 (not_lt.mpr hB)
  have hnoreset : ¬ (cfg.reset_dict = 1 ∧ m.lzw_code_cnt + 1 = cfg.code_MAX + 4096) := by
    rw [hmcnt]
    rintro ⟨hr, hcon⟩
    apply hnr
    rcases h.cnt with ⟨_, hc1⟩ | ⟨hr0, _, _⟩
    · exact ⟨hr, by rw [hc1]; exact hcon⟩
    · rw [hr] at hr0; exact absurd hr0 (by decide)
  obtain ⟨n, hn⟩ : ∃ n, n = dec_next_cnt cfg m.lzw_code_cnt := ⟨_, rfl⟩
  have hnfacts : cfg.code_MAX ≤ n ∧
      ((cfg.reset_dict = 1 ∧ e1.lzw_code_cnt = n + 1) ∨
       (cfg.reset_dict = 0 ∧ e1.lzw_code_cnt = min (n + 1) cfg.code_MAX ∧ n ≤ cfg.code_MAX)) := by
    clear hmbits hmcm hnogrow hgrow hnoreset hnr
    rw [hmcnt] at hn
    unfold dec_next_cnt at hn
    rcases h.cnt with ⟨hr, hc1⟩ | ⟨hr, hc1, hc2⟩
    · rw [if_pos hr] at hn hcnt1
      exact ⟨by omega, Or.inl ⟨hr, by omega⟩⟩
    · have hr1 : ¬ cfg.reset_dict = 1 := by rw [hr]; decide
      rw [if_neg hr1] at hn hcnt1
      rw [if_pos hr] at hn
      have hle : e.lzw_code_cnt ≤ cfg.code_MAX := by
        rcases hcntle with ⟨hr2, _⟩ | ⟨_, hle⟩
        · exact absurd hr2 hr1
        · exact hle
      by_cases hdlt : d.lzw_code_cnt < cfg.code_MAX
      · rw [if_pos hdlt] at hn
        exact ⟨by omega, Or.inr ⟨hr, by omega, by omega⟩⟩
      · rw [if_neg hdlt] at hn
        exact ⟨by omega, Or.inr ⟨hr, by omega, by omega⟩⟩
  rw [← hn]
  refine ⟨hnfacts.1, hnoreset, ?_⟩
  exact {
    enc := hok1
    dec := DecHolds_congr hm rfl rfl
    rel := Or.inr ⟨hnfacts.1, hde1⟩
    dlen := by
      show _ = min n _
      have h1 := hnfacts.1
      clear hnfacts hgrow hnogrow hnoreset hnr hmbits hmcm hcnt1 hcntle hn
      omega
    cnt := hnfacts.2
    bits := by
      show m.bit_count = _
      rw [hmbits, if_neg hnogrow, hbits1, h.bits]
    cmax := by
      show m.code_max = _
      rw [hmcm, if_neg hnogrow, hok1.cm, hbits1, h.cmax, hcm]
    old_ne := by show m.old_lzw_code ≠ 256; rw [hmold]; exact h.enc.psc_ne
    old_lt := by show m.old_lzw_code < _; rw [hmold]; exact h.enc.psc_lt }

/-- A turn of the compression loop that writes a code, seen from the decoder at the top of
its loop. -/
theorem sim_top_miss {cfg : Config} (hv : cfg.Valid) {e d : State} {dd de : List (Nat × Nat)}
    (h : SyncTop cfg e d dd de) {c : Nat} (hc : c < 256)
    (hnin : (e.prefix_string_code, c) ∉ de) :
    ∃ e1 evs first1 d1 dd1 de1, compress_step cfg e c = some (e1, evs) ∧
      MissStep cfg e c e1 de de1 evs ∧
      Sim cfg false e d de [c] first1 e1 d1 dd1 de1 evs := by
  obtain ⟨e1, de1, evs, hstep, hok1, hmiss⟩ := compress_step_miss hv h.enc hc hnin
  obtain ⟨lit, hlit, hde, hloop⟩ := top_loop_eq h
  have hdholds := DecHolds_mid h hlit hde e.prefix_string_code
  have hmiss' := hmiss
  obtain ⟨hpsc1, hcase⟩ := hmiss
  have hstr1 : dstr de1 e1.prefix_string_code = [c] := by
    rw [hpsc1]; exact dstr_of_lt de1 (by simp only [START_LZW_CODE]; omega)
  obtain ⟨m, hm⟩ : ∃ m, m = dec_mid cfg d e.prefix_string_code lit := ⟨_, rfl⟩
  have hmcnt : m.lzw_code_cnt = d.lzw_code_cnt := by rw [hm]; exact dec_mid_cnt _ _ _ _
  have hmold : m.old_lzw_code = e.prefix_string_code := by rw [hm]; rfl
  have hmbits := dec_mid_bit_count cfg d e.prefix_string_code lit
  have hmcm := dec_mid_code_max cfg d e.prefix_string_code lit
  rw [← hm] at hdholds hloop hmbits hmcm
  rcases hcase with ⟨hA, hcnt1, hbits1, hde1, hevs⟩ | ⟨hB, hnr, hcnt1, hbits1, hde1, hevs⟩ |
      ⟨hr, hC, hcnt1, hbits1, hde1, hevs⟩
  · -- the compressor stores the new pair
    obtain ⟨hnext, hsync⟩ := sync_next_insert hv h hc hok1 hdholds hmcnt hmold hmbits hmcm
      hpsc1 hA hcnt1 hbits1 hde1
    have hdlt : d.lzw_code_cnt < cfg.code_MAX := by
      have := h.cnt
      clear hsync hmbits hmcm hloop
      rcases this with ⟨_, hc1⟩ | ⟨_, hc1, _⟩ <;> omega
    have hnoreset : ¬ (cfg.reset_dict = 1 ∧ m.lzw_code_cnt + 1 = cfg.code_MAX + 4096) := by
      rw [hmcnt]
      clear hsync hmbits hmcm hloop
      omega
    refine ⟨e1, evs, false, { m with lzw_code_cnt := dec_next_cnt cfg m.lzw_code_cnt },
      de, de1, hstep, hmiss', hsync, 1, dstr de e.prefix_string_code,
      DecEvent.get_code e.prefix_string_code e.bit_count d.lzw_code_cnt ::
        (if d.lzw_code_cnt < cfg.code_MAX then
          [DecEvent.insert d.lzw_code_cnt d.old_lzw_code lit] else []), ?_, ?_, ?_, ?_, ?_⟩
    · rw [hevs]
      have := h.enc.bits_ge
      simp only [emitted, put_codes, List.append_nil, put_nbits_length]
      omega
    · intro fuel tail
      rw [hevs]
      simp only [emitted, put_codes, List.append_nil]
      show decompress_loop cfg (fuel + 1) d _ = _
      rw [hloop, dec_cont_next fuel _ tail hnoreset]
    · rw [hstr1]
    · rw [hevs, if_pos hdlt]; rfl
    · rw [hevs, if_pos hdlt, hde1]
      rw [pending_top_lt (by show dec_next_cnt cfg m.lzw_code_cnt < _; rw [hnext]; exact hA)]
      show _ = _ ++ [some (dec_next_cnt cfg m.lzw_code_cnt, _, _)]
      rw [hnext, hde hdlt, pending_top_lt hdlt]
      rfl
  · -- the dictionary is full and stays
    obtain ⟨hnextge, hnoreset, hsync⟩ := sync_next_full hv h hok1 hdholds hmcnt hmold hmbits
      hmcm hB hnr hcnt1 hbits1 hde1
    refine ⟨e1, evs, false, { m with lzw_code_cnt := dec_next_cnt cfg m.lzw_code_cnt },
      de, de1, hstep, hmiss', hsync, 1, dstr de e.prefix_string_code,
      DecEvent.get_code e.prefix_string_code e.bit_count d.lzw_code_cnt ::
        (if d.lzw_code_cnt < cfg.code_MAX then
          [DecEvent.insert d.lzw_code_cnt d.old_lzw_code lit] else []), ?_, ?_, ?_, ?_, ?_⟩
    · rw [hevs]
      have := h.enc.bits_ge
      simp only [emitted, put_codes, List.append_nil, put_nbits_length]
      omega
    · intro fuel tail
      rw [hevs]
      simp only [emitted, put_codes, List.append_nil]
      show decompress_loop cfg (fuel + 1) d _ = _
      rw [hloop, dec_cont_next fuel _ tail hnoreset]
    · rw [hstr1]
    · rw [hevs]
      split <;> rfl
    · rw [hevs, @pending_top_ge cfg _ de1 hnextge]
      by_cases hdlt : d.lzw_code_cnt < cfg.code_MAX
      · rw [if_pos hdlt, hde hdlt, pending_top_lt hdlt]; rfl
      · rw [if_neg hdlt, pending_top_ge (not_lt.mp hdlt)]; rfl
  · -- the compressor resets
    have hdcnt : d.lzw_code_cnt + 1 = cfg.code_MAX + 4096 := by
      have := h.cnt
      clear hmbits hmcm hloop
      rcases this with ⟨_, hc1⟩ | ⟨hr0, _, _⟩
      · omega
      · rw [hr] at hr0; exact absurd hr0 (by decide)
    have hreset : cfg.reset_dict = 1 ∧ m.lzw_code_cnt + 1 = cfg.code_MAX + 4096 := by
      rw [hmcnt]; exact ⟨hr, hdcnt⟩
    have hdge : ¬ d.lzw_code_cnt < cfg.code_MAX := by
      clear hmbits hmcm hloop; omega
    subst hde1
    refine ⟨e1, evs, true,
      { m with lzw_code_cnt := START_LZW_CODE, bit_count := 9, code_max := 512 },
      [], [], hstep, hmiss', ?_, 1, dstr de e.prefix_string_code,
      [DecEvent.get_code e.prefix_string_code e.bit_count d.lzw_code_cnt, DecEvent.reset],
      ?_, ?_, ?_, ?_, ?_⟩
    · show SyncFirst cfg e1 _ ∧ _
      exact ⟨{ enc := hok1, ecnt := hcnt1, ebits := hbits1, epsc := by rw [hpsc1]; exact hc,
               dcnt := rfl, dbits := rfl, dcm := rfl }, rfl, rfl⟩
    · rw [hevs]
      have := h.enc.bits_ge
      simp only [emitted, put_codes, List.append_nil, put_nbits_length]
      omega
    · intro fuel tail
      rw [hevs]
      simp only [emitted, put_codes, List.append_nil]
      show decompress_loop cfg (fuel + 1) d _ = _
      rw [hloop, dec_cont_reset fuel _ tail hreset, prepend_prepend, List.append_nil,
        if_neg hdge]
      rfl
    · rw [hstr1]
    · rw [hevs]; rfl
    · rw [hevs, pending_top_ge (not_lt.mp hdge)]; rfl

/-- The first turn of an epoch: the table is empty, the compressor writes the byte it
holds, and the decoder reads it as its first code. -/
theorem sim_first_miss {cfg : Config} (hv : cfg.Valid) {e d : State}
    (h : SyncFirst cfg e d) {c : Nat} (hc : c < 256) :
    ∃ e1 evs d1 de1, compress_step cfg e c = some (e1, evs) ∧
      MissStep cfg e c e1 [] de1 evs ∧
      Sim cfg true e d [] [c] false e1 d1 [] de1 evs := by
  obtain ⟨e1, de1, evs, hstep, hok1, hmiss⟩ := compress_step_miss hv h.enc hc (by simp)
  have hM := code_MAX_ge hv
  have hmiss' := hmiss
  obtain ⟨hpsc1, hcase⟩ := hmiss
  have hecnt := h.ecnt
  have hebits := h.ebits
  have hecm : e.code_max = 512 := by rw [h.enc.cm, hebits]; norm_num
  simp only [START_LZW_CODE] at hecnt
  have hplt : e.prefix_string_code < 2 ^ 9 := lt_trans h.epsc (by norm_num)
  rcases hcase with ⟨hA, hcnt1, hbits1, hde1, hevs⟩ | ⟨hB, _⟩ | ⟨_, hC, _⟩
  · rw [if_neg (by omega)] at hbits1
    have hget : ∀ tail, get_nbits d.bit_count (put_nbits e.prefix_string_code e.bit_count ++ tail)
        = (e.prefix_string_code, tail) := by
      intro tail
      rw [h.dbits, hebits]
      exact get_nbits_put_nbits hplt tail
    refine ⟨e1, evs, { d with old_lzw_code := e.prefix_string_code }, de1, hstep, hmiss', ?_,
      0, [e.prefix_string_code],
      [DecEvent.get_code e.prefix_string_code e.bit_count START_LZW_CODE], ?_, ?_, ?_, ?_, ?_⟩
    · show SyncTop cfg e1 _ [] de1
      exact {
        enc := hok1
        dec := DecHolds_nil _
        rel := by
          left
          refine ⟨?_, c, ?_, ?_⟩
          · show d.lzw_code_cnt < _
            rw [h.dcnt]; simp only [START_LZW_CODE]; omega
          · rw [hde1]
          · rw [hpsc1, dstr_of_lt de1 (by simp only [START_LZW_CODE]; omega)]; rfl
        dlen := by
          show START_LZW_CODE + 0 = min d.lzw_code_cnt _
          rw [h.dcnt]; simp only [START_LZW_CODE]; omega
        cnt := by
          show (_ ∧ _ = d.lzw_code_cnt + 1) ∨ (_ ∧ _ = min (d.lzw_code_cnt + 1) _ ∧
            d.lzw_code_cnt ≤ _)
          rw [h.dcnt, hcnt1]
          simp only [START_LZW_CODE]
          rcases h.enc.cnt_le with ⟨hr, _⟩ | ⟨hr, _⟩
          · left; exact ⟨hr, by omega⟩
          · right; exact ⟨hr, by omega, by omega⟩
        bits := by show d.bit_count = _; rw [h.dbits, hbits1, hebits]
        cmax := by show d.code_max = _; rw [h.dcm, hok1.cm, hbits1, hebits]; norm_num
        old_ne := by show e.prefix_string_code ≠ 256; have := h.epsc; omega
        old_lt := by
          show e.prefix_string_code < START_LZW_CODE + 0
          have := h.epsc; simp only [START_LZW_CODE]; omega }
    · exact Nat.zero_le _
    · intro fuel tail
      rw [hevs]
      simp only [emitted, put_codes, List.append_nil, Nat.add_zero]
      rw [dec_run_first, hget tail]
      show prepend [pfputc e.prefix_string_code]
        [DecEvent.get_code e.prefix_string_code d.bit_count d.lzw_code_cnt] _ = _
      rw [h.dbits, h.dcnt, hebits]
      simp only [pfputc, Nat.mod_eq_of_lt h.epsc]
    · rw [dstr_of_lt [] (by have := h.epsc; simp only [START_LZW_CODE]; omega), hpsc1,
        dstr_of_lt de1 (by simp only [START_LZW_CODE]; omega)]
    · rw [hevs]; rfl
    · rw [hevs, hde1]
      rw [pending_top_lt (by show d.lzw_code_cnt < _; rw [h.dcnt]; simp only [START_LZW_CODE]; omega)]
      show _ = _ ++ [some (d.lzw_code_cnt, _, _)]
      rw [h.dcnt, hecnt]
      rfl
  · omega
  · omega

/-- A turn of the compression loop that only extends the current string: nothing is
written, and the decoder need not move. -/
theorem sim_top_hit {cfg : Config} (hv : cfg.Valid) {e d : State} {dd de : List (Nat × Nat)}
    (h : SyncTop cfg e d dd de) {c : Nat} (hc : c < 256)
    (hin : (e.prefix_string_code, c) ∈ de) :
    ∃ e1, compress_step cfg e c = some (e1, []) ∧
      Sim cfg false e d de [c] false e1 d dd de [] := by
  obtain ⟨j, hj, hstep, hok1⟩ := compress_step_hit hv h.enc hc hin
  have hw := h.enc.wf j _ _ hj
  have hstr : dstr de (START_LZW_CODE + j) = dstr de e.prefix_string_code ++ [c] := by
    rw [dstr_entry hj, dstr_take h.enc.wf j _ hw.1]
  refine ⟨_, hstep, ?_, 0, [], [], Nat.zero_le _, ?_, ?_, rfl, ?_⟩
  · show SyncTop cfg _ d dd de
    exact {
      enc := hok1
      dec := h.dec
      rel := by
        rcases h.rel with ⟨h1, c1, h2, h3⟩ | h1
        · left
          refine ⟨h1, c1, h2, ?_⟩
          show (dstr de (START_LZW_CODE + j)).head? = _
          rw [hstr, head?_append_of_ne_nil (dstr_ne_nil _ _)]
          exact h3
        · right; exact h1
      dlen := h.dlen
      cnt := h.cnt
      bits := h.bits
      cmax := h.cmax
      old_ne := h.old_ne
      old_lt := h.old_lt }
  · intro fuel tail
    simp only [emitted, put_codes, List.nil_append, Nat.add_zero]
    rw [prepend_nil]
  · show _ = [] ++ dstr de (START_LZW_CODE + j)
    rw [hstr]; rfl
  · simp [enc_ins, dec_ins]

theorem Sim_refl {cfg : Config} {first : Bool} {e d : State} {dd de : List (Nat × Nat)}
    (h : Sync cfg first e d dd de) : Sim cfg first e d de [] first e d dd de [] where
  sync := h
  run := ⟨0, [], [], Nat.zero_le _, fun fuel tail => by
    simp only [emitted, put_codes, List.nil_append, Nat.add_zero]
    rw [prepend_nil], by simp, rfl, by simp [enc_ins, dec_ins]⟩

theorem Sim_trans {cfg : Config} {f0 f1 f2 : Bool} {e0 e1 e2 d0 d1 d2 : State}
    {de0 dd1 de1 dd2 de2 : List (Nat × Nat)} {r1 r2 : List Nat} {evs1 evs2 : List EncEvent}
    (h1 : Sim cfg f0 e0 d0 de0 r1 f1 e1 d1 dd1 de1 evs1)
    (h2 : Sim cfg f1 e1 d1 de1 r2 f2 e2 d2 dd2 de2 evs2) :
    Sim cfg f0 e0 d0 de0 (r1 ++ r2) f2 e2 d2 dd2 de2 (evs1 ++ evs2) := by
  obtain ⟨k1, out1, devs1, hk1, hrun1, hout1, hskel1, hpend1⟩ := h1.run
  obtain ⟨k2, out2, devs2, hk2, hrun2, hout2, hskel2, hpend2⟩ := h2.run
  refine ⟨h2.sync, k1 + k2, out1 ++ out2, devs1 ++ devs2, ?_, ?_, ?_, ?_, ?_⟩
  · rw [emitted_append, put_codes_append, List.length_append]; omega
  · intro fuel tail
    rw [emitted_append, put_codes_append, List.append_assoc,
      show fuel + (k1 + k2) = (fuel + k2) + k1 by omega, hrun1, hrun2, prepend_prepend]
  · rw [← List.append_assoc, hout1, List.append_assoc, hout2, List.append_assoc]
  · rw [dec_skel_append, enc_skel_append, hskel1, hskel2]
  · rw [enc_ins_append, ← List.append_assoc, hpend1, List.append_assoc, hpend2,
      dec_ins_append, List.append_assoc]

/-- One turn of the compression loop, whatever it does, leaves the two sides in step. -/
theorem sim_step {cfg : Config} (hv : cfg.Valid) {first : Bool} {e d : State}
    {dd de : List (Nat × Nat)} (h : Sync cfg first e d dd de) {c : Nat} (hc : c < 256) :
    ∃ e1 evs first1 d1 dd1 de1, compress_step cfg e c = some (e1, evs) ∧
      Sim cfg first e d de [c] first1 e1 d1 dd1 de1 evs := by
  cases first with
  | true =>
    obtain ⟨h1, _, h3⟩ : SyncFirst cfg e d ∧ dd = [] ∧ de = [] := h
    subst h3
    obtain ⟨e1, evs, d1, de1, hs, _, hsim⟩ := sim_first_miss hv h1 hc
    exact ⟨e1, evs, false, d1, [], de1, hs, hsim⟩
  | false =>
    have h1 : SyncTop cfg e d dd de := h
    by_cases hin : (e.prefix_string_code, c) ∈ de
    · obtain ⟨e1, hs, hsim⟩ := sim_top_hit hv h1 hc hin
      exact ⟨e1, [], false, d, dd, de, hs, hsim⟩
    · obtain ⟨e1, evs, first1, d1, dd1, de1, hs, _, hsim⟩ := sim_top_miss hv h1 hc hin
      exact ⟨e1, evs, first1, d1, dd1, de1, hs, hsim⟩

/-- The compression loop runs to the end of the input, and the decoder run on the codes
written stays in step with it. -/
theorem sim_loop {cfg : Config} (hv : cfg.Valid) :
    ∀ (rest : List Nat) {first : Bool} {e d : State} {dd de : List (Nat × Nat)},
      Sync cfg first e d dd de → (∀ b ∈ rest, b < 256) →
      ∃ e1 evs first1 d1 dd1 de1, compress_loop cfg e rest = some (e1, evs) ∧
        Sim cfg first e d de rest first1 e1 d1 dd1 de1 evs
  | [], first, e, d, dd, de, h, _ => ⟨e, [], first, d, dd, de, rfl, Sim_refl h⟩
  | c :: rest, first, e, d, dd, de, h, hb => by
    obtain ⟨e1, evs1, first1, d1, dd1, de1, hs1, hsim1⟩ :=
      sim_step hv h (hb c (List.mem_cons_self _ _))
    obtain ⟨e2, evs2, first2, d2, dd2, de2, hs2, hsim2⟩ :=
      sim_loop hv rest hsim1.sync (fun b hb' => hb b (List.mem_cons_of_mem _ hb'))
    refine ⟨e2, evs1 ++ evs2, first2, d2, dd2, de2, ?_, ?_⟩
    · simp only [compress_loop, hs1, hs2]
    · exact Sim_trans hsim1 hsim2

/-! ### The end of the stream -/

theorem EOF_lt_pow {w : Nat} (h : 9 ≤ w) : EOF_LZW_CODE < 2 ^ w := by
  have := pow_ge_512 h
  simp only [EOF_LZW_CODE]; omega

theorem put_nbits_add (k a b : Nat) :
    put_nbits k (a + b) = put_nbits k a ++ put_nbits (k / 2 ^ a) b := by
  induction a generalizing k with
  | zero => simp [put_nbits]
  | succ a ih =>
    rw [show a + 1 + b = (a + b) + 1 by omega, put_nbits_succ, put_nbits_succ, ih,
      Nat.div_div_eq_div_mul, pow_succ, Nat.mul_comm 2 (2 ^ a)]
    rfl

theorem put_nbits_zero_code : ∀ (b : Nat), put_nbits 0 b = List.replicate b false
  | 0 => rfl
  | b + 1 => by
    rw [put_nbits_succ, Nat.zero_div, put_nbits_zero_code b, List.replicate_succ]
    rfl

/-- Reading 9 bits where the end code was written with `w ≥ 9` bits yields 256 and leaves
zero bits only. -/
theorem get_nbits_9_EOF {w : Nat} (hw : 9 ≤ w) (j : Nat) :
    get_nbits 9 (put_nbits EOF_LZW_CODE w ++ List.replicate j false)
      = (EOF_LZW_CODE, List.replicate (w - 9 + j) false) := by
  obtain ⟨b, rfl⟩ : ∃ b, w = 9 + b := ⟨w - 9, by omega⟩
  rw [put_nbits_add, List.append_assoc, get_nbits_put_nbits (by norm_num [EOF_LZW_CODE])]
  have : EOF_LZW_CODE / 2 ^ 9 = 0 := by norm_num [EOF_LZW_CODE]
  rw [this, put_nbits_zero_code, ← List.replicate_add]
  congr 2
  omega

theorem dec_run_false (cfg : Config) (fuel : Nat) (d : State) (bits : List Bool) :
    dec_run cfg fuel false d bits = decompress_loop cfg fuel d bits := rfl

/-- The decoder in step with a compressor whose input has ended at the start of an
epoch reads the byte and the end code. -/
theorem final_first {cfg : Config} {e d : State} (h : SyncFirst cfg e d) (fuel j : Nat) :
    dec_run cfg (fuel + 1) true d
      (put_nbits e.prefix_string_code e.bit_count ++
        (put_nbits EOF_LZW_CODE e.bit_count ++ List.replicate j false))
      = some ({ d with old_lzw_code := e.prefix_string_code, new_lzw_code := EOF_LZW_CODE },
          [e.prefix_string_code],
          [DecEvent.get_code e.prefix_string_code 9 START_LZW_CODE,
           DecEvent.get_code EOF_LZW_CODE 9 START_LZW_CODE]) := by
  have hplt : e.prefix_string_code < 2 ^ 9 := lt_trans h.epsc (by norm_num)
  have hget1 : get_nbits d.bit_count (put_nbits e.prefix_string_code e.bit_count ++
      (put_nbits EOF_LZW_CODE e.bit_count ++ List.replicate j false))
      = (e.prefix_string_code,
          put_nbits EOF_LZW_CODE e.bit_count ++ List.replicate j false) := by
    rw [h.dbits, h.ebits]; exact get_nbits_put_nbits hplt _
  have hget2 : (get_nbits ({ d with old_lzw_code := e.prefix_string_code } : State).bit_count
      (put_nbits EOF_LZW_CODE e.bit_count ++ List.replicate j false)).1 = EOF_LZW_CODE := by
    show (get_nbits d.bit_count _).1 = _
    rw [h.dbits, h.ebits, get_nbits_put_nbits (EOF_lt_pow (le_refl 9))]
  rw [dec_run_first, hget1, dec_run_false, decompress_loop_eof _ _ _ _ hget2]
  simp only [prepend, Option.map_some', pfputc, Nat.mod_eq_of_lt h.epsc, List.append_nil,
    List.singleton_append]
  rw [h.dbits, h.dcnt]

/-- The decoder's last turns when no reset is due after the last code: it writes the
compressor's last string, stores the pending entry and meets the end code, at the
compressor's width or one bit wider. -/
theorem final_top {cfg : Config} {e d : State} {dd de : List (Nat × Nat)}
    (h : SyncTop cfg e d dd de)
    (hnb : ¬ (cfg.reset_dict = 1 ∧ e.lzw_code_cnt = cfg.code_MAX + 4096)) (fuel j : Nat) :
    ∃ dfin w1 n1 ins, dec_run cfg (fuel + 2) false d
      (put_nbits e.prefix_string_code e.bit_count ++
        (put_nbits EOF_LZW_CODE e.bit_count ++ List.replicate j false))
      = some (dfin, dstr de e.prefix_string_code,
          DecEvent.get_code e.prefix_string_code e.bit_count d.lzw_code_cnt ::
            (ins ++ [DecEvent.get_code EOF_LZW_CODE w1 n1])) ∧
      dec_ins ins = pending cfg false d de ∧ dec_skel ins = [] ∧
      (w1 = e.bit_count ∨ w1 = e.bit_count + 1) := by
  obtain ⟨lit, hlit, hde, hloop⟩ := top_loop_eq h
  obtain ⟨m, hm⟩ : ∃ m, m = dec_mid cfg d e.prefix_string_code lit := ⟨_, rfl⟩
  have hmcnt : m.lzw_code_cnt = d.lzw_code_cnt := by rw [hm]; exact dec_mid_cnt _ _ _ _
  have hmbits := dec_mid_bit_count cfg d e.prefix_string_code lit
  rw [← hm] at hloop hmbits
  have hnoreset : ¬ (cfg.reset_dict = 1 ∧ m.lzw_code_cnt + 1 = cfg.code_MAX + 4096) := by
    rw [hmcnt]
    rintro ⟨hr, hcon⟩
    apply hnb
    rcases h.cnt with ⟨_, hc1⟩ | ⟨hr0, _, _⟩
    · exact ⟨hr, by rw [hc1]; exact hcon⟩
    · rw [hr] at hr0; exact absurd hr0 (by decide)
  have hw1 : m.bit_count = e.bit_count ∨ m.bit_count = e.bit_count + 1 := by
    rw [hmbits, h.bits]
    split
    · right; rfl
    · left; rfl
  have heof : (get_nbits m.bit_count
      (put_nbits EOF_LZW_CODE e.bit_count ++ List.replicate j false)).1 = EOF_LZW_CODE := by
    rcases hw1 with hw | hw
    · rw [hw, get_nbits_put_nbits (EOF_lt_pow h.enc.bits_ge)]
    · rw [hw]; exact get_nbits_EOF_wider (EOF_lt_pow h.enc.bits_ge) j
  refine ⟨{ m with
      lzw_code_cnt := dec_next_cnt cfg m.lzw_code_cnt
      new_lzw_code := EOF_LZW_CODE }, m.bit_count, dec_next_cnt cfg m.lzw_code_cnt,
    (if d.lzw_code_cnt < cfg.code_MAX then
      [DecEvent.insert d.lzw_code_cnt d.old_lzw_code lit] else []), ?_, ?_, ?_, hw1⟩
  · have heof' : (get_nbits
        ({ m with lzw_code_cnt := dec_next_cnt cfg m.lzw_code_cnt } : State).bit_count
        (put_nbits EOF_LZW_CODE e.bit_count ++ List.replicate j false)).1 = EOF_LZW_CODE := heof
    rw [dec_run_false, show fuel + 2 = (fuel + 1) + 1 from rfl, hloop,
      dec_cont_next (fuel + 1) m _ hnoreset, dec_run_false,
      decompress_loop_eof _ _ _ _ heof']
    simp only [prepend, Option.map_some', List.append_nil, List.cons_append]
  · by_cases hdlt : d.lzw_code_cnt < cfg.code_MAX
    · rw [if_pos hdlt, hde hdlt, pending_top_lt hdlt]; rfl
    · rw [if_neg hdlt, pending_top_ge (not_lt.mp hdlt)]; rfl
  · split <;> rfl

/-- The decoder's turn for the last code when the counter makes a reset due: it resets,
reads nine bits of the end code as the first code of an epoch and writes a byte more
than the compressor has read. -/
theorem final_top_reset {cfg : Config} {e d : State} {dd de : List (Nat × Nat)}
    (h : SyncTop cfg e d dd de)
    (hb : cfg.reset_dict = 1 ∧ e.lzw_code_cnt = cfg.code_MAX + 4096) (fuel j : Nat) :
    ∃ d1, dec_run cfg (fuel + 1) false d
      (put_nbits e.prefix_string_code e.bit_count ++
        (put_nbits EOF_LZW_CODE e.bit_count ++ List.replicate j false))
      = prepend (dstr de e.prefix_string_code ++ [0])
          [DecEvent.get_code e.prefix_string_code e.bit_count d.lzw_code_cnt,
           DecEvent.reset, DecEvent.get_code EOF_LZW_CODE 9 START_LZW_CODE]
          (dec_run cfg fuel false d1 (List.replicate (e.bit_count - 9 + j) false)) ∧
      d1.bit_count = 9 ∧ d1.lzw_code_cnt = START_LZW_CODE ∧
      d1.old_lzw_code = EOF_LZW_CODE := by
  obtain ⟨lit, hlit, hde, hloop⟩ := top_loop_eq h
  obtain ⟨m, hm⟩ : ∃ m, m = dec_mid cfg d e.prefix_string_code lit := ⟨_, rfl⟩
  have hmcnt : m.lzw_code_cnt = d.lzw_code_cnt := by rw [hm]; exact dec_mid_cnt _ _ _ _
  rw [← hm] at hloop
  have hdcnt : d.lzw_code_cnt + 1 = cfg.code_MAX + 4096 := by
    rcases h.cnt with ⟨_, hc1⟩ | ⟨hr0, _, _⟩
    · rw [← hc1]; exact hb.2
    · rw [hb.1] at hr0; exact absurd hr0 (by decide)
  have hreset : cfg.reset_dict = 1 ∧ m.lzw_code_cnt + 1 = cfg.code_MAX + 4096 := by
    rw [hmcnt]; exact ⟨hb.1, hdcnt⟩
  have hdge : ¬ d.lzw_code_cnt < cfg.code_MAX := by omega
  refine ⟨{ m with
      lzw_code_cnt := START_LZW_CODE
      bit_count := 9
      code_max := 512
      old_lzw_code := EOF_LZW_CODE }, ?_, rfl, rfl, rfl⟩
  have hget : get_nbits
      ({ m with lzw_code_cnt := START_LZW_CODE, bit_count := 9, code_max := 512 } : State).bit_count
      (put_nbits EOF_LZW_CODE e.bit_count ++ List.replicate j false)
      = (EOF_LZW_CODE, List.replicate (e.bit_count - 9 + j) false) :=
    get_nbits_9_EOF h.enc.bits_ge j
  rw [dec_run_false, hloop, dec_cont_reset fuel m _ hreset, dec_run_first, hget,
    prepend_prepend, prepend_prepend, if_neg hdge]
  simp only [List.append_nil, List.append_assoc, List.singleton_append, List.cons_append,
    List.nil_append]
  rfl

/-! ### Whole runs -/

theorem compress_LZW_cons (cfg : Config) (mem : State) (c : Nat) (rest : List Nat) :
    compress_LZW cfg mem (c :: rest)
      = (compress_loop cfg (enc_start cfg mem c) rest).map
          (fun r => (r.1, r.2 ++ final_codes r.1)) := by
  unfold compress_LZW enc_start final_codes
  simp only [List.tail_cons]
  cases compress_loop cfg _ rest <;> rfl

theorem SyncFirst_start {cfg : Config} (hv : cfg.Valid)
    (hr : cfg.reset_dict = 1 ∨ cfg.reset_dict = 0) (a b c a1 b1 c1 : Nat → Nat) {c0 : Nat}
    (hc0 : c0 < 256) :
    SyncFirst cfg (enc_start cfg (initial_state a b c) c0) (dec_start (initial_state a1 b1 c1)) where
  enc := EncOK_fresh hv hr (initial_state a b c) hc0
  ecnt := rfl
  ebits := rfl
  epsc := hc0
  dcnt := rfl
  dbits := rfl
  dcm := rfl

/-- The bits of the whole stream: the codes of the loop, the last code, the end code and
the zero padding. -/
theorem flush_put_codes (evs : List EncEvent) (e : State) :
    ∃ j, flush_put_buffer (put_codes (emitted (evs ++ final_codes e)))
      = put_codes (emitted evs) ++ (put_nbits e.prefix_string_code e.bit_count ++
          (put_nbits EOF_LZW_CODE e.bit_count ++ List.replicate j false)) := by
  refine ⟨(8 - (put_codes (emitted (evs ++ final_codes e))).length % 8) % 8, ?_⟩
  unfold flush_put_buffer
  rw [emitted_append, put_codes_append]
  simp only [final_codes, emitted, put_codes, List.append_nil, List.append_assoc]

/-- The master statement about one run of the compressor on a non-empty input: the loop
ends, and the decoder run on the codes of the loop is in step with it. -/
theorem codec_master {cfg : Config} (hv : cfg.Valid)
    (hr : cfg.reset_dict = 1 ∨ cfg.reset_dict = 0) (a b c a1 b1 c1 : Nat → Nat)
    {c0 : Nat} {rest : List Nat} (hS : ∀ x ∈ c0 :: rest, x < 256) :
    ∃ e1 evs first1 d1 dd1 de1,
      compress_LZW cfg (initial_state a b c) (c0 :: rest) = some (e1, evs ++ final_codes e1) ∧
      compress_loop cfg (enc_start cfg (initial_state a b c) c0) rest = some (e1, evs) ∧
      Sim cfg true (enc_start cfg (initial_state a b c) c0) (dec_start (initial_state a1 b1 c1))
        [] rest first1 e1 d1 dd1 de1 evs := by
  have hc0 : c0 < 256 := hS c0 (List.mem_cons_self _ _)
  have h0 : Sync cfg true (enc_start cfg (initial_state a b c) c0)
      (dec_start (initial_state a1 b1 c1)) [] [] :=
    ⟨SyncFirst_start hv hr a b c a1 b1 c1 hc0, rfl, rfl⟩
  obtain ⟨e1, evs, first1, d1, dd1, de1, hloop, hsim⟩ :=
    sim_loop hv rest h0 (fun x hx => hS x (List.mem_cons_of_mem _ hx))
  refine ⟨e1, evs, first1, d1, dd1, de1, ?_, hloop, hsim⟩
  rw [compress_LZW_cons, hloop]
  rfl

/-- The decoder on the whole stream, cut after the codes of the compression loop. -/
theorem decompress_split {cfg : Config} {e0 d0 e1 d1 : State} {first1 : Bool}
    {dd1 de1 : List (Nat × Nat)} {rest : List Nat} {evs : List EncEvent}
    (hsim : Sim cfg true e0 d0 [] rest first1 e1 d1 dd1 de1 evs) (mem : State)
    (hd0 : d0 = dec_start mem) (j : Nat) (h9 : 9 ≤ e1.bit_count) :
    ∃ fuel out devs, 2 * e1.bit_count + j ≤ fuel + 1 ∧
      decompress_LZW cfg mem (put_codes (emitted evs) ++
        (put_nbits e1.prefix_string_code e1.bit_count ++
          (put_nbits EOF_LZW_CODE e1.bit_count ++ List.replicate j false)))
        = prepend out devs (dec_run cfg (fuel + 2) first1 d1
            (put_nbits e1.prefix_string_code e1.bit_count ++
              (put_nbits EOF_LZW_CODE e1.bit_count ++ List.replicate j false))) ∧
      dstr [] e0.prefix_string_code ++ rest = out ++ dstr de1 e1.prefix_string_code ∧
      dec_skel devs = enc_skel evs ∧
      enc_ins evs = dec_ins devs ++ pending cfg first1 d1 de1 := by
  obtain ⟨k, out, devs, hk, hrun, hout, hskel, hpend⟩ := hsim.run
  obtain ⟨n, hn⟩ : ∃ n, n = (put_codes (emitted evs)).length := ⟨_, rfl⟩
  rw [← hn] at hk
  refine ⟨n - k + 2 * e1.bit_count + j - 1, out, devs, by omega, ?_, hout, hskel, ?_⟩
  · rw [decompress_LZW_eq]
    show dec_run cfg _ true (dec_start mem) _ = _
    rw [← hd0]
    have hlen : (put_codes (emitted evs) ++
        (put_nbits e1.prefix_string_code e1.bit_count ++
          (put_nbits EOF_LZW_CODE e1.bit_count ++ List.replicate j false))).length + 1
        = (n - k + 2 * e1.bit_count + j - 1 + 2) + k := by
      simp only [List.length_append, put_nbits_length, List.length_replicate, ← hn]
      omega
    rw [hlen, hrun]
  · have : pending cfg true d0 [] = [] := rfl
    rw [this, List.nil_append] at hpend
    exact hpend

theorem dec_skel_get_cons (v w n : Nat) (l : List DecEvent) :
    dec_skel (DecEvent.get_code v w n :: l) = some (v, w) :: dec_skel l := rfl

theorem dec_ins_get_cons (v w n : Nat) (l : List DecEvent) :
    dec_ins (DecEvent.get_code v w n :: l) = dec_ins l := rfl

/-- A whole run when no reset is due after the last code: the decoder returns the input,
reads every code of the loop and the last code at the width they were written with, reads
the end code last, at that width or one bit wider, resets where the compressor did and stores
the entries that the compressor stored. -/
theorem codec_in_step {cfg : Config} (hv : cfg.Valid)
    (hr : cfg.reset_dict = 1 ∨ cfg.reset_dict = 0) (a b c a1 b1 c1 : Nat → Nat)
    {c0 : Nat} {rest : List Nat} (hS : ∀ x ∈ c0 :: rest, x < 256) :
    ∃ e1 evs, compress_LZW cfg (initial_state a b c) (c0 :: rest)
        = some (e1, evs ++ final_codes e1) ∧
      compress_loop cfg (enc_start cfg (initial_state a b c) c0) rest = some (e1, evs) ∧
      (¬ (cfg.reset_dict = 1 ∧ e1.lzw_code_cnt = cfg.code_MAX + 4096) →
        ∃ dfin devs w1 n1, decompress_LZW cfg (initial_state a1 b1 c1)
            (flush_put_buffer (put_codes (emitted (evs ++ final_codes e1))))
            = some (dfin, c0 :: rest, devs ++ [DecEvent.get_code EOF_LZW_CODE w1 n1]) ∧
          dec_skel devs = enc_skel evs ++ [some (e1.prefix_string_code, e1.bit_count)] ∧
          (w1 = e1.bit_count ∨ w1 = e1.bit_count + 1) ∧
          dec_ins devs = enc_ins evs) := by
  obtain ⟨e1, evs, first1, d1, dd1, de1, hcomp, hloop, hsim⟩ :=
    codec_master hv hr a b c a1 b1 c1 hS
  refine ⟨e1, evs, hcomp, hloop, fun hnb => ?_⟩
  obtain ⟨j, hflush⟩ := flush_put_codes evs e1
  have hc0 : c0 < 256 := hS c0 (List.mem_cons_self _ _)
  have hstr0 : dstr [] (enc_start cfg (initial_state a b c) c0).prefix_string_code = [c0] := rfl
  cases first1 with
  | true =>
    obtain ⟨h1, _, h3⟩ : SyncFirst cfg e1 d1 ∧ dd1 = [] ∧ de1 = [] := hsim.sync
    obtain ⟨fuel, out, devs, _, hdec, hout, hskel, hins⟩ :=
      decompress_split hsim (initial_state a1 b1 c1) rfl j (by rw [h1.ebits])
    rw [hstr0] at hout
    refine ⟨{ d1 with old_lzw_code := e1.prefix_string_code, new_lzw_code := EOF_LZW_CODE },
      devs ++ [DecEvent.get_code e1.prefix_string_code 9 START_LZW_CODE], 9, START_LZW_CODE,
      ?_, ?_, Or.inl h1.ebits.symm, ?_⟩
    · have hout2 : out ++ [e1.prefix_string_code] = c0 :: rest := by
        rw [h3] at hout; exact hout.symm
      rw [hflush, hdec, final_first h1 (fuel + 1) j]
      simp only [prepend, Option.map_some', List.append_assoc, List.singleton_append]
      rw [hout2]
    · rw [dec_skel_append, hskel, h1.ebits]
      rfl
    · rw [dec_ins_append, hins]
      simp [dec_ins, pending]
  | false =>
    have h1 : SyncTop cfg e1 d1 dd1 de1 := hsim.sync
    obtain ⟨fuel, out, devs, _, hdec, hout, hskel, hins⟩ :=
      decompress_split hsim (initial_state a1 b1 c1) rfl j h1.enc.bits_ge
    rw [hstr0] at hout
    obtain ⟨dfin, w1, n1, ins, hfin, hins2, hskel2, hw1⟩ := final_top h1 hnb fuel j
    refine ⟨dfin, devs ++ (DecEvent.get_code e1.prefix_string_code e1.bit_count
      d1.lzw_code_cnt :: ins), w1, n1, ?_, ?_, hw1, ?_⟩
    · have hout2 : out ++ dstr de1 e1.prefix_string_code = c0 :: rest := hout.symm
      rw [hflush, hdec, hfin]
      simp only [prepend, Option.map_some', List.append_assoc, List.cons_append]
      rw [hout2]
    · rw [dec_skel_append, hskel, dec_skel_get_cons, hskel2]
    · rw [dec_ins_append, dec_ins_get_cons, hins2, hins]

/-- A whole run when the compressor's counter stands at `CODE_MAX + 4096` at the end of the
input: the decoder resets after the last code, takes nine bits of the end code for the
first code of an epoch, writes one byte more than the input and goes on reading zero
bits. -/
theorem codec_reset_due {cfg : Config} (hv : cfg.Valid)
    (hr : cfg.reset_dict = 1 ∨ cfg.reset_dict = 0) (a b c a1 b1 c1 : Nat → Nat)
    {c0 : Nat} {rest : List Nat} (hS : ∀ x ∈ c0 :: rest, x < 256)
    {e1 : State} {evs : List EncEvent}
    (hloop : compress_loop cfg (enc_start cfg (initial_state a b c) c0) rest = some (e1, evs))
    (hb : cfg.reset_dict = 1 ∧ e1.lzw_code_cnt = cfg.code_MAX + 4096) :
    ∃ fuel n d1 devs n1, decompress_LZW cfg (initial_state a1 b1 c1)
        (flush_put_buffer (put_codes (emitted (evs ++ final_codes e1))))
        = prepend ((c0 :: rest) ++ [0])
            (devs ++ [DecEvent.get_code e1.prefix_string_code e1.bit_count n1,
              DecEvent.reset, DecEvent.get_code EOF_LZW_CODE 9 START_LZW_CODE])
            (dec_run cfg fuel false d1 (List.replicate n false)) ∧
      n < fuel ∧ d1.bit_count = 9 ∧ d1.lzw_code_cnt = START_LZW_CODE ∧
      dec_skel devs = enc_skel evs ∧ dec_ins devs = enc_ins evs ∧
      d1.old_lzw_code = EOF_LZW_CODE := by
  obtain ⟨e1', evs', first1, d1, dd1, de1, _, hloop', hsim⟩ :=
    codec_master hv hr a b c a1 b1 c1 hS
  rw [hloop] at hloop'
  obtain ⟨rfl, rfl⟩ : e1 = e1' ∧ evs = evs' := by
    have := Option.some.inj hloop'
    exact ⟨congrArg Prod.fst this, congrArg Prod.snd this⟩
  obtain ⟨j, hflush⟩ := flush_put_codes evs e1
  have hM := code_MAX_ge hv
  have hstr0 : dstr [] (enc_start cfg (initial_state a b c) c0).prefix_string_code = [c0] := rfl
  cases first1 with
  | true =>
    obtain ⟨h1, _, _⟩ : SyncFirst cfg e1 d1 ∧ dd1 = [] ∧ de1 = [] := hsim.sync
    have := h1.ecnt
    simp only [START_LZW_CODE] at this
    omega
  | false =>
    have h1 : SyncTop cfg e1 d1 dd1 de1 := hsim.sync
    obtain ⟨fuel, out, devs, hfuel, hdec, hout, hskel, hins⟩ :=
      decompress_split hsim (initial_state a1 b1 c1) rfl j h1.enc.bits_ge
    rw [hstr0] at hout
    obtain ⟨d2, hfin, hd2b, hd2c, hd2o⟩ := final_top_reset h1 hb (fuel + 1) j
    have hdge : cfg.code_MAX ≤ d1.lzw_code_cnt := by
      rcases h1.cnt with ⟨_, hc1⟩ | ⟨hr0, _, _⟩
      · omega
      · rw [hb.1] at hr0; exact absurd hr0 (by decide)
    refine ⟨fuel + 1, e1.bit_count - 9 + j, d2, devs, d1.lzw_code_cnt, ?_, ?_, hd2b, hd2c,
      hskel, ?_, hd2o⟩
    · have hout2 : out ++ dstr de1 e1.prefix_string_code = c0 :: rest := hout.symm
      rw [hflush, hdec, hfin, prepend_prepend, ← List.append_assoc, hout2]
    · have := h1.enc.bits_ge
      omega
    · rw [hins, pending_top_ge hdge, List.append_nil]

/-! ### The decoder on zero bits -/

theorem get_nbits_zeros (w n : Nat) :
    get_nbits w (List.replicate n false)
      = if n < w then (EOF_LZW_CODE, []) else (0, List.replicate (n - w) false) := by
  unfold get_nbits
  rw [List.length_replicate]
  split
  · rfl
  · rename_i h
    have h1 : (List.replicate n false).take w = List.replicate w false := by
      rw [List.take_replicate, Nat.min_eq_left (by omega)]
    have h2 : (List.replicate n false).drop w = List.replicate (n - w) false :=
      List.drop_replicate _ _ _
    have h3 : bits_value (List.replicate w false) = 0 := by
      have := bits_value_append_zeros [] w
      simpa [bits_value] using this
    rw [h1, h2, h3]

theorem dec_next_cnt_ge (cfg : Config) (n : Nat) : n ≤ dec_next_cnt cfg n := by
  unfold dec_next_cnt
  split
  · omega
  · split
    · split <;> omega
    · exact le_refl _

theorem dec_mid_bit_count_ge (cfg : Config) (d : State) (v lit : Nat) :
    d.bit_count ≤ (dec_mid cfg d v lit).bit_count := by
  rw [dec_mid_bit_count]
  split <;> omega

theorem prepend_some {out : List Nat} {ev : List DecEvent}
    {x : Option (State × List Nat × List DecEvent)} (h : ∃ r, x = some r) :
    ∃ r, prepend out ev x = some r := by
  obtain ⟨r, rfl⟩ := h
  exact ⟨_, rfl⟩

/-- On zero bits, the decoder before the first code of an epoch stops if the loop does. -/
theorem zero_first (cfg : Config) (fuel : Nat)
    (ih : ∀ (n : Nat) (d : State), n < fuel → 1 ≤ d.bit_count →
      START_LZW_CODE ≤ d.lzw_code_cnt →
      ∃ r, decompress_loop cfg fuel d (List.replicate n false) = some r)
    (n : Nat) (d : State) (hn : n < fuel) (hw : 1 ≤ d.bit_count)
    (hcnt : START_LZW_CODE ≤ d.lzw_code_cnt) :
    ∃ r, dec_run cfg fuel true d (List.replicate n false) = some r := by
  rw [dec_run_first]
  apply prepend_some
  rw [dec_run_false]
  by_cases hlt : n < d.bit_count
  · have hget : get_nbits d.bit_count (List.replicate n false) = (EOF_LZW_CODE, []) := by
      rw [get_nbits_zeros, if_pos hlt]
    rw [hget]
    exact ih 0 _ (by omega) hw hcnt
  · have hget : get_nbits d.bit_count (List.replicate n false)
        = (0, List.replicate (n - d.bit_count) false) := by
      rw [get_nbits_zeros, if_neg hlt]
    rw [hget]
    exact ih (n - d.bit_count) _ (by omega) hw hcnt

/-- On zero bits the decoder reads literal codes 0 until the bits run out: it stops. -/
theorem zero_tail (cfg : Config) (hM : 1 ≤ cfg.code_MAX) :
    ∀ (fuel n : Nat) (d : State), n < fuel → 1 ≤ d.bit_count → START_LZW_CODE ≤ d.lzw_code_cnt →
      ∃ r, decompress_loop cfg fuel d (List.replicate n false) = some r
  | 0, n, _, h, _, _ => absurd h (Nat.not_lt_zero n)
  | fuel + 1, n, d, hn, hw, hcnt => by
    by_cases hlt : n < d.bit_count
    · have heof : (get_nbits d.bit_count (List.replicate n false)).1 = EOF_LZW_CODE := by
        rw [get_nbits_zeros, if_pos hlt]
      exact ⟨_, decompress_loop_eof cfg fuel d _ heof⟩
    · have hget : get_nbits d.bit_count (List.replicate n false)
          = (0, List.replicate (n - d.bit_count) false) := by
        rw [get_nbits_zeros, if_neg hlt]
      have hnot : ¬ (0 ≥ d.lzw_code_cnt) := by
        simp only [START_LZW_CODE] at hcnt; omega
      have hg : get_string d cfg.code_MAX
          (if 0 ≥ d.lzw_code_cnt then d.old_lzw_code else 0) [] = some (0, []) := by
        rw [if_neg hnot]
        obtain ⟨room, hroom⟩ : ∃ room, cfg.code_MAX = room + 1 := ⟨cfg.code_MAX - 1, by omega⟩
        rw [hroom]
        simp [get_string, EOF_LZW_CODE]
      rw [loop_step_of_get cfg fuel d _ _ hget (by simp [EOF_LZW_CODE]) hg]
      apply prepend_some
      have hfuel : n - d.bit_count < fuel := by omega
      by_cases hreset : cfg.reset_dict = 1 ∧
          (dec_mid cfg d 0 0).lzw_code_cnt + 1 = cfg.code_MAX + 4096
      · rw [dec_cont_reset fuel _ _ hreset]
        apply prepend_some
        exact zero_first cfg fuel (zero_tail cfg hM fuel) _ _ hfuel (by show 1 ≤ 9; omega)
          (le_refl _)
      · rw [dec_cont_next fuel _ _ hreset, dec_run_false]
        exact zero_tail cfg hM fuel (n - d.bit_count) _ hfuel
          (le_trans hw (dec_mid_bit_count_ge cfg d 0 0))
          (by
            show START_LZW_CODE ≤ dec_next_cnt cfg (dec_mid cfg d 0 0).lzw_code_cnt
            rw [dec_mid_cnt]
            exact le_trans hcnt (dec_next_cnt_ge cfg _))

/-! ### Inputs without a repeated pair of neighbours -/

theorem digrams_cons_cons (a b : Nat) (t : List Nat) :
    digrams (a :: b :: t) = (a, b) :: digrams (b :: t) := rfl

/-- An input in which no pair of neighbours occurs twice is written byte by byte: every
turn of the loop writes the byte it holds, and the counter goes up by one per byte. -/
theorem literal_run {cfg : Config} (hv : cfg.Valid) (hr1 : cfg.reset_dict = 1) :
    ∀ (rest : List Nat) (e : State) (de : List (Nat × Nat)), EncOK cfg e de →
      (∀ b ∈ rest, b < 256) →
      (digrams (e.prefix_string_code :: rest)).Nodup →
      (∀ q ∈ digrams (e.prefix_string_code :: rest), q ∉ de) →
      e.lzw_code_cnt + rest.length ≤ cfg.code_MAX + 4096 →
      ∃ e1 evs de1, compress_loop cfg e rest = some (e1, evs) ∧ EncOK cfg e1 de1 ∧
        e1.lzw_code_cnt = e.lzw_code_cnt + rest.length ∧
        (e.prefix_string_code :: rest).getLast? = some e1.prefix_string_code ∧
        (∀ q ∈ de1, q ∈ de ∨ q ∈ digrams (e.prefix_string_code :: rest)) ∧
        (∀ more n, codes_before_resets (evs ++ more) n
          = codes_before_resets more (n + rest.length)) ∧
        EncEvent.reset ∉ evs
  | [], e, de, H, _, _, _, _ =>
    ⟨e, [], de, rfl, H, rfl, rfl, fun q hq => Or.inl hq, fun more n => rfl,
      List.not_mem_nil _⟩
  | c :: rest, e, de, H, hb, hnd, hnin, hcnt => by
    have hc : c < 256 := hb c (List.mem_cons_self _ _)
    rw [digrams_cons_cons] at hnd hnin
    have hpc : (e.prefix_string_code, c) ∉ de := hnin _ (List.mem_cons_self _ _)
    obtain ⟨e1, de1, evs1, hstep, hok1, hpsc1, hcase⟩ := compress_step_miss hv H hc hpc
    have hlen : (c :: rest).length = rest.length + 1 := rfl
    rw [hlen] at hcnt
    have hcnt1 : e1.lzw_code_cnt = e.lzw_code_cnt + 1 := by
      rcases hcase with ⟨_, h1, _⟩ | ⟨_, _, h1, _⟩ | ⟨_, hC, _⟩
      · exact h1
      · rw [h1, if_pos hr1]
      · omega
    have hde1 : ∀ q ∈ de1, q ∈ de ∨ q = (e.prefix_string_code, c) := by
      intro q hq
      rcases hcase with ⟨_, _, _, h1, _⟩ | ⟨_, _, _, _, h1, _⟩ | ⟨_, hC, _⟩
      · rw [h1] at hq
        rcases List.mem_append.mp hq with h | h
        · exact Or.inl h
        · exact Or.inr (List.mem_singleton.mp h)
      · rw [h1] at hq; exact Or.inl hq
      · omega
    have hevs1 : (∀ more n, codes_before_resets (evs1 ++ more) n
        = codes_before_resets more (n + 1)) ∧ EncEvent.reset ∉ evs1 := by
      rcases hcase with ⟨_, _, _, _, h1⟩ | ⟨_, _, _, _, _, h1⟩ | ⟨_, hC, _⟩
      · rw [h1]; exact ⟨fun more n => rfl, by simp⟩
      · rw [h1]; exact ⟨fun more n => rfl, by simp⟩
      · omega
    obtain ⟨e2, evs2, de2, hloop2, hok2, hcnt2, hlast2, hde2, hcbr2, hskel2⟩ :=
      literal_run hv hr1 rest e1 de1 hok1 (fun b hb' => hb b (List.mem_cons_of_mem _ hb'))
        (by rw [hpsc1]; exact (List.nodup_cons.mp hnd).2)
        (by
          rw [hpsc1]
          intro q hq hqde
          rcases hde1 q hqde with h | h
          · exact hnin q (List.mem_cons_of_mem _ hq) h
          · rw [h] at hq
            exact (List.nodup_cons.mp hnd).1 hq)
        (by rw [hcnt1]; omega)
    refine ⟨e2, evs1 ++ evs2, de2, ?_, hok2, by rw [hcnt2, hcnt1, hlen]; omega, ?_, ?_, ?_, ?_⟩
    · simp only [compress_loop, hstep, hloop2]
    · rw [hpsc1] at hlast2
      rw [List.getLast?_cons_cons]
      exact hlast2
    · intro q hq
      rw [hpsc1] at hde2
      rw [digrams_cons_cons]
      rcases hde2 q hq with h | h
      · rcases hde1 q h with h' | h'
        · exact Or.inl h'
        · exact Or.inr (by rw [h']; exact List.mem_cons_self _ _)
      · exact Or.inr (List.mem_cons_of_mem _ h)
    · intro more n
      rw [List.append_assoc, hevs1.1, hcbr2, hlen]
      congr 1
      omega
    · intro h
      rcases List.mem_append.mp h with h | h
      · exact hevs1.2 h
      · exact hskel2 h

/-- The pairs of neighbours of an input given by a function of the position. -/
theorem digrams_map_range (f : Nat → Nat) (n : Nat) :
    digrams ((List.range (n + 1)).map f) = (List.range n).map (fun i => (f i, f (i + 1))) := by
  unfold digrams
  apply List.ext_getElem
  · simp
  · intro i h1 h2
    simp only [List.length_map, List.length_range] at h2
    simp [List.getElem_zip, List.getElem_tail]

/-- The pairs of neighbours are pairwise distinct when the position can be computed back
from the pair. -/
theorem digrams_nodup (f : Nat → Nat) (g : Nat × Nat → Nat) (n : Nat)
    (h : ∀ i, i < n → g (f i, f (i + 1)) = i) :
    (digrams ((List.range (n + 1)).map f)).Nodup := by
  rw [digrams_map_range]
  apply List.Nodup.map_on _ (List.nodup_range n)
  intro x hx y hy hxy
  rw [← h x (List.mem_range.mp hx), ← h y (List.mem_range.mp hy), hxy]

/-- Every run on an input that is not empty: the decoder returns, what it writes starts
with the input, and by the time it has read the last code before the end code it has read
every code at the width it was written with, has reset where the compressor did and has
stored the entries that the compressor stored. -/
theorem codec_total {cfg : Config} (hv : cfg.Valid)
    (hr : cfg.reset_dict = 1 ∨ cfg.reset_dict = 0) (a b c a1 b1 c1 : Nat → Nat)
    {c0 : Nat} {rest : List Nat} (hS : ∀ x ∈ c0 :: rest, x < 256) :
    ∃ e1 evs dfin out devs1 devs2,
      compress_LZW cfg (initial_state a b c) (c0 :: rest) = some (e1, evs ++ final_codes e1) ∧
      decompress_LZW cfg (initial_state a1 b1 c1)
        (flush_put_buffer (put_codes (emitted (evs ++ final_codes e1))))
        = some (dfin, out, devs1 ++ devs2) ∧
      (c0 :: rest) <+: out ∧
      dec_skel devs1 = enc_skel evs ++ [some (e1.prefix_string_code, e1.bit_count)] ∧
      dec_ins devs1 = enc_ins evs := by
  obtain ⟨e1, evs, hcomp, hloop, hstep⟩ := codec_in_step hv hr a b c a1 b1 c1 hS
  by_cases hb : cfg.reset_dict = 1 ∧ e1.lzw_code_cnt = cfg.code_MAX + 4096
  · obtain ⟨fuel, n, d1, devs, n1, hdec, hn, hd1b, hd1c, hskel, hins, _⟩ :=
      codec_reset_due hv hr a b c a1 b1 c1 hS hloop hb
    have hM := code_MAX_ge hv
    obtain ⟨r, hr2⟩ := zero_tail cfg (by omega) fuel n d1 hn (by omega) (by omega)
    have hrun : dec_run cfg fuel false d1 (List.replicate n false) = some r := hr2
    rw [hrun] at hdec
    refine ⟨e1, evs, r.1, (c0 :: rest) ++ [0] ++ r.2.1,
      devs ++ [DecEvent.get_code e1.prefix_string_code e1.bit_count n1],
      [DecEvent.reset, DecEvent.get_code EOF_LZW_CODE 9 START_LZW_CODE] ++ r.2.2,
      hcomp, ?_, ?_, ?_, ?_⟩
    · rw [hdec]
      simp only [prepend, Option.map_some', List.append_assoc, List.cons_append,
        List.nil_append]
    · rw [List.append_assoc]
      exact List.prefix_append _ _
    · rw [dec_skel_append, hskel]
      rfl
    · rw [dec_ins_append, hins]
      simp [dec_ins]
  · obtain ⟨dfin, devs, w1, n1, hdec, hskel, _, hins⟩ := hstep hb
    exact ⟨e1, evs, dfin, c0 :: rest, devs, [DecEvent.get_code EOF_LZW_CODE w1 n1],
      hcomp, hdec, List.prefix_refl _, hskel, hins⟩

/-! ### An input that fills the dictionary without a repeated pair of neighbours -/

theorem check_index_spec : ∀ n, check_index n = true →
    ∀ i, i < n → stride_index (stride_byte i, stride_byte (i + 1)) = i
  | 0, _, i, hi => absurd hi (Nat.not_lt_zero i)
  | n + 1, h, i, hi => by
    simp only [check_index, Bool.and_eq_true, beq_iff_eq] at h
    rcases Nat.lt_succ_iff_lt_or_eq.mp hi with h1 | h1
    · exact check_index_spec n h.2 i h1
    · rw [h1]; exact h.1

theorem check_index_7936 : check_index 7936 = true := by decide!

theorem stride_byte_lt (i : Nat) : stride_byte i < 256 := Nat.mod_lt _ (by decide)

theorem stride_input_succ (n : Nat) :
    stride_input (n + 1) = stride_byte 0 :: (List.range n).map (fun i => stride_byte (i + 1)) := by
  unfold stride_input
  rw [List.range_succ_eq_map, List.map_cons, List.map_map]
  rfl

theorem stride_input_snoc (n : Nat) :
    stride_input (n + 1) = stride_input n ++ [stride_byte n] := by
  unfold stride_input
  rw [List.range_succ, List.map_append]
  rfl

theorem stride_input_lt (n : Nat) : ∀ x ∈ stride_input n, x < 256 := by
  intro x hx
  obtain ⟨i, _, rfl⟩ := List.mem_map.mp hx
  exact stride_byte_lt i

theorem stride_digrams_nodup (n : Nat) (hn : n ≤ 7936) :
    (digrams (stride_input (n + 1))).Nodup :=
  digrams_nodup stride_byte stride_index n
    (fun i hi => check_index_spec 7936 check_index_7936 i (by omega))

/-- The loop of the compressor on the first `n + 1` bytes of the input, `n ≤ 7935`, with
twelve-bit codes and resets: a code is written for every byte but the last, the counter
ends at `257 + n` and no reset takes place. -/
theorem stride_literal (n : Nat) (hn : n ≤ 7935) :
    ∃ e1 evs de1,
      compress_loop (configure 12 1) (enc_start (configure 12 1) mem0 (stride_byte 0))
        ((List.range n).map (fun i => stride_byte (i + 1))) = some (e1, evs) ∧
      EncOK (configure 12 1) e1 de1 ∧
      e1.lzw_code_cnt = 257 + n ∧
      (stride_input (n + 1)).getLast? = some e1.prefix_string_code ∧
      (∀ q ∈ de1, q ∈ digrams (stride_input (n + 1))) ∧
      (∀ more k, codes_before_resets (evs ++ more) k = codes_before_resets more (k + n)) ∧
      EncEvent.reset ∉ evs := by
  have hv := configure_valid 12 1 (by decide) (by decide)
  have hok : EncOK (configure 12 1) (enc_start (configure 12 1) mem0 (stride_byte 0)) [] :=
    EncOK_fresh hv (Or.inl rfl) mem0 (stride_byte_lt 0)
  have hnd := stride_digrams_nodup n (by omega)
  rw [stride_input_succ] at hnd
  obtain ⟨e1, evs, de1, hloop, hok1, hcnt, hlast, hde, hcbr, hnr⟩ :=
    literal_run hv rfl ((List.range n).map (fun i => stride_byte (i + 1))) _ [] hok
      (by
        intro b hb
        obtain ⟨i, _, rfl⟩ := List.mem_map.mp hb
        exact stride_byte_lt _)
      hnd (fun q _ => List.not_mem_nil q)
      (by
        have h1 : (enc_start (configure 12 1) mem0 (stride_byte 0)).lzw_code_cnt = 257 := rfl
        have h2 : (configure 12 1).code_MAX = 4096 := rfl
        rw [h1, h2, List.length_map, List.length_range]
        omega)
  refine ⟨e1, evs, de1, hloop, hok1, ?_, ?_, ?_, ?_, hnr⟩
  · rw [hcnt, List.length_map, List.length_range]
    rfl
  · rw [stride_input_succ]; exact hlast
  · intro q hq
    rw [stride_input_succ]
    rcases hde q hq with h | h
    · exact absurd h (List.not_mem_nil q)
    · exact h
  · intro more k
    rw [hcbr, List.length_map, List.length_range]

theorem compress_loop_append (cfg : Config) :
    ∀ (xs ys : List Nat) (e e1 e2 : State) (evs1 evs2 : List EncEvent),
      compress_loop cfg e xs = some (e1, evs1) → compress_loop cfg e1 ys = some (e2, evs2) →
      compress_loop cfg e (xs ++ ys) = some (e2, evs1 ++ evs2)
  | [], ys, e, e1, e2, evs1, evs2, h1, h2 => by
    simp only [compress_loop, Option.some.injEq, Prod.mk.injEq] at h1
    obtain ⟨rfl, rfl⟩ := h1
    simpa using h2
  | x :: xs, ys, e, e1, e2, evs1, evs2, h1, h2 => by
    simp only [compress_loop, List.cons_append] at h1 ⊢
    cases hs : compress_step cfg e x with
    | none => rw [hs] at h1; exact Option.noConfusion h1
    | some r =>
      obtain ⟨s1, ev1⟩ := r
      rw [hs] at h1
      simp only at h1 ⊢
      cases hl : compress_loop cfg s1 xs with
      | none => rw [hl] at h1; exact Option.noConfusion h1
      | some r2 =>
        obtain ⟨s2, ev2⟩ := r2
        rw [hl] at h1
        simp only [Option.some.injEq, Prod.mk.injEq] at h1
        obtain ⟨rfl, rfl⟩ := h1
        have ih := compress_loop_append cfg xs ys s1 s2 e2 ev2 evs2 hl h2
        show (match compress_loop cfg s1 (xs ++ ys) with
          | none => none
          | some (s2, ev2) => some (s2, ev1 ++ ev2)) = _
        rw [ih]
        simp only [List.append_assoc]

/-- A whole run, with the decoder returning, when the compressor's counter stands at
`CODE_MAX + 4096` at the end of the input: the decoder writes the input and a byte 0, and
it resets between the last code and the end code. -/
theorem codec_reset_due_total {cfg : Config} (hv : cfg.Valid)
    (hr : cfg.reset_dict = 1 ∨ cfg.reset_dict = 0) (a b c a1 b1 c1 : Nat → Nat)
    {c0 : Nat} {rest : List Nat} (hS : ∀ x ∈ c0 :: rest, x < 256)
    {e1 : State} {evs : List EncEvent}
    (hloop : compress_loop cfg (enc_start cfg (initial_state a b c) c0) rest = some (e1, evs))
    (hb : cfg.reset_dict = 1 ∧ e1.lzw_code_cnt = cfg.code_MAX + 4096) :
    ∃ dfin out devs1 devs2 n1,
      compress_LZW cfg (initial_state a b c) (c0 :: rest) = some (e1, evs ++ final_codes e1) ∧
      decompress_LZW cfg (initial_state a1 b1 c1)
        (flush_put_buffer (put_codes (emitted (evs ++ final_codes e1))))
        = some (dfin, (c0 :: rest) ++ [0] ++ out,
            devs1 ++ [DecEvent.get_code e1.prefix_string_code e1.bit_count n1,
              DecEvent.reset, DecEvent.get_code EOF_LZW_CODE 9 START_LZW_CODE] ++ devs2) ∧
      dec_skel devs1 = enc_skel evs ∧ dec_ins devs1 = enc_ins evs := by
  obtain ⟨fuel, n, d1, devs, n1, hdec, hn, hd1b, hd1c, hskel, hins, _⟩ :=
    codec_reset_due hv hr a b c a1 b1 c1 hS hloop hb
  have hM := code_MAX_ge hv
  obtain ⟨r, hr2⟩ := zero_tail cfg (by omega) fuel n d1 hn (by omega) (by omega)
  have hrun : dec_run cfg fuel false d1 (List.replicate n false) = some r := hr2
  rw [hrun] at hdec
  refine ⟨r.1, r.2.1, devs, r.2.2, n1, ?_, ?_, hskel, hins⟩
  · rw [compress_LZW_cons, hloop]
    rfl
  · rw [hdec]
    rfl

/-- The input of 7936 bytes without a repeated pair of neighbours, twelve-bit codes, resets
on: the compressor never resets, the decoder resets after the last code, and what it
writes starts with the input and a byte 0. -/
theorem stride_7936_run :
    ∃ e1 evs dfin out devs1 devs2 n1,
      compress_LZW (configure 12 1) mem0 (stride_input 7936) = some (e1, evs) ∧
      EncEvent.reset ∉ evs ∧
      decompress_LZW (configure 12 1) mem0 (flush_put_buffer (put_codes (emitted evs)))
        = some (dfin, stride_input 7936 ++ [0] ++ out,
            devs1 ++ [DecEvent.get_code e1.prefix_string_code e1.bit_count n1,
              DecEvent.reset, DecEvent.get_code EOF_LZW_CODE 9 START_LZW_CODE] ++ devs2) := by
  have hv := configure_valid 12 1 (by decide) (by decide)
  obtain ⟨e1, evs, de1, hloop, _, hcnt, _, _, _, hnr⟩ := stride_literal 7935 (le_refl _)
  have hS : ∀ x ∈ stride_byte 0 :: (List.range 7935).map (fun i => stride_byte (i + 1)),
      x < 256 := by
    rw [← stride_input_succ]; exact stride_input_lt _
  obtain ⟨dfin, out, devs1, devs2, n1, hcomp, hdec, _, _⟩ :=
    codec_reset_due_total hv (Or.inl rfl) (fun _ => 0) (fun _ => 0) (fun _ => 0)
      (fun _ => 0) (fun _ => 0) (fun _ => 0) hS hloop ⟨rfl, by rw [hcnt]; rfl⟩
  rw [← stride_input_succ] at hcomp hdec
  refine ⟨e1, evs ++ final_codes e1, dfin, out, devs1, devs2, n1, hcomp, ?_, hdec⟩
  intro h
  rcases List.mem_append.mp h with h | h
  · exact hnr h
  · simp [final_codes] at h

/-- The input of 7937 bytes without a repeated pair of neighbours, twelve-bit codes, resets
on: the compressor resets once, after it has written 7936 codes. -/
theorem stride_7937_run :
    ∃ e evs, compress_LZW (configure 12 1) mem0 (stride_input 7937) = some (e, evs) ∧
      codes_before_resets evs 0 = [7936] := by
  have hv := configure_valid 12 1 (by decide) (by decide)
  obtain ⟨e1, evs, de1, hloop, hok, hcnt, hlast, hde, hcbr, _⟩ := stride_literal 7935 (le_refl _)
  have hpsc : e1.prefix_string_code = stride_byte 7935 := by
    rw [stride_input_snoc, List.getLast?_append, List.getLast?_singleton] at hlast
    exact (Option.some.inj hlast).symm
  have hnin : (e1.prefix_string_code, stride_byte 7936) ∉ de1 := by
    intro h
    have h2 := hde _ h
    unfold stride_input at h2
    rw [digrams_map_range, hpsc] at h2
    obtain ⟨i, hi, heq⟩ := List.mem_map.mp h2
    have hi2 := List.mem_range.mp hi
    have e1 := check_index_spec 7936 check_index_7936 i (by omega)
    have e2 := check_index_spec 7936 check_index_7936 7935 (by omega)
    rw [heq, e2] at e1
    omega
  obtain ⟨e2, de2, evs2, hstep, _, _, hcase⟩ :=
    compress_step_miss hv hok (stride_byte_lt 7936) hnin
  have hM : (configure 12 1).code_MAX = 4096 := rfl
  have hevs2 : evs2 = [EncEvent.output_code e1.prefix_string_code e1.bit_count,
      EncEvent.reset] := by
    rcases hcase with ⟨h1, _⟩ | ⟨_, h1, _⟩ | ⟨_, _, _, _, _, h1⟩
    · rw [hM, hcnt] at h1; omega
    · exact absurd ⟨rfl, by rw [hM, hcnt]⟩ h1
    · exact h1
  have hloop2 : compress_loop (configure 12 1) e1 [stride_byte 7936] = some (e2, evs2) := by
    simp only [compress_loop, hstep, List.append_nil]
  have hall := compress_loop_append _ _ _ _ _ _ _ _ hloop hloop2
  have hin : stride_input 7937 = stride_byte 0 ::
      ((List.range 7935).map (fun i => stride_byte (i + 1)) ++ [stride_byte 7936]) := by
    rw [stride_input_succ, List.range_succ, List.map_append]
    rfl
  refine ⟨e2, (evs ++ evs2) ++ final_codes e2, ?_, ?_⟩
  · rw [hin, compress_LZW_cons]
    rw [hall]
    rfl
  · rw [List.append_assoc, hcbr, hevs2]
    rfl

/-- The widths of the last code on the two sides for the 256 bytes 0, 1, ..., 255. -/
theorem stride_256_widths :
    (compress_LZW (configure 12 1) mem0 (stride_input 256)).bind (fun r =>
      (decompress_LZW (configure 12 1) mem0 (flush_put_buffer (put_codes (emitted r.2)))).map
        (fun x => (x.2.1 == stride_input 256, (enc_skel r.2).getLast?,
          (dec_skel x.2.2).getLast?)))
      = some (true, some (some (EOF_LZW_CODE, 9)), some (some (EOF_LZW_CODE, 10))) := by
  decide!

/-- C1: the round trip of lzwz2.c fails on the input of 7936 bytes `stride_input 7936`
with `code_max_bits = 12` and `reset_dict = 1`. The compressor stops with
`lzw_code_cnt = CODE_MAX + 4096`; `decompress_main` returns, and what it has written
starts with the input followed by a byte 0, so it is not the input. -/
theorem round_trip_extra_byte :
    ∃ file out, compress_main 12 1 mem0 (stride_input 7936) = some file ∧
      decompress_main mem0 file = some out ∧
      stride_input 7936 ++ [0] <+: out ∧ out ≠ stride_input 7936 := by
  obtain ⟨e1, evs, dfin, out, devs1, devs2, n1, hcomp, _, hdec⟩ := stride_7936_run
  have hne : stride_input 7936 ≠ [] := by
    rw [stride_input_succ]; exact List.cons_ne_nil _ _
  refine ⟨some ({ algorithm := [76, 90, 87, 0], code_max_bits := 12, reset_dict := 1 },
    flush_put_buffer (put_codes (emitted evs))), stride_input 7936 ++ [0] ++ out, ?_, ?_, ?_, ?_⟩
  · simp only [compress_main, if_neg hne, hcomp]
  · simp only [decompress_main, hdec]
  · exact List.prefix_append _ _
  · intro h
    have hl := congrArg List.length h
    simp only [List.length_append, List.length_singleton] at hl
    omega

/-- C2: the width of the end code differs on the two sides for the 256 bytes
0, 1, ..., 255 with `code_max_bits = 12` and `reset_dict = 1`: `compress_LZW` writes
the end code 256 with `bit_count = 9`, and `decompress_LZW` (which returns the input)
reads it with `bit_count = 10`. -/
theorem end_code_width_differs :
    ∃ e evs d devs, compress_LZW (configure 12 1) mem0 (stride_input 256) = some (e, evs) ∧
      decompress_LZW (configure 12 1) mem0 (flush_put_buffer (put_codes (emitted evs)))
        = some (d, stride_input 256, devs) ∧
      (enc_skel evs).getLast? = some (some (EOF_LZW_CODE, 9)) ∧
      (dec_skel devs).getLast? = some (some (EOF_LZW_CODE, 10)) := by
  have h := stride_256_widths
  cases hc : compress_LZW (configure 12 1) mem0 (stride_input 256) with
  | none => rw [hc] at h; exact Option.noConfusion h
  | some r =>
    obtain ⟨e, evs⟩ := r
    rw [hc] at h
    simp only [Option.some_bind] at h
    cases hd : decompress_LZW (configure 12 1) mem0
        (flush_put_buffer (put_codes (emitted evs))) with
    | none => rw [hd] at h; exact Option.noConfusion h
    | some x =>
      obtain ⟨d, out, devs⟩ := x
      rw [hd] at h
      simp only [Option.map_some', Option.some.injEq, Prod.mk.injEq, beq_iff_eq] at h
      obtain ⟨h1, h2, h3⟩ := h
      exact ⟨e, evs, d, devs, rfl, by rw [hd, h1], h2, h3⟩

/-- C7: with `code_max_bits = 12` and `reset_dict = 1`, on the input of 7937 bytes
`stride_input 7937` the only reset of `compress_LZW` comes after 7936 codes have been
written, which is `CODE_MAX + 3840` and not `CODE_MAX + 4096 = 8192`. -/
theorem reset_after_7936_codes :
    ∃ e evs, compress_LZW (configure 12 1) mem0 (stride_input 7937) = some (e, evs) ∧
      codes_before_resets evs 0 = [7936] ∧
      (configure 12 1).code_MAX + 4096 = 8192 := by
  obtain ⟨e, evs, h1, h2⟩ := stride_7937_run
  exact ⟨e, evs, h1, h2, rfl⟩

/-- C8: with `code_max_bits = 12` and `reset_dict = 1`, on the input of 7936 bytes
`stride_input 7936` the compressor performs no reset, and the decoder performs one: it
resets after the last code before the end code and then reads the end code with
`bit_count = 9` as the first code of an epoch. -/
theorem decoder_resets_alone :
    ∃ e evs d out devs1 devs2 n1,
      compress_LZW (configure 12 1) mem0 (stride_input 7936) = some (e, evs) ∧
      EncEvent.reset ∉ evs ∧
      decompress_LZW (configure 12 1) mem0 (flush_put_buffer (put_codes (emitted evs)))
        = some (d, out,
            devs1 ++ [DecEvent.get_code e.prefix_string_code e.bit_count n1,
              DecEvent.reset, DecEvent.get_code EOF_LZW_CODE 9 START_LZW_CODE] ++ devs2) := by
  obtain ⟨e1, evs, dfin, out, devs1, devs2, n1, hcomp, hnr, hdec⟩ := stride_7936_run
  exact ⟨e1, evs, dfin, _, devs1, devs2, n1, hcomp, hnr, hdec⟩

/-! ### The string of a code, and the width along a run of the compressor -/

theorem bits_value_lt : ∀ l : List Bool, bits_value l < 2 ^ l.length
  | [] => by simp [bits_value]
  | b :: bs => by
    have ih := bits_value_lt bs
    simp only [bits_value, List.length_cons, pow_succ]
    split <;> omega

theorem get_nbits_lt (size : Nat) (bits : List Bool)
    (h : (get_nbits size bits).1 ≠ EOF_LZW_CODE) : (get_nbits size bits).1 < 2 ^ size := by
  unfold get_nbits at h ⊢
  split
  · rename_i hlt
    rw [if_pos hlt] at h
    exact absurd rfl h
  · rename_i hlt
    have h1 := bits_value_lt (bits.take size)
    have h2 : (bits.take size).length = size := by
      rw [List.length_take]; omega
    rw [h2] at h1
    exact h1

/-- The chain walk of the decoder finds the string of a code. -/
theorem code_string_get_string (s : State) :
    ∀ (fuel code : Nat) (stack w : List Nat), code_string s fuel code = some w →
      ∃ k stk, get_string s fuel code stack = some (k, stk ++ stack) ∧ w = pfputc k :: stk
  | 0, _, _, _, h => Option.noConfusion h
  | fuel + 1, code, stack, w, h => by
    simp only [code_string] at h
    simp only [get_string]
    split at h
    · rename_i hgt
      rw [if_pos hgt]
      obtain ⟨w0, hw0, rfl⟩ := Option.map_eq_some'.mp h
      obtain ⟨k, stk, hg, rfl⟩ :=
        code_string_get_string s fuel _ (s.character code :: stack) w0 hw0
      refine ⟨k, stk ++ [s.character code], ?_, ?_⟩
      · rw [hg]; simp
      · simp
    · rename_i hgt
      rw [if_neg hgt]
      exact ⟨code, [], rfl, (Option.some.inj h).symm⟩

/-- One turn of the compression loop from a state that satisfies the invariant: it
returns, the invariant holds again, and the width changes by the rule of lines 371-376
and 381-388. -/
theorem compress_step_width {cfg : Config} (hv : cfg.Valid) {e : State}
    {dict : List (Nat × Nat)} (H : EncOK cfg e dict) (hw : WidthOK e) {c : Nat}
    (hc : c < 256) :
    ∃ e1 evs dict1, compress_step cfg e c = some (e1, evs) ∧ EncOK cfg e1 dict1 ∧
      WidthOK e1 ∧
      (EncEvent.reset ∈ evs → e1.bit_count = 9 ∧ e1.lzw_code_cnt = START_LZW_CODE) ∧
      (EncEvent.reset ∉ evs →
        (e1.bit_count = e.bit_count ∨ e1.bit_count = e.bit_count + 1) ∧
        (e1.bit_count = e.bit_count + 1 ↔
          (evs ≠ [] ∧ ∃ k, 9 ≤ k ∧ k < cfg.code_max_bits ∧ e.lzw_code_cnt = 2 ^ k))) := by
  have hM : cfg.code_MAX = 2 ^ cfg.code_max_bits := hv.code_MAX_eq
  have hcm := H.cm
  have hcntcm := H.cnt_cm
  have hb9 := H.bits_ge
  have hbN := H.bits_le
  have hpowle : (2 : Nat) ^ e.bit_count ≤ 2 ^ cfg.code_max_bits :=
    Nat.pow_le_pow_right (by decide) hbN
  -- a power of two that the counter equals is the current `code_max`
  have hkey : ∀ k, 9 ≤ k → k < cfg.code_max_bits → e.lzw_code_cnt = 2 ^ k →
      k = e.bit_count := by
    intro k hk9 hkN hk
    have hlt : e.lzw_code_cnt < cfg.code_MAX := by
      rw [hM, hk]; exact Nat.pow_lt_pow_right (by decide) hkN
    have h1 : (2 : Nat) ^ k ≤ 2 ^ e.bit_count := by
      rw [← hk, ← hcm]
      have := Nat.min_eq_left (Nat.le_of_lt hlt)
      omega
    have h2 : k ≤ e.bit_count := (Nat.pow_le_pow_iff_right (by decide)).mp h1
    by_contra hne
    have h3 : k + 1 ≤ e.bit_count := by omega
    have h4 : 9 < e.bit_count := by omega
    have h5 := hw h4
    have h6 : (2 : Nat) ^ k ≤ 2 ^ (e.bit_count - 1) :=
      Nat.pow_le_pow_right (by decide) (by omega)
    omega
  by_cases hin : (e.prefix_string_code, c) ∈ dict
  · obtain ⟨j, _, hstep, hok⟩ := compress_step_hit hv H hc hin
    refine ⟨_, [], dict, hstep, hok, hw, fun h => absurd h (List.not_mem_nil _), fun _ => ?_⟩
    exact ⟨Or.inl rfl, ⟨fun h => absurd h (by simp), fun h => absurd rfl h.1⟩⟩
  · obtain ⟨e1, dict1, evs, hstep, hok, _, hcase⟩ := compress_step_miss hv H hc hin
    refine ⟨e1, evs, dict1, hstep, hok, ?_, ?_, ?_⟩
    · intro h9
      rcases hcase with ⟨hlt, h1, h2, _⟩ | ⟨hge, _, h1, h2, _⟩ | ⟨_, _, _, h2, _⟩
      · rw [h1, h2]
        rw [h2] at h9
        split
        · rename_i heq
          rw [heq, hcm, Nat.add_sub_cancel]
          omega
        · rename_i hne
          rw [if_neg hne] at h9
          have := hw h9
          omega
      · rw [h2] at h9 ⊢
        have := hw h9
        rw [h1]
        split <;> omega
      · omega
    · intro hres
      rcases hcase with ⟨_, _, _, _, h5⟩ | ⟨_, _, _, _, _, h5⟩ | ⟨_, _, h1, h2, _⟩
      · rw [h5] at hres; simp at hres
      · rw [h5] at hres; simp at hres
      · exact ⟨h2, h1⟩
    · intro hres
      rcases hcase with ⟨hlt, _, h2, _, h5⟩ | ⟨hge, _, _, h2, _, h5⟩ | ⟨_, _, _, _, _, h5⟩
      · have hne : evs ≠ [] := by rw [h5]; exact List.cons_ne_nil _ _
        by_cases heq : e.lzw_code_cnt = e.code_max
        · rw [if_pos heq] at h2
          refine ⟨Or.inr h2, fun _ => ⟨hne, e.bit_count, hb9, ?_, by rw [heq, hcm]⟩, fun _ => h2⟩
          have h7 : (2 : Nat) ^ e.bit_count < 2 ^ cfg.code_max_bits := by
            rw [← hcm, ← heq, ← hM]; exact hlt
          exact (Nat.pow_lt_pow_iff_right (by decide)).mp h7
        · rw [if_neg heq] at h2
          refine ⟨Or.inl h2, fun h => by omega, fun h => ?_⟩
          obtain ⟨_, k, hk9, hkN, hk⟩ := h
          have := hkey k hk9 hkN hk
          rw [this, ← hcm] at hk
          exact absurd hk heq
      · refine ⟨Or.inl h2, fun h => by omega, fun h => ?_⟩
        obtain ⟨_, k, hk9, hkN, hk⟩ := h
        have hlt : e.lzw_code_cnt < cfg.code_MAX := by
          rw [hM, hk]; exact Nat.pow_lt_pow_right (by decide) hkN
        omega
      · rw [h5] at hres; simp at hres

/-- The compression loop from a state that satisfies the invariant returns in a state
that satisfies it. -/
theorem compress_loop_width {cfg : Config} (hv : cfg.Valid) :
    ∀ (pre : List Nat) (e : State) (dict : List (Nat × Nat)), EncOK cfg e dict → WidthOK e →
      (∀ y ∈ pre, y < 256) →
      ∃ e1 evs dict1, compress_loop cfg e pre = some (e1, evs) ∧ EncOK cfg e1 dict1 ∧
        WidthOK e1
  | [], e, dict, H, hw, _ => ⟨e, [], dict, rfl, H, hw⟩
  | c :: pre, e, dict, H, hw, hb => by
    obtain ⟨e1, evs1, dict1, hstep, hok1, hw1, _, _⟩ :=
      compress_step_width hv H hw (hb c (List.mem_cons_self _ _))
    obtain ⟨e2, evs2, dict2, hloop, hok2, hw2⟩ :=
      compress_loop_width hv pre e1 dict1 hok1 hw1
        (fun y hy => hb y (List.mem_cons_of_mem _ hy))
    exact ⟨e2, evs1 ++ evs2, dict2, by simp only [compress_loop, hstep, hloop], hok2, hw2⟩

/-- One turn of the decoder's loop after a code other than the end code has been read,
in terms of the chain walk, the insertion and the reset test. -/
theorem dec_body_eq (cfg : Config) (d : State) (v : Nat) (bits : List Bool) {lit : Nat}
    {stack : List Nat}
    (hg : get_string d cfg.code_MAX (if v ≥ d.lzw_code_cnt then d.old_lzw_code else v) []
      = some (lit, stack)) :
    dec_body cfg { d with new_lzw_code := v } bits
      = some ((dec_reset cfg (dec_mid cfg d v lit) bits).1,
          (dec_reset cfg (dec_mid cfg d v lit) bits).2.1,
          (pfputc lit :: stack ++ (if v ≥ d.lzw_code_cnt then [pfputc lit] else []))
            ++ (dec_reset cfg (dec_mid cfg d v lit) bits).2.2.1,
          (dec_insert cfg { d with new_lzw_code := v, lzwcode := lit }).2
            ++ (dec_reset cfg (dec_mid cfg d v lit) bits).2.2.2) := by
  have hg' : get_string { d with new_lzw_code := v } cfg.code_MAX
      (if v ≥ d.lzw_code_cnt then d.old_lzw_code else v) [] = some (lit, stack) := by
    rw [get_string_irrel d { d with new_lzw_code := v } rfl rfl]
    exact hg
  have hmid : dec_mid cfg d v lit
      = { (dec_insert cfg { d with new_lzw_code := v, lzwcode := lit }).1 with
          old_lzw_code := (dec_insert cfg
            { d with new_lzw_code := v, lzwcode := lit }).1.new_lzw_code } := by
    unfold dec_mid
    rw [dec_insert_new]
  rw [hmid]
  simp only [dec_body, decide_eq_true_eq, hg']

/-- The reset test of the decoder when no reset is due. -/
theorem dec_reset_none (cfg : Config) (s : State) (bits : List Bool)
    (h : s.lzw_code_cnt + 1 ≠ cfg.code_MAX + 4096) :
    dec_reset cfg s bits
      = ({ s with lzw_code_cnt := dec_next_cnt cfg s.lzw_code_cnt }, bits, [], []) := by
  unfold dec_reset dec_next_cnt
  by_cases hr : cfg.reset_dict = 1
  · simp only [if_pos hr, if_neg h]
  · simp only [if_neg hr]
    by_cases h0 : cfg.reset_dict = 0
    · simp only [if_pos h0]
      by_cases hlt : s.lzw_code_cnt < cfg.code_MAX
      · simp only [if_pos hlt]
      · simp only [if_neg hlt]
    · simp only [if_neg h0]

/-- C9: the pending-code rule. In a turn of the loop of `decompress_LZW` in which the code
read equals `lzw_code_cnt` (a valid configuration, `bit_count` at most `code_max_bits`,
the counter at least 257, the chain of the previous code resolving to the string `w`),
the turn returns, the bytes written are `w` followed by the first byte of `w`, the one
entry stored is (previous code, that byte) at index `lzw_code_cnt`, and the two arrays
hold it. -/
theorem pending_code_rule (cfg : Config) (hv : cfg.Valid) (s : State) (bits : List Bool)
    (w : List Nat) (hbits : s.bit_count ≤ cfg.code_max_bits)
    (hcnt : START_LZW_CODE ≤ s.lzw_code_cnt)
    (hread : (get_nbits s.bit_count bits).1 = s.lzw_code_cnt)
    (hw : code_string s cfg.code_MAX s.old_lzw_code = some w) :
    ∃ s1, dec_body cfg { s with new_lzw_code := (get_nbits s.bit_count bits).1 }
          (get_nbits s.bit_count bits).2
        = some (s1, (get_nbits s.bit_count bits).2, w ++ [w.headD 0],
            [DecEvent.insert s.lzw_code_cnt s.old_lzw_code (w.headD 0)]) ∧
      s1.prefix_tab s.lzw_code_cnt = s.old_lzw_code ∧
      s1.character s.lzw_code_cnt = w.headD 0 := by
  have hne : (get_nbits s.bit_count bits).1 ≠ EOF_LZW_CODE := by
    rw [hread]; simp only [START_LZW_CODE, EOF_LZW_CODE] at hcnt ⊢; omega
  have hlt : s.lzw_code_cnt < cfg.code_MAX := by
    have h1 := get_nbits_lt _ _ hne
    have h2 : (2 : Nat) ^ s.bit_count ≤ 2 ^ cfg.code_max_bits :=
      Nat.pow_le_pow_right (by decide) hbits
    rw [hv.code_MAX_eq, ← hread]
    omega
  obtain ⟨k, stk, hg, rfl⟩ := code_string_get_string s _ _ [] w hw
  rw [List.append_nil] at hg
  have hg' : get_string s cfg.code_MAX
      (if (get_nbits s.bit_count bits).1 ≥ s.lzw_code_cnt then s.old_lzw_code
        else (get_nbits s.bit_count bits).1) [] = some (k, stk) := by
    rw [if_pos (by rw [hread])]; exact hg
  have hmid : (dec_mid cfg s (get_nbits s.bit_count bits).1 k).lzw_code_cnt + 1
      ≠ cfg.code_MAX + 4096 := by
    rw [dec_mid_cnt]; omega
  rw [dec_body_eq cfg s _ _ hg', dec_reset_none cfg _ _ hmid, dec_insert_events,
    if_pos hlt, if_pos (by rw [hread])]
  simp only [List.append_nil, List.headD_cons]
  refine ⟨_, rfl, ?_, ?_⟩
  · show (dec_mid cfg s (get_nbits s.bit_count bits).1 k).prefix_tab s.lzw_code_cnt = _
    rw [dec_mid_prefix_tab, if_pos hlt, store_same]
  · show (dec_mid cfg s (get_nbits s.bit_count bits).1 k).character s.lzw_code_cnt = _
    rw [dec_mid_character, if_pos hlt, store_same]
    rfl

/-- C9 witness: the decoder has read the byte 65 as its first code and meets the code 257
while `lzw_code_cnt = 257`; it writes 65 65 and stores (65, 65) at index 257. -/
theorem pending_code_rule_witness :
    ∃ s1, dec_body (configure 12 1)
          { pending_state with
            new_lzw_code := (get_nbits pending_state.bit_count (put_nbits 257 9)).1 }
          (get_nbits pending_state.bit_count (put_nbits 257 9)).2
        = some (s1, (get_nbits pending_state.bit_count (put_nbits 257 9)).2,
            [65] ++ [[65].headD 0],
            [DecEvent.insert pending_state.lzw_code_cnt pending_state.old_lzw_code
              ([65].headD 0)]) ∧
      s1.prefix_tab pending_state.lzw_code_cnt = pending_state.old_lzw_code ∧
      s1.character pending_state.lzw_code_cnt = [65].headD 0 :=
  pending_code_rule (configure 12 1) (configure_valid 12 1 (by decide) (by decide))
    pending_state (put_nbits 257 9) [65] (by decide) (by decide) (by decide) (by decide)

/-- C10: the width growth rule of `compress_LZW`. For `code_max_bits` in 12..28 and both
reset policies, `bit_count` is 9 when the loop starts; after any bytes of input the loop
and its next turn return, `bit_count` is between 9 and `code_max_bits`; a turn that
resets leaves `bit_count = 9`; a turn that does not reset leaves `bit_count` as it was or
adds one to it, and it adds one exactly when the turn writes a code while `lzw_code_cnt`
is one of 512, 1024, ..., 2^(code_max_bits - 1). -/
theorem width_growth_rule (N r : Nat) (hN : 12 ≤ N ∧ N ≤ 28) (hr : r = 0 ∨ r = 1)
    (a b c : Nat → Nat) (c0 : Nat) (pre : List Nat) (x : Nat)
    (hb : ∀ y ∈ c0 :: (pre ++ [x]), y < 256) :
    (enc_start (configure N r) (initial_state a b c) c0).bit_count = 9 ∧
    ∃ e evs0 e1 evs1,
      compress_loop (configure N r) (enc_start (configure N r) (initial_state a b c) c0) pre
        = some (e, evs0) ∧
      compress_step (configure N r) e x = some (e1, evs1) ∧
      9 ≤ e1.bit_count ∧ e1.bit_count ≤ N ∧
      (EncEvent.reset ∈ evs1 → e1.bit_count = 9) ∧
      (EncEvent.reset ∉ evs1 →
        (e1.bit_count = e.bit_count ∨ e1.bit_count = e.bit_count + 1) ∧
        (e1.bit_count = e.bit_count + 1 ↔
          (evs1 ≠ [] ∧ ∃ k, 9 ≤ k ∧ k < N ∧ e.lzw_code_cnt = 2 ^ k))) := by
  refine ⟨rfl, ?_⟩
  have hv := configure_valid N r hN.1 hN.2
  have hc0 : c0 < 256 := hb c0 (List.mem_cons_self _ _)
  have hok : EncOK (configure N r) (enc_start (configure N r) (initial_state a b c) c0) [] :=
    EncOK_fresh hv (Or.symm hr) (initial_state a b c) hc0
  have hw0 : WidthOK (enc_start (configure N r) (initial_state a b c) c0) :=
    fun h => absurd (show 9 < 9 from h) (by decide)
  obtain ⟨e, evs0, dict, hloop, hok1, hw1⟩ := compress_loop_width hv pre _ [] hok hw0
    (fun y hy => hb y (List.mem_cons_of_mem _ (List.mem_append_left _ hy)))
  obtain ⟨e1, evs1, dict1, hstep, hok2, _, hres, hgrow⟩ := compress_step_width hv hok1 hw1
    (hb x (List.mem_cons_of_mem _ (List.mem_append_right _ (List.mem_singleton_self x))))
  exact ⟨e, evs0, e1, evs1, hloop, hstep, hok2.bits_ge, hok2.bits_le,
    fun h => (hres h).1, hgrow⟩

/-- C10 witness: twelve-bit codes, resets on, the input AAA. -/
theorem width_growth_rule_witness :
    (enc_start (configure 12 1) (initial_state (fun _ => 0) (fun _ => 0) (fun _ => 0)) 65).bit_count
      = 9 ∧
    ∃ e evs0 e1 evs1,
      compress_loop (configure 12 1)
        (enc_start (configure 12 1) (initial_state (fun _ => 0) (fun _ => 0) (fun _ => 0)) 65)
        [65] = some (e, evs0) ∧
      compress_step (configure 12 1) e 65 = some (e1, evs1) ∧
      9 ≤ e1.bit_count ∧ e1.bit_count ≤ 12 ∧
      (EncEvent.reset ∈ evs1 → e1.bit_count = 9) ∧
      (EncEvent.reset ∉ evs1 →
        (e1.bit_count = e.bit_count ∨ e1.bit_count = e.bit_count + 1) ∧
        (e1.bit_count = e.bit_count + 1 ↔
          (evs1 ≠ [] ∧ ∃ k, 9 ≤ k ∧ k < 12 ∧ e.lzw_code_cnt = 2 ^ k))) :=
  width_growth_rule 12 1 (by decide) (Or.inr rfl) (fun _ => 0) (fun _ => 0) (fun _ => 0)
    65 [65] 65 (by decide)

/-- An option `-cN` with `N` below 12 or above 28 anywhere among the arguments makes the
loop of the handler of lzwz2.c call `usage()`. -/
theorem lzwz2_args_out_of_range {v : Int} (hv : v < 12 ∨ 28 < v) :
    ∀ (args : List Arg) (st : Cmdline) (n : Nat), Arg.c_opt (some v) ∈ args →
      lzwz2_args st n args = none
  | [], _, _, h => absurd h (List.not_mem_nil _)
  | a :: rest, st, n, h => by
    rcases List.mem_cons.mp h with h1 | h1
    · have harg : lzwz2_arg st n a = none := by
        rw [← h1]
        simp only [lzwz2_arg]
        rcases hv with h2 | h2
        · rw [if_pos h2]
        · by_cases h3 : v < 12
          · rw [if_pos h3]
          · rw [if_neg h3, if_pos h2]
      simp only [lzwz2_args, harg]
    · simp only [lzwz2_args]
      cases lzwz2_arg st n a with
      | none => rfl
      | some st1 => exact lzwz2_args_out_of_range hv rest st1 (n + 1) h1

theorem lzwz2_front_out_of_range {v : Int} (hv : v < 12 ∨ 28 < v) (args : List Arg)
    (h : Arg.c_opt (some v) ∈ args) : lzwz2_front args = [MainAction.usage] := by
  have hc : lzwz2_cmdline args = none := by
    unfold lzwz2_cmdline
    rw [lzwz2_args_out_of_range hv args _ 1 h]
    split <;> rfl
  unfold lzwz2_front
  rw [hc]

/-- C13: the input of one byte `x`, for every dictionary size and reset policy and every
content of the arrays. `compress_LZW` writes exactly two codes, `x` and then the end code
256, both with `bit_count = 9`, stores no entry and leaves the table as `init_code_table`
made it; the file that `main` of lzwz2.c writes is the stamp followed by these 18 bits
padded to whole bytes, and so is the file that `main` of lzwg.c writes. -/
theorem single_byte_output (N r : Nat) (a b c : Nat → Nat) (x : Nat) :
    compress_LZW (configure N r) (initial_state a b c) [x]
      = some (enc_start (configure N r) (initial_state a b c) x,
          [EncEvent.output_code x 9, EncEvent.output_code EOF_LZW_CODE 9]) ∧
    compress_main N r (initial_state a b c) [x]
      = some (some ({ algorithm := [76, 90, 87, 0], code_max_bits := N, reset_dict := r },
          flush_put_buffer (put_nbits x 9 ++ put_nbits EOF_LZW_CODE 9))) ∧
    lzwg_main N [x]
      = some ({ algorithm := [76, 90, 87, 0], code_max_bits := N },
          flush_put_buffer (put_nbits x 9 ++ put_nbits EOF_LZW_CODE 9)) := by
  have h1 : compress_LZW (configure N r) (initial_state a b c) [x]
      = some (enc_start (configure N r) (initial_state a b c) x,
          [EncEvent.output_code x 9, EncEvent.output_code EOF_LZW_CODE 9]) := rfl
  refine ⟨h1, ?_, ?_⟩
  · simp only [compress_main, h1, emitted, put_codes, List.append_nil]
    rfl
  · simp only [lzwg_main, lzwg_loop, List.nil_append, emitted, put_codes, List.append_nil]

/-- C14: the empty input. `main` of lzwz2.c and `main` of lzwg.c leave an output file of
length zero (no stamp, no code), and the decompression paths of lzwz2.c and of lzwgd.c,
given a file of length zero, return without having written a byte. -/
theorem empty_input_output (N r : Nat) (mem : State) :
    compress_main N r mem [] = some none ∧
    decompress_main mem none = some [] ∧
    lzwg_main N [] = none ∧
    lzwgd_main mem none = some [] :=
  ⟨rfl, rfl, rfl, rfl⟩

/-- C19, the claim fails for lzwg.c: the selector 5 is not reported, it is replaced by 12
and both files are opened; the selector 29 is accepted as it is. -/
theorem lzwg_selector_not_rejected :
    lzwg_front 4 (some 5) = [MainAction.fopen 2 12, MainAction.fopen 3 12] ∧
    lzwg_front 4 (some 29) = [MainAction.fopen 2 29, MainAction.fopen 3 29] :=
  ⟨rfl, rfl⟩

/-- C19 as amended: a selector `v` below 12 or above 28. In lzwz2.c an option `-cN` with
this value among the arguments ends in `usage()` before any file is opened. In lzwg.c
(`lzwg -N infile outfile`) the value 0 ends in `usage()` before any file is opened, every
other value below 12 is replaced by 12, and a value above 28 is used as it is. -/
theorem selector_handling (args : List Arg) (v : Int) (hmem : Arg.c_opt (some v) ∈ args)
    (hv : v < 12 ∨ 28 < v) :
    lzwz2_front args = [MainAction.usage] ∧
    lzwg_front 4 (some v)
      = (if v = 0 then [MainAction.usage]
         else if v < 12 then [MainAction.fopen 2 12, MainAction.fopen 3 12]
         else [MainAction.fopen 2 v, MainAction.fopen 3 v]) := by
  refine ⟨lzwz2_front_out_of_range hv args hmem, ?_⟩
  unfold lzwg_front lzwg_cmdline
  by_cases h0 : v = 0
  · simp [h0]
  · by_cases h12 : v < 12
    · simp [h0, h12]
    · simp [h0, h12]

/-- C19 witness: `lzwz2 -c5 infile outfile` and `lzwg -5 infile outfile`. -/
theorem selector_handling_witness :
    lzwz2_front [Arg.c_opt (some 5), Arg.file, Arg.file] = [MainAction.usage] ∧
    lzwg_front 4 (some 5)
      = (if (5 : Int) = 0 then [MainAction.usage]
         else if (5 : Int) < 12 then [MainAction.fopen 2 12, MainAction.fopen 3 12]
         else [MainAction.fopen 2 5, MainAction.fopen 3 5]) :=
  selector_handling [Arg.c_opt (some 5), Arg.file, Arg.file] 5 (List.mem_cons_self _ _)
    (Or.inl (by decide))

/-- C20: probe indices stay in bounds. For `code_max_bits` in 12..28, a prefix code below
`CODE_MAX` and a byte, the first index `(c << hash_SHIFT) ^ prefix_code` is below
`CODE_MAX` and so below `hash_TABLE_SIZE`; the displacement is at least 1 and at most
`hash_TABLE_SIZE - 1`; the step `hindex -= d`, `+= hash_TABLE_SIZE` when negative, maps
every index below `hash_TABLE_SIZE` to one, so every later probe index is below
`hash_TABLE_SIZE`; and `insert_stringENC` and `search_string` both run their loop from
this first index with this displacement. -/
theorem probe_indices_in_bounds (N r : Nat) (hN : 12 ≤ N ∧ N ≤ 28) (p c : Nat)
    (hp : p < 2 ^ N) (hc : c < 256) :
    hash_index (configure N r) p c < 2 ^ N ∧
    hash_index (configure N r) p c < (configure N r).hash_TABLE_SIZE ∧
    1 ≤ displacement (configure N r) (hash_index (configure N r) p c) ∧
    displacement (configure N r) (hash_index (configure N r) p c)
      ≤ (configure N r).hash_TABLE_SIZE - 1 ∧
    (∀ h, h < (configure N r).hash_TABLE_SIZE →
      next_probe (configure N r) h (displacement (configure N r)
        (hash_index (configure N r) p c)) < (configure N r).hash_TABLE_SIZE) ∧
    (∀ i, probe_path (configure N r) p c i < (configure N r).hash_TABLE_SIZE) ∧
    (∀ s, insert_stringENC (configure N r) s p c
      = insert_probe (configure N r) s p c
          (displacement (configure N r) (hash_index (configure N r) p c))
          (configure N r).hash_TABLE_SIZE (hash_index (configure N r) p c)) ∧
    (∀ s, search_string (configure N r) s p c
      = search_probe (configure N r) s p c
          (displacement (configure N r) (hash_index (configure N r) p c))
          (configure N r).hash_TABLE_SIZE (hash_index (configure N r) p c)) := by
  have hv := configure_valid N r hN.1 hN.2
  have hcm : (configure N r).code_MAX = 2 ^ N := hv.code_MAX_eq
  have hp' : p < (configure N r).code_MAX := by rw [hcm]; exact hp
  have h1 := hash_index_lt_code_MAX hv hp' hc
  have h2 := hash_index_lt hv hp' hc
  have h3 := displacement_pos h2
  have h4 := @displacement_lt _ hv (hash_index (configure N r) p c)
  refine ⟨by rw [← hcm]; exact h1, h2, h3, by omega,
    fun h hh => next_probe_lt _ hh h4.le, fun i => probe_path_lt hv hp' hc i, ?_, ?_⟩
  · intro s
    simp only [insert_stringENC, if_neg (Nat.not_le.mpr h2)]
  · intro s
    simp only [search_string, if_neg (Nat.not_le.mpr h2)]

/-- C20 witness: the pair (65, 66) with twelve-bit codes. -/
theorem probe_indices_in_bounds_witness :
    hash_index (configure 12 1) 65 66 < 2 ^ 12 ∧
    hash_index (configure 12 1) 65 66 < (configure 12 1).hash_TABLE_SIZE ∧
    1 ≤ displacement (configure 12 1) (hash_index (configure 12 1) 65 66) ∧
    displacement (configure 12 1) (hash_index (configure 12 1) 65 66)
      ≤ (configure 12 1).hash_TABLE_SIZE - 1 ∧
    (∀ h, h < (configure 12 1).hash_TABLE_SIZE →
      next_probe (configure 12 1) h (displacement (configure 12 1)
        (hash_index (configure 12 1) 65 66)) < (configure 12 1).hash_TABLE_SIZE) ∧
    (∀ i, probe_path (configure 12 1) 65 66 i < (configure 12 1).hash_TABLE_SIZE) ∧
    (∀ s, insert_stringENC (configure 12 1) s 65 66
      = insert_probe (configure 12 1) s 65 66
          (displacement (configure 12 1) (hash_index (configure 12 1) 65 66))
          (configure 12 1).hash_TABLE_SIZE (hash_index (configure 12 1) 65 66)) ∧
    (∀ s, search_string (configure 12 1) s 65 66
      = search_probe (configure 12 1) s 65 66
          (displacement (configure 12 1) (hash_index (configure 12 1) 65 66))
          (configure 12 1).hash_TABLE_SIZE (hash_index (configure 12 1) 65 66)) :=
  probe_indices_in_bounds 12 1 (by decide) 65 66 (by decide) (by decide)

/-! ### Facts about every run of the compression loop -/

theorem dense_codes_ge {M : Nat} {n n1 : Nat} (_hn : M ≤ n) :
    ∀ l, dense_codes M n1 l → M ≤ n1 → dense_codes M n l
  | [], _, _ => trivial
  | none :: _, h, _ => h
  | some q :: _, h, h1 => by
    simp only [dense_codes] at h
    omega

theorem EncOK.cnt_ge {cfg : Config} (hv : cfg.Valid) {e : State} {dict : List (Nat × Nat)}
    (H : EncOK cfg e dict) : START_LZW_CODE ≤ e.lzw_code_cnt := by
  have := H.len
  have := code_MAX_ge hv
  simp only [START_LZW_CODE] at *
  omega

theorem EncOK.psc_lt_cnt {cfg : Config} {e : State} {dict : List (Nat × Nat)}
    (H : EncOK cfg e dict) : e.prefix_string_code < e.lzw_code_cnt := by
  have := H.len
  have := H.psc_lt
  omega

theorem RunFacts_nil {cfg : Config} (e : State) : RunFacts cfg e e [] where
  codes := fun q hq => absurd hq (List.not_mem_nil q)
  dense := trivial
  acyclic := fun _ _ _ h => absurd h (List.not_mem_nil _)
  frozen := fun _ h => ⟨h, rfl, fun ev hev => absurd hev (List.not_mem_nil ev)⟩

/-- A turn of the loop on a byte that extends the current string keeps the facts. -/
theorem RunFacts_hit {cfg : Config} {e e1 e2 : State} {evs : List EncEvent}
    (hcnt : e1.lzw_code_cnt = e.lzw_code_cnt) (hbit : e1.bit_count = e.bit_count)
    (h : RunFacts cfg e1 e2 evs) : RunFacts cfg e e2 evs where
  codes := h.codes
  dense := by rw [← hcnt]; exact h.dense
  acyclic := h.acyclic
  frozen := by
    intro hr hM
    rw [← hcnt] at hM
    rw [← hbit]
    exact h.frozen hr hM

/-- A turn of the loop that writes a code keeps the facts. -/
theorem RunFacts_miss {cfg : Config} (hv : cfg.Valid) {e e1 e2 : State}
    {dict dict1 : List (Nat × Nat)} {c : Nat} {evs1 evs2 : List EncEvent}
    (H : EncOK cfg e dict) (hc : c < 256) (hm : MissStep cfg e c e1 dict dict1 evs1)
    (h : RunFacts cfg e1 e2 evs2) : RunFacts cfg e e2 (evs1 ++ evs2) := by
  have hge := H.cnt_ge hv
  have hpsc := H.psc_lt_cnt
  have hpne := H.psc_ne
  have hpow := H.psc_lt_pow
  have hb9 := H.bits_ge
  have hbN := H.bits_le
  obtain ⟨_, hcase⟩ := hm
  have hone : ∀ q ∈ emitted [EncEvent.output_code e.prefix_string_code e.bit_count],
      q.1 ≠ EOF_LZW_CODE ∧ q.1 < 2 ^ q.2 ∧ 9 ≤ q.2 ∧ q.2 ≤ cfg.code_max_bits := by
    intro q hq
    simp only [emitted, List.mem_singleton] at hq
    rw [hq]
    exact ⟨hpne, hpow, hb9, hbN⟩
  rcases hcase with ⟨hlt, hc1, _, _, hev⟩ | ⟨hgeM, hnb, hc1, hb1, _, hev⟩ |
    ⟨hr1, hcM, hc1, _, _, hev⟩
  · rw [hev]
    refine ⟨?_, ?_, ?_, ?_⟩
    · intro q hq
      rw [emitted_append] at hq
      rcases List.mem_append.mp hq with h1 | h1
      · exact hone _ h1
      · exact h.codes q h1
    · rw [enc_ins_append]
      show dense_codes cfg.code_MAX e.lzw_code_cnt
        (some (e.lzw_code_cnt, e.prefix_string_code, c) :: enc_ins evs2)
      refine ⟨rfl, hge, hlt, ?_⟩
      rw [← hc1]; exact h.dense
    · intro k p c' hmem
      rcases List.mem_append.mp hmem with h1 | h1
      · rcases List.mem_cons.mp h1 with h2 | h2
        · cases h2
        · have h3 := List.mem_singleton.mp h2
          injection h3 with h3a h3b h3c
          rw [h3a, h3b, h3c]
          exact ⟨hpsc, hpne, hc⟩
      · exact h.acyclic k p c' h1
    · intro _ hM
      omega
  · rw [hev]
    refine ⟨?_, ?_, ?_, ?_⟩
    · intro q hq
      rw [emitted_append] at hq
      rcases List.mem_append.mp hq with h1 | h1
      · exact hone _ h1
      · exact h.codes q h1
    · rw [enc_ins_append]
      show dense_codes cfg.code_MAX e.lzw_code_cnt (enc_ins evs2)
      refine dense_codes_ge hgeM _ h.dense ?_
      rw [hc1]
      split <;> omega
    · intro k p c' hmem
      rcases List.mem_append.mp hmem with h1 | h1
      · simp at h1
      · exact h.acyclic k p c' h1
    · intro hr hM
      have hc1' : e1.lzw_code_cnt = cfg.code_MAX := by
        rw [hc1, if_neg (by rw [hr]; decide), hM]
      obtain ⟨f1, f2, f3⟩ := h.frozen hr hc1'
      refine ⟨f1, by rw [f2, hb1], ?_⟩
      intro ev hmem
      rcases List.mem_append.mp hmem with h1 | h1
      · exact ⟨_, List.mem_singleton.mp h1⟩
      · rw [← hb1]; exact f3 ev h1
  · rw [hev]
    refine ⟨?_, ?_, ?_, ?_⟩
    · intro q hq
      rw [emitted_append] at hq
      rcases List.mem_append.mp hq with h1 | h1
      · exact hone _ h1
      · exact h.codes q h1
    · rw [enc_ins_append]
      show dense_codes cfg.code_MAX START_LZW_CODE (enc_ins evs2)
      rw [← hc1]; exact h.dense
    · intro k p c' hmem
      rcases List.mem_append.mp hmem with h1 | h1
      · simp at h1
      · exact h.acyclic k p c' h1
    · intro hr _
      rw [hr] at hr1
      exact absurd hr1 (by decide)

/-- The compression loop from a state that satisfies the invariant returns, and the
facts hold of its trace. -/
theorem compress_loop_facts {cfg : Config} (hv : cfg.Valid) :
    ∀ (rest : List Nat) (e : State) (dict : List (Nat × Nat)), EncOK cfg e dict →
      (∀ y ∈ rest, y < 256) →
      ∃ e2 evs dict2, compress_loop cfg e rest = some (e2, evs) ∧ EncOK cfg e2 dict2 ∧
        RunFacts cfg e e2 evs
  | [], e, dict, H, _ => ⟨e, [], dict, rfl, H, RunFacts_nil e⟩
  | c :: rest, e, dict, H, hb => by
    have hc : c < 256 := hb c (List.mem_cons_self _ _)
    have hrest : ∀ y ∈ rest, y < 256 := fun y hy => hb y (List.mem_cons_of_mem _ hy)
    by_cases hin : (e.prefix_string_code, c) ∈ dict
    · obtain ⟨j, _, hstep, hok⟩ := compress_step_hit hv H hc hin
      obtain ⟨e2, evs, dict2, hloop, hok2, hf⟩ := compress_loop_facts hv rest _ dict hok hrest
      exact ⟨e2, evs, dict2, by simp only [compress_loop, hstep, hloop, List.nil_append],
        hok2, @RunFacts_hit cfg e { e with prefix_string_code := START_LZW_CODE + j } e2 evs rfl rfl hf⟩
    · obtain ⟨e1, dict1, evs1, hstep, hok, hm⟩ := compress_step_miss hv H hc hin
      obtain ⟨e2, evs, dict2, hloop, hok2, hf⟩ := compress_loop_facts hv rest e1 dict1 hok hrest
      exact ⟨e2, evs1 ++ evs, dict2, by simp only [compress_loop, hstep, hloop],
        hok2, RunFacts_miss hv H hc hm hf⟩

/-! ### Reading a run of the decoder backwards -/

theorem prepend_eq_some {out : List Nat} {ev : List DecEvent}
    {x : Option (State × List Nat × List DecEvent)} {r : State × List Nat × List DecEvent}
    (h : prepend out ev x = some r) :
    ∃ r1, x = some r1 ∧ r = (r1.1, out ++ r1.2.1, ev ++ r1.2.2) := by
  cases x with
  | none => exact Option.noConfusion h
  | some r1 => exact ⟨r1, rfl, (Option.some.inj h).symm⟩

/-- A turn of the decoder that returns has walked its chain within the stack. -/
theorem dec_body_walk {cfg : Config} {d : State} {v : Nat} {bits : List Bool}
    {r : State × List Bool × List Nat × List DecEvent}
    (h : dec_body cfg { d with new_lzw_code := v } bits = some r) :
    ∃ lit stack, get_string d cfg.code_MAX
      (if v ≥ d.lzw_code_cnt then d.old_lzw_code else v) [] = some (lit, stack) := by
  cases hg : get_string d cfg.code_MAX
      (if v ≥ d.lzw_code_cnt then d.old_lzw_code else v) [] with
  | some x => exact ⟨x.1, x.2, rfl⟩
  | none =>
    have hg' : get_string { d with new_lzw_code := v } cfg.code_MAX
        (if v ≥ d.lzw_code_cnt then d.old_lzw_code else v) [] = none := by
      rw [get_string_irrel d { d with new_lzw_code := v } rfl rfl]
      exact hg
    simp only [dec_body, decide_eq_true_eq, hg'] at h
    exact Option.noConfusion h

/-- A run of the decoder's loop that returns either has read the end code, or has read
another code, walked its chain within the stack and gone on. -/
theorem decompress_loop_cases {cfg : Config} {fuel : Nat} {d : State} {bits : List Bool}
    {r : State × List Nat × List DecEvent}
    (h : decompress_loop cfg (fuel + 1) d bits = some r) :
    ((get_nbits d.bit_count bits).1 = EOF_LZW_CODE ∧
      r = ({ d with new_lzw_code := EOF_LZW_CODE }, [],
        [DecEvent.get_code EOF_LZW_CODE d.bit_count d.lzw_code_cnt])) ∨
    ((get_nbits d.bit_count bits).1 ≠ EOF_LZW_CODE ∧
      ∃ lit stack r1,
        get_string d cfg.code_MAX
          (if (get_nbits d.bit_count bits).1 ≥ d.lzw_code_cnt then d.old_lzw_code
            else (get_nbits d.bit_count bits).1) [] = some (lit, stack) ∧
        dec_cont cfg fuel (dec_mid cfg d (get_nbits d.bit_count bits).1 lit)
          (get_nbits d.bit_count bits).2 = some r1 ∧
        r = (r1.1,
          (pfputc lit :: stack ++
            (if (get_nbits d.bit_count bits).1 ≥ d.lzw_code_cnt then [pfputc lit] else []))
            ++ r1.2.1,
          (DecEvent.get_code (get_nbits d.bit_count bits).1 d.bit_count d.lzw_code_cnt ::
            (dec_insert cfg
              { d with new_lzw_code := (get_nbits d.bit_count bits).1, lzwcode := lit }).2)
            ++ r1.2.2)) := by
  by_cases hv : (get_nbits d.bit_count bits).1 = EOF_LZW_CODE
  · left
    rw [decompress_loop_eof cfg fuel d bits hv] at h
    exact ⟨hv, (Option.some.inj h).symm⟩
  · right
    refine ⟨hv, ?_⟩
    have h0 := h
    simp only [decompress_loop, if_neg hv] at h0
    cases hb : dec_body cfg { d with new_lzw_code := (get_nbits d.bit_count bits).1 }
        (get_nbits d.bit_count bits).2 with
    | none => rw [hb] at h0; exact Option.noConfusion h0
    | some x =>
      obtain ⟨lit, stack, hg⟩ := dec_body_walk hb
      rw [decompress_loop_step cfg fuel d bits hv hg] at h
      obtain ⟨r1, hr1, hr⟩ := prepend_eq_some h
      exact ⟨lit, stack, r1, hg, hr1, hr⟩

/-- The continuation of a turn when the dictionary is never reset. -/
theorem dec_cont_r0 {cfg : Config} (hr : cfg.reset_dict = 0) (fuel : Nat) (s2 : State)
    (bits : List Bool) :
    dec_cont cfg fuel s2 bits
      = decompress_loop cfg fuel
          { s2 with lzw_code_cnt :=
              if s2.lzw_code_cnt < cfg.code_MAX then s2.lzw_code_cnt + 1
              else s2.lzw_code_cnt } bits := by
  unfold dec_cont dec_next_cnt
  have h1 : ¬ cfg.reset_dict = 1 := by rw [hr]; decide
  rw [if_neg (fun h : cfg.reset_dict = 1 ∧ _ => h1 h.1), if_neg h1, if_pos hr]
  rfl

theorem frozen_after_split {M : Nat} :
    ∀ (l pre : List DecEvent) (v w n : Nat) (post : List DecEvent), frozen_after M l →
      l = pre ++ DecEvent.get_code v w n :: post → n = M →
      ∀ ev ∈ post, ∃ v1, ev = DecEvent.get_code v1 w M
  | _, [], v, w, n, post, h, hl, hn => by
    rw [hl] at h
    exact h.1 hn
  | [], _ :: _, _, _, _, _, _, hl, _ => by simp at hl
  | x :: l, y :: pre, v, w, n, post, h, hl, hn => by
    have hl2 : l = pre ++ DecEvent.get_code v w n :: post := by
      simp only [List.cons_append, List.cons.injEq] at hl
      exact hl.2
    have h2 : frozen_after M l := by
      cases x with
      | get_code a b c => exact h.2
      | insert a b c => exact h
      | reset => exact h
    exact frozen_after_split l pre v w n post h2 hl2 hn

/-- Without resets, once the decoder's counter stands at `CODE_MAX` every later event
is a code read with the same width and counter. -/
theorem decompress_loop_full {cfg : Config} (hr : cfg.reset_dict = 0) :
    ∀ (fuel : Nat) (d : State) (bits : List Bool) (r : State × List Nat × List DecEvent),
      d.lzw_code_cnt = cfg.code_MAX → decompress_loop cfg fuel d bits = some r →
      ∀ ev ∈ r.2.2, ∃ v, ev = DecEvent.get_code v d.bit_count cfg.code_MAX
  | 0, _, _, _, _, h => Option.noConfusion h
  | fuel + 1, d, bits, r, hM, h => by
    rcases decompress_loop_cases h with ⟨_, hr1⟩ | ⟨_, lit, stack, r1, _, hcont, hr1⟩
    · intro ev hev
      rw [hr1] at hev
      rw [List.mem_singleton.mp hev, hM]
      exact ⟨_, rfl⟩
    · rw [dec_cont_r0 hr, dec_mid_cnt, if_neg (by omega)] at hcont
      have hbit : (dec_mid cfg d (get_nbits d.bit_count bits).1 lit).bit_count = d.bit_count := by
        rw [dec_mid_bit_count, if_neg (fun h => by omega)]
      have ih := decompress_loop_full hr fuel _ _ r1 (by exact hM) hcont
      have hlt : ¬ d.lzw_code_cnt < cfg.code_MAX := by omega
      have hins := dec_insert_events cfg d (get_nbits d.bit_count bits).1 lit
      rw [if_neg hlt] at hins
      intro ev hev
      rw [hr1, hins] at hev
      rcases List.mem_append.mp hev with h1 | h1
      · rw [List.mem_singleton.mp h1, hM]
        exact ⟨_, rfl⟩
      · obtain ⟨v, hv⟩ := ih ev h1
        rw [hv]
        exact ⟨v, congrArg (fun w => DecEvent.get_code v w cfg.code_MAX) hbit⟩

theorem decompress_loop_frozen {cfg : Config} (hr : cfg.reset_dict = 0) :
    ∀ (fuel : Nat) (d : State) (bits : List Bool) (r : State × List Nat × List DecEvent),
      decompress_loop cfg fuel d bits = some r → frozen_after cfg.code_MAX r.2.2
  | 0, _, _, _, h => Option.noConfusion h
  | fuel + 1, d, bits, r, h => by
    have hfull := decompress_loop_full hr (fuel + 1) d bits r
    rcases decompress_loop_cases h with ⟨_, hr1⟩ | ⟨_, lit, stack, r1, _, hcont, hr1⟩
    · rw [hr1]
      exact ⟨fun _ ev hev => absurd hev (List.not_mem_nil ev), trivial⟩
    · rw [dec_cont_r0 hr] at hcont
      have ih := decompress_loop_frozen hr fuel _ _ r1 hcont
      have hall : ∀ ev ∈ r.2.2, d.lzw_code_cnt = cfg.code_MAX →
          ∃ v, ev = DecEvent.get_code v d.bit_count cfg.code_MAX :=
        fun ev hev hM => hfull hM h ev hev
      rw [hr1] at hall ⊢
      rw [dec_insert_events] at hall ⊢
      refine ⟨fun hM ev hev => hall ev (List.mem_cons_of_mem _ hev) hM, ?_⟩
      split
      · exact ih
      · exact ih

/-! ### Entries of the decoder, and the states its loop reaches -/

theorem mem_enc_ins {k p c : Nat} :
    ∀ evs : List EncEvent, some (k, p, c) ∈ enc_ins evs ↔ EncEvent.insert k p c ∈ evs
  | [] => by simp [enc_ins]
  | EncEvent.output_code a b :: evs => by
    simp only [enc_ins, List.mem_cons, mem_enc_ins evs, false_or, reduceCtorEq]
  | EncEvent.reset :: evs => by
    simp only [enc_ins, List.mem_cons, mem_enc_ins evs, false_or, reduceCtorEq]
  | EncEvent.insert a b d :: evs => by
    simp only [enc_ins, List.mem_cons, mem_enc_ins evs, Option.some.injEq, Prod.mk.injEq,
      EncEvent.insert.injEq]

theorem mem_dec_ins {k p c : Nat} :
    ∀ evs : List DecEvent, some (k, p, c) ∈ dec_ins evs ↔ DecEvent.insert k p c ∈ evs
  | [] => by simp [dec_ins]
  | DecEvent.get_code a b d :: evs => by
    simp only [dec_ins, List.mem_cons, mem_dec_ins evs, false_or, reduceCtorEq]
  | DecEvent.reset :: evs => by
    simp only [dec_ins, List.mem_cons, mem_dec_ins evs, false_or, reduceCtorEq]
  | DecEvent.insert a b d :: evs => by
    simp only [dec_ins, List.mem_cons, mem_dec_ins evs, Option.some.injEq, Prod.mk.injEq,
      DecEvent.insert.injEq]

/-- On zero bits, from a state whose previous code is below the counter, every entry that
the decoder stores has its prefix code below its own code. -/
theorem zero_tail_inserts (cfg : Config) :
    ∀ (fuel n : Nat) (d : State) (r : State × List Nat × List DecEvent),
      START_LZW_CODE ≤ d.lzw_code_cnt → d.old_lzw_code < d.lzw_code_cnt →
      decompress_loop cfg fuel d (List.replicate n false) = some r →
      ∀ k p c, DecEvent.insert k p c ∈ r.2.2 → p < k
  | 0, _, _, _, _, _, h => Option.noConfusion h
  | fuel + 1, n, d, r, hcnt, hold, h => by
    intro k p c hmem
    rcases decompress_loop_cases h with ⟨_, hr1⟩ | ⟨hne, lit, stack, r1, _, hcont, hr1⟩
    · rw [hr1] at hmem
      simp at hmem
    · have hnlt : ¬ n < d.bit_count := by
        intro hlt
        rw [get_nbits_zeros, if_pos hlt] at hne
        exact hne rfl
      have hget : get_nbits d.bit_count (List.replicate n false)
          = (0, List.replicate (n - d.bit_count) false) := by
        rw [get_nbits_zeros, if_neg hnlt]
      have hv0 : (get_nbits d.bit_count (List.replicate n false)).1 = 0 := by rw [hget]
      have hb0 : (get_nbits d.bit_count (List.replicate n false)).2
          = List.replicate (n - d.bit_count) false := by rw [hget]
      rw [hv0, hb0] at hcont
      rw [hv0] at hr1
      have hins := dec_insert_events cfg d 0 lit
      rw [hr1, hins] at hmem
      have hmcnt := dec_mid_cnt cfg d 0 lit
      have htail : ∀ k p c, DecEvent.insert k p c ∈ r1.2.2 → p < k := by
        by_cases hres : cfg.reset_dict = 1 ∧
            (dec_mid cfg d 0 lit).lzw_code_cnt + 1 = cfg.code_MAX + 4096
        · rw [dec_cont_reset fuel _ _ hres, dec_run_first] at hcont
          obtain ⟨r2, hr2, hr12⟩ := prepend_eq_some hcont
          obtain ⟨r3, hr3, hr23⟩ := prepend_eq_some hr2
          rw [dec_run_false] at hr3
          have hbits : ∃ m, (get_nbits 9 (List.replicate (n - d.bit_count) false)).2
              = List.replicate m false := by
            rw [get_nbits_zeros]
            split
            · exact ⟨0, rfl⟩
            · exact ⟨_, rfl⟩
          have hval : (get_nbits 9 (List.replicate (n - d.bit_count) false)).1
              < START_LZW_CODE := by
            rw [get_nbits_zeros]
            split
            · exact (by decide : EOF_LZW_CODE < START_LZW_CODE)
            · exact (by decide : 0 < START_LZW_CODE)
          obtain ⟨m, hm⟩ := hbits
          have hr3' : decompress_loop cfg fuel
              { { dec_mid cfg d 0 lit with
                    lzw_code_cnt := START_LZW_CODE, bit_count := 9, code_max := 512 } with
                old_lzw_code := (get_nbits 9 (List.replicate (n - d.bit_count) false)).1 }
              (List.replicate m false) = some r3 := by
            rw [← hm]; exact hr3
          have ih := zero_tail_inserts cfg fuel m _ r3 (le_refl _) hval hr3'
          intro k p c hm1
          rw [hr12, hr23] at hm1
          simp only [List.nil_append, List.mem_cons, List.mem_append, List.mem_singleton,
            reduceCtorEq, false_or, List.not_mem_nil] at hm1
          exact ih k p c hm1
        · rw [dec_cont_next fuel _ _ hres, dec_run_false] at hcont
          have hge := dec_next_cnt_ge cfg (dec_mid cfg d 0 lit).lzw_code_cnt
          exact zero_tail_inserts cfg fuel _ _ r1 (by show START_LZW_CODE ≤ dec_next_cnt _ _; omega)
            (by
              show (dec_mid cfg d 0 lit).old_lzw_code < dec_next_cnt _ _
              rw [dec_mid_old]
              simp only [START_LZW_CODE] at hcnt
              omega) hcont
      rcases List.mem_append.mp hmem with h1 | h1
      · rcases List.mem_cons.mp h1 with h2 | h2
        · cases h2
        · split at h2
          · have h3 := List.mem_singleton.mp h2
            injection h3 with h3a h3b h3c
            rw [h3a, h3b]
            exact hold
          · exact absurd h2 (List.not_mem_nil _)
      · exact htail k p c h1

/-- The chain walk returns only if its pushes and the last byte fit into the room. -/
theorem get_string_room (s : State) :
    ∀ (room code : Nat) (acc : List Nat) (k : Nat) (stk : List Nat),
      get_string s room code acc = some (k, stk) →
      stk.length + 1 ≤ room + acc.length ∧ k ≤ EOF_LZW_CODE
  | 0, _, _, _, _, h => Option.noConfusion h
  | room + 1, code, acc, k, stk, h => by
    simp only [get_string] at h
    split at h
    · have ih := get_string_room s room _ _ k stk h
      simp only [List.length_cons] at ih
      exact ⟨by omega, ih.2⟩
    · rename_i hle
      simp only [Option.some.injEq, Prod.mk.injEq] at h
      rw [← h.1, ← h.2]
      exact ⟨by omega, by omega⟩

/-- When `decompress_LZW` returns, the loop returns from every state it reaches. -/
theorem DecReach_returns {cfg : Config} {mem : State} {stream : List Bool}
    {res : State × List Nat × List DecEvent}
    (hres : decompress_LZW cfg mem stream = some res) {s : State} {bits : List Bool}
    (h : DecReach cfg mem stream s bits) :
    ∃ fuel r, decompress_loop cfg fuel s bits = some r := by
  induction h with
  | first =>
    unfold decompress_LZW at hres
    simp only at hres
    cases hl : decompress_loop cfg (stream.length + 1)
        (dec_first { mem with lzw_code_cnt := START_LZW_CODE } stream).1
        (dec_first { mem with lzw_code_cnt := START_LZW_CODE } stream).2.1 with
    | none => rw [hl] at hres; exact Option.noConfusion hres
    | some r => exact ⟨_, r, hl⟩
  | @turn s bits r _ hne hb ih =>
    obtain ⟨fuel, r0, h0⟩ := ih
    cases fuel with
    | zero => exact Option.noConfusion h0
    | succ fuel =>
      simp only [decompress_loop, if_neg hne, hb] at h0
      cases hl : decompress_loop cfg fuel r.1 r.2.1 with
      | none => rw [hl] at h0; exact Option.noConfusion h0
      | some r1 => exact ⟨fuel, r1, hl⟩

/-- When `decompress_LZW` returns, every chain walk of the run has stayed within the
`CODE_MAX` bytes of the stack. -/
theorem DecReach_stack {cfg : Config} {mem : State} {stream : List Bool}
    {res : State × List Nat × List DecEvent}
    (hres : decompress_LZW cfg mem stream = some res) {s : State} {bits : List Bool}
    (h : DecReach cfg mem stream s bits)
    (hne : (get_nbits s.bit_count bits).1 ≠ EOF_LZW_CODE) :
    ∃ k stk, get_string s cfg.code_MAX
        (if (get_nbits s.bit_count bits).1 ≥ s.lzw_code_cnt then s.old_lzw_code
          else (get_nbits s.bit_count bits).1) [] = some (k, stk) ∧
      stk.length + 1 ≤ cfg.code_MAX ∧ k ≤ EOF_LZW_CODE := by
  obtain ⟨fuel, r, h0⟩ := DecReach_returns hres h
  cases fuel with
  | zero => exact Option.noConfusion h0
  | succ fuel =>
    rcases decompress_loop_cases h0 with ⟨heof, _⟩ | ⟨_, lit, stack, r1, hg, _, _⟩
    · exact absurd heof hne
    · have hroom := get_string_room s _ _ _ _ _ hg
      exact ⟨lit, stack, hg, by simpa using hroom.1, hroom.2⟩

/-! ### Whole runs: the trace of the compressor, the entries of the decoder, AAAA -/

/-- Every run of `compress_LZW` on an input that is not empty returns, and the facts hold
of the trace of its loop. -/
theorem compress_LZW_facts {cfg : Config} (hv : cfg.Valid)
    (hr : cfg.reset_dict = 1 ∨ cfg.reset_dict = 0) (a b c : Nat → Nat) {c0 : Nat}
    {rest : List Nat} (hS : ∀ x ∈ c0 :: rest, x < 256) :
    ∃ e evs dict, compress_loop cfg (enc_start cfg (initial_state a b c) c0) rest
        = some (e, evs) ∧
      compress_LZW cfg (initial_state a b c) (c0 :: rest) = some (e, evs ++ final_codes e) ∧
      EncOK cfg e dict ∧ RunFacts cfg (enc_start cfg (initial_state a b c) c0) e evs := by
  have hok : EncOK cfg (enc_start cfg (initial_state a b c) c0) [] :=
    EncOK_fresh hv hr (initial_state a b c) (hS c0 (List.mem_cons_self _ _))
  obtain ⟨e, evs, dict, hloop, hok2, hf⟩ := compress_loop_facts hv rest _ [] hok
    (fun y hy => hS y (List.mem_cons_of_mem _ hy))
  refine ⟨e, evs, dict, hloop, ?_, hok2, hf⟩
  rw [compress_LZW_cons, hloop]
  rfl

/-- Every entry that the decoder stores on a stream of the compressor is an entry that
the compressor stored, or has its prefix code below its own code. -/
theorem codec_decoder_entries {cfg : Config} (hv : cfg.Valid)
    (hr : cfg.reset_dict = 1 ∨ cfg.reset_dict = 0) (a b c a1 b1 c1 : Nat → Nat)
    {c0 : Nat} {rest : List Nat} (hS : ∀ x ∈ c0 :: rest, x < 256) :
    ∃ e1 evs dfin out devs,
      compress_loop cfg (enc_start cfg (initial_state a b c) c0) rest = some (e1, evs) ∧
      decompress_LZW cfg (initial_state a1 b1 c1)
        (flush_put_buffer (put_codes (emitted (evs ++ final_codes e1))))
        = some (dfin, out, devs) ∧
      ∀ k p x, DecEvent.insert k p x ∈ devs → EncEvent.insert k p x ∈ evs ∨ p < k := by
  obtain ⟨e1, evs, _, hloop, hstep⟩ := codec_in_step hv hr a b c a1 b1 c1 hS
  have hsync : ∀ (devs : List DecEvent), dec_ins devs = enc_ins evs → ∀ k p x,
      DecEvent.insert k p x ∈ devs → EncEvent.insert k p x ∈ evs := by
    intro devs hins k p x hm
    rw [← mem_enc_ins, ← hins, mem_dec_ins]
    exact hm
  by_cases hb : cfg.reset_dict = 1 ∧ e1.lzw_code_cnt = cfg.code_MAX + 4096
  · obtain ⟨fuel, n, d1, devs, n1, hdec, hn, hd1b, hd1c, _, hins, hd1o⟩ :=
      codec_reset_due hv hr a b c a1 b1 c1 hS hloop hb
    have hM := code_MAX_ge hv
    obtain ⟨r, hr2⟩ := zero_tail cfg (by omega) fuel n d1 hn (by omega) (by omega)
    have htail := zero_tail_inserts cfg fuel n d1 r (by rw [hd1c])
      (by rw [hd1c, hd1o]; decide) hr2
    have hrun : dec_run cfg fuel false d1 (List.replicate n false) = some r := hr2
    rw [hrun] at hdec
    refine ⟨e1, evs, r.1, _, _, hloop, hdec, ?_⟩
    intro k p x hm
    rcases List.mem_append.mp hm with h1 | h1
    · rcases List.mem_append.mp h1 with h2 | h2
      · exact Or.inl (hsync devs hins k p x h2)
      · simp at h2
    · exact Or.inr (htail k p x h1)
  · obtain ⟨dfin, devs, w1, n1, hdec, _, _, hins⟩ := hstep hb
    refine ⟨e1, evs, dfin, _, _, hloop, hdec, ?_⟩
    intro k p x hm
    rcases List.mem_append.mp hm with h1 | h1
    · exact Or.inl (hsync devs hins k p x h1)
    · simp at h1

/-- Without resets, the whole trace of `decompress_LZW` is frozen once the counter stands
at `CODE_MAX`. -/
theorem decompress_LZW_frozen {cfg : Config} (hr : cfg.reset_dict = 0)
    (hM : START_LZW_CODE < cfg.code_MAX) {s : State} {bits : List Bool}
    {res : State × List Nat × List DecEvent} (h : decompress_LZW cfg s bits = some res) :
    frozen_after cfg.code_MAX res.2.2 := by
  rw [decompress_LZW_eq, dec_run_first, dec_run_false] at h
  obtain ⟨r1, hr1, hres⟩ := prepend_eq_some h
  rw [hres]
  refine ⟨fun hn => ?_, decompress_loop_frozen hr _ _ _ r1 hr1⟩
  have : START_LZW_CODE = cfg.code_MAX := hn
  omega

/-- The loop of `compress_LZW` on AAAA: the code 65, the entry 257 = (65, 65), the code 257,
the entry 258 = (257, 65); the loop ends holding the code 65 with nine-bit codes. -/
theorem AAAA_loop {cfg : Config} (hv : cfg.Valid)
    (hr : cfg.reset_dict = 1 ∨ cfg.reset_dict = 0) (a b c : Nat → Nat) :
    ∃ e, compress_loop cfg (enc_start cfg (initial_state a b c) 65) [65, 65, 65]
        = some (e, [EncEvent.output_code 65 9, EncEvent.insert 257 65 65,
            EncEvent.output_code 257 9, EncEvent.insert 258 257 65]) ∧
      e.prefix_string_code = 65 ∧ e.bit_count = 9 ∧ e.lzw_code_cnt = 259 := by
  have hM := code_MAX_ge hv
  have hok0 : EncOK cfg (enc_start cfg (initial_state a b c) 65) [] :=
    EncOK_fresh hv hr (initial_state a b c) (by decide)
  obtain ⟨e1, dict1, evs1, hstep1, hok1, hpsc1, hcase1⟩ :=
    compress_step_miss hv hok0 (by decide : 65 < 256) (List.not_mem_nil _)
  have h0cnt : (enc_start cfg (initial_state a b c) 65).lzw_code_cnt = 257 := rfl
  have h0bit : (enc_start cfg (initial_state a b c) 65).bit_count = 9 := rfl
  have h0cm : (enc_start cfg (initial_state a b c) 65).code_max = 512 := rfl
  have h0psc : (enc_start cfg (initial_state a b c) 65).prefix_string_code = 65 := rfl
  obtain ⟨h1cnt, h1bit, h1dict, h1evs⟩ : e1.lzw_code_cnt = 258 ∧ e1.bit_count = 9 ∧
      dict1 = [(65, 65)] ∧ evs1 = [EncEvent.output_code 65 9, EncEvent.insert 257 65 65] := by
    rcases hcase1 with ⟨_, h1, h2, h3, h4⟩ | ⟨h1, _⟩ | ⟨_, h1, _⟩
    · rw [h0cnt, h0cm, h0bit] at h2
      rw [h0cnt] at h1 h4
      rw [h0psc] at h3 h4
      rw [h0bit] at h4
      exact ⟨h1, by rw [h2]; rfl, by rw [h3]; rfl, h4⟩
    · rw [h0cnt] at h1; omega
    · rw [h0cnt] at h1; omega
  have hin : (e1.prefix_string_code, 65) ∈ dict1 := by
    rw [hpsc1, h1dict]; exact List.mem_singleton.mpr rfl
  obtain ⟨j, hj, hstep2, hok2⟩ := compress_step_hit hv hok1 (by decide : 65 < 256) hin
  have hj0 : j = 0 := by
    rw [h1dict] at hj
    cases j with
    | zero => rfl
    | succ j => simp at hj
  rw [hj0] at hstep2 hok2
  have hnin : (({ e1 with prefix_string_code := START_LZW_CODE + 0 } : State).prefix_string_code,
      65) ∉ dict1 := by
    rw [h1dict]
    intro h
    have h2 := List.mem_singleton.mp h
    injection h2 with h3 _
    exact absurd (show (257 : Nat) = 65 from h3) (by decide)
  obtain ⟨e3, dict3, evs3, hstep3, _, hpsc3, hcase3⟩ :=
    compress_step_miss hv hok2 (by decide : 65 < 256) hnin
  have h2cm : e1.code_max = 512 := by rw [hok1.cm, h1bit]; rfl
  obtain ⟨h3cnt, h3bit, h3evs⟩ : e3.lzw_code_cnt = 259 ∧ e3.bit_count = 9 ∧
      evs3 = [EncEvent.output_code 257 9, EncEvent.insert 258 257 65] := by
    rcases hcase3 with ⟨_, h1, h2, _, h4⟩ | ⟨h1, _⟩ | ⟨_, h1, _⟩
    · have e1' : ({ e1 with prefix_string_code := START_LZW_CODE + 0 } : State).lzw_code_cnt
          = 258 := h1cnt
      have e2' : ({ e1 with prefix_string_code := START_LZW_CODE + 0 } : State).bit_count
          = 9 := h1bit
      have e3' : ({ e1 with prefix_string_code := START_LZW_CODE + 0 } : State).code_max
          = 512 := h2cm
      have e4' : ({ e1 with prefix_string_code := START_LZW_CODE + 0 } : State).prefix_string_code
          = 257 := rfl
      rw [e1'] at h1 h4
      rw [e1', e2', e3'] at h2
      rw [e2', e4'] at h4
      exact ⟨h1, by rw [h2]; rfl, h4⟩
    · have e1' : ({ e1 with prefix_string_code := START_LZW_CODE + 0 } : State).lzw_code_cnt
          = 258 := h1cnt
      rw [e1'] at h1; omega
    · have e1' : ({ e1 with prefix_string_code := START_LZW_CODE + 0 } : State).lzw_code_cnt
          = 258 := h1cnt
      rw [e1'] at h1; omega
  refine ⟨e3, ?_, hpsc3, h3bit, h3cnt⟩
  simp only [compress_loop, hstep1, hstep2, hstep3, h1evs, h3evs, List.append_nil,
    List.nil_append, List.cons_append]

/-- In tables whose prefix codes lie below their codes and differ from 256, the chain
walk from a code other than 256 ends at a byte within `room` bytes when `room` exceeds
`code - 256`. -/
theorem chain_walk_terminates (s : State) :
    ∀ (room code : Nat) (acc : List Nat), 1 ≤ room → code < room + EOF_LZW_CODE →
      code ≠ EOF_LZW_CODE →
      (∀ k, EOF_LZW_CODE < k → k ≤ code →
        s.prefix_tab k < k ∧ s.prefix_tab k ≠ EOF_LZW_CODE) →
      ∃ lit stk, get_string s room code acc = some (lit, stk) ∧ lit < EOF_LZW_CODE
  | 0, _, _, h, _, _, _ => absurd h (by decide)
  | room + 1, code, acc, _, hc, hne, hp => by
    simp only [get_string]
    split
    · rename_i hgt
      have h1 := hp code hgt (le_refl _)
      simp only [EOF_LZW_CODE] at hgt hc
      exact chain_walk_terminates s room _ _ (by omega) (by simp only [EOF_LZW_CODE]; omega)
        h1.2 (fun k hk hk2 => hp k hk (by omega))
    · rename_i hle
      exact ⟨code, acc, rfl, by omega⟩

/-- The three codes 65, 257, 256 at nine bits decode to AAA. -/
theorem three_codes_decode :
    (decompress_LZW (configure 16 1) mem0
      (flush_put_buffer (put_codes [(65, 9), (257, 9), (256, 9)]))).map (fun x => x.2.1)
      = some [65, 65, 65] := by
  decide!

/-- C12, the claim fails: with `code_max_bits = 16` the compressor writes four codes for
AAAA, namely 65, 257, 65, 256, and not the three codes 65, 257, 256; and the three codes
65, 257, 256 decode to the three bytes AAA. -/
theorem AAAA_writes_four_codes :
    ∃ e evs, compress_LZW (configure 16 1) mem0 [65, 65, 65, 65] = some (e, evs) ∧
      (emitted evs).map Prod.fst = [65, 257, 65, 256] ∧
      (emitted evs).map Prod.fst ≠ [65, 257, 256] ∧
      (decompress_LZW (configure 16 1) mem0
        (flush_put_buffer (put_codes [(65, 9), (257, 9), (256, 9)]))).map (fun x => x.2.1)
        = some [65, 65, 65] := by
  have hv := configure_valid 16 1 (by decide) (by decide)
  obtain ⟨e, hloop, hpsc, hbit, _⟩ :=
    AAAA_loop hv (Or.inl rfl) (fun _ => 0) (fun _ => 0) (fun _ => 0)
  refine ⟨e, [EncEvent.output_code 65 9, EncEvent.insert 257 65 65,
    EncEvent.output_code 257 9, EncEvent.insert 258 257 65] ++ final_codes e,
    ?_, ?_, ?_, three_codes_decode⟩
  · show compress_LZW (configure 16 1) (initial_state (fun _ => 0) (fun _ => 0) (fun _ => 0))
      [65, 65, 65, 65] = _
    rw [compress_LZW_cons, hloop]
    rfl
  · simp only [emitted, final_codes, List.cons_append, List.nil_append, List.map, hpsc]
    rfl
  · simp only [emitted, final_codes, List.cons_append, List.nil_append, List.map, hpsc]
    decide

/-- C12 as amended: for AAAA with `code_max_bits = 16`, either reset policy and any
content of the arrays, `compress_LZW` writes the code 65, stores 257 = (65, 65), writes the
code 257, stores 258 = (257, 65), and after the loop writes the code 65 and the end code
256, all with nine bits; `decompress_LZW` on these four codes returns AAAA. -/
theorem AAAA_scenario (r : Nat) (hr : r = 0 ∨ r = 1) (a b c a1 b1 c1 : Nat → Nat) :
    ∃ e d devs,
      compress_LZW (configure 16 r) (initial_state a b c) [65, 65, 65, 65]
        = some (e, [EncEvent.output_code 65 9, EncEvent.insert 257 65 65,
            EncEvent.output_code 257 9, EncEvent.insert 258 257 65,
            EncEvent.output_code 65 9, EncEvent.output_code EOF_LZW_CODE 9]) ∧
      decompress_LZW (configure 16 r) (initial_state a1 b1 c1)
        (flush_put_buffer (put_codes [(65, 9), (257, 9), (65, 9), (EOF_LZW_CODE, 9)]))
        = some (d, [65, 65, 65, 65], devs) := by
  have hv := configure_valid 16 r (by decide) (by decide)
  obtain ⟨e, hloop, hpsc, hbit, hcnt⟩ := AAAA_loop hv (Or.symm hr) a b c
  obtain ⟨e1, evs, _, hloop1, hstep⟩ :=
    codec_in_step hv (Or.symm hr) a b c a1 b1 c1
      (by decide : ∀ x ∈ [65, 65, 65, 65], x < 256)
  rw [hloop] at hloop1
  obtain ⟨rfl, rfl⟩ : e = e1 ∧ [EncEvent.output_code 65 9, EncEvent.insert 257 65 65,
      EncEvent.output_code 257 9, EncEvent.insert 258 257 65] = evs := by
    have := Option.some.inj hloop1
    exact ⟨congrArg Prod.fst this, congrArg Prod.snd this⟩
  have hM : (configure 16 r).code_MAX = 65536 := rfl
  obtain ⟨dfin, devs, w1, n1, hdec, _, _, _⟩ := hstep (by rw [hcnt, hM]; omega)
  have hem : emitted ([EncEvent.output_code 65 9, EncEvent.insert 257 65 65,
      EncEvent.output_code 257 9, EncEvent.insert 258 257 65] ++ final_codes e)
      = [(65, 9), (257, 9), (65, 9), (EOF_LZW_CODE, 9)] := by
    simp only [emitted, final_codes, List.cons_append, List.nil_append, hpsc, hbit]
  rw [hem] at hdec
  refine ⟨e, dfin, _, ?_, hdec⟩
  rw [compress_LZW_cons, hloop]
  simp only [Option.map_some', final_codes, hpsc, hbit, List.cons_append, List.nil_append]

/-- C12 witness: resets on, all arrays zero. -/
theorem AAAA_scenario_witness :
    ∃ e d devs,
      compress_LZW (configure 16 1) (initial_state (fun _ => 0) (fun _ => 0) (fun _ => 0))
          [65, 65, 65, 65]
        = some (e, [EncEvent.output_code 65 9, EncEvent.insert 257 65 65,
            EncEvent.output_code 257 9, EncEvent.insert 258 257 65,
            EncEvent.output_code 65 9, EncEvent.output_code EOF_LZW_CODE 9]) ∧
      decompress_LZW (configure 16 1) (initial_state (fun _ => 0) (fun _ => 0) (fun _ => 0))
        (flush_put_buffer (put_codes [(65, 9), (257, 9), (65, 9), (EOF_LZW_CODE, 9)]))
        = some (d, [65, 65, 65, 65], devs) :=
  AAAA_scenario 1 (Or.inr rfl) (fun _ => 0) (fun _ => 0) (fun _ => 0) (fun _ => 0)
    (fun _ => 0) (fun _ => 0)

/-- Stream termination where no reset is due at the end. For every input of bytes that
is not empty, `code_max_bits` in 12..28 and both reset policies, `compress_LZW` returns,
the last two codes it writes
are `prefix_string_code` and then the end code 256, both with the final `bit_count`, and
256 is neither the last code before the end code nor any code written by the loop. Unless
the run ends with `reset_dict = 1` and `lzw_code_cnt = CODE_MAX + 4096`, `decompress_LZW`
returns the input and its last event is the read of the end code, after it has read the
other codes at the widths they were written with. -/
theorem stream_termination (N r : Nat) (hN : 12 ≤ N ∧ N ≤ 28) (hr : r = 0 ∨ r = 1)
    (a b c a1 b1 c1 : Nat → Nat) (c0 : Nat) (rest : List Nat)
    (hS : ∀ x ∈ c0 :: rest, x < 256) :
    ∃ e evs,
      compress_LZW (configure N r) (initial_state a b c) (c0 :: rest)
        = some (e, evs ++ [EncEvent.output_code e.prefix_string_code e.bit_count,
            EncEvent.output_code EOF_LZW_CODE e.bit_count]) ∧
      e.prefix_string_code ≠ EOF_LZW_CODE ∧
      (∀ q ∈ emitted evs, q.1 ≠ EOF_LZW_CODE) ∧
      (¬ (r = 1 ∧ e.lzw_code_cnt = (configure N r).code_MAX + 4096) →
        ∃ d devs w n, decompress_LZW (configure N r) (initial_state a1 b1 c1)
            (flush_put_buffer (put_codes (emitted (evs ++
              [EncEvent.output_code e.prefix_string_code e.bit_count,
               EncEvent.output_code EOF_LZW_CODE e.bit_count]))))
            = some (d, c0 :: rest, devs ++ [DecEvent.get_code EOF_LZW_CODE w n]) ∧
          dec_skel devs = enc_skel evs ++ [some (e.prefix_string_code, e.bit_count)]) := by
  have hv := configure_valid N r hN.1 hN.2
  obtain ⟨e, evs, dict, hloop, hcomp, hok, hf⟩ := compress_LZW_facts hv (Or.symm hr) a b c hS
  obtain ⟨e1, evs1, _, hloop1, hstep⟩ := codec_in_step hv (Or.symm hr) a b c a1 b1 c1 hS
  rw [hloop] at hloop1
  obtain ⟨rfl, rfl⟩ : e = e1 ∧ evs = evs1 := by
    have := Option.some.inj hloop1
    exact ⟨congrArg Prod.fst this, congrArg Prod.snd this⟩
  refine ⟨e, evs, hcomp, hok.psc_ne, fun q hq => (hf.codes q hq).1, fun hnb => ?_⟩
  obtain ⟨dfin, devs, w1, n1, hdec, hskel, _, _⟩ := hstep hnb
  exact ⟨dfin, devs, w1, n1, hdec, hskel⟩

/-- Stream termination on the input AAAA with twelve-bit codes and resets on. -/
theorem stream_termination_witness :
    ∃ e evs,
      compress_LZW (configure 12 1) (initial_state (fun _ => 0) (fun _ => 0) (fun _ => 0))
          (65 :: [65, 65, 65])
        = some (e, evs ++ [EncEvent.output_code e.prefix_string_code e.bit_count,
            EncEvent.output_code EOF_LZW_CODE e.bit_count]) ∧
      e.prefix_string_code ≠ EOF_LZW_CODE ∧
      (∀ q ∈ emitted evs, q.1 ≠ EOF_LZW_CODE) ∧
      (¬ (1 = 1 ∧ e.lzw_code_cnt = (configure 12 1).code_MAX + 4096) →
        ∃ d devs w n, decompress_LZW (configure 12 1)
            (initial_state (fun _ => 0) (fun _ => 0) (fun _ => 0))
            (flush_put_buffer (put_codes (emitted (evs ++
              [EncEvent.output_code e.prefix_string_code e.bit_count,
               EncEvent.output_code EOF_LZW_CODE e.bit_count]))))
            = some (d, 65 :: [65, 65, 65], devs ++ [DecEvent.get_code EOF_LZW_CODE w n]) ∧
          dec_skel devs = enc_skel evs ++ [some (e.prefix_string_code, e.bit_count)]) :=
  stream_termination 12 1 (by decide) (Or.inr rfl) (fun _ => 0) (fun _ => 0) (fun _ => 0)
    (fun _ => 0) (fun _ => 0) (fun _ => 0) 65 [65, 65, 65] (by decide)

/-- What holds of the prefix chains. For every input of bytes that is not empty,
`code_max_bits` in 12..28 and both reset policies, `compress_LZW` and `decompress_LZW` on
the stream written both return (so every chain walk of the decoder has ended); every
entry (code, prefix code, byte) that `insert_stringENC` stores has its prefix code below
its code and different from 256, and every entry that `insert_stringDEC` stores has its
prefix code below its code. And in any tables in which the prefix code of every code
from 257 up to `code` lies below that code and is not 256, the chain walk from a `code`
other than 256 ends at a byte (a value below 256) within `code + 1` bytes of stack. -/
theorem acyclic_prefix_chains (N r : Nat) (hN : 12 ≤ N ∧ N ≤ 28) (hr : r = 0 ∨ r = 1)
    (a b c a1 b1 c1 : Nat → Nat) (c0 : Nat) (rest : List Nat)
    (hS : ∀ x ∈ c0 :: rest, x < 256) :
    ∃ e evs d out devs,
      compress_LZW (configure N r) (initial_state a b c) (c0 :: rest) = some (e, evs) ∧
      decompress_LZW (configure N r) (initial_state a1 b1 c1)
        (flush_put_buffer (put_codes (emitted evs))) = some (d, out, devs) ∧
      (∀ k p x, EncEvent.insert k p x ∈ evs → p < k ∧ p ≠ EOF_LZW_CODE) ∧
      (∀ k p x, DecEvent.insert k p x ∈ devs → p < k) ∧
      (∀ (s : State) (code : Nat), code ≠ EOF_LZW_CODE →
        (∀ k, EOF_LZW_CODE < k → k ≤ code →
          s.prefix_tab k < k ∧ s.prefix_tab k ≠ EOF_LZW_CODE) →
        ∃ lit stk, get_string s (code + 1) code [] = some (lit, stk) ∧
          lit < EOF_LZW_CODE) := by
  have hv := configure_valid N r hN.1 hN.2
  obtain ⟨e, evs, dict, hloop, hcomp, hok, hf⟩ := compress_LZW_facts hv (Or.symm hr) a b c hS
  obtain ⟨e1, evs1, dfin, out, devs, hloop1, hdec, hent⟩ :=
    codec_decoder_entries hv (Or.symm hr) a b c a1 b1 c1 hS
  rw [hloop] at hloop1
  obtain ⟨rfl, rfl⟩ : e = e1 ∧ evs = evs1 := by
    have := Option.some.inj hloop1
    exact ⟨congrArg Prod.fst this, congrArg Prod.snd this⟩
  have henc : ∀ k p x, EncEvent.insert k p x ∈ evs ++ final_codes e →
      p < k ∧ p ≠ EOF_LZW_CODE := by
    intro k p x hm
    rcases List.mem_append.mp hm with h1 | h1
    · exact ⟨(hf.acyclic k p x h1).1, (hf.acyclic k p x h1).2.1⟩
    · simp [final_codes] at h1
  refine ⟨e, evs ++ final_codes e, dfin, out, devs, hcomp, hdec, henc, ?_, ?_⟩
  · intro k p x hm
    rcases hent k p x hm with h1 | h1
    · exact (hf.acyclic k p x h1).1
    · exact h1
  · intro s code hne hp
    exact chain_walk_terminates s (code + 1) code [] (by omega)
      (by simp only [EOF_LZW_CODE]; omega) hne hp

/-- The prefix chains on the input AAAA with twelve-bit codes and resets on. -/
theorem acyclic_prefix_chains_witness :
    ∃ e evs d out devs,
      compress_LZW (configure 12 1) (initial_state (fun _ => 0) (fun _ => 0) (fun _ => 0))
        (65 :: [65, 65, 65]) = some (e, evs) ∧
      decompress_LZW (configure 12 1) (initial_state (fun _ => 0) (fun _ => 0) (fun _ => 0))
        (flush_put_buffer (put_codes (emitted evs))) = some (d, out, devs) ∧
      (∀ k p x, EncEvent.insert k p x ∈ evs → p < k ∧ p ≠ EOF_LZW_CODE) ∧
      (∀ k p x, DecEvent.insert k p x ∈ devs → p < k) ∧
      (∀ (s : State) (code : Nat), code ≠ EOF_LZW_CODE →
        (∀ k, EOF_LZW_CODE < k → k ≤ code →
          s.prefix_tab k < k ∧ s.prefix_tab k ≠ EOF_LZW_CODE) →
        ∃ lit stk, get_string s (code + 1) code [] = some (lit, stk) ∧
          lit < EOF_LZW_CODE) :=
  acyclic_prefix_chains 12 1 (by decide) (Or.inr rfl) (fun _ => 0) (fun _ => 0) (fun _ => 0)
    (fun _ => 0) (fun _ => 0) (fun _ => 0) 65 [65, 65, 65] (by decide)

/-- C18: the stack bound. For every input of bytes that is not empty, `code_max_bits` in
12..28 and both reset policies, `decompress_LZW` on the stream written returns, and in
every state in which its loop reads a code other than the end code (`DecReach`), the
chain walk for that code returns within the stack: the bytes it pushes and the last byte
`*stack = lzwcode` number at most `CODE_MAX`, so they are written at indices below
`CODE_MAX`. -/
theorem stack_bound (N r : Nat) (hN : 12 ≤ N ∧ N ≤ 28) (hr : r = 0 ∨ r = 1)
    (a b c a1 b1 c1 : Nat → Nat) (c0 : Nat) (rest : List Nat)
    (hS : ∀ x ∈ c0 :: rest, x < 256) :
    ∃ e evs res,
      compress_LZW (configure N r) (initial_state a b c) (c0 :: rest) = some (e, evs) ∧
      decompress_LZW (configure N r) (initial_state a1 b1 c1)
        (flush_put_buffer (put_codes (emitted evs))) = some res ∧
      ∀ s bits, DecReach (configure N r) (initial_state a1 b1 c1)
          (flush_put_buffer (put_codes (emitted evs))) s bits →
        (get_nbits s.bit_count bits).1 ≠ EOF_LZW_CODE →
        ∃ lit stk, get_string s (configure N r).code_MAX
            (if (get_nbits s.bit_count bits).1 ≥ s.lzw_code_cnt then s.old_lzw_code
              else (get_nbits s.bit_count bits).1) [] = some (lit, stk) ∧
          stk.length + 1 ≤ (configure N r).code_MAX := by
  have hv := configure_valid N r hN.1 hN.2
  obtain ⟨e1, evs, dfin, out, devs1, devs2, hcomp, hdec, _, _, _⟩ :=
    codec_total hv (Or.symm hr) a b c a1 b1 c1 hS
  refine ⟨e1, _, _, hcomp, hdec, fun s bits hreach hne => ?_⟩
  obtain ⟨lit, stk, hg, hlen, _⟩ := DecReach_stack hdec hreach hne
  exact ⟨lit, stk, hg, hlen⟩

/-- C18 witness: the input AAAA with twelve-bit codes and resets on. -/
theorem stack_bound_witness :
    ∃ e evs res,
      compress_LZW (configure 12 1) (initial_state (fun _ => 0) (fun _ => 0) (fun _ => 0))
        (65 :: [65, 65, 65]) = some (e, evs) ∧
      decompress_LZW (configure 12 1) (initial_state (fun _ => 0) (fun _ => 0) (fun _ => 0))
        (flush_put_buffer (put_codes (emitted evs))) = some res ∧
      ∀ s bits, DecReach (configure 12 1) (initial_state (fun _ => 0) (fun _ => 0) (fun _ => 0))
          (flush_put_buffer (put_codes (emitted evs))) s bits →
        (get_nbits s.bit_count bits).1 ≠ EOF_LZW_CODE →
        ∃ lit stk, get_string s (configure 12 1).code_MAX
            (if (get_nbits s.bit_count bits).1 ≥ s.lzw_code_cnt then s.old_lzw_code
              else (get_nbits s.bit_count bits).1) [] = some (lit, stk) ∧
          stk.length + 1 ≤ (configure 12 1).code_MAX :=
  stack_bound 12 1 (by decide) (Or.inr rfl) (fun _ => 0) (fun _ => 0) (fun _ => 0)
    (fun _ => 0) (fun _ => 0) (fun _ => 0) 65 [65, 65, 65] (by decide)

theorem lzwhd_insert_eq (s : State) : lzwhd_insert 16 s = dec_insert (configure 16 1) s := rfl

theorem lzwhd_reset_eq (s : State) (bits : List Bool) :
    lzwhd_reset (65536 + 4096) s bits = dec_reset (configure 16 1) s bits := rfl

theorem lzwhd_body_eq (s : State) (bits : List Bool) :
    lzwhd_body 16 (65536 + 4096) s bits = dec_body (configure 16 1) s bits := rfl

theorem lzwhd_loop_eq : ∀ (fuel : Nat) (s : State) (bits : List Bool),
    lzwhd_loop 16 (65536 + 4096) fuel s bits = decompress_loop (configure 16 1) fuel s bits
  | 0, _, _ => rfl
  | fuel + 1, s, bits => by
    simp only [lzwhd_loop, decompress_loop, lzwhd_body_eq, lzwhd_loop_eq fuel]

theorem lzwhd_decode_eq (s : State) (bits : List Bool) :
    lzwhd_decode 16 (65536 + 4096) s bits = decompress_LZW (configure 16 1) s bits := by
  simp only [lzwhd_decode, decompress_LZW, lzwhd_loop_eq]

theorem lor_two_pow : ∀ (r x : Nat), x < 2 ^ r → x ||| 2 ^ r = x + 2 ^ r
  | 0, x, h => by
    have hx : x = 0 := by simpa using h
    subst hx; simp
  | r + 1, x, h => by
    have h2 : (2 : Nat) ^ (r + 1) = 2 * 2 ^ r := by rw [pow_succ, Nat.mul_comm]
    have hx2 : x / 2 < 2 ^ r := by omega
    have ih := lor_two_pow r (x / 2) hx2
    have hd : (x ||| 2 ^ (r + 1)) / 2 = x / 2 + 2 ^ r := by
      rw [Nat.or_div_two, h2, Nat.mul_div_cancel_left _ (by decide : 0 < 2), ih]
    have hm : (x ||| 2 ^ (r + 1)) % 2 = x % 2 := by
      have hiff := @Nat.or_mod_two_eq_one x (2 ^ (r + 1))
      have hp : (2 : Nat) ^ (r + 1) % 2 = 0 := by omega
      rcases Nat.mod_two_eq_zero_or_one x with h0 | h1
      · rcases Nat.mod_two_eq_zero_or_one (x ||| 2 ^ (r + 1)) with g0 | g1
        · omega
        · rcases hiff.mp g1 with g | g <;> omega
      · have := hiff.mpr (Or.inl h1); omega
    omega

theorem bits_value_append (l m : List Bool) :
    bits_value (l ++ m) = bits_value l + 2 ^ l.length * bits_value m := by
  induction l with
  | nil => simp [bits_value]
  | cons b l ih =>
    show (if b then 1 else 0) + 2 * bits_value (l ++ m) = _
    rw [ih]
    simp only [bits_value, List.length_cons, pow_succ]
    ring

theorem bits_value_testBit : ∀ (l : List Bool) (p : Nat),
    (bits_value l).testBit p = l.getD p false
  | [], p => by simp [bits_value]
  | b :: l, 0 => by
    simp only [bits_value, Nat.testBit_zero, List.getD_cons_zero]
    cases b <;> simp
  | b :: l, p + 1 => by
    simp only [bits_value, Nat.testBit_succ, List.getD_cons_succ]
    rw [← bits_value_testBit l p]
    congr 1
    cases b
    · simp
    · simp; omega

theorem byte_of_lt (bs : List Bool) (j : Nat) : byte_of bs j < 256 := by
  have := bits_value_lt ((bs.drop (8 * j)).take 8)
  have hl : ((bs.drop (8 * j)).take 8).length ≤ 8 := by simp
  calc byte_of bs j < 2 ^ ((bs.drop (8 * j)).take 8).length := this
    _ ≤ 2 ^ 8 := Nat.pow_le_pow_right (by decide) hl
    _ = 256 := by norm_num

theorem byte_of_testBit (bs : List Bool) (j p : Nat) (hp : p < 8) :
    (byte_of bs j).testBit p = bs.getD (8 * j + p) false := by
  unfold byte_of
  rw [bits_value_testBit, List.getD_eq_getElem?_getD, List.getD_eq_getElem?_getD,
    List.getElem?_take, if_pos hp, List.getElem?_drop]

theorem byte_of_beyond (bs : List Bool) (j : Nat) (h : bs.length ≤ 8 * j) : byte_of bs j = 0 := by
  unfold byte_of
  rw [List.drop_eq_nil_of_le h]; rfl

theorem byte_of_snoc_lt (bs : List Bool) (b : Bool) (j : Nat) (h : 8 * j + 8 ≤ bs.length) :
    byte_of (bs ++ [b]) j = byte_of bs j := by
  unfold byte_of
  rw [List.drop_append_of_le_length (by omega), List.take_append_of_le_length]
  simp; omega

theorem byte_of_short (bs : List Bool) (j r : Nat) (h : bs.length = 8 * j + r) :
    byte_of bs j < 2 ^ r := by
  unfold byte_of
  have hl : (bs.drop (8 * j)).length = r := by simp; omega
  have := bits_value_lt ((bs.drop (8 * j)).take 8)
  have hl2 : ((bs.drop (8 * j)).take 8).length ≤ r := by simp; omega
  exact lt_of_lt_of_le this (Nat.pow_le_pow_right (by decide) hl2)

theorem byte_of_snoc_eq (bs : List Bool) (b : Bool) (j r : Nat) (h : bs.length = 8 * j + r)
    (hr : r < 8) :
    byte_of (bs ++ [b]) j = byte_of bs j + (if b then 2 ^ r else 0) := by
  unfold byte_of
  have hl : (bs.drop (8 * j)).length = r := by simp; omega
  rw [List.drop_append_of_le_length (by omega),
    List.take_of_length_le (by simp; omega), List.take_of_length_le (by omega),
    bits_value_append, hl]
  cases b <;> simp [bits_value]

theorem PutInv_start {B : Nat} (hB : 0 < B) {s0 : PutBuf} (hz : ∀ j, j < B → s0.buf j = 0)
    (hp : s0.p_cnt = 0) (hc : s0.pbuf_count = 0) (hs : s0.pbuf = 0) :
    PutInv B s0 s0 [] 0 0 0 where
  len := by simp
  hi := hB
  hr := by decide
  p_cnt := hp
  pbuf_count := hc
  pbuf := hs
  nbytes := by simp
  written := by simp
  buf := fun j hj => by rw [hz j hj, byte_of_beyond]; simp

theorem block_of_snoc {B : Nat} (bs : List Bool) (b : Bool) {m i r : Nat}
    (hlen : bs.length = 8 * (B * m + i) + r) :
    (List.range m).map (block_of B (bs ++ [b])) = (List.range m).map (block_of B bs) := by
  apply List.map_congr_left
  intro blk hblk
  unfold block_of
  apply List.map_congr_left
  intro j hj
  have hblk1 : blk < m := List.mem_range.mp hblk
  have hj1 : j < B := List.mem_range.mp hj
  have h1 : B * (blk + 1) ≤ B * m := Nat.mul_le_mul_left B hblk1
  rw [Nat.mul_succ] at h1
  exact byte_of_snoc_lt bs b _ (by omega)

/-- The byte being filled after `pset_bit()` or without it. -/
theorem buf_snoc {B : Nat} {s0 s : PutBuf} {bs : List Bool} {m i r : Nat}
    (h : PutInv B s0 s bs m i r) (b : Bool) (j : Nat) (hj : j < B) :
    (if b then pset_bit s else s).buf j = byte_of (bs ++ [b]) (B * m + j) := by
  have hlen := h.len
  have hr8 := h.hr
  rcases Nat.lt_trichotomy j i with hlt | heq | hgt
  · rw [byte_of_snoc_lt bs b _ (by omega), ← h.buf j hj]
    cases b
    · rfl
    · show (if j = s.pbuf then _ else s.buf j) = _
      rw [if_neg (by rw [h.pbuf]; omega)]
  · subst heq
    rw [byte_of_snoc_eq bs b (B * m + j) r hlen h.hr]
    cases b
    · simp only [Bool.false_eq_true, if_false, Nat.add_zero]; exact h.buf j hj
    · show (if j = s.pbuf then (s.buf s.pbuf ||| (1 <<< s.p_cnt)) % 256 else s.buf j) = _
      rw [if_pos h.pbuf.symm, h.pbuf, h.p_cnt, h.buf j hj, Nat.one_shiftLeft,
        lor_two_pow r _ (byte_of_short bs _ r hlen)]
      simp only [if_true]
      have h1 := byte_of_short bs _ r hlen
      have h2 : (2 : Nat) ^ r + 2 ^ r ≤ 256 := by
        have : (2 : Nat) ^ (r + 1) ≤ 2 ^ 8 := Nat.pow_le_pow_right (by decide) h.hr
        rw [pow_succ] at this; omega
      exact Nat.mod_eq_of_lt (by omega)
  · rw [byte_of_beyond (bs ++ [b]) _ (by simp; omega)]
    have h0 : s.buf j = 0 := by rw [h.buf j hj]; exact byte_of_beyond bs _ (by omega)
    cases b
    · exact h0
    · show (if j = s.pbuf then _ else s.buf j) = _
      rw [if_neg (by rw [h.pbuf]; omega)]; exact h0

theorem put_bit_inv {B : Nat} {s0 s : PutBuf} {bs : List Bool} {m i r : Nat}
    (h : PutInv B s0 s bs m i r) (b : Bool) :
    ∃ m1 i1 r1, PutInv B s0 (if b then put_ONE B s else put_ZERO B s) (bs ++ [b]) m1 i1 r1 := by
  have hbuf := buf_snoc h b
  have hlen := h.len
  have hfields : (if b then pset_bit s else s).p_cnt = r ∧
      (if b then pset_bit s else s).pbuf_count = i ∧ (if b then pset_bit s else s).pbuf = i ∧
      (if b then pset_bit s else s).nbytes_out = s0.nbytes_out + B * m ∧
      (if b then pset_bit s else s).written = s0.written ++ (List.range m).map (block_of B bs) := by
    cases b
    · exact ⟨h.p_cnt, h.pbuf_count, h.pbuf, h.nbytes, h.written⟩
    · exact ⟨h.p_cnt, h.pbuf_count, h.pbuf, h.nbytes, h.written⟩
  have hstep : (if b then put_ONE B s else put_ZERO B s)
      = advance_buf B (if b then pset_bit s else s) := by
    cases b <;> rfl
  rw [hstep]
  generalize (if b then pset_bit s else s) = t at hbuf hfields
  obtain ⟨f1, f2, f3, f4, f5⟩ := hfields
  unfold advance_buf
  rw [f1, f2]
  by_cases h8 : r + 1 = 8
  · rw [if_pos h8]
    by_cases hB : i + 1 = B
    · rw [if_pos hB]
      refine ⟨m + 1, 0, 0, ?_⟩
      have hm1 : B * (m + 1) = B * m + B := Nat.mul_succ B m
      constructor
      · simp only [List.length_append, List.length_singleton]; omega
      · omega
      · decide
      · rfl
      · rfl
      · rfl
      · show t.nbytes_out + B = _
        rw [f4]; omega
      · show t.written ++ [(List.range B).map t.buf] = _
        rw [f5, List.range_succ, List.map_append, block_of_snoc bs b hlen, List.append_assoc]
        congr 2
        simp only [List.map_cons, List.map_nil]
        congr 1
        unfold block_of
        apply List.map_congr_left
        intro j hj
        exact hbuf j (List.mem_range.mp hj)
      · intro j hj
        show (if j < B then 0 else t.buf j) = _
        rw [if_pos hj, byte_of_beyond]
        simp only [List.length_append, List.length_singleton]; omega
    · rw [if_neg hB]
      refine ⟨m, i + 1, 0, ?_⟩
      have := h.hi
      constructor
      · simp only [List.length_append, List.length_singleton]; omega
      · omega
      · decide
      · rfl
      · rfl
      · show t.pbuf + 1 = _
        rw [f3]
      · exact f4
      · show t.written = _
        rw [f5, block_of_snoc bs b hlen]
      · exact hbuf
  · rw [if_neg h8]
    refine ⟨m, i, r + 1, ?_⟩
    have := h.hr
    constructor
    · simp only [List.length_append, List.length_singleton]; omega
    · exact h.hi
    · omega
    · rfl
    · rfl
    · exact f3
    · exact f4
    · show t.written = _
      rw [f5, block_of_snoc bs b hlen]
    · exact hbuf

theorem put_bits_snoc (B : Nat) (s : PutBuf) (bs : List Bool) (b : Bool) :
    put_bits B s (bs ++ [b])
      = (if b then put_ONE B (put_bits B s bs) else put_ZERO B (put_bits B s bs)) := by
  unfold put_bits
  rw [List.foldl_append]; rfl

theorem put_bits_inv {B : Nat} (hB : 0 < B) {s0 : PutBuf} (hz : ∀ j, j < B → s0.buf j = 0)
    (hp : s0.p_cnt = 0) (hc : s0.pbuf_count = 0) (hs : s0.pbuf = 0) (bs : List Bool) :
    ∃ m i r, PutInv B s0 (put_bits B s0 bs) bs m i r := by
  induction bs using List.reverseRecOn with
  | nil => exact ⟨0, 0, 0, PutInv_start hB hz hp hc hs⟩
  | append_singleton bs b ih =>
    obtain ⟨m, i, r, h⟩ := ih
    rw [put_bits_snoc]
    exact put_bit_inv h b

/-- The three counters that a length determines. -/
theorem PutInv_counts {B : Nat} {s0 s : PutBuf} {bs : List Bool} {m i r : Nat}
    (h : PutInv B s0 s bs m i r) :
    r = bs.length % 8 ∧ i = bs.length / 8 % B ∧ m = bs.length / 8 / B := by
  have hlen := h.len
  have hr := h.hr
  have hq : bs.length / 8 = B * m + i := by omega
  have hB : 0 < B := by have := h.hi; omega
  have := (Nat.div_mod_unique hB).mpr ⟨(by rw [hq]; omega : i + B * m = bs.length / 8), h.hi⟩
  exact ⟨by omega, this.2.symm, this.1.symm⟩

/-- The code just read enters the insertion of a turn only as the new previous code. -/
theorem dec_mid_code_irrel (cfg : Config) (s : State) (v u lit : Nat) :
    dec_mid cfg s v lit = { dec_mid cfg s u lit with old_lzw_code := v, new_lzw_code := v } := by
  unfold dec_mid dec_insert insert_stringDEC
  simp only []
  split
  · split
    · split <;> rfl
    · rfl
  · rfl

/-- The reset test does not look at the previous code. -/
theorem dec_reset_code_irrel (cfg : Config) (t : State) (v : Nat) (bits : List Bool) :
    (dec_reset cfg { t with old_lzw_code := v, new_lzw_code := v } bits).2
        = (dec_reset cfg t bits).2 ∧
      (dec_reset cfg { t with old_lzw_code := v, new_lzw_code := v } bits).1.prefix_tab
        = (dec_reset cfg t bits).1.prefix_tab ∧
      (dec_reset cfg { t with old_lzw_code := v, new_lzw_code := v } bits).1.character
        = (dec_reset cfg t bits).1.character ∧
      (dec_reset cfg { t with old_lzw_code := v, new_lzw_code := v } bits).1.lzw_code_cnt
        = (dec_reset cfg t bits).1.lzw_code_cnt ∧
      (dec_reset cfg { t with old_lzw_code := v, new_lzw_code := v } bits).1.bit_count
        = (dec_reset cfg t bits).1.bit_count ∧
      (dec_reset cfg { t with old_lzw_code := v, new_lzw_code := v } bits).1.code_max
        = (dec_reset cfg t bits).1.code_max := by
  unfold dec_reset dec_first
  simp only []
  split
  · split <;> exact ⟨rfl, rfl, rfl, rfl, rfl, rfl⟩
  · split
    · split <;> exact ⟨rfl, rfl, rfl, rfl, rfl, rfl⟩
    · exact ⟨rfl, rfl, rfl, rfl, rfl, rfl⟩

/-- The loop of the decoder on a code other than the end code is the turn followed by
the loop. -/
theorem decompress_loop_turn (cfg : Config) (fuel : Nat) (t : State) (tb : List Bool)
    (hne : (get_nbits t.bit_count tb).1 ≠ EOF_LZW_CODE) :
    decompress_loop cfg (fuel + 1) t tb
      = (dec_body cfg { t with new_lzw_code := (get_nbits t.bit_count tb).1 }
          (get_nbits t.bit_count tb).2).bind
        (fun r => prepend r.2.2.1
          (DecEvent.get_code (get_nbits t.bit_count tb).1 t.bit_count t.lzw_code_cnt :: r.2.2.2)
          (decompress_loop cfg fuel r.1 r.2.1)) := by
  simp only [decompress_loop, if_neg hne]
  cases hb : dec_body cfg { t with new_lzw_code := (get_nbits t.bit_count tb).1 }
      (get_nbits t.bit_count tb).2 with
  | none => rfl
  | some r =>
    obtain ⟨s2, bits2, out2, ev2⟩ := r
    simp only [Option.some_bind]
    cases decompress_loop cfg fuel s2 bits2 <;> simp [prepend]

/-- C23: the decoder variants agree. From the same contents of the arrays and the other
globals, and on every code stream, the decoding of lzwhd.c with `CODE_MAX_BITS = 16` and
the header field `N = 65536 + 4096` gives the same result as `decompress_LZW` of lzwz2.c
with `code_max_bits = 16` and `reset_dict = 1`: both return or neither does, with the same
final globals (the arrays `prefix` and `character`, the counter, the width), the same bytes
written and the same trace of codes read (each with the width and the counter at the read),
entries stored and resets. The same holds of the two `while` loops from every state and
for every number of turns. -/
theorem lzwhd_agrees_with_lzwz2 (s : State) (bits : List Bool) :
    lzwhd_decode 16 (65536 + 4096) s bits = decompress_LZW (configure 16 1) s bits ∧
    ∀ (fuel : Nat) (s1 : State) (bits1 : List Bool),
      lzwhd_loop 16 (65536 + 4096) fuel s1 bits1
        = decompress_loop (configure 16 1) fuel s1 bits1 :=
  ⟨lzwhd_decode_eq s bits, lzwhd_loop_eq⟩

/-- C24: every code that `compress_LZW` writes fits its width. For `code_max_bits` in
12..28 and both reset policies: after any bytes of input the loop returns with
`code_max = 2^bit_count` and `bit_count` between 9 and `code_max_bits`; `compress_LZW`
returns, the codes it passes to `output_code` end with the last data code and the end code
256, and each code is below two to the power of the width passed with it, that width is
between 9 and `code_max_bits`, and `get_nbits` of that width reads the code back from the
bits that `put_nbits` wrote. The same holds of the two codes that `compress_LZW` writes on
the input of length zero. -/
theorem codes_fit_width (N r : Nat) (hN : 12 ≤ N ∧ N ≤ 28) (hr : r = 0 ∨ r = 1)
    (a b c : Nat → Nat) (c0 : Nat) (pre more : List Nat)
    (hb : ∀ y ∈ c0 :: (pre ++ more), y < 256) :
    ∃ e evs efin all loop_codes,
      compress_loop (configure N r) (enc_start (configure N r) (initial_state a b c) c0) pre
        = some (e, evs) ∧
      e.code_max = 2 ^ e.bit_count ∧ 9 ≤ e.bit_count ∧ e.bit_count ≤ N ∧
      compress_LZW (configure N r) (initial_state a b c) (c0 :: (pre ++ more))
        = some (efin, all) ∧
      emitted all = loop_codes ++
        [(efin.prefix_string_code, efin.bit_count), (EOF_LZW_CODE, efin.bit_count)] ∧
      (∀ q ∈ emitted all, q.1 < 2 ^ q.2 ∧ 9 ≤ q.2 ∧ q.2 ≤ N ∧
        get_nbits q.2 (put_nbits q.1 q.2) = (q.1, [])) ∧
      ∃ e0 all0, compress_LZW (configure N r) (initial_state a b c) [] = some (e0, all0) ∧
        ∀ q ∈ emitted all0, q.1 < 2 ^ q.2 ∧ 9 ≤ q.2 ∧ q.2 ≤ N ∧
          get_nbits q.2 (put_nbits q.1 q.2) = (q.1, []) := by
  have hv := configure_valid N r hN.1 hN.2
  have hc0 : c0 < 256 := hb c0 (List.mem_cons_self _ _)
  have hok0 : EncOK (configure N r) (enc_start (configure N r) (initial_state a b c) c0) [] :=
    EncOK_fresh hv (Or.symm hr) (initial_state a b c) hc0
  obtain ⟨e, evs, dict, hpre, hok, _⟩ := compress_loop_facts hv pre _ [] hok0
    (fun y hy => hb y (List.mem_cons_of_mem _ (List.mem_append_left _ hy)))
  obtain ⟨efin, evs2, dict2, _, hcomp, hok2, hf⟩ :=
    compress_LZW_facts hv (Or.symm hr) a b c hb
  refine ⟨e, evs, efin, evs2 ++ final_codes efin, emitted evs2, hpre, hok.cm, hok.bits_ge,
    hok.bits_le, hcomp, ?_, ?_, _, _, rfl, ?_⟩
  · rw [emitted_append]; rfl
  rotate_left
  · intro q hq
    have h2 : q = (0, 9) ∨ q = (EOF_LZW_CODE, 9) := by
      simpa [emitted, init_code_table, initial_state] using hq
    have h12 : 9 ≤ N := by omega
    rcases h2 with h2 | h2
    · rw [h2]; exact ⟨by norm_num, le_refl _, h12, by decide⟩
    · rw [h2]; exact ⟨by decide, le_refl _, h12, by decide⟩
  · intro q hq
    have hfit : q.1 < 2 ^ q.2 ∧ 9 ≤ q.2 ∧ q.2 ≤ N := by
      rw [emitted_append] at hq
      rcases List.mem_append.mp hq with h1 | h1
      · have := hf.codes q h1
        exact ⟨this.2.1, this.2.2.1, this.2.2.2⟩
      · have h2 : q = (efin.prefix_string_code, efin.bit_count) ∨
            q = (EOF_LZW_CODE, efin.bit_count) := by
          simpa [final_codes, emitted] using h1
        have h9 := hok2.bits_ge
        have hpow : (2 : Nat) ^ 9 ≤ 2 ^ efin.bit_count := Nat.pow_le_pow_right (by decide) h9
        rcases h2 with h2 | h2
        · rw [h2]; exact ⟨hok2.psc_lt_pow, h9, hok2.bits_le⟩
        · rw [h2]
          refine ⟨?_, h9, hok2.bits_le⟩
          show EOF_LZW_CODE < 2 ^ efin.bit_count
          simp only [EOF_LZW_CODE]
          omega
    refine ⟨hfit.1, hfit.2.1, hfit.2.2, ?_⟩
    have := get_nbits_put_nbits hfit.1 []
    rwa [List.append_nil] at this

/-- C24 witness: the input AAAA with twelve-bit codes and resets on, after its first two
bytes. -/
theorem codes_fit_width_witness :
    ∃ e evs efin all loop_codes,
      compress_loop (configure 12 1)
          (enc_start (configure 12 1) (initial_state (fun _ => 0) (fun _ => 0) (fun _ => 0)) 65)
          [65] = some (e, evs) ∧
      e.code_max = 2 ^ e.bit_count ∧ 9 ≤ e.bit_count ∧ e.bit_count ≤ 12 ∧
      compress_LZW (configure 12 1) (initial_state (fun _ => 0) (fun _ => 0) (fun _ => 0))
          (65 :: ([65] ++ [65, 65])) = some (efin, all) ∧
      emitted all = loop_codes ++
        [(efin.prefix_string_code, efin.bit_count), (EOF_LZW_CODE, efin.bit_count)] ∧
      (∀ q ∈ emitted all, q.1 < 2 ^ q.2 ∧ 9 ≤ q.2 ∧ q.2 ≤ 12 ∧
        get_nbits q.2 (put_nbits q.1 q.2) = (q.1, [])) ∧
      ∃ e0 all0, compress_LZW (configure 12 1)
          (initial_state (fun _ => 0) (fun _ => 0) (fun _ => 0)) [] = some (e0, all0) ∧
        ∀ q ∈ emitted all0, q.1 < 2 ^ q.2 ∧ 9 ≤ q.2 ∧ q.2 ≤ 12 ∧
          get_nbits q.2 (put_nbits q.1 q.2) = (q.1, []) :=
  codes_fit_width 12 1 (by decide) (Or.inr rfl) (fun _ => 0) (fun _ => 0) (fun _ => 0)
    65 [65] [65, 65] (by decide)

/-- C26: the decoder has no integrity check. In `decompress_LZW`, for every state of the
loop and every stream: (1) a code other than 256 whose chain walk returns makes the turn
return, whatever the code is, and the loop goes on with the next code; (2) the code 256
ends the loop at once, and no other code does; (3) a code `v` greater than `lzw_code_cnt`,
when the chain of the previous code resolves to the string `w`, is decoded as the pending
code `lzw_code_cnt` is: the turn writes `w` followed by the first byte of `w`, and it
leaves the same bits, bytes, trace, arrays, counter and width as the turn on the code
`lzw_code_cnt` does, only the previous code being `v`. -/
theorem unchecked_codes (cfg : Config) (s : State) (bits rest : List Bool) (v : Nat)
    (w : List Nat) (fuel : Nat)
    (hread : get_nbits s.bit_count bits = (v, rest))
    (hgt : s.lzw_code_cnt < v) (hne : v ≠ EOF_LZW_CODE)
    (hw : code_string s cfg.code_MAX s.old_lzw_code = some w) :
    (∀ (t : State) (tb : List Bool) (u lit : Nat) (stk : List Nat),
      get_string t cfg.code_MAX (if u ≥ t.lzw_code_cnt then t.old_lzw_code else u) []
        = some (lit, stk) →
      ∃ r, dec_body cfg { t with new_lzw_code := u } tb = some r) ∧
    (∀ (t : State) (tb : List Bool) (n : Nat),
      ((get_nbits t.bit_count tb).1 = EOF_LZW_CODE →
        decompress_loop cfg (n + 1) t tb
          = some ({ t with new_lzw_code := EOF_LZW_CODE }, [],
              [DecEvent.get_code EOF_LZW_CODE t.bit_count t.lzw_code_cnt])) ∧
      ((get_nbits t.bit_count tb).1 ≠ EOF_LZW_CODE →
        decompress_loop cfg (n + 1) t tb
          = (dec_body cfg { t with new_lzw_code := (get_nbits t.bit_count tb).1 }
              (get_nbits t.bit_count tb).2).bind
            (fun r => prepend r.2.2.1
              (DecEvent.get_code (get_nbits t.bit_count tb).1 t.bit_count t.lzw_code_cnt
                :: r.2.2.2)
              (decompress_loop cfg n r.1 r.2.1)))) ∧
    ∃ r r0 after,
      dec_body cfg { s with new_lzw_code := v } rest = some r ∧
      dec_body cfg { s with new_lzw_code := s.lzw_code_cnt } rest = some r0 ∧
      r.2.2.1 = w ++ [w.headD 0] ++ after ∧
      r.2 = r0.2 ∧ r.1.prefix_tab = r0.1.prefix_tab ∧ r.1.character = r0.1.character ∧
      r.1.lzw_code_cnt = r0.1.lzw_code_cnt ∧ r.1.bit_count = r0.1.bit_count ∧
      r.1.code_max = r0.1.code_max ∧
      decompress_loop cfg (fuel + 1) s bits
        = prepend r.2.2.1 (DecEvent.get_code v s.bit_count s.lzw_code_cnt :: r.2.2.2)
            (decompress_loop cfg fuel r.1 r.2.1) := by
  refine ⟨fun t tb u lit stk hg => ⟨_, dec_body_eq cfg t u tb hg⟩,
    fun t tb n => ⟨decompress_loop_eof cfg n t tb, decompress_loop_turn cfg n t tb⟩, ?_⟩
  obtain ⟨k, stk, hg, rfl⟩ := code_string_get_string s _ _ [] w hw
  rw [List.append_nil] at hg
  have hg1 : get_string s cfg.code_MAX (if v ≥ s.lzw_code_cnt then s.old_lzw_code else v) []
      = some (k, stk) := by
    rw [if_pos (Nat.le_of_lt hgt)]; exact hg
  have hg0 : get_string s cfg.code_MAX
      (if s.lzw_code_cnt ≥ s.lzw_code_cnt then s.old_lzw_code else s.lzw_code_cnt) []
      = some (k, stk) := by
    rw [if_pos (Nat.le_refl _)]; exact hg
  have hb1 := dec_body_eq cfg s v rest hg1
  have hb0 := dec_body_eq cfg s s.lzw_code_cnt rest hg0
  have hirr := dec_reset_code_irrel cfg (dec_mid cfg s s.lzw_code_cnt k) v rest
  rw [← dec_mid_code_irrel cfg s v s.lzw_code_cnt k] at hirr
  obtain ⟨i2, i3, i4, i5, i6, i7⟩ := hirr
  have hins : (dec_insert cfg { s with new_lzw_code := v, lzwcode := k }).2
      = (dec_insert cfg { s with new_lzw_code := s.lzw_code_cnt, lzwcode := k }).2 := by
    rw [dec_insert_events, dec_insert_events]
  have hv1 : (get_nbits s.bit_count bits).1 = v := by rw [hread]
  have hv2 : (get_nbits s.bit_count bits).2 = rest := by rw [hread]
  have hturn := decompress_loop_turn cfg fuel s bits (by rw [hv1]; exact hne)
  rw [hv1, hv2, hb1, Option.some_bind] at hturn
  refine ⟨_, _, (dec_reset cfg (dec_mid cfg s v k) rest).2.2.1, hb1, hb0, ?_, ?_, i3, i4, i5,
    i6, i7, hturn⟩
  · show (pfputc k :: stk ++ (if v ≥ s.lzw_code_cnt then [pfputc k] else [])) ++ _ = _
    rw [if_pos (Nat.le_of_lt hgt)]
    rfl
  · show ((dec_reset cfg (dec_mid cfg s v k) rest).2.1,
        (pfputc k :: stk ++ (if v ≥ s.lzw_code_cnt then [pfputc k] else []))
          ++ (dec_reset cfg (dec_mid cfg s v k) rest).2.2.1,
        (dec_insert cfg { s with new_lzw_code := v, lzwcode := k }).2
          ++ (dec_reset cfg (dec_mid cfg s v k) rest).2.2.2)
      = ((dec_reset cfg (dec_mid cfg s s.lzw_code_cnt k) rest).2.1,
        (pfputc k :: stk ++
            (if s.lzw_code_cnt ≥ s.lzw_code_cnt then [pfputc k] else []))
          ++ (dec_reset cfg (dec_mid cfg s s.lzw_code_cnt k) rest).2.2.1,
        (dec_insert cfg { s with new_lzw_code := s.lzw_code_cnt, lzwcode := k }).2
          ++ (dec_reset cfg (dec_mid cfg s s.lzw_code_cnt k) rest).2.2.2)
    rw [if_pos (Nat.le_of_lt hgt), if_pos (Nat.le_refl _), hins, i2]

/-- C26 witness: the decoder has read the byte 65 as its first code and meets the code 300
while `lzw_code_cnt = 257`; it writes 65 65 as it does on the code 257. -/
theorem unchecked_codes_witness :
    ∃ r r0 after,
      dec_body (configure 12 1) { pending_state with new_lzw_code := 300 } [] = some r ∧
      dec_body (configure 12 1)
        { pending_state with new_lzw_code := pending_state.lzw_code_cnt } [] = some r0 ∧
      r.2.2.1 = [65] ++ [[65].headD 0] ++ after ∧
      r.2 = r0.2 ∧ r.1.prefix_tab = r0.1.prefix_tab ∧ r.1.character = r0.1.character ∧
      r.1.lzw_code_cnt = r0.1.lzw_code_cnt ∧ r.1.bit_count = r0.1.bit_count ∧
      r.1.code_max = r0.1.code_max ∧
      decompress_loop (configure 12 1) (0 + 1) pending_state (put_nbits 300 9)
        = prepend r.2.2.1
            (DecEvent.get_code 300 pending_state.bit_count pending_state.lzw_code_cnt
              :: r.2.2.2)
            (decompress_loop (configure 12 1) 0 r.1 r.2.1) :=
  (unchecked_codes (configure 12 1) pending_state (put_nbits 300 9) [] 300 [65] 0
    (by decide) (by decide) (by decide) (by decide)).2.2

/-- C27: the bit writer macros of gtbitio2.h. From a put buffer whose block of
`pBUFSIZE > 0` bytes is zero-filled, with `pbuf` at `pbuf_start`, `p_cnt = 0` and
`pbuf_count = 0`, after any sequence `bs` of `put_ONE()` (true) and `put_ZERO()` (false),
`n` bits in all: `p_cnt = n mod 8`; `pbuf_count` and the offset of `pbuf` are the number
of whole bytes in the block being filled; `nbytes_out` has grown by `pBUFSIZE` for each
completed block, and the blocks written out are the blocks of the bit stream; byte `j` of
the buffer is byte `j` of the current block of the stream, its missing bits zero; hence
bit `k` of the current block stands at bit position `k mod 8` of byte `k / 8` of the
block, and every bit position of the buffer that no bit has been written to is 0. -/
theorem bit_writer_layout (pBUFSIZE : Nat) (hB : 0 < pBUFSIZE) (s0 : PutBuf)
    (hz : ∀ j, j < pBUFSIZE → s0.buf j = 0) (hp : s0.p_cnt = 0) (hc : s0.pbuf_count = 0)
    (hs : s0.pbuf = 0) (bs : List Bool) :
    (put_bits pBUFSIZE s0 bs).p_cnt = bs.length % 8 ∧
    (put_bits pBUFSIZE s0 bs).pbuf_count = bs.length / 8 % pBUFSIZE ∧
    (put_bits pBUFSIZE s0 bs).pbuf = bs.length / 8 % pBUFSIZE ∧
    (put_bits pBUFSIZE s0 bs).nbytes_out
      = s0.nbytes_out + pBUFSIZE * (bs.length / 8 / pBUFSIZE) ∧
    (put_bits pBUFSIZE s0 bs).written
      = s0.written ++ (List.range (bs.length / 8 / pBUFSIZE)).map (block_of pBUFSIZE bs) ∧
    (∀ j, j < pBUFSIZE → (put_bits pBUFSIZE s0 bs).buf j
      = byte_of bs (pBUFSIZE * (bs.length / 8 / pBUFSIZE) + j)) ∧
    (∀ k, 8 * (pBUFSIZE * (bs.length / 8 / pBUFSIZE)) ≤ k → k < bs.length →
      ((put_bits pBUFSIZE s0 bs).buf (k / 8 % pBUFSIZE)).testBit (k % 8) = bs.getD k false) ∧
    (∀ j p, j < pBUFSIZE → p < 8 →
      bs.length ≤ 8 * (pBUFSIZE * (bs.length / 8 / pBUFSIZE) + j) + p →
      ((put_bits pBUFSIZE s0 bs).buf j).testBit p = false) := by
  obtain ⟨m, i, r, h⟩ := put_bits_inv hB hz hp hc hs bs
  obtain ⟨hr, hi, hm⟩ := PutInv_counts h
  rw [← hm, ← hr, ← hi]
  have hlen := h.len
  have hr8 := h.hr
  have hiB := h.hi
  refine ⟨h.p_cnt, h.pbuf_count, h.pbuf, h.nbytes, h.written, h.buf, ?_, ?_⟩
  · intro k hk1 hk2
    obtain ⟨j, hj⟩ : ∃ j, k / 8 = pBUFSIZE * m + j := ⟨k / 8 - pBUFSIZE * m, by omega⟩
    have hjB : j < pBUFSIZE := by omega
    rw [hj, Nat.add_comm, Nat.add_mul_mod_self_left, Nat.mod_eq_of_lt hjB, h.buf _ hjB,
      byte_of_testBit _ _ _ (Nat.mod_lt _ (by decide))]
    congr 1
    omega
  · intro j p hj hp8 hn
    rw [h.buf j hj, byte_of_testBit _ _ _ hp8, List.getD_eq_getElem?_getD,
      List.getElem?_eq_none (by omega)]
    rfl

/-- C27 witness: eleven bits into a buffer whose blocks have one byte. -/
theorem bit_writer_layout_witness :
    (put_bits 1 put_start [true, false, true, true, false, false, false, true, true, false, true]).p_cnt
      = [true, false, true, true, false, false, false, true, true, false, true].length % 8 ∧
    (put_bits 1 put_start
        [true, false, true, true, false, false, false, true, true, false, true]).buf 0 = 5 ∧
    (put_bits 1 put_start
        [true, false, true, true, false, false, false, true, true, false, true]).written
      = [[141]] :=
  ⟨(bit_writer_layout 1 (by decide) put_start (fun _ _ => rfl) rfl rfl rfl
      [true, false, true, true, false, false, false, true, true, false, true]).1,
    by decide, by decide⟩

theorem tree_from_snoc : ∀ (l : List (Nat × Nat)) (n : Nat) (q : Nat × Nat),
    tree_from n (l ++ [q]) = tree_from n l ++ [(q, n + l.length)]
  | [], n, q => rfl
  | a :: l, n, q => by
    show (a, n) :: tree_from (n + 1) (l ++ [q])
      = (a, n) :: tree_from (n + 1) l ++ [(q, n + (l.length + 1))]
    rw [tree_from_snoc l (n + 1) q, show n + 1 + l.length = n + (l.length + 1) by omega]
    rfl

theorem lookup_tree_none : ∀ (l : List (Nat × Nat)) (n : Nat) (q : Nat × Nat),
    q ∉ l → (tree_from n l).lookup q = none
  | [], _, _, _ => rfl
  | a :: l, n, q, h => by
    have h1 : q ≠ a := fun h2 => h (by rw [h2]; exact List.mem_cons_self _ _)
    have h2 : q ∉ l := fun h3 => h (List.mem_cons_of_mem _ h3)
    have hb : (q == a) = false := by simpa using h1
    simp only [tree_from, List.lookup_cons]
    rw [hb]
    exact lookup_tree_none l (n + 1) q h2

theorem lookup_tree_some : ∀ (l : List (Nat × Nat)) (n j : Nat) (q : Nat × Nat),
    l.Nodup → l[j]? = some q → (tree_from n l).lookup q = some (n + j)
  | [], _, _, _, _, h => by simp at h
  | a :: l, n, 0, q, _, h => by
    have : a = q := by simpa using h
    subst this
    simp [tree_from, List.lookup_cons]
  | a :: l, n, j + 1, q, hnd, h => by
    have h1 : l[j]? = some q := by simpa using h
    have hmem : q ∈ l := List.mem_iff_getElem?.mpr ⟨j, h1⟩
    have hnd2 := List.nodup_cons.mp hnd
    have hne : q ≠ a := fun h2 => hnd2.1 (by rw [← h2]; exact hmem)
    have hb : (q == a) = false := by simpa using hne
    simp only [tree_from, List.lookup_cons]
    rw [hb]
    show List.lookup q (tree_from (n + 1) l) = _
    rw [lookup_tree_some l (n + 1) j q hnd2.2 h1]
    congr 1
    omega

/-- One turn of the two encoder loops on the same byte: the same trace, and the globals and
dictionaries agree again. -/
theorem tree_step {cfg : Config} (hv : cfg.Valid) (hr : cfg.reset_dict = 1) {e : State}
    {dict : List (Nat × Nat)} {t : TreeState} (H : EncOK cfg e dict) (T : TreeRel e t dict)
    {c : Nat} (hc : c < 256) :
    ∃ e1 dict1 evs, compress_step cfg e c = some (e1, evs) ∧ EncOK cfg e1 dict1 ∧
      TreeRel e1 (lzwg_step cfg.code_MAX t c).1 dict1 ∧
      (lzwg_step cfg.code_MAX t c).2 = evs := by
  obtain ⟨td, tp, tc, tb, tm⟩ := t
  obtain ⟨T1, T2, T3, T4, T5, T6⟩ := T
  simp only at T1 T3 T4 T5 T6
  subst T1 T3 T4 T5 T6
  by_cases hin : (e.prefix_string_code, c) ∈ dict
  · obtain ⟨j, hj, hstep, hok⟩ := compress_step_hit hv H hc hin
    have hlook := lookup_tree_some dict START_LZW_CODE j _ T2 hj
    refine ⟨_, dict, [], hstep, hok, ?_, ?_⟩
    · simp only [lzwg_step, lzw_search, hlook]
      exact ⟨rfl, T2, rfl, rfl, rfl, rfl⟩
    · simp only [lzwg_step, lzw_search, hlook]
      rfl
  · obtain ⟨e1, dict1, evs, hstep, hok, hpsc, hcase⟩ := compress_step_miss hv H hc hin
    have hlook := lookup_tree_none dict START_LZW_CODE _ hin
    have hlen := H.len
    have hcm1 := hok.cm
    have hcm := H.cm
    have hM := code_MAX_ge hv
    refine ⟨e1, dict1, evs, hstep, hok, ?_, ?_⟩
    · rcases hcase with ⟨h1, h2, h3, h4, h5⟩ | ⟨h1, h2, h3, h4, h5, h6⟩ | ⟨h1, h2, h3, h4, h5, h6⟩
      · have hno : ¬ e.lzw_code_cnt = cfg.code_MAX + 4096 := by omega
        have hcode : START_LZW_CODE + dict.length = e.lzw_code_cnt := by omega
        by_cases hg : e.lzw_code_cnt = e.code_max
        · rw [if_pos hg] at h3
          simp only [lzwg_step, lzw_search, hlook, lzwg_miss, lzw_comp_insert, if_pos h1,
            if_pos hg, if_neg hno, ne_eq, not_true_eq_false, if_false]
          refine ⟨?_, ?_, hpsc.symm, h2.symm, h3.symm, ?_⟩
          · show tree_from START_LZW_CODE dict ++ [((e.prefix_string_code, c), e.lzw_code_cnt)]
              = tree_from START_LZW_CODE dict1
            rw [h4, tree_from_snoc, hcode]
          · rw [h4]
            exact List.Nodup.append T2 (List.nodup_singleton _)
              (by simpa using hin)
          · show e.code_max <<< 1 = e1.code_max
            rw [hcm1, h3, hcm, shl_one_pow]
        · rw [if_neg hg] at h3
          simp only [lzwg_step, lzw_search, hlook, lzwg_miss, lzw_comp_insert, if_pos h1,
            if_neg hg, if_neg hno, ne_eq, not_true_eq_false, if_false]
          refine ⟨?_, ?_, hpsc.symm, h2.symm, h3.symm, ?_⟩
          · show tree_from START_LZW_CODE dict ++ [((e.prefix_string_code, c), e.lzw_code_cnt)]
              = tree_from START_LZW_CODE dict1
            rw [h4, tree_from_snoc, hcode]
          · rw [h4]
            exact List.Nodup.append T2 (List.nodup_singleton _)
              (by simpa using hin)
          · show e.code_max = e1.code_max
            rw [hcm1, h3, hcm]
      · have hno : ¬ e.lzw_code_cnt = cfg.code_MAX + 4096 := fun h => h2 ⟨hr, h⟩
        rw [if_pos hr] at h3
        simp only [lzwg_step, lzw_search, hlook, lzwg_miss, if_neg (Nat.not_lt.mpr h1),
          if_neg hno, ne_eq, not_true_eq_false, if_false]
        refine ⟨?_, ?_, hpsc.symm, h3.symm, h4.symm, ?_⟩
        · rw [h5]
        · rw [h5]; exact T2
        · show e.code_max = e1.code_max
          rw [hcm1, h4, hcm]
      · have hnlt : ¬ e.lzw_code_cnt < cfg.code_MAX := by omega
        simp only [lzwg_step, lzw_search, hlook, lzwg_miss, if_neg hnlt, if_pos h2,
          init_code_tables, ne_eq, not_true_eq_false, if_false]
        refine ⟨?_, ?_, hpsc.symm, h3.symm, h4.symm, ?_⟩
        · rw [h5]; rfl
        · rw [h5]; exact List.nodup_nil
        · show (512 : Nat) = e1.code_max
          rw [hcm1, h4]; norm_num
    · rcases hcase with ⟨h1, h2, h3, h4, h5⟩ | ⟨h1, h2, h3, h4, h5, h6⟩ | ⟨h1, h2, h3, h4, h5, h6⟩
      · have hno : ¬ e.lzw_code_cnt = cfg.code_MAX + 4096 := by omega
        rw [h5]
        by_cases hg : e.lzw_code_cnt = e.code_max
        · simp only [lzwg_step, lzw_search, hlook, lzwg_miss, lzw_comp_insert, if_pos h1,
            if_pos hg, if_neg hno, ne_eq, not_true_eq_false, if_false, List.append_nil]
        · simp only [lzwg_step, lzw_search, hlook, lzwg_miss, lzw_comp_insert, if_pos h1,
            if_neg hg, if_neg hno, ne_eq, not_true_eq_false, if_false, List.append_nil]
      · have hno : ¬ e.lzw_code_cnt = cfg.code_MAX + 4096 := fun h => h2 ⟨hr, h⟩
        rw [h6]
        simp only [lzwg_step, lzw_search, hlook, lzwg_miss, if_neg (Nat.not_lt.mpr h1),
          if_neg hno, ne_eq, not_true_eq_false, if_false, List.append_nil]
      · have hnlt : ¬ e.lzw_code_cnt < cfg.code_MAX := by omega
        rw [h6]
        simp only [lzwg_step, lzw_search, hlook, lzwg_miss, if_neg hnlt, if_pos h2,
          ne_eq, not_true_eq_false, if_false, List.nil_append]

/-- The two encoder loops on the same bytes write the same trace. -/
theorem tree_loop {cfg : Config} (hv : cfg.Valid) (hr : cfg.reset_dict = 1) :
    ∀ (rest : List Nat) (e : State) (dict : List (Nat × Nat)) (t : TreeState),
      EncOK cfg e dict → TreeRel e t dict → (∀ y ∈ rest, y < 256) →
      ∃ e2 dict2 evs, compress_loop cfg e rest = some (e2, evs) ∧ EncOK cfg e2 dict2 ∧
        TreeRel e2 (lzwg_loop cfg.code_MAX t rest).1 dict2 ∧
        (lzwg_loop cfg.code_MAX t rest).2 = evs
  | [], e, dict, t, H, T, _ => ⟨e, dict, [], rfl, H, T, rfl⟩
  | c :: rest, e, dict, t, H, T, hb => by
    obtain ⟨e1, dict1, evs1, hstep, hok1, T1, hev1⟩ :=
      tree_step hv hr H T (hb c (List.mem_cons_self _ _))
    obtain ⟨e2, dict2, evs2, hloop, hok2, T2, hev2⟩ :=
      tree_loop hv hr rest e1 dict1 _ hok1 T1 (fun y hy => hb y (List.mem_cons_of_mem _ hy))
    refine ⟨e2, dict2, evs1 ++ evs2, by simp only [compress_loop, hstep, hloop], hok2, ?_, ?_⟩
    · exact T2
    · show (lzwg_step cfg.code_MAX t c).2 ++ (lzwg_loop cfg.code_MAX _ rest).2 = _
      rw [hev1, hev2]

/-- The search and the insertion of the hash encoder leave the counter alone. -/
theorem search_probe_cnt (cfg : Config) (s : State) (p c d : Nat) :
    ∀ (fuel h : Nat) (r : Nat × State), search_probe cfg s p c d fuel h = some r →
      r.2.lzw_code_cnt = s.lzw_code_cnt
  | 0, _, _, h => Option.noConfusion h
  | fuel + 1, h, r, hr => by
    simp only [search_probe] at hr
    split at hr
    · cases hr; rfl
    · split at hr
      · cases hr; rfl
      · exact search_probe_cnt cfg s p c d fuel _ r hr

theorem search_string_cnt {cfg : Config} {s : State} {p c : Nat} {r : Nat × State}
    (h : search_string cfg s p c = some r) : r.2.lzw_code_cnt = s.lzw_code_cnt := by
  unfold search_string at h
  simp only at h
  split at h
  · exact Option.noConfusion h
  · exact search_probe_cnt cfg s p c _ _ _ r h

theorem insert_probe_cnt (cfg : Config) (s : State) (p c d : Nat) :
    ∀ (fuel h : Nat) (s1 : State), insert_probe cfg s p c d fuel h = some s1 →
      s1.lzw_code_cnt = s.lzw_code_cnt
  | 0, _, _, h => Option.noConfusion h
  | fuel + 1, h, s1, hr => by
    simp only [insert_probe] at hr
    split at hr
    · cases hr; rfl
    · exact insert_probe_cnt cfg s p c d fuel _ s1 hr

theorem enc_insert_cnt {cfg : Config} {s : State} {c : Nat} {r : State × List EncEvent}
    (h : enc_insert cfg s c = some r) : r.1.lzw_code_cnt = s.lzw_code_cnt := by
  unfold enc_insert at h
  split at h
  · cases hi : insert_stringENC cfg s s.prefix_string_code c with
    | none => rw [hi] at h; exact Option.noConfusion h
    | some s1 =>
      rw [hi] at h
      have h1 : s1.lzw_code_cnt = s.lzw_code_cnt := by
        unfold insert_stringENC at hi
        simp only at hi
        split at hi
        · exact Option.noConfusion hi
        · exact insert_probe_cnt cfg s _ c _ _ _ s1 hi
      simp only at h
      split at h
      · cases h; exact h1
      · cases h; exact h1
  · cases h; rfl

/-- C22: the encoder variants agree on the reset test. For `code_max_bits` in 12..28 and
`reset_dict = 1`: after any bytes of input the loop of `compress_LZW` returns with
`257 <= lzw_code_cnt <= code_MAX + 4096`; in its next turn the search and the insertion
leave the counter alone, so the bounds check `lzw_code_cnt <= (code_MAX+4096)` holds when
the reset test is evaluated, and the test is the test `lzw_code_cnt++ == (code_MAX+4096)`
of lzwg.c. On every input the loop of `compress_LZW` and the loop of lzwg.c, whose
dictionary gives the pairs inserted the codes of the counter, write the same trace (the
same codes with the same widths, the same insertions, the same resets), and they end with
the same current code, counter and width. -/
theorem encoder_variants_agree (N : Nat) (hN : 12 ≤ N ∧ N ≤ 28) (a b c : Nat → Nat)
    (c0 : Nat) (pre more : List Nat) (hb : ∀ y ∈ c0 :: (pre ++ more), y < 256) :
    ∃ e evs efin all,
      compress_loop (configure N 1) (enc_start (configure N 1) (initial_state a b c) c0) pre
        = some (e, evs) ∧
      START_LZW_CODE ≤ e.lzw_code_cnt ∧
      e.lzw_code_cnt ≤ (configure N 1).code_MAX + 4096 ∧
      (∀ x r1 r2, search_string (configure N 1) e e.prefix_string_code x = some r1 →
        enc_insert (configure N 1) r1.2 x = some r2 →
        START_LZW_CODE ≤ r2.1.lzw_code_cnt ∧
        r2.1.lzw_code_cnt ≤ (configure N 1).code_MAX + 4096 ∧
        enc_reset (configure N 1) r2.1
          = (if r2.1.lzw_code_cnt = (configure N 1).code_MAX + 4096 then
              ({ init_code_table (configure N 1) r2.1 with
                  lzw_code_cnt := START_LZW_CODE, bit_count := 9, code_max := 512 },
               [EncEvent.reset])
            else ({ r2.1 with lzw_code_cnt := r2.1.lzw_code_cnt + 1 }, []))) ∧
      compress_loop (configure N 1) (enc_start (configure N 1) (initial_state a b c) c0)
          (pre ++ more) = some (efin, all) ∧
      (lzwg_loop (1 <<< N)
          { dict := [], prefix_string_code := c0, lzw_code_cnt := START_LZW_CODE,
            bit_count := 9, code_max := 512 } (pre ++ more)).2 = all ∧
      (lzwg_loop (1 <<< N)
          { dict := [], prefix_string_code := c0, lzw_code_cnt := START_LZW_CODE,
            bit_count := 9, code_max := 512 } (pre ++ more)).1.prefix_string_code
        = efin.prefix_string_code ∧
      (lzwg_loop (1 <<< N)
          { dict := [], prefix_string_code := c0, lzw_code_cnt := START_LZW_CODE,
            bit_count := 9, code_max := 512 } (pre ++ more)).1.lzw_code_cnt
        = efin.lzw_code_cnt ∧
      (lzwg_loop (1 <<< N)
          { dict := [], prefix_string_code := c0, lzw_code_cnt := START_LZW_CODE,
            bit_count := 9, code_max := 512 } (pre ++ more)).1.bit_count
        = efin.bit_count := by
  have hv := configure_valid N 1 hN.1 hN.2
  have hc0 : c0 < 256 := hb c0 (List.mem_cons_self _ _)
  have hok0 : EncOK (configure N 1) (enc_start (configure N 1) (initial_state a b c) c0) [] :=
    EncOK_fresh hv (Or.inl rfl) (initial_state a b c) hc0
  obtain ⟨e, evs, dict, hpre, hok, _⟩ := compress_loop_facts hv pre _ [] hok0
    (fun y hy => hb y (List.mem_cons_of_mem _ (List.mem_append_left _ hy)))
  have hT0 : TreeRel (enc_start (configure N 1) (initial_state a b c) c0)
      { dict := [], prefix_string_code := c0, lzw_code_cnt := START_LZW_CODE,
        bit_count := 9, code_max := 512 } [] :=
    ⟨rfl, List.nodup_nil, rfl, rfl, rfl, rfl⟩
  obtain ⟨efin, dict2, all, hloop, _, T, hall⟩ := tree_loop hv rfl (pre ++ more) _ [] _ hok0 hT0
    (fun y hy => hb y (List.mem_cons_of_mem _ hy))
  have hge := hok.cnt_ge hv
  have hle : e.lzw_code_cnt ≤ (configure N 1).code_MAX + 4096 := by
    rcases hok.cnt_le with ⟨_, h⟩ | ⟨h, _⟩
    · exact h
    · exact absurd (show (1 : Nat) = 0 from h) (by decide)
  refine ⟨e, evs, efin, all, hpre, hge, hle, ?_, hloop, hall, T.psc, T.cnt, T.bits⟩
  intro x r1 r2 h1 h2
  have hcnt : r2.1.lzw_code_cnt = e.lzw_code_cnt := by
    rw [enc_insert_cnt h2, search_string_cnt h1]
  refine ⟨by rw [hcnt]; exact hge, by rw [hcnt]; exact hle, ?_⟩
  have hle2 : r2.1.lzw_code_cnt ≤ (configure N 1).code_MAX + 4096 := by rw [hcnt]; exact hle
  have hr1 : (configure N 1).reset_dict = 1 := rfl
  unfold enc_reset
  rw [if_pos hr1, if_pos hle2]

/-- C22 witness: the input AAAA with twelve-bit codes, after its first two bytes. -/
theorem encoder_variants_agree_witness :
    ∃ efin all,
      compress_loop (configure 12 1)
          (enc_start (configure 12 1) (initial_state (fun _ => 0) (fun _ => 0) (fun _ => 0)) 65)
          ([65] ++ [65, 65]) = some (efin, all) ∧
      (lzwg_loop (1 <<< 12)
          { dict := [], prefix_string_code := 65, lzw_code_cnt := START_LZW_CODE,
            bit_count := 9, code_max := 512 } ([65] ++ [65, 65])).2 = all := by
  obtain ⟨_, _, efin, all, _, _, _, _, h1, h2, _⟩ :=
    encoder_variants_agree 12 (by decide) (fun _ => 0) (fun _ => 0) (fun _ => 0)
      65 [65] [65, 65] (by decide)
  exact ⟨efin, all, h1, h2⟩

/-- The chain walk that returns has found the string of the code. -/
theorem get_string_code_string (s : State) :
    ∀ (fuel code : Nat) (acc : List Nat) (k : Nat) (st : List Nat),
      get_string s fuel code acc = some (k, st) →
      ∃ stk, st = stk ++ acc ∧ code_string s fuel code = some (pfputc k :: stk)
  | 0, _, _, _, _, h => Option.noConfusion h
  | fuel + 1, code, acc, k, st, h => by
    simp only [get_string] at h
    simp only [code_string]
    split at h
    · rename_i hgt
      obtain ⟨stk, h1, h2⟩ := get_string_code_string s fuel _ _ k st h
      rw [if_pos hgt, h2]
      exact ⟨stk ++ [s.character code], by rw [h1]; simp, rfl⟩
    · rename_i hle
      rw [if_neg hle]
      simp only [Option.some.injEq, Prod.mk.injEq] at h
      obtain ⟨rfl, rfl⟩ := h
      exact ⟨[], rfl, rfl⟩

/-- Being in step looks at the decoder's arrays only at the indices from 257 up to the
counter. -/
theorem SyncTop_tables {cfg : Config} {e d : State} {dd de : List (Nat × Nat)}
    (h : SyncTop cfg e d dd de) (d' : State)
    (hag : ∀ k, START_LZW_CODE ≤ k → k < d.lzw_code_cnt →
      d'.prefix_tab k = d.prefix_tab k ∧ d'.character k = d.character k) :
    SyncTop cfg e { d with prefix_tab := d'.prefix_tab, character := d'.character } dd de where
  enc := h.enc
  dec := fun i p c hi => by
    have hlt : i < dd.length := (List.getElem?_eq_some.mp hi).1
    have hdl := h.dlen
    have hk := hag (START_LZW_CODE + i) (by omega) (by omega)
    have hd := h.dec i p c hi
    exact ⟨hk.1.trans hd.1, hk.2.trans hd.2⟩
  rel := h.rel
  dlen := h.dlen
  cnt := h.cnt
  bits := h.bits
  cmax := h.cmax
  old_ne := h.old_ne
  old_lt := h.old_lt

/-- The chain walk of the turn for the next code reads the arrays only at the indices from
257 up to the counter. -/
theorem walk_local {cfg : Config} {e d : State} {dd de : List (Nat × Nat)}
    (h : SyncTop cfg e d dd de) (d' : State)
    (hag : ∀ k, START_LZW_CODE ≤ k → k < d.lzw_code_cnt →
      d'.prefix_tab k = d.prefix_tab k ∧ d'.character k = d.character k) :
    get_string d' cfg.code_MAX
        (if e.prefix_string_code ≥ d.lzw_code_cnt then d.old_lzw_code
          else e.prefix_string_code) []
      = get_string d cfg.code_MAX
        (if e.prefix_string_code ≥ d.lzw_code_cnt then d.old_lzw_code
          else e.prefix_string_code) [] := by
  obtain ⟨lit, stack, hg, hout, hlit, _⟩ := dec_string_step h
  obtain ⟨lit2, stack2, hg2, hout2, hlit2, _⟩ := dec_string_step (SyncTop_tables h d' hag)
  have hg3 := hg2
  rw [get_string_irrel d' { d with prefix_tab := d'.prefix_tab, character := d'.character }
    rfl rfl] at hg3
  have heq := hout.trans hout2.symm
  simp only [pfputc, Nat.mod_eq_of_lt hlit, Nat.mod_eq_of_lt hlit2, List.cons_append,
    List.cons.injEq] at heq
  obtain ⟨h1, h2⟩ := heq
  have h3 : stack = stack2 := by
    split at h2
    · rw [← h1] at h2; exact List.append_cancel_right h2
    · simpa using h2
  rw [hg, hg3, h1, h3]

theorem get_nbits_nil {w : Nat} (hw : 0 < w) : get_nbits w [] = (EOF_LZW_CODE, []) := by
  unfold get_nbits
  rw [if_pos (by simpa using hw)]

/-- The decoder on the codes that the compressor has written so far, the stream ending
there, stops in the state in which it is in step with the compressor. -/
theorem cut_run {cfg : Config} {e0 e d : State} {first1 : Bool} {dd de : List (Nat × Nat)}
    {pre : List Nat} {evs : List EncEvent} (mem : State)
    (hsim : Sim cfg true e0 (dec_start mem) [] pre first1 e d dd de evs) :
    ∃ dcut out devs, decompress_LZW cfg mem (put_codes (emitted evs)) = some (dcut, out, devs) ∧
      dcut.prefix_tab = d.prefix_tab ∧ dcut.character = d.character ∧
      dcut.lzw_code_cnt = d.lzw_code_cnt ∧ dcut.bit_count = d.bit_count ∧
      (first1 = false → dcut.old_lzw_code = d.old_lzw_code) := by
  obtain ⟨k, out, devs, hk, hrun, _, _, _⟩ := hsim.run
  have h1 := hrun ((put_codes (emitted evs)).length + 1 - k) []
  rw [List.append_nil, show (put_codes (emitted evs)).length + 1 - k + k
    = (put_codes (emitted evs)).length + 1 by omega] at h1
  obtain ⟨f, hf⟩ : ∃ f, (put_codes (emitted evs)).length + 1 - k = f + 1 :=
    ⟨(put_codes (emitted evs)).length - k, by omega⟩
  rw [hf] at h1
  have hstart : dec_start mem = { mem with lzw_code_cnt := START_LZW_CODE } := rfl
  rw [decompress_LZW_eq, ← hstart, h1]
  cases first1 with
  | false =>
    have hs : SyncTop cfg e d dd de := by simpa [Sync] using hsim.sync
    have h9 := hs.enc.bits_ge
    have hget : (get_nbits d.bit_count []).1 = EOF_LZW_CODE := by
      rw [get_nbits_nil (by rw [hs.bits]; omega)]
    rw [dec_run_false, decompress_loop_eof cfg f d [] hget]
    exact ⟨_, _, _, rfl, rfl, rfl, rfl, rfl, fun _ => rfl⟩
  | true =>
    have hs : SyncFirst cfg e d := by
      have := hsim.sync
      simp only [Sync, if_true] at this
      exact this.1
    have hget : get_nbits d.bit_count [] = (EOF_LZW_CODE, []) :=
      get_nbits_nil (by rw [hs.dbits]; decide)
    rw [dec_run_first, hget, dec_run_false]
    have hget2 : (get_nbits ({ d with old_lzw_code := EOF_LZW_CODE } : State).bit_count []).1
        = EOF_LZW_CODE := by
      show (get_nbits d.bit_count []).1 = _
      rw [hget]
    rw [decompress_loop_eof cfg f _ [] hget2]
    exact ⟨_, _, _, rfl, rfl, rfl, rfl, rfl, fun h => Bool.noConfusion h⟩

theorem search_probe_zero (cfg : Config) (s : State) (p c d : Nat) :
    ∀ (fuel h : Nat) (r : Nat × State), search_probe cfg s p c d fuel h = some r →
      r.1 = 0 → r.2 = s
  | 0, _, _, h, _ => Option.noConfusion h
  | fuel + 1, h, r, hr, h0 => by
    simp only [search_probe] at hr
    split at hr
    · cases hr; rfl
    · split at hr
      · cases hr; exact absurd (show (1 : Nat) = 0 from h0) (by decide)
      · exact search_probe_zero cfg s p c d fuel _ r hr h0

/-- A search that fails leaves the globals as they were. -/
theorem search_string_zero {cfg : Config} {s : State} {p c : Nat} {r : Nat × State}
    (h : search_string cfg s p c = some r) (h0 : r.1 = 0) : r.2 = s := by
  unfold search_string at h
  simp only at h
  split at h
  · exact Option.noConfusion h
  · exact search_probe_zero cfg s p c _ _ _ r h h0

/-- A turn of the compression loop that writes anything writes the current code first, at
the current width. -/
theorem compress_step_events {cfg : Config} {e e1 : State} {x : Nat} {evs1 : List EncEvent}
    (h : compress_step cfg e x = some (e1, evs1)) (hne : evs1 ≠ []) :
    ∃ rest, evs1 = EncEvent.output_code e.prefix_string_code e.bit_count :: rest := by
  unfold compress_step at h
  cases hs : search_string cfg e e.prefix_string_code x with
  | none => rw [hs] at h; exact Option.noConfusion h
  | some r =>
    obtain ⟨found, s1⟩ := r
    rw [hs] at h
    simp only at h
    by_cases hf : found ≠ 0
    · rw [if_pos hf] at h
      simp only [Option.some.injEq, Prod.mk.injEq] at h
      exact absurd h.2.symm hne
    · rw [if_neg hf] at h
      have hf0 : found = 0 := by omega
      have hs1 : s1 = e := search_string_zero hs hf0
      subst hs1
      cases hi : enc_insert cfg s1 x with
      | none => rw [hi] at h; exact Option.noConfusion h
      | some r2 =>
        obtain ⟨s2, ev2⟩ := r2
        rw [hi] at h
        simp only [Option.some.injEq, Prod.mk.injEq] at h
        exact ⟨_, h.2.symm⟩

/-- The reset test of the decoder writes bytes only when it resets. -/
theorem dec_reset_out (cfg : Config) (s : State) (bits : List Bool) :
    (dec_reset cfg s bits).2.2.1 = [] ∨ DecEvent.reset ∈ (dec_reset cfg s bits).2.2.2 := by
  unfold dec_reset
  split
  · split
    · right; exact List.mem_cons_self _ _
    · left; rfl
  · split
    · split <;> exact Or.inl rfl
    · exact Or.inl rfl

/-- The compressor after a part of its input and on the whole input, and the decoder on
the whole stream: when the code that the compressor holds after the part is the next code
that it writes, the decoder reads that code, at the compressor's width, in the state in
which it is in step with the compressor. -/
theorem prefix_link {cfg : Config} (hv : cfg.Valid)
    (hr : cfg.reset_dict = 1 ∨ cfg.reset_dict = 0) (a b c a1 b1 c1 : Nat → Nat)
    {c0 : Nat} {pre more : List Nat} (hb : ∀ y ∈ c0 :: (pre ++ more), y < 256) :
    ∃ e evs first1 d dd de efin evs2 dfin out devs,
      compress_loop cfg (enc_start cfg (initial_state a b c) c0) pre = some (e, evs) ∧
      Sim cfg true (enc_start cfg (initial_state a b c) c0) (dec_start (initial_state a1 b1 c1))
        [] pre first1 e d dd de evs ∧
      compress_LZW cfg (initial_state a b c) (c0 :: (pre ++ more)) = some (efin, evs ++ evs2) ∧
      (more = [] →
        evs2.head? = some (EncEvent.output_code e.prefix_string_code e.bit_count)) ∧
      (∀ x rest e1 evs1, more = x :: rest → compress_step cfg e x = some (e1, evs1) →
        evs1 ≠ [] →
        evs2.head? = some (EncEvent.output_code e.prefix_string_code e.bit_count)) ∧
      decompress_LZW cfg (initial_state a1 b1 c1)
        (flush_put_buffer (put_codes (emitted (evs ++ evs2)))) = some (dfin, out, devs) ∧
      (evs2.head? = some (EncEvent.output_code e.prefix_string_code e.bit_count) →
        ∃ devs1 devs2,
          devs = devs1 ++
            DecEvent.get_code e.prefix_string_code e.bit_count d.lzw_code_cnt :: devs2 ∧
          dec_skel devs1 = enc_skel evs) := by
  have hbpre : ∀ y ∈ c0 :: pre, y < 256 := by
    intro y hy
    rcases List.mem_cons.mp hy with h | h
    · exact hb y (by rw [h]; exact List.mem_cons_self _ _)
    · exact hb y (List.mem_cons_of_mem _ (List.mem_append_left _ h))
  obtain ⟨e, evs, first1, d, dd, de, _, hpre, hsim⟩ := codec_master hv hr a b c a1 b1 c1 hbpre
  obtain ⟨efin, evsF, _, _, _, _, hcompF, hloopF, _⟩ := codec_master hv hr a b c a1 b1 c1 hb
  obtain ⟨efin2, evsF2, dfin, out, devsA, devsB, hcomp2, hdec, _⟩ :=
    codec_total hv hr a b c a1 b1 c1 hb
  rw [hcompF] at hcomp2
  simp only [Option.some.injEq, Prod.mk.injEq] at hcomp2
  obtain ⟨he2, hev2⟩ := hcomp2
  subst he2
  have hevF : evsF2 = evsF := (List.append_cancel_right hev2).symm
  subst hevF
  -- the encoder is sound after the part
  have hokE : ∃ dict, EncOK cfg e dict := by
    have hs := hsim.sync
    cases first1 with
    | false => exact ⟨de, (by simpa [Sync] using hs : SyncTop cfg e d dd de).enc⟩
    | true =>
      simp only [Sync, if_true] at hs
      exact ⟨[], hs.1.enc⟩
  obtain ⟨dict, hok⟩ := hokE
  obtain ⟨e', evsM, _, hloopM, _, _⟩ := compress_loop_facts hv more e dict hok
    (fun y hy => hb y (List.mem_cons_of_mem _ (List.mem_append_right _ hy)))
  have happ := compress_loop_append cfg pre more _ _ _ _ _ hpre hloopM
  rw [hloopF] at happ
  simp only [Option.some.injEq, Prod.mk.injEq] at happ
  obtain ⟨he', hevs⟩ := happ
  subst he'
  have hall : evsF2 ++ final_codes efin = evs ++ (evsM ++ final_codes efin) := by
    rw [hevs, List.append_assoc]
  rw [hall] at hcompF hdec
  refine ⟨e, evs, first1, d, dd, de, efin, evsM ++ final_codes efin, dfin, out,
    devsA ++ devsB, hpre, hsim, hcompF, ?_, ?_, hdec, ?_⟩
  · intro hm
    subst hm
    simp only [compress_loop, Option.some.injEq, Prod.mk.injEq] at hloopM
    obtain ⟨h1, h2⟩ := hloopM
    subst h1
    subst h2
    rfl
  · intro x rest e1 evs1 hm hstep hne
    subst hm
    simp only [compress_loop, hstep] at hloopM
    obtain ⟨tl, htl⟩ := compress_step_events hstep hne
    cases hl : compress_loop cfg e1 rest with
    | none => rw [hl] at hloopM; exact Option.noConfusion hloopM
    | some r2 =>
      rw [hl] at hloopM
      simp only [Option.some.injEq, Prod.mk.injEq] at hloopM
      rw [← hloopM.2, htl]
      rfl
  · intro hhead
    obtain ⟨evs2t, hevs2⟩ : ∃ t, evsM ++ final_codes efin
        = EncEvent.output_code e.prefix_string_code e.bit_count :: t := by
      cases hc : evsM ++ final_codes efin with
      | nil => rw [hc] at hhead; exact Option.noConfusion hhead
      | cons x t =>
        rw [hc] at hhead
        simp only [List.head?_cons, Option.some.injEq] at hhead
        exact ⟨t, by rw [hhead]⟩
    rw [hevs2] at hdec
    obtain ⟨k, out0, devs0, hk, hrun, _, hskel, _⟩ := hsim.run
    have hstream : flush_put_buffer (put_codes (emitted (evs ++
          EncEvent.output_code e.prefix_string_code e.bit_count :: evs2t)))
        = put_codes (emitted evs) ++ (put_nbits e.prefix_string_code e.bit_count ++
            (put_codes (emitted evs2t) ++ List.replicate
              ((8 - (put_codes (emitted (evs ++
                EncEvent.output_code e.prefix_string_code e.bit_count :: evs2t))).length % 8) % 8)
              false)) := by
      unfold flush_put_buffer
      rw [emitted_append, put_codes_append]
      simp only [emitted, put_codes, List.append_assoc]
    generalize hpad : List.replicate ((8 - (put_codes (emitted (evs ++
      EncEvent.output_code e.prefix_string_code e.bit_count :: evs2t))).length % 8) % 8) false
      = pad at hstream
    rw [hstream] at hdec
    generalize htail : put_codes (emitted evs2t) ++ pad = tail at hdec
    have hstart : dec_start (initial_state a1 b1 c1)
        = { initial_state a1 b1 c1 with lzw_code_cnt := START_LZW_CODE } := rfl
    rw [decompress_LZW_eq, ← hstart] at hdec
    obtain ⟨f, hf⟩ : ∃ f, (put_codes (emitted evs) ++
        (put_nbits e.prefix_string_code e.bit_count ++ tail)).length + 1 = (f + 1) + k :=
      ⟨(put_codes (emitted evs) ++
        (put_nbits e.prefix_string_code e.bit_count ++ tail)).length - k, by
          rw [List.length_append] at *; omega⟩
    rw [hf, hrun] at hdec
    obtain ⟨r1, hr1, hres⟩ := prepend_eq_some hdec
    cases first1 with
    | false =>
      have hs : SyncTop cfg e d dd de := by simpa [Sync] using hsim.sync
      obtain ⟨lit, _, _, hturn⟩ := top_loop_eq hs
      rw [dec_run_false, hturn] at hr1
      obtain ⟨r2, _, hres2⟩ := prepend_eq_some hr1
      refine ⟨devs0, (if d.lzw_code_cnt < cfg.code_MAX then
        [DecEvent.insert d.lzw_code_cnt d.old_lzw_code lit] else []) ++ r2.2.2, ?_, hskel⟩
      have h3 : devsA ++ devsB = devs0 ++ r1.2.2 := by
        have := congrArg (fun x => x.2.2) hres
        exact this
      rw [h3, hres2]
      rfl
    | true =>
      have hs : SyncFirst cfg e d := by
        have := hsim.sync
        simp only [Sync, if_true] at this
        exact this.1
      have hget : get_nbits d.bit_count (put_nbits e.prefix_string_code e.bit_count ++ tail)
          = (e.prefix_string_code, tail) := by
        rw [hs.dbits, hs.ebits]
        exact get_nbits_put_nbits (lt_trans hs.epsc (by norm_num)) tail
      rw [dec_run_first, hget] at hr1
      obtain ⟨r2, _, hres2⟩ := prepend_eq_some hr1
      refine ⟨devs0, r2.2.2, ?_, hskel⟩
      have h3 : devsA ++ devsB = devs0 ++ r1.2.2 := by
        have := congrArg (fun x => x.2.2) hres
        exact this
      rw [h3, hres2, hs.dbits, hs.ebits]
      rfl

theorem get_string_literal (s : State) (room k : Nat) (acc : List Nat) (hk : k ≤ EOF_LZW_CODE) :
    get_string s (room + 1) k acc = some (k, acc) := by
  simp only [get_string]
  rw [if_neg (by omega)]

/-- What holds of the state in which the decoder stops on the codes written so far: it
reads the compressor's current code at the compressor's width, that code is at most the
counter, the chain walk for it looks at the arrays from 257 up to the counter only, and,
when the code is below the counter, the walk yields the string of the code. -/
theorem cut_facts {cfg : Config} (hv : cfg.Valid) {e0 e d : State} {first1 : Bool}
    {dd de : List (Nat × Nat)} {pre : List Nat} {evs : List EncEvent} (mem : State)
    (hsim : Sim cfg true e0 (dec_start mem) [] pre first1 e d dd de evs) :
    ∃ dcut outc devsc,
      decompress_LZW cfg mem (put_codes (emitted evs)) = some (dcut, outc, devsc) ∧
      dcut.lzw_code_cnt = d.lzw_code_cnt ∧
      (∀ tail, get_nbits dcut.bit_count (put_nbits e.prefix_string_code e.bit_count ++ tail)
        = (e.prefix_string_code, tail)) ∧
      e.prefix_string_code ≠ EOF_LZW_CODE ∧
      e.prefix_string_code ≤ dcut.lzw_code_cnt ∧
      START_LZW_CODE ≤ dcut.lzw_code_cnt ∧
      (∀ d' : State, (∀ k, START_LZW_CODE ≤ k → k < dcut.lzw_code_cnt →
          d'.prefix_tab k = dcut.prefix_tab k ∧ d'.character k = dcut.character k) →
        get_string d' cfg.code_MAX
            (if e.prefix_string_code ≥ dcut.lzw_code_cnt then dcut.old_lzw_code
              else e.prefix_string_code) []
          = get_string dcut cfg.code_MAX
            (if e.prefix_string_code ≥ dcut.lzw_code_cnt then dcut.old_lzw_code
              else e.prefix_string_code) []) ∧
      (e.prefix_string_code < dcut.lzw_code_cnt →
        ∃ lit stk, get_string dcut cfg.code_MAX e.prefix_string_code [] = some (lit, stk) ∧
          lit < 256 ∧
          code_string dcut cfg.code_MAX e.prefix_string_code = some (lit :: stk) ∧
          lit :: stk = dstr de e.prefix_string_code) := by
  obtain ⟨dcut, outc, devsc, hcut, ht1, ht2, hcnt, hbits, hold⟩ := cut_run mem hsim
  have hM := code_MAX_ge hv
  obtain ⟨M, hMeq⟩ : ∃ M, cfg.code_MAX = M + 1 := ⟨cfg.code_MAX - 1, by omega⟩
  refine ⟨dcut, outc, devsc, hcut, hcnt, ?_⟩
  cases first1 with
  | false =>
    have hs : SyncTop cfg e d dd de := by simpa [Sync] using hsim.sync
    have hold' := hold rfl
    have hlen := hs.enc.len
    have hpsc := hs.enc.psc_lt
    have hdlen := hs.dlen
    have hle : e.prefix_string_code ≤ d.lzw_code_cnt := by
      rcases hs.cnt with ⟨_, h⟩ | ⟨_, h, _⟩ <;> omega
    refine ⟨fun tail => ?_, hs.enc.psc_ne, by rw [hcnt]; exact hle, ?_, ?_, ?_⟩
    · rw [hbits, hs.bits]
      exact get_nbits_put_nbits hs.enc.psc_lt_pow tail
    · rw [hcnt]
      simp only [START_LZW_CODE] at hdlen ⊢
      omega
    · intro d' hag
      rw [hcnt, hold', get_string_irrel d dcut ht1 ht2]
      apply walk_local hs d'
      intro k hk1 hk2
      have := hag k hk1 (by rw [hcnt]; exact hk2)
      rw [ht1, ht2] at this
      exact this
    · intro hlt
      rw [hcnt] at hlt
      obtain ⟨lit, stack, hg, hout, hlit, _⟩ := dec_string_step hs
      rw [if_neg (by omega)] at hg hout
      rw [List.append_nil] at hout
      simp only [pfputc, Nat.mod_eq_of_lt hlit] at hout
      have hg2 : get_string dcut cfg.code_MAX e.prefix_string_code [] = some (lit, stack) := by
        rw [get_string_irrel d dcut ht1 ht2]; exact hg
      obtain ⟨stk, h1, h2⟩ := get_string_code_string dcut _ _ _ _ _ hg2
      rw [List.append_nil] at h1
      subst h1
      simp only [pfputc, Nat.mod_eq_of_lt hlit] at h2
      exact ⟨lit, stack, hg2, hlit, h2, hout⟩
  | true =>
    have hs0 := hsim.sync
    simp only [Sync, if_true] at hs0
    obtain ⟨hs, _, hde⟩ := hs0
    have hp := hs.epsc
    have hdc := hs.dcnt
    simp only [START_LZW_CODE] at hdc
    have hnp : ¬ e.prefix_string_code ≥ dcut.lzw_code_cnt := by rw [hcnt, hdc]; omega
    refine ⟨fun tail => ?_, by simp only [EOF_LZW_CODE]; omega, by rw [hcnt, hdc]; omega,
      by rw [hcnt, hdc]; decide, ?_, ?_⟩
    · rw [hbits, hs.dbits, hs.ebits]
      exact get_nbits_put_nbits (lt_trans hp (by norm_num)) tail
    · intro d' _
      rw [if_neg hnp, hMeq, get_string_literal _ _ _ _ (by simp only [EOF_LZW_CODE]; omega),
        get_string_literal _ _ _ _ (by simp only [EOF_LZW_CODE]; omega)]
    · intro _
      refine ⟨e.prefix_string_code, [], ?_, hp, ?_, ?_⟩
      · rw [hMeq]
        exact get_string_literal _ _ _ _ (by simp only [EOF_LZW_CODE]; omega)
      · rw [hMeq]
        simp only [code_string]
        rw [if_neg (by simp only [EOF_LZW_CODE]; omega)]
        simp only [pfputc, Nat.mod_eq_of_lt hp]
      · rw [hde]; rfl

/-- C21: the decoder writes the string of each code that is not pending. For
`code_max_bits` in 12..28 and both reset policies, let the compressor have read the bytes
`c0 :: pre`, so that it holds the code `k = prefix_string_code` and has written the codes
of `evs`. `decompress_LZW` on those codes, the stream ending there, stops in a state `dcut`
in which it reads `k` back, at the compressor's width, from every stream that goes on with
`k`. When `k` is below the counter of `dcut` (the code is not pending): the string of `k`
in the arrays of `dcut` (a byte for a code below 256, the string of `prefix[k]` followed
by `character[k]` above 256) is defined; the chain walk from `k` returns it, the value
left in `lzwcode` being its first byte, a byte below 256; it is the string that the
compressor holds, the end of the bytes read so far; the turn of the loop on `k` writes
exactly this string, followed by the first byte of the next epoch only when the turn
resets; and a first code of an epoch, read outside the loop, is written as this string as
well. -/
theorem decoded_string (N r : Nat) (hN : 12 ≤ N ∧ N ≤ 28) (hr : r = 0 ∨ r = 1)
    (a b c a1 b1 c1 : Nat → Nat) (c0 : Nat) (pre : List Nat)
    (hb : ∀ y ∈ c0 :: pre, y < 256) :
    ∃ e evs dcut outc devsc,
      compress_loop (configure N r) (enc_start (configure N r) (initial_state a b c) c0) pre
        = some (e, evs) ∧
      decompress_LZW (configure N r) (initial_state a1 b1 c1) (put_codes (emitted evs))
        = some (dcut, outc, devsc) ∧
      (∀ tail, get_nbits dcut.bit_count (put_nbits e.prefix_string_code e.bit_count ++ tail)
        = (e.prefix_string_code, tail)) ∧
      (e.prefix_string_code < dcut.lzw_code_cnt →
        ∃ lit stk,
          code_string dcut (configure N r).code_MAX e.prefix_string_code = some (lit :: stk) ∧
          get_string dcut (configure N r).code_MAX e.prefix_string_code [] = some (lit, stk) ∧
          lit < 256 ∧
          (lit :: stk) <:+ (c0 :: pre) ∧
          (∀ tail, ∃ res after,
            dec_body (configure N r) { dcut with new_lzw_code := e.prefix_string_code } tail
              = some res ∧
            res.2.2.1 = lit :: stk ++ after ∧
            (DecEvent.reset ∉ res.2.2.2 → after = [])) ∧
          (e.prefix_string_code < 256 → ∀ tail,
            (dec_first dcut (put_nbits e.prefix_string_code e.bit_count ++ tail)).2.2.1
              = lit :: stk)) := by
  have hv := configure_valid N r hN.1 hN.2
  obtain ⟨e, evs, first1, d, dd, de, _, hpre, hsim⟩ :=
    codec_master hv (Or.symm hr) a b c a1 b1 c1 hb
  obtain ⟨dcut, outc, devsc, hcut, _, hget, _, _, _, _, hstr⟩ :=
    cut_facts hv (initial_state a1 b1 c1) hsim
  refine ⟨e, evs, dcut, outc, devsc, hpre, hcut, hget, fun hlt => ?_⟩
  obtain ⟨lit, stk, hg, hlit, hcs, hds⟩ := hstr hlt
  obtain ⟨_, out0, _, _, _, hout, _, _⟩ := hsim.run
  refine ⟨lit, stk, hcs, hg, hlit, ?_, ?_, ?_⟩
  · refine ⟨out0, ?_⟩
    rw [hds, ← hout]
    rfl
  · intro tail
    have hg2 : get_string dcut (configure N r).code_MAX
        (if e.prefix_string_code ≥ dcut.lzw_code_cnt then dcut.old_lzw_code
          else e.prefix_string_code) [] = some (lit, stk) := by
      rw [if_neg (by omega)]; exact hg
    have hbody := dec_body_eq (configure N r) dcut e.prefix_string_code tail hg2
    rw [if_neg (by omega), List.append_nil] at hbody
    refine ⟨_, (dec_reset (configure N r)
      (dec_mid (configure N r) dcut e.prefix_string_code lit) tail).2.2.1, hbody, ?_, ?_⟩
    · show (pfputc lit :: stk) ++ _ = _
      simp only [pfputc, Nat.mod_eq_of_lt hlit, List.cons_append]
    · intro hno
      rcases dec_reset_out (configure N r)
        (dec_mid (configure N r) dcut e.prefix_string_code lit) tail with h | h
      · exact h
      · exact absurd (List.mem_append_right _ h) hno
  · intro h256 tail
    show [pfputc (get_nbits dcut.bit_count
      (put_nbits e.prefix_string_code e.bit_count ++ tail)).1] = _
    rw [hget tail]
    have hM := code_MAX_ge hv
    obtain ⟨M, hMeq⟩ : ∃ M, (configure N r).code_MAX = M + 1 :=
      ⟨(configure N r).code_MAX - 1, by omega⟩
    rw [hMeq, get_string_literal _ _ _ _ (by simp only [EOF_LZW_CODE]; omega)] at hg
    simp only [Option.some.injEq, Prod.mk.injEq] at hg
    rw [← hg.1, ← hg.2]
    simp only [pfputc, Nat.mod_eq_of_lt h256]

/-- C21 witness: the input ABAB with twelve-bit codes and resets on; the compressor holds
the code 257 while the decoder's counter stands at 258. -/
theorem decoded_string_witness :
    ∃ e evs dcut outc devsc,
      compress_loop (configure 12 1)
          (enc_start (configure 12 1) (initial_state (fun _ => 0) (fun _ => 0) (fun _ => 0)) 65)
          [66, 65, 66] = some (e, evs) ∧
      decompress_LZW (configure 12 1) (initial_state (fun _ => 0) (fun _ => 0) (fun _ => 0))
          (put_codes (emitted evs)) = some (dcut, outc, devsc) ∧
      (∀ tail, get_nbits dcut.bit_count (put_nbits e.prefix_string_code e.bit_count ++ tail)
        = (e.prefix_string_code, tail)) ∧
      (e.prefix_string_code < dcut.lzw_code_cnt →
        ∃ lit stk,
          code_string dcut (configure 12 1).code_MAX e.prefix_string_code = some (lit :: stk) ∧
          get_string dcut (configure 12 1).code_MAX e.prefix_string_code [] = some (lit, stk) ∧
          lit < 256 ∧
          (lit :: stk) <:+ (65 :: [66, 65, 66]) ∧
          (∀ tail, ∃ res after,
            dec_body (configure 12 1) { dcut with new_lzw_code := e.prefix_string_code } tail
              = some res ∧
            res.2.2.1 = lit :: stk ++ after ∧
            (DecEvent.reset ∉ res.2.2.2 → after = [])) ∧
          (e.prefix_string_code < 256 → ∀ tail,
            (dec_first dcut (put_nbits e.prefix_string_code e.bit_count ++ tail)).2.2.1
              = lit :: stk)) :=
  decoded_string 12 1 (by decide) (Or.inr rfl) (fun _ => 0) (fun _ => 0) (fun _ => 0)
    (fun _ => 0) (fun _ => 0) (fun _ => 0) 65 [66, 65, 66] (by decide)

/-- C25: a code is never above the counter of the decoder that reads it. For
`code_max_bits` in 12..28 and both reset policies, let the compressor have read the bytes
`c0 :: pre` of the input `c0 :: (pre ++ more)`, so that it holds the code
`k = prefix_string_code` and has written the codes of `evs`; `k` is the next code that it
writes when the input ends there and when the next byte makes its turn write. Then
`decompress_LZW` on the codes of `evs`, the stream ending there, stops in a state `dcut`
with `k <= lzw_code_cnt` (and `k` is not the end code, the counter is at least 257);
the chain walk of the turn that reads `k` (from `k`, or from the previous code when
`k = lzw_code_cnt`) has the same result on every state whose arrays agree with those of
`dcut` at the indices from 257 up to the counter, the indices stored since the counter
was last set to 257; and `decompress_LZW` on the whole stream returns with a trace in
which, after the reads and resets that match the compressor's trace `evs`, the code `k`
is read at the compressor's width while `lzw_code_cnt` has the value it has in `dcut`. -/
theorem codes_at_most_counter (N r : Nat) (hN : 12 ≤ N ∧ N ≤ 28) (hr : r = 0 ∨ r = 1)
    (a b c a1 b1 c1 : Nat → Nat) (c0 : Nat) (pre more : List Nat)
    (hb : ∀ y ∈ c0 :: (pre ++ more), y < 256) :
    ∃ e evs efin evs2 dcut outc devsc dfin out devs,
      compress_loop (configure N r) (enc_start (configure N r) (initial_state a b c) c0) pre
        = some (e, evs) ∧
      compress_LZW (configure N r) (initial_state a b c) (c0 :: (pre ++ more))
        = some (efin, evs ++ evs2) ∧
      (more = [] →
        evs2.head? = some (EncEvent.output_code e.prefix_string_code e.bit_count)) ∧
      (∀ x rest e1 evs1, more = x :: rest →
        compress_step (configure N r) e x = some (e1, evs1) → evs1 ≠ [] →
        evs2.head? = some (EncEvent.output_code e.prefix_string_code e.bit_count)) ∧
      decompress_LZW (configure N r) (initial_state a1 b1 c1) (put_codes (emitted evs))
        = some (dcut, outc, devsc) ∧
      e.prefix_string_code ≠ EOF_LZW_CODE ∧
      e.prefix_string_code ≤ dcut.lzw_code_cnt ∧
      START_LZW_CODE ≤ dcut.lzw_code_cnt ∧
      (∀ d' : State, (∀ k, START_LZW_CODE ≤ k → k < dcut.lzw_code_cnt →
          d'.prefix_tab k = dcut.prefix_tab k ∧ d'.character k = dcut.character k) →
        get_string d' (configure N r).code_MAX
            (if e.prefix_string_code ≥ dcut.lzw_code_cnt then dcut.old_lzw_code
              else e.prefix_string_code) []
          = get_string dcut (configure N r).code_MAX
            (if e.prefix_string_code ≥ dcut.lzw_code_cnt then dcut.old_lzw_code
              else e.prefix_string_code) []) ∧
      decompress_LZW (configure N r) (initial_state a1 b1 c1)
        (flush_put_buffer (put_codes (emitted (evs ++ evs2)))) = some (dfin, out, devs) ∧
      (evs2.head? = some (EncEvent.output_code e.prefix_string_code e.bit_count) →
        ∃ devs1 devs2,
          devs = devs1 ++
            DecEvent.get_code e.prefix_string_code e.bit_count dcut.lzw_code_cnt :: devs2 ∧
          dec_skel devs1 = enc_skel evs) := by
  have hv := configure_valid N r hN.1 hN.2
  obtain ⟨e, evs, first1, d, dd, de, efin, evs2, dfin, out, devs, hpre, hsim, hcomp, hend,
    hmiss, hdec, hlink⟩ := prefix_link hv (Or.symm hr) a b c a1 b1 c1 hb
  obtain ⟨dcut, outc, devsc, hcut, hcnt, _, hne, hle, hge, hloc, _⟩ :=
    cut_facts hv (initial_state a1 b1 c1) hsim
  refine ⟨e, evs, efin, evs2, dcut, outc, devsc, dfin, out, devs, hpre, hcomp, hend, hmiss,
    hcut, hne, hle, hge, hloc, hdec, ?_⟩
  rw [hcnt]
  exact hlink

/-- C25 witness: the input AAAA with twelve-bit codes and resets on, after its first three
bytes, where the compressor holds the pending code 257. -/
theorem codes_at_most_counter_witness :
    ∃ e evs dcut outc devsc,
      compress_loop (configure 12 1)
          (enc_start (configure 12 1) (initial_state (fun _ => 0) (fun _ => 0) (fun _ => 0)) 65)
          [65, 65] = some (e, evs) ∧
      decompress_LZW (configure 12 1) (initial_state (fun _ => 0) (fun _ => 0) (fun _ => 0))
          (put_codes (emitted evs)) = some (dcut, outc, devsc) ∧
      e.prefix_string_code ≠ EOF_LZW_CODE ∧
      e.prefix_string_code ≤ dcut.lzw_code_cnt := by
  obtain ⟨e, evs, _, _, dcut, outc, devsc, _, _, _, h1, _, _, _, h2, h3, h4, _⟩ :=
    codes_at_most_counter 12 1 (by decide) (Or.inr rfl) (fun _ => 0) (fun _ => 0) (fun _ => 0)
      (fun _ => 0) (fun _ => 0) (fun _ => 0) 65 [65, 65] [65] (by decide)
  exact ⟨e, evs, dcut, outc, devsc, h1, h2, h3, h4⟩

/-- The bits of the whole stream, with the length of the zero padding below eight. -/
theorem flush_put_codes_lt (evs : List EncEvent) (e : State) :
    ∃ j, j < 8 ∧ flush_put_buffer (put_codes (emitted (evs ++ final_codes e)))
      = put_codes (emitted evs) ++ (put_nbits e.prefix_string_code e.bit_count ++
          (put_nbits EOF_LZW_CODE e.bit_count ++ List.replicate j false)) := by
  refine ⟨(8 - (put_codes (emitted (evs ++ final_codes e))).length % 8) % 8,
    Nat.mod_lt _ (by decide), ?_⟩
  unfold flush_put_buffer
  rw [emitted_append, put_codes_append]
  simp only [final_codes, emitted, put_codes, List.append_nil, List.append_assoc]

/-- A run of the decoder's loop that returns starts its trace with the read of a code at
the width and the counter of the state it starts in. -/
theorem loop_first_event {cfg : Config} {fuel : Nat} {d : State} {bits : List Bool}
    {r : State × List Nat × List DecEvent}
    (h : decompress_loop cfg fuel d bits = some r) :
    ∃ rest, r.2.2
      = DecEvent.get_code (get_nbits d.bit_count bits).1 d.bit_count d.lzw_code_cnt :: rest := by
  cases fuel with
  | zero => exact Option.noConfusion h
  | succ fuel =>
    rcases decompress_loop_cases h with ⟨hv, hr⟩ | ⟨_, lit, stack, r1, _, _, hr⟩
    · rw [hr, hv]; exact ⟨[], rfl⟩
    · rw [hr]; exact ⟨_, rfl⟩

/-- A whole run when the compressor's counter stands at `CODE_MAX + 4096` at the end of the
input, with the number of zero bits that the decoder finds after the nine bits it takes
from the end code: the rest of the end code, written with `code_max_bits` bits, and a
padding of less than eight bits. -/
theorem codec_reset_due_tail {cfg : Config} (hv : cfg.Valid)
    (hr : cfg.reset_dict = 1 ∨ cfg.reset_dict = 0) (a b c a1 b1 c1 : Nat → Nat)
    {c0 : Nat} {rest : List Nat} (hS : ∀ x ∈ c0 :: rest, x < 256)
    {e1 : State} {evs : List EncEvent}
    (hloop : compress_loop cfg (enc_start cfg (initial_state a b c) c0) rest = some (e1, evs))
    (hb : cfg.reset_dict = 1 ∧ e1.lzw_code_cnt = cfg.code_MAX + 4096) :
    ∃ fuel j d1 devs n1, decompress_LZW cfg (initial_state a1 b1 c1)
        (flush_put_buffer (put_codes (emitted (evs ++ final_codes e1))))
        = prepend ((c0 :: rest) ++ [0])
            (devs ++ [DecEvent.get_code e1.prefix_string_code e1.bit_count n1,
              DecEvent.reset, DecEvent.get_code EOF_LZW_CODE 9 START_LZW_CODE])
            (dec_run cfg fuel false d1 (List.replicate (cfg.code_max_bits - 9 + j) false)) ∧
      j < 8 ∧ cfg.code_max_bits - 9 + j < fuel ∧
      d1.bit_count = 9 ∧ d1.lzw_code_cnt = START_LZW_CODE ∧
      d1.old_lzw_code = EOF_LZW_CODE ∧ e1.bit_count = cfg.code_max_bits ∧
      e1.prefix_string_code ≠ EOF_LZW_CODE ∧ dec_skel devs = enc_skel evs := by
  obtain ⟨e1', evs', first1, d1, dd1, de1, _, hloop', hsim⟩ :=
    codec_master hv hr a b c a1 b1 c1 hS
  rw [hloop] at hloop'
  obtain ⟨rfl, rfl⟩ : e1 = e1' ∧ evs = evs' := by
    have := Option.some.inj hloop'
    exact ⟨congrArg Prod.fst this, congrArg Prod.snd this⟩
  obtain ⟨j, hj, hflush⟩ := flush_put_codes_lt evs e1
  have hM := code_MAX_ge hv
  have hstr0 : dstr [] (enc_start cfg (initial_state a b c) c0).prefix_string_code = [c0] := rfl
  cases first1 with
  | true =>
    obtain ⟨h1, _, _⟩ : SyncFirst cfg e1 d1 ∧ dd1 = [] ∧ de1 = [] := hsim.sync
    have := h1.ecnt
    simp only [START_LZW_CODE] at this
    omega
  | false =>
    have h1 : SyncTop cfg e1 d1 dd1 de1 := hsim.sync
    have hbits : e1.bit_count = cfg.code_max_bits := by
      apply pow_eq_code_MAX hv _ h1.enc.bits_le
      have h2 := h1.enc.cnt_cm
      rw [h1.enc.cm, hb.2] at h2
      have h3 : min (cfg.code_MAX + 4096) cfg.code_MAX = cfg.code_MAX := by omega
      rw [h3] at h2
      exact h2
    obtain ⟨fuel, out, devs, hfuel, hdec, hout, hskel, hins⟩ :=
      decompress_split hsim (initial_state a1 b1 c1) rfl j h1.enc.bits_ge
    rw [hstr0] at hout
    obtain ⟨d2, hfin, hd2b, hd2c, hd2o⟩ := final_top_reset h1 hb (fuel + 1) j
    refine ⟨fuel + 1, j, d2, devs, d1.lzw_code_cnt, ?_, hj, ?_, hd2b, hd2c, hd2o, hbits,
      h1.enc.psc_ne, hskel⟩
    · have hout2 : out ++ dstr de1 e1.prefix_string_code = c0 :: rest := hout.symm
      rw [hflush, hdec, hfin, prepend_prepend, ← List.append_assoc, hout2, hbits]
    · have := h1.enc.bits_ge
      rw [hbits] at hfuel this
      omega

/-- An input in which no pair of neighbours occurs twice fills the dictionary byte by
byte, under both reset policies, as long as the counter has not reached `CODE_MAX`. -/
theorem literal_fill {cfg : Config} (hv : cfg.Valid) :
    ∀ (rest : List Nat) (e : State) (de : List (Nat × Nat)), EncOK cfg e de →
      (∀ b ∈ rest, b < 256) →
      (digrams (e.prefix_string_code :: rest)).Nodup →
      (∀ q ∈ digrams (e.prefix_string_code :: rest), q ∉ de) →
      e.lzw_code_cnt + rest.length ≤ cfg.code_MAX →
      ∃ e1 evs de1, compress_loop cfg e rest = some (e1, evs) ∧ EncOK cfg e1 de1 ∧
        e1.lzw_code_cnt = e.lzw_code_cnt + rest.length ∧
        (e.prefix_string_code :: rest).getLast? = some e1.prefix_string_code ∧
        (∀ q ∈ de1, q ∈ de ∨ q ∈ digrams (e.prefix_string_code :: rest))
  | [], e, de, H, _, _, _, _ => ⟨e, [], de, rfl, H, rfl, rfl, fun q hq => Or.inl hq⟩
  | c :: rest, e, de, H, hb, hnd, hnin, hcnt => by
    have hc : c < 256 := hb c (List.mem_cons_self _ _)
    rw [digrams_cons_cons] at hnd hnin
    have hpc : (e.prefix_string_code, c) ∉ de := hnin _ (List.mem_cons_self _ _)
    obtain ⟨e1, de1, evs1, hstep, hok1, hpsc1, hcase⟩ := compress_step_miss hv H hc hpc
    have hlen : (c :: rest).length = rest.length + 1 := rfl
    rw [hlen] at hcnt
    have hA : e1.lzw_code_cnt = e.lzw_code_cnt + 1 ∧ de1 = de ++ [(e.prefix_string_code, c)] := by
      rcases hcase with ⟨_, h1, _, h2, _⟩ | ⟨hB, _⟩ | ⟨_, hC, _⟩
      · exact ⟨h1, h2⟩
      · omega
      · omega
    obtain ⟨e2, evs2, de2, hloop2, hok2, hcnt2, hlast2, hde2⟩ :=
      literal_fill hv rest e1 de1 hok1 (fun b hb' => hb b (List.mem_cons_of_mem _ hb'))
        (by rw [hpsc1]; exact (List.nodup_cons.mp hnd).2)
        (by
          rw [hpsc1]
          intro q hq hqde
          rw [hA.2] at hqde
          rcases List.mem_append.mp hqde with h | h
          · exact hnin q (List.mem_cons_of_mem _ hq) h
          · rw [List.mem_singleton.mp h] at hq
            exact (List.nodup_cons.mp hnd).1 hq)
        (by rw [hA.1]; omega)
    refine ⟨e2, evs1 ++ evs2, de2, ?_, hok2, by rw [hcnt2, hA.1, hlen]; omega, ?_, ?_⟩
    · simp only [compress_loop, hstep, hloop2]
    · rw [hpsc1] at hlast2
      rw [List.getLast?_cons_cons]
      exact hlast2
    · intro q hq
      rw [hpsc1] at hde2
      rw [digrams_cons_cons]
      rcases hde2 q hq with h | h
      · rw [hA.2] at h
        rcases List.mem_append.mp h with h' | h'
        · exact Or.inl h'
        · exact Or.inr (by rw [List.mem_singleton.mp h']; exact List.mem_cons_self _ _)
      · exact Or.inr (List.mem_cons_of_mem _ h)

/-- The loop of the compressor on the first 3840 bytes of the input without a repeated
pair of neighbours, with twelve-bit codes and no resets: the dictionary is full, the
counter stands at `CODE_MAX = 4096`, and the next byte of that input makes the loop write
the code it holds and nothing else. -/
theorem stride_fill :
    ∃ e evs e1,
      compress_loop (configure 12 0) (enc_start (configure 12 0) mem0 (stride_byte 0))
        ((List.range 3839).map (fun i => stride_byte (i + 1))) = some (e, evs) ∧
      e.lzw_code_cnt = (configure 12 0).code_MAX ∧
      compress_step (configure 12 0) e (stride_byte 3840)
        = some (e1, [EncEvent.output_code e.prefix_string_code e.bit_count]) := by
  have hv := configure_valid 12 0 (by decide) (by decide)
  have hok : EncOK (configure 12 0) (enc_start (configure 12 0) mem0 (stride_byte 0)) [] :=
    EncOK_fresh hv (Or.inr rfl) mem0 (stride_byte_lt 0)
  have hnd := stride_digrams_nodup 3839 (by decide)
  rw [stride_input_succ] at hnd
  have hM : (configure 12 0).code_MAX = 4096 := rfl
  obtain ⟨e, evs, de, hloop, hok1, hcnt, hlast, hde⟩ :=
    literal_fill hv ((List.range 3839).map (fun i => stride_byte (i + 1))) _ [] hok
      (by
        intro b hb
        obtain ⟨i, _, rfl⟩ := List.mem_map.mp hb
        exact stride_byte_lt _)
      hnd (fun q _ => List.not_mem_nil q)
      (by
        have h1 : (enc_start (configure 12 0) mem0 (stride_byte 0)).lzw_code_cnt = 257 := rfl
        rw [h1, hM, List.length_map, List.length_range])
  have hcnt2 : e.lzw_code_cnt = 4096 := by
    rw [hcnt, List.length_map, List.length_range]
    rfl
  have hlast : (stride_byte 0 :: (List.range 3839).map (fun i => stride_byte (i + 1))).getLast?
      = some e.prefix_string_code := hlast
  have hde : ∀ q ∈ de, q ∈ ([] : List (Nat × Nat)) ∨
      q ∈ digrams (stride_byte 0 :: (List.range 3839).map (fun i => stride_byte (i + 1))) := hde
  have hpsc : e.prefix_string_code = stride_byte 3839 := by
    rw [← stride_input_succ, stride_input_snoc, List.getLast?_append,
      List.getLast?_singleton] at hlast
    exact (Option.some.inj hlast).symm
  have hnin : (e.prefix_string_code, stride_byte 3840) ∉ de := by
    intro h
    rcases hde _ h with h2 | h2
    · exact absurd h2 (List.not_mem_nil _)
    · rw [← stride_input_succ] at h2
      unfold stride_input at h2
      rw [digrams_map_range, hpsc] at h2
      obtain ⟨i, hi, heq⟩ := List.mem_map.mp h2
      have hi2 := List.mem_range.mp hi
      have e1 := check_index_spec 7936 check_index_7936 i (by omega)
      have e2 := check_index_spec 7936 check_index_7936 3839 (by omega)
      rw [heq, e2] at e1
      omega
  obtain ⟨e1, de1, evs1, hstep, _, _, hcase⟩ :=
    compress_step_miss hv hok1 (stride_byte_lt 3840) hnin
  refine ⟨e, evs, e1, hloop, by rw [hcnt2, hM], ?_⟩
  rcases hcase with ⟨h1, _⟩ | ⟨_, _, _, _, _, h1⟩ | ⟨h1, _⟩
  · rw [hM, hcnt2] at h1; omega
  · rw [hstep, h1]
  · exact absurd (show (0 : Nat) = 1 from h1) (by decide)

/-- Without resets, once the compressor's counter stands at `CODE_MAX` and a further turn
of its loop has written a code, the decoder reads the next code while its own counter
stands at `CODE_MAX`, and it reads on after that code. -/
theorem read_at_full {cfg : Config} (hv : cfg.Valid) (hr0 : cfg.reset_dict = 0)
    (a b c a1 b1 c1 : Nat → Nat) {c0 : Nat} {pre : List Nat} {x : Nat}
    (hb : ∀ y ∈ c0 :: (pre ++ [x]), y < 256) {e e1 : State} {evs : List EncEvent}
    (hpre : compress_loop cfg (enc_start cfg (initial_state a b c) c0) pre = some (e, evs))
    (hfull : e.lzw_code_cnt = cfg.code_MAX)
    (hstep : compress_step cfg e x
      = some (e1, [EncEvent.output_code e.prefix_string_code e.bit_count])) :
    ∃ dfin out devs1 devs2,
      decompress_LZW cfg (initial_state a1 b1 c1)
        (flush_put_buffer (put_codes (emitted
          (evs ++ [EncEvent.output_code e.prefix_string_code e.bit_count] ++ final_codes e1))))
        = some (dfin, out,
            devs1 ++ DecEvent.get_code e1.prefix_string_code e1.bit_count cfg.code_MAX
              :: devs2) ∧
      devs2 ≠ [] := by
  have hM := code_MAX_ge hv
  have hloop1 : compress_loop cfg e [x]
      = some (e1, [EncEvent.output_code e.prefix_string_code e.bit_count]) := by
    simp only [compress_loop, hstep, List.append_nil]
  have hloop2 := compress_loop_append cfg pre [x] _ _ _ _ _ hpre hloop1
  have hb2 : ∀ y ∈ c0 :: ((pre ++ [x]) ++ []), y < 256 := by
    rw [List.append_nil]; exact hb
  have hbpre : ∀ y ∈ c0 :: pre, y < 256 := by
    intro y hy
    rcases List.mem_cons.mp hy with h | h
    · exact hb y (by rw [h]; exact List.mem_cons_self _ _)
    · exact hb y (List.mem_cons_of_mem _ (List.mem_append_left _ h))
  -- the whole run, cut after the byte `x`
  obtain ⟨e', evs', first2, d2, dd2, de2, efin, evs2, dfin, out, devs, hpre', hsim2, hcomp,
    hend, _, hdec, hlink⟩ := prefix_link hv (Or.inr hr0) a b c a1 b1 c1 hb2
  rw [hloop2] at hpre'
  obtain ⟨rfl, rfl⟩ : e1 = e' ∧ evs ++ [EncEvent.output_code e.prefix_string_code e.bit_count]
      = evs' := by
    have := Option.some.inj hpre'
    exact ⟨congrArg Prod.fst this, congrArg Prod.snd this⟩
  have hcomp2 : compress_LZW cfg (initial_state a b c) (c0 :: ((pre ++ [x]) ++ []))
      = some (e1, (evs ++ [EncEvent.output_code e.prefix_string_code e.bit_count])
          ++ final_codes e1) := by
    rw [List.append_nil, compress_LZW_cons, hloop2]
    rfl
  rw [hcomp2] at hcomp
  obtain ⟨rfl, hevs2⟩ : e1 = efin ∧ final_codes e1 = evs2 := by
    have := Option.some.inj hcomp
    exact ⟨congrArg Prod.fst this, List.append_cancel_left (congrArg Prod.snd this)⟩
  subst hevs2
  obtain ⟨devs1, devs2, hdevs, _⟩ := hlink (hend rfl)
  -- the decoder's counter when it reads the code held after `x`
  obtain ⟨dcut, outc, devsc, hcut, _, _, hcutcnt, _, _⟩ :=
    cut_run (initial_state a1 b1 c1) hsim2
  obtain ⟨e'', evs'', first1, d1, dd1, de1, _, hpre'', hsim1⟩ :=
    codec_master hv (Or.inr hr0) a b c a1 b1 c1 hbpre
  rw [hpre] at hpre''
  obtain ⟨rfl, rfl⟩ : e = e'' ∧ evs = evs'' := by
    have := Option.some.inj hpre''
    exact ⟨congrArg Prod.fst this, congrArg Prod.snd this⟩
  have hcnt2 : d2.lzw_code_cnt = cfg.code_MAX := by
    cases first1 with
    | true =>
      obtain ⟨h1, _, _⟩ : SyncFirst cfg e d1 ∧ dd1 = [] ∧ de1 = [] := hsim1.sync
      have := h1.ecnt
      simp only [START_LZW_CODE] at this
      omega
    | false =>
      have hs1 : SyncTop cfg e d1 dd1 de1 := hsim1.sync
      obtain ⟨k, out0, devs0, hk, hrun, _, _, _⟩ := hsim1.run
      obtain ⟨lit, _, _, hturn⟩ := top_loop_eq hs1
      have h9 := hs1.enc.bits_ge
      have hstream : put_codes (emitted
          (evs ++ [EncEvent.output_code e.prefix_string_code e.bit_count]))
          = put_codes (emitted evs) ++ (put_nbits e.prefix_string_code e.bit_count ++ []) := by
        rw [emitted_append, put_codes_append]
        simp only [emitted, put_codes]
      have hstart : dec_start (initial_state a1 b1 c1)
          = { initial_state a1 b1 c1 with lzw_code_cnt := START_LZW_CODE } := rfl
      rw [hstream, decompress_LZW_eq, ← hstart] at hcut
      obtain ⟨f, hf⟩ : ∃ f, (put_codes (emitted evs) ++
          (put_nbits e.prefix_string_code e.bit_count ++ [])).length + 1 = (f + 2) + k :=
        ⟨(put_codes (emitted evs)).length + e.bit_count - 1 - k, by
          rw [List.length_append, List.length_append, put_nbits_length, List.length_nil]
          omega⟩
      have hnoreset : ¬ (cfg.reset_dict = 1 ∧
          (dec_mid cfg d1 e.prefix_string_code lit).lzw_code_cnt + 1 = cfg.code_MAX + 4096) :=
        fun h => by rw [hr0] at h; exact absurd h.1 (by decide)
      have hmb : 9 ≤ (dec_mid cfg d1 e.prefix_string_code lit).bit_count := by
        have := dec_mid_bit_count_ge cfg d1 e.prefix_string_code lit
        have := hs1.bits
        omega
      have heof : (get_nbits ({ dec_mid cfg d1 e.prefix_string_code lit with
          lzw_code_cnt := dec_next_cnt cfg
            (dec_mid cfg d1 e.prefix_string_code lit).lzw_code_cnt } : State).bit_count
          []).1 = EOF_LZW_CODE := by
        show (get_nbits (dec_mid cfg d1 e.prefix_string_code lit).bit_count []).1 = _
        rw [get_nbits_nil (by omega)]
      rw [hf, hrun, dec_run_false, hturn (f + 1) [], dec_cont_next (f + 1) _ _ hnoreset,
        dec_run_false, decompress_loop_eof cfg f _ _ heof] at hcut
      simp only [prepend, Option.map_some', Option.some.injEq, Prod.mk.injEq] at hcut
      have h1 := hcut.1
      rw [← hcutcnt, ← h1]
      show dec_next_cnt cfg (dec_mid cfg d1 e.prefix_string_code lit).lzw_code_cnt = _
      rw [dec_mid_cnt]
      unfold dec_next_cnt
      rw [if_neg (by rw [hr0]; decide), if_pos hr0]
      rcases hs1.cnt with ⟨h, _⟩ | ⟨_, h2, h3⟩
      · rw [hr0] at h; exact absurd h (by decide)
      · split <;> omega
  rw [hcnt2] at hdevs
  rw [hdevs] at hdec
  refine ⟨dfin, out, devs1, devs2, hdec, ?_⟩
  -- the end code is read after that code
  intro hnil
  obtain ⟨ex, evsx, _, hloopx, hstepx⟩ := codec_in_step hv (Or.inr hr0) a b c a1 b1 c1 hb
  rw [hloop2] at hloopx
  obtain ⟨rfl, rfl⟩ : e1 = ex ∧ evs ++ [EncEvent.output_code e.prefix_string_code e.bit_count]
      = evsx := by
    have := Option.some.inj hloopx
    exact ⟨congrArg Prod.fst this, congrArg Prod.snd this⟩
  obtain ⟨dfx, devsX, w1, n1, hdecX, _, _, _⟩ :=
    hstepx (fun h => by rw [hr0] at h; exact absurd h.1 (by decide))
  rw [hdec] at hdecX
  have htr : devs1 ++ DecEvent.get_code e1.prefix_string_code e1.bit_count cfg.code_MAX
        :: devs2 = devsX ++ [DecEvent.get_code EOF_LZW_CODE w1 n1] := by
    have := Option.some.inj hdecX
    exact congrArg (fun r => r.2.2) this
  rw [hnil] at htr
  have hl0 := (List.append_inj' htr rfl).2
  simp only [List.cons.injEq, DecEvent.get_code.injEq, and_true] at hl0
  have hl : e1.prefix_string_code = EOF_LZW_CODE := hl0.1
  have hpsc : e1.prefix_string_code ≠ EOF_LZW_CODE := by
    have hs := hsim2.sync
    cases first2 with
    | false => exact (by simpa [Sync] using hs : SyncTop cfg e1 d2 dd2 de2).enc.psc_ne
    | true =>
      simp only [Sync, if_true] at hs
      exact hs.1.enc.psc_ne
  exact hpsc hl

/-- C11: the no-reset policy. With `reset_dict = 0`, `code_max_bits` in 12..28 and an
input `c0 :: (pre ++ more)`: the loop of `compress_LZW` returns after `pre` and after
`more`; if `lzw_code_cnt = CODE_MAX` after `pre`, then over `more` the loop only writes
codes, all with the `bit_count` it had (no entry, no reset), and ends with
`lzw_code_cnt = CODE_MAX` and the same `bit_count`. `decompress_LZW` returns the input,
and after a code that it reads while its `lzw_code_cnt = CODE_MAX` every later event of
its trace is a code read with the same `bit_count` while `lzw_code_cnt = CODE_MAX`. -/
theorem no_reset_policy (N : Nat) (hN : 12 ≤ N ∧ N ≤ 28) (a b c a1 b1 c1 : Nat → Nat)
    (c0 : Nat) (pre more : List Nat) (hb : ∀ y ∈ c0 :: (pre ++ more), y < 256) :
    ∃ e evs0 e2 evs2 d devs,
      compress_loop (configure N 0) (enc_start (configure N 0) (initial_state a b c) c0) pre
        = some (e, evs0) ∧
      compress_loop (configure N 0) e more = some (e2, evs2) ∧
      compress_LZW (configure N 0) (initial_state a b c) (c0 :: (pre ++ more))
        = some (e2, evs0 ++ evs2 ++ final_codes e2) ∧
      (e.lzw_code_cnt = (configure N 0).code_MAX →
        e2.lzw_code_cnt = (configure N 0).code_MAX ∧ e2.bit_count = e.bit_count ∧
        ∀ ev ∈ evs2, ∃ x, ev = EncEvent.output_code x e.bit_count) ∧
      decompress_LZW (configure N 0) (initial_state a1 b1 c1)
        (flush_put_buffer (put_codes (emitted (evs0 ++ evs2 ++ final_codes e2))))
        = some (d, c0 :: (pre ++ more), devs) ∧
      (∀ p v w n post, devs = p ++ DecEvent.get_code v w n :: post →
        n = (configure N 0).code_MAX →
        ∀ ev ∈ post, ∃ v1, ev = DecEvent.get_code v1 w (configure N 0).code_MAX) := by
  have hv := configure_valid N 0 hN.1 hN.2
  have hM := code_MAX_ge hv
  have hok0 : EncOK (configure N 0) (enc_start (configure N 0) (initial_state a b c) c0) [] :=
    EncOK_fresh hv (Or.inr rfl) (initial_state a b c) (hb c0 (List.mem_cons_self _ _))
  obtain ⟨e, evs0, dict, hloop1, hok1, _⟩ := compress_loop_facts hv pre _ [] hok0
    (fun y hy => hb y (List.mem_cons_of_mem _ (List.mem_append_left _ hy)))
  obtain ⟨e2, evs2, dict2, hloop2, _, hf2⟩ := compress_loop_facts hv more e dict hok1
    (fun y hy => hb y (List.mem_cons_of_mem _ (List.mem_append_right _ hy)))
  have hall := compress_loop_append _ _ _ _ _ _ _ _ hloop1 hloop2
  obtain ⟨e1, evs, _, hloop, hstep⟩ :=
    codec_in_step hv (Or.inr rfl) a b c a1 b1 c1 hb
  rw [hall] at hloop
  obtain ⟨rfl, rfl⟩ : e2 = e1 ∧ evs0 ++ evs2 = evs := by
    have := Option.some.inj hloop
    exact ⟨congrArg Prod.fst this, congrArg Prod.snd this⟩
  obtain ⟨dfin, devs, w1, n1, hdec, _, _, _⟩ :=
    hstep (fun h => absurd (show (0 : Nat) = 1 from h.1) (by decide))
  refine ⟨e, evs0, e2, evs2, dfin, _, hloop1, hloop2, ?_, hf2.frozen rfl, hdec, ?_⟩
  · rw [compress_LZW_cons, hall]
    rfl
  · have hfr := decompress_LZW_frozen (rfl : (configure N 0).reset_dict = 0)
      (by simp only [START_LZW_CODE]; omega) hdec
    intro p v w n post hsplit hn
    exact frozen_after_split _ p v w n post hfr hsplit hn

/-- C11 witness: twelve-bit codes, no resets, the first 3841 bytes of the input without a
repeated pair of neighbours, cut after 3840 bytes. There the compressor's counter stands at
`CODE_MAX = 4096`; the loop then writes a code for the last byte and leaves the counter
and the width as they were. The decoder reads a code while its counter stands at 4096, and
all that follows in its trace, which is not empty, are reads at the same width with the
counter at 4096. -/
theorem no_reset_policy_witness :
    ∃ e evs0 e2 evs2 d devs p v w post,
      compress_loop (configure 12 0) (enc_start (configure 12 0) mem0 (stride_byte 0))
        ((List.range 3839).map (fun i => stride_byte (i + 1))) = some (e, evs0) ∧
      e.lzw_code_cnt = (configure 12 0).code_MAX ∧
      compress_loop (configure 12 0) e [stride_byte 3840] = some (e2, evs2) ∧
      evs2 ≠ [] ∧
      e2.lzw_code_cnt = (configure 12 0).code_MAX ∧ e2.bit_count = e.bit_count ∧
      (∀ ev ∈ evs2, ∃ x, ev = EncEvent.output_code x e.bit_count) ∧
      decompress_LZW (configure 12 0) mem0
        (flush_put_buffer (put_codes (emitted (evs0 ++ evs2 ++ final_codes e2))))
        = some (d, stride_byte 0 :: ((List.range 3839).map (fun i => stride_byte (i + 1))
            ++ [stride_byte 3840]), devs) ∧
      devs = p ++ DecEvent.get_code v w (configure 12 0).code_MAX :: post ∧
      post ≠ [] ∧
      ∀ ev ∈ post, ∃ v1, ev = DecEvent.get_code v1 w (configure 12 0).code_MAX := by
  have hv := configure_valid 12 0 (by decide) (by decide)
  have hbw : ∀ y ∈ stride_byte 0 :: ((List.range 3839).map (fun i => stride_byte (i + 1))
      ++ [stride_byte 3840]), y < 256 := by
    intro y hy
    rcases List.mem_cons.mp hy with h | h
    · rw [h]; exact stride_byte_lt _
    · rcases List.mem_append.mp h with h2 | h2
      · obtain ⟨i, _, rfl⟩ := List.mem_map.mp h2
        exact stride_byte_lt _
      · rw [List.mem_singleton.mp h2]; exact stride_byte_lt _
  obtain ⟨e, evs0, e2, evs2, d, devs, h1, h2, _, h4, h5, h6⟩ :=
    no_reset_policy 12 (by decide) (fun _ => 0) (fun _ => 0) (fun _ => 0) (fun _ => 0)
      (fun _ => 0) (fun _ => 0) (stride_byte 0)
      ((List.range 3839).map (fun i => stride_byte (i + 1))) [stride_byte 3840] hbw
  obtain ⟨es, evss, e1s, hs1, hs2, hs3⟩ := stride_fill
  have h1' : compress_loop (configure 12 0) (enc_start (configure 12 0) mem0 (stride_byte 0))
      ((List.range 3839).map (fun i => stride_byte (i + 1))) = some (e, evs0) := h1
  rw [hs1] at h1'
  obtain ⟨rfl, rfl⟩ : es = e ∧ evss = evs0 := by
    have := Option.some.inj h1'
    exact ⟨congrArg Prod.fst this, congrArg Prod.snd this⟩
  have h2' : compress_loop (configure 12 0) es [stride_byte 3840]
      = some (e1s, [EncEvent.output_code es.prefix_string_code es.bit_count]) := by
    simp only [compress_loop, hs3, List.append_nil]
  rw [h2'] at h2
  obtain ⟨rfl, rfl⟩ : e1s = e2 ∧
      [EncEvent.output_code es.prefix_string_code es.bit_count] = evs2 := by
    have := Option.some.inj h2
    exact ⟨congrArg Prod.fst this, congrArg Prod.snd this⟩
  obtain ⟨c1, c2, c3⟩ := h4 hs2
  obtain ⟨dfin, out, devs1, devs2, hdec, hne⟩ :=
    read_at_full hv rfl (fun _ => 0) (fun _ => 0) (fun _ => 0) (fun _ => 0) (fun _ => 0)
      (fun _ => 0) hbw hs1 hs2 hs3
  have h5' : decompress_LZW (configure 12 0) (initial_state (fun _ => 0) (fun _ => 0)
        (fun _ => 0))
      (flush_put_buffer (put_codes (emitted
        (evss ++ [EncEvent.output_code es.prefix_string_code es.bit_count]
          ++ final_codes e1s))))
      = some (d, stride_byte 0 :: ((List.range 3839).map (fun i => stride_byte (i + 1))
          ++ [stride_byte 3840]), devs) := h5
  rw [hdec] at h5'
  have hsplit : devs = devs1 ++ DecEvent.get_code e1s.prefix_string_code e1s.bit_count
      (configure 12 0).code_MAX :: devs2 := by
    have := Option.some.inj h5'
    exact (congrArg (fun r => r.2.2) this).symm
  exact ⟨es, evss, e1s, _, d, devs, devs1, e1s.prefix_string_code, e1s.bit_count, devs2, hs1,
    hs2, h2', List.cons_ne_nil _ _, c1, c2, c3, h5, hsplit, hne,
    h6 devs1 _ _ _ devs2 hsplit rfl⟩

/-- C15: the decoder does not stop at the end code. With `code_max_bits = 12` and
`reset_dict = 1`, on the input of 7936 bytes `stride_input 7936`: `compress_LZW` writes
as its last two codes `prefix_string_code` and the end code 256, both with 12 bits, and
256 is neither the last code before the end code nor a code of the loop. Yet
`decompress_LZW` resets after the last code before the end code, takes nine of the twelve
bits of the end code for the first code of an epoch (the read of lines 464-467, not the
test of lines 416-418), and goes on to read a further code after it. -/
theorem end_code_read_as_first_code :
    ∃ e evs d out devs1 n1 v devs3,
      compress_LZW (configure 12 1) mem0 (stride_input 7936)
        = some (e, evs ++ [EncEvent.output_code e.prefix_string_code e.bit_count,
            EncEvent.output_code EOF_LZW_CODE e.bit_count]) ∧
      e.bit_count = 12 ∧
      e.prefix_string_code ≠ EOF_LZW_CODE ∧
      (∀ q ∈ emitted evs, q.1 ≠ EOF_LZW_CODE) ∧
      decompress_LZW (configure 12 1) mem0
        (flush_put_buffer (put_codes (emitted (evs ++
          [EncEvent.output_code e.prefix_string_code e.bit_count,
           EncEvent.output_code EOF_LZW_CODE e.bit_count]))))
        = some (d, out,
            devs1 ++ [DecEvent.get_code e.prefix_string_code 12 n1, DecEvent.reset,
              DecEvent.get_code EOF_LZW_CODE 9 START_LZW_CODE,
              DecEvent.get_code v 9 START_LZW_CODE] ++ devs3) ∧
      dec_skel devs1 = enc_skel evs := by
  have hv := configure_valid 12 1 (by decide) (by decide)
  obtain ⟨e1, evs, de1, hloop, _, hcnt, _, _, _, _⟩ := stride_literal 7935 (le_refl _)
  have hS : ∀ x ∈ stride_byte 0 :: (List.range 7935).map (fun i => stride_byte (i + 1)),
      x < 256 := by
    rw [← stride_input_succ]; exact stride_input_lt _
  have hok0 : EncOK (configure 12 1) (enc_start (configure 12 1) mem0 (stride_byte 0)) [] :=
    EncOK_fresh hv (Or.inl rfl) mem0 (stride_byte_lt 0)
  obtain ⟨e', evs', _, hloop', _, hf⟩ := compress_loop_facts hv
    ((List.range 7935).map (fun i => stride_byte (i + 1))) _ [] hok0
    (fun y hy => hS y (List.mem_cons_of_mem _ hy))
  rw [hloop] at hloop'
  obtain ⟨rfl, rfl⟩ : e1 = e' ∧ evs = evs' := by
    have := Option.some.inj hloop'
    exact ⟨congrArg Prod.fst this, congrArg Prod.snd this⟩
  obtain ⟨fuel, j, d1, devs, n1, hdec, _, hfuel, hb9, hc, _, hbits, hpsc, hskel⟩ :=
    codec_reset_due_tail hv (Or.inl rfl) (fun _ => 0) (fun _ => 0) (fun _ => 0)
      (fun _ => 0) (fun _ => 0) (fun _ => 0) hS hloop ⟨rfl, by rw [hcnt]; rfl⟩
  have hM := code_MAX_ge hv
  obtain ⟨r, hr2⟩ := zero_tail (configure 12 1) (by omega) fuel _ d1 hfuel (by omega)
    (by omega)
  obtain ⟨rest, hrest⟩ := loop_first_event hr2
  rw [dec_run_false, hr2] at hdec
  have hb12 : e1.bit_count = 12 := hbits
  refine ⟨e1, evs, r.1,
    (stride_byte 0 :: (List.range 7935).map (fun i => stride_byte (i + 1))) ++ [0] ++ r.2.1,
    devs, n1,
    (get_nbits d1.bit_count (List.replicate ((configure 12 1).code_max_bits - 9 + j) false)).1,
    rest, ?_, hb12, hpsc, fun q hq => (hf.codes q hq).1, ?_, hskel⟩
  · rw [stride_input_succ, compress_LZW_cons]
    show (compress_loop (configure 12 1) (enc_start (configure 12 1) mem0 (stride_byte 0))
      ((List.range 7935).map (fun i => stride_byte (i + 1)))).map _ = _
    rw [hloop]
    rfl
  · have hdec' : decompress_LZW (configure 12 1) mem0
        (flush_put_buffer (put_codes (emitted (evs ++ final_codes e1)))) = _ := hdec
    show decompress_LZW (configure 12 1) mem0
      (flush_put_buffer (put_codes (emitted (evs ++ final_codes e1)))) = _
    rw [hdec', hb12]
    simp only [prepend, Option.map_some', hrest, hb9, hc, List.append_assoc,
      List.cons_append, List.nil_append]

end LZW
